import Mathlib

/-!
# Block-streamer reader (format v1) and the double column facade

Shallow embedding of

* `src/fstcore_v1/blockstreamer/blockstreamer_v1.cpp`
  (`fdsReadFixedCompStream_v1`, `fdsReadColumn_v1`),
* `src/fstcore_v1/integer/integer_v2.cpp` (`fdsReadIntVec_v2`),
* `src/fstcore/double/double_v9.cpp` (`fdsWriteRealVec_v9`).

Conventions of the embedding.

* A value of C type `unsigned int` / `unsigned long long` is a `Nat`, reduced
  modulo `2^32` / `2^64` wherever the C expression is.  A value of type `int` is
  an `Int` in `[-2^31, 2^31)`; signed arithmetic is two's complement
  (`i32`).  Since `+`, `-` and `*` commute with reduction modulo `2^32`, a chain
  of such operations is written as one exact integer expression that is reduced
  once; `/` and `%` are applied to reduced operands, as in C.
* The input stream is a file with a byte at every offset, a position and a log
  of the `seekg` / `read` calls made.  A `read` of `n` bytes delivers the `n`
  bytes at the position and advances it; end of file and the stream's failure
  state are not represented.
* Memory written by the reader (the caller's `outVec`, the scratch buffer) is a
  map from the byte index relative to the start of the buffer to the byte.  The
  calls that write to `outVec` are logged with the index of their destination
  and their size argument.
* `Decompress(algo, dst, dstCapacity, src, srcSize)` is a parameter: it maps
  the algorithm id, the capacity and the source bytes to the bytes it writes at
  `dst`.  The sizes `MAX_COMPRESSBOUND` and `MAX_SIZE_COMPRESS_BLOCK` of the
  scratch arrays `compBuf` and `tmpBuf` of `fdsReadColumn_v1`, defined in the
  same headers, are parameters too.  The R list the functions return (a dump
  of local variables) is not represented.
* A division by zero and an access outside `compBuf` or `tmpBuf` have no
  defined behaviour in C++.  The state carries a flag `ub` that is set when the
  run executes one.  A division by zero ends the run there, with no further
  stream call or write; after an access outside a scratch array the other
  fields are those of a run with arrays large enough.  In both cases they say
  nothing about what the program does.  The scratch arrays of
  `fdsReadFixedCompStream_v1` (`repBuf`, `buf`) are sized by constants that
  belong to the rep-size tables, which are parameters; their bounds are not
  represented.
* Overflow of an operation on two `int` values has no defined behaviour in C++
  either; the embedding computes the two's-complement result there and does not
  flag it.  The bounds `elementSize * B < 2^31`, `length * elementSize < 2^31`
  and `10 * (endBlock + 2) < 2^31` keep the byte counts, the output offset and
  the index positions of a variable-ratio read in range, and the runs given as
  counterexamples in the sections C1, C9, C10, C11, C13 and C18 involve no such
  overflow.  A value can
  also leave the `int` range where an `unsigned int` is converted to `int`
  (`blockSize`, `startBlock`, `endBlock`, `nrOfBlocks`): that conversion is
  reduction modulo `2^32`.  A `read` called with a negative count transfers
  nothing.
-/

namespace Fst

/-! ## Machine arithmetic -/

/-- Reduction of a natural number to an `unsigned int`. -/
@[irreducible] def u32 (n : Nat) : Nat := n % 2 ^ 32

/-- Reduction of a natural number to an `unsigned long long`. -/
@[irreducible] def u64 (n : Nat) : Nat := n % 2 ^ 64

/-- Reduction of an integer to an `int` (two's complement). -/
@[irreducible] def i32 (z : Int) : Int := (z + 2 ^ 31) % 2 ^ 32 - 2 ^ 31

/-- Reduction of an integer to an `unsigned int`; on an `int` value this is the
conversion `int → unsigned int`. -/
@[irreducible] def u32OfInt (z : Int) : Nat := (z % 2 ^ 32).toNat

/-- Reduction of an integer to an `unsigned long long`; on an `int` value this
is the sign-extending conversion to `unsigned long long` / `size_t`. -/
@[irreducible] def u64OfInt (z : Int) : Nat := (z % 2 ^ 64).toNat

/-! ## Stream, memory, codec -/

/-- File contents: the byte stored at each absolute offset. -/
abbrev File := Nat → UInt8

/-- A buffer in memory: the byte at each index relative to the buffer start. -/
abbrev Mem := Int → UInt8

/-- Calls made on the input stream. -/
inductive IOEvent where
  | seekg (pos : Nat)
  | read (pos : Nat) (count : Nat)
deriving DecidableEq, Repr

/-- What the reader takes from the compression library (`compression/compression.h`
and `compression/compressor.h`, not among the sources at hand):
`Decompress(algo, dst, dstCapacity, src, srcSize)`, as the bytes it writes at
`dst`, and the sizes of the scratch arrays `char compBuf[MAX_COMPRESSBOUND]` and
`char tmpBuf[MAX_SIZE_COMPRESS_BLOCK]` of `fdsReadColumn_v1`. -/
structure Codec where
  decompress : Nat → Nat → List UInt8 → List UInt8
  MAX_COMPRESSBOUND : Nat
  MAX_SIZE_COMPRESS_BLOCK : Nat

instance : CoeFun Codec (fun _ => Nat → Nat → List UInt8 → List UInt8) := ⟨Codec.decompress⟩

/-- State threaded through a read: stream position, the caller's output buffer
`outVec`, the scratch decode buffer (`tmpBuf`, resp. `buf`), the log of stream
calls, the log of the calls that write to `outVec` (index of the destination in
`outVec` and size argument: the byte count of a `read` or `memcpy`, the
`dstCapacity` of a `Decompress`), and the flag `ub`: the run has executed an
operation without defined behaviour (a division by zero, an access outside
`compBuf` or `tmpBuf`). -/
structure Reader where
  pos : Nat
  out : Mem
  tmp : Mem
  log : List IOEvent
  writes : List (Int × Nat)
  ub : Bool

/-- Failure of `fdsReadColumn_v1`: the only one in the source is the
`new char[n]` of the block index with a negative `int` size. -/
inductive Fault where
  | badArrayNewLength
deriving DecidableEq, Repr

/-- The `n` file bytes starting at `pos`. -/
def readBytes (file : File) (pos n : Nat) : List UInt8 :=
  (List.range n).map fun i => file (pos + i)

/-- Memory after writing the bytes `bs` at index `off`. -/
def store (m : Mem) (off : Int) (bs : List UInt8) : Mem :=
  fun a => if off ≤ a ∧ a < off + bs.length then bs.getD (a - off).toNat 0 else m a

/-- Memory after `memcpy(&dst[dOff], &src[sOff], n)`. -/
def copy (dst : Mem) (dOff : Int) (src : Mem) (sOff : Int) (n : Nat) : Mem :=
  fun a => if dOff ≤ a ∧ a < dOff + n then src (sOff + (a - dOff)) else dst a

/-- Memory after `n` file bytes from `pos` were read to index `off`. -/
def fill (m : Mem) (off : Int) (file : File) (pos n : Nat) : Mem :=
  fun a => if off ≤ a ∧ a < off + n then file (pos + (a - off).toNat) else m a

/-- `myfile.seekg(p)`. -/
def Reader.seekg (s : Reader) (p : Nat) : Reader :=
  { s with pos := p, log := s.log ++ [IOEvent.seekg p] }

/-- `myfile.read(buf, n)` into a local buffer: the bytes and the new state. -/
def Reader.readBuf (file : File) (s : Reader) (n : Nat) : List UInt8 × Reader :=
  (readBytes file s.pos n,
    { s with pos := s.pos + n, log := s.log ++ [IOEvent.read s.pos n] })

/-- `myfile.read(&outVec[off], n)`: a read straight into the output buffer. -/
def Reader.readOut (file : File) (s : Reader) (off : Int) (n : Nat) : Reader :=
  { s with pos := s.pos + n, out := fill s.out off file s.pos n,
           log := s.log ++ [IOEvent.read s.pos n], writes := s.writes ++ [(off, n)] }

/-- The calls `read(compBuf, compSize)` and `Decompress(.., compBuf, compSize)`
access `compBuf[0 .. compSize)`: outside the array when
`MAX_COMPRESSBOUND < compSize`. -/
def compBufOverrun (codec : Codec) (compSize : Nat) : Bool :=
  decide (codec.MAX_COMPRESSBOUND < compSize)

/-- A `Decompress` that wrote `decoded` bytes at `tmpBuf`, followed by
`memcpy(.., &tmpBuf[off], n)`: an access outside the array when more than
`MAX_SIZE_COMPRESS_BLOCK` bytes were written or the bytes `[off, off + n)` do
not lie in it. -/
def tmpBufOverrun (codec : Codec) (decoded : Nat) (off : Int) (n : Nat) : Bool :=
  decide (codec.MAX_SIZE_COMPRESS_BLOCK < decoded ∨ off < 0 ∨
    (codec.MAX_SIZE_COMPRESS_BLOCK : Int) < off + n)

/-- Byte `i` of a local buffer as a number (`0` outside the buffer). -/
def byteAt (bs : List UInt8) (i : Int) : Nat :=
  if 0 ≤ i then (bs.getD i.toNat 0).toNat else 0

/-- Little-endian value of the `n` bytes of `bs` that start at index `i`. -/
def leAt (bs : List UInt8) (i : Int) : Nat → Nat
  | 0 => 0
  | n + 1 => byteAt bs i + 256 * leAt bs (i + 1) n

/-- `*(unsigned long long*) &bs[i]`. -/
def le64 (bs : List UInt8) (i : Int) : Nat := leAt bs i 8

/-- `*(unsigned short*) &bs[i]`. -/
def le16 (bs : List UInt8) (i : Int) : Nat := leAt bs i 2

/-- `*(unsigned int*) &bs[i]`. -/
def le32 (bs : List UInt8) (i : Int) : Nat := leAt bs i 4

def COL_META_SIZE_V1 : Nat := 8

def PREF_BLOCK_SIZE_V1 : Nat := 16384

/-! ## `fdsReadFixedCompStream_v1` -/

/-- The loop `for (block = 0; block < nrOfFullBlocks; ++block)` of
`fdsReadFixedCompStream_v1`; `n` is the number of iterations left and `outP`
the index of `outP` in `outVec`. -/
def fixedFullBlocks (codec : Codec) (file : File) (compAlgo : Nat) (outP : Int)
    (blockSize targetBlockSize : Nat) : Nat → Nat → Reader → Reader
  | 0, _, s => s
  | n + 1, block, s =>
    let (repBuf, s) := s.readBuf file targetBlockSize
    let decoded := codec compAlgo blockSize repBuf
    let s := { s with out := store s.out (outP + u32 (block * blockSize)) decoded,
                      writes := s.writes ++ [(outP + u32 (block * blockSize), blockSize)] }
    fixedFullBlocks codec file compAlgo outP blockSize targetBlockSize n (block + 1) s

/-- The part of `fdsReadFixedCompStream_v1` after the leading partial rep unit
("Process in large blocks"), with the current `startRep` and `outP`. -/
def fixedTail (codec : Codec) (file : File) (s : Reader) (compAlgo repSize targetRepSize : Nat)
    (startRow vecLength elementSize repSizeElement startRep endRep : Nat) (outP : Int) : Reader :=
  let nrOfRepsPerBlock := PREF_BLOCK_SIZE_V1 / repSize
  let nrOfReps := u32OfInt (1 + (endRep : Int) - startRep)
  let nrOfFullBlocks := u32OfInt ((nrOfReps : Int) - 1) / nrOfRepsPerBlock
  let blockSize := u32 (nrOfRepsPerBlock * repSize)
  let targetBlockSize := u32 (nrOfRepsPerBlock * targetRepSize)
  let s := fixedFullBlocks codec file compAlgo outP blockSize targetBlockSize nrOfFullBlocks 0 s
  let remainReps := u32OfInt ((nrOfReps : Int) - nrOfRepsPerBlock * nrOfFullBlocks)
  let lastBlockSize := u32 (remainReps * repSize)
  let lastTargetBlockSize := u32 (remainReps * targetRepSize)
  let (repBuf, s) := s.readBuf file lastTargetBlockSize
  let s :=
    if lastBlockSize ≠ repSize then
      let decoded := codec compAlgo (u32OfInt ((lastBlockSize : Int) - repSize))
        (repBuf.take (u32OfInt ((lastTargetBlockSize : Int) - targetRepSize)))
      let w : Int × Nat :=
        (outP + u32 (nrOfFullBlocks * blockSize), u32OfInt ((lastBlockSize : Int) - repSize))
      { s with out := store s.out (outP + u32 (nrOfFullBlocks * blockSize)) decoded,
               writes := s.writes ++ [w] }
    else s
  let nrOfElemsLastRep := u32OfInt ((startRow : Int) + vecLength - endRep * repSizeElement)
  let buf := store s.tmp 0 (codec compAlgo repSize
    ((repBuf.drop (u32OfInt ((lastTargetBlockSize : Int) - targetRepSize))).take targetRepSize))
  let lastOff := u32OfInt ((nrOfFullBlocks : Int) * blockSize + lastBlockSize - repSize)
  { s with
    tmp := buf,
    out := copy s.out (outP + lastOff) buf 0 (u32 (elementSize * nrOfElemsLastRep)),
    writes := s.writes ++ [(outP + lastOff, u32 (elementSize * nrOfElemsLastRep))] }

/-- `fdsReadFixedCompStream_v1(myfile, outVec, blockPos, meta, startRow,
elementSize, vecLength)`; `meta1` is `meta[1]` and the two tables
`fixedRatioSourceRepSize`, `fixedRatioTargetRepSize` (declared outside the
sources at hand) are parameters. With `elementSize = 0` the division
`repSize / elementSize`, and with `repSizeElement = 0` the division
`startRow / repSizeElement` that follows it, is a division by zero: the run
ends there with `ub` set. -/
def fdsReadFixedCompStream_v1 (codec : Codec)
    (fixedRatioSourceRepSize fixedRatioTargetRepSize : Nat → Nat) (file : File) (s : Reader)
    (blockPos meta1 startRow elementSize vecLength : Nat) : Reader :=
  let compAlgo := meta1
  let repSize := fixedRatioSourceRepSize compAlgo
  let targetRepSize := fixedRatioTargetRepSize compAlgo
  -- `if (repSize < 1) { /* throw exception */ }` has an empty body
  if elementSize = 0 ∨ repSize / elementSize = 0 then { s with ub := true }
  else
    let repSizeElement := repSize / elementSize
    let startRep := startRow / repSizeElement
    let endRep := u32OfInt ((startRow : Int) + vecLength - 1) / repSizeElement
    let s :=
      if 0 < startRep then
        s.seekg (u64 (blockPos + COL_META_SIZE_V1 + u32 (startRep * targetRepSize)))
      else s
    let startRowRep := u32 (startRep * repSizeElement)
    let startOffset := u32OfInt ((startRow : Int) - startRowRep)
    if startOffset ≠ 0 then
      let (repBuf, s) := s.readBuf file targetRepSize
      let buf := store s.tmp 0 (codec compAlgo repSize repBuf)
      if startRep = endRep then
        { s with
          tmp := buf,
          out := copy s.out 0 buf (u32 (elementSize * startOffset)) (u32 (elementSize * vecLength)),
          writes := s.writes ++ [(0, u32 (elementSize * vecLength))] }
      else
        let length : Int := i32 ((repSizeElement : Int) - startOffset)
        let count := u64OfInt (i32 (elementSize * length))
        let s := { s with
          tmp := buf,
          out := copy s.out 0 buf (u32 (elementSize * startOffset)) count,
          writes := s.writes ++ [(0, count)] }
        fixedTail codec file s compAlgo repSize targetRepSize startRow vecLength elementSize
          repSizeElement (u32 (startRep + 1)) endRep (i32 (elementSize * length))
    else
      fixedTail codec file s compAlgo repSize targetRepSize startRow vecLength elementSize
        repSizeElement startRep endRep 0

/-! ## `fdsReadColumn_v1` -/

/-- Loop-carried variables of the middle-block loop of `fdsReadColumn_v1`. -/
structure MidState where
  blockPEnd : Nat
  outOffset : Int
  rd : Reader

/-- One iteration of `for (blockCount = 1; blockCount < maxBlock; ++blockCount)`. -/
def middleBlock (codec : Codec) (file : File) (blockIndex : List UInt8) (blockSize : Int)
    (blockCount : Int) (m : MidState) : MidState :=
  let blockPStart := m.blockPEnd
  let blockPEnd := le64 blockIndex (i32 (10 + 10 * blockCount))
  let compSize := u64OfInt ((blockPEnd : Int) - blockPStart)
  let algo := le16 blockIndex (i32 (8 + 10 * blockCount))
  let rd :=
    if algo = 0 then
      m.rd.readOut file m.outOffset blockSize.toNat
    else
      let (compBuf, rd) := m.rd.readBuf file compSize
      { rd with out := store rd.out m.outOffset (codec algo (u32OfInt blockSize) compBuf),
                writes := rd.writes ++ [(m.outOffset, u32OfInt blockSize)],
                ub := rd.ub || compBufOverrun codec compSize }
  { blockPEnd := blockPEnd, outOffset := i32 (m.outOffset + blockSize), rd := rd }

/-- The middle-block loop; `n` is the number of iterations left. -/
def middleBlocks (codec : Codec) (file : File) (blockIndex : List UInt8) (blockSize : Int) :
    Nat → Int → MidState → MidState
  | 0, _, m => m
  | n + 1, blockCount, m =>
    middleBlocks codec file blockIndex blockSize n (blockCount + 1)
      (middleBlock codec file blockIndex blockSize blockCount m)

/-- `1 + (size + blockSizeElements - 1) % blockSizeElements`, in `unsigned int`. -/
def lastBlockCount (size blockSizeElements : Nat) : Nat :=
  u32 (1 + u32OfInt ((size : Int) + blockSizeElements - 1) % blockSizeElements)

/-- The branch `if (startBlock == endBlock)` of `fdsReadColumn_v1`. -/
def readSingleBlock (codec : Codec) (file : File) (s : Reader)
    (blockPos length size elementSize blockSizeElements : Nat)
    (nrOfBlocks startBlock startOffset : Int) (blockPStart compSize algo : Nat) : Reader :=
  if algo = 0 then
    let s := s.seekg (u64OfInt ((blockPos : Int) + blockPStart + i32 (elementSize * startOffset)))
    s.readOut file 0 (u32 (length * elementSize))
  else
    let curSize :=
      if startBlock = i32 (nrOfBlocks - 1) then lastBlockCount size blockSizeElements
      else blockSizeElements
    let s := s.seekg (u64 (blockPos + blockPStart))
    let (compBuf, s) := s.readBuf file compSize
    if length = curSize then
      { s with out := store s.out 0 (codec algo (u32 (elementSize * length)) compBuf),
               writes := s.writes ++ [(0, u32 (elementSize * length))],
               ub := s.ub || compBufOverrun codec compSize }
    else
      let tmpBuf := store s.tmp 0 (codec algo (u32 (elementSize * curSize)) compBuf)
      let over := tmpBufOverrun codec (codec algo (u32 (elementSize * curSize)) compBuf).length
        (i32 (elementSize * startOffset)) (u32 (elementSize * length))
      { s with
        tmp := tmpBuf,
        out := copy s.out 0 tmpBuf (i32 (elementSize * startOffset)) (u32 (elementSize * length)),
        writes := s.writes ++ [(0, u32 (elementSize * length))],
        ub := s.ub || compBufOverrun codec compSize || over }

/-- The first block of a read that spans at least two blocks. -/
def readFirstBlock (codec : Codec) (file : File) (s : Reader) (blockPos elementSize : Nat)
    (blockSize startOffset subBlockSize : Int) (blockPStart compSize algo : Nat) : Reader :=
  if algo = 0 then
    let s := s.seekg (u64OfInt ((blockPos : Int) + blockPStart + i32 (elementSize * startOffset)))
    s.readOut file 0 (i32 (elementSize * subBlockSize)).toNat
  else
    let s := s.seekg (u64 (blockPos + blockPStart))
    let (compBuf, s) := s.readBuf file compSize
    if startOffset = 0 then
      { s with out := store s.out 0 (codec algo (u32OfInt blockSize) compBuf),
               writes := s.writes ++ [(0, u32OfInt blockSize)],
               ub := s.ub || compBufOverrun codec compSize }
    else
      let tmpBuf := store s.tmp 0 (codec algo (u32OfInt blockSize) compBuf)
      let count := u64OfInt (i32 (elementSize * subBlockSize))
      let over := tmpBufOverrun codec (codec algo (u32OfInt blockSize) compBuf).length
        (i32 (elementSize * startOffset)) count
      { s with
        tmp := tmpBuf,
        out := copy s.out 0 tmpBuf (i32 (elementSize * startOffset)) count,
        writes := s.writes ++ [(0, count)],
        ub := s.ub || compBufOverrun codec compSize || over }

/-- The last block ("Process last block") of a read that spans at least two
blocks and does not end on a block boundary. -/
def readLastBlock (codec : Codec) (file : File) (blockIndex : List UInt8)
    (size elementSize blockSizeElements : Nat) (nrOfBlocks endBlock maxBlock remain : Int)
    (m : MidState) : Reader :=
  let blockPStart := m.blockPEnd
  let blockPEnd := le64 blockIndex (i32 (10 + 10 * maxBlock))
  let compSize := u64OfInt ((blockPEnd : Int) - blockPStart)
  let algo := le16 blockIndex (i32 (8 + 10 * maxBlock))
  if algo = 0 then
    m.rd.readOut file m.outOffset (i32 (elementSize * remain)).toNat
  else
    let (compBuf, s) := m.rd.readBuf file compSize
    let curSize : Int :=
      if endBlock = i32 (nrOfBlocks - 1) then i32 (lastBlockCount size blockSizeElements)
      else i32 blockSizeElements
    if remain = curSize then
      let decoded := codec algo (u32OfInt (curSize * elementSize)) compBuf
      { s with out := store s.out m.outOffset decoded,
               writes := s.writes ++ [(m.outOffset, u32OfInt (curSize * elementSize))],
               ub := s.ub || compBufOverrun codec compSize }
    else
      let tmpBuf := store s.tmp 0 (codec algo (u32OfInt (curSize * elementSize)) compBuf)
      let count := u64OfInt (i32 (elementSize * remain))
      let over := tmpBufOverrun codec
        (codec algo (u32OfInt (curSize * elementSize)) compBuf).length 0 count
      { s with
        tmp := tmpBuf,
        out := copy s.out m.outOffset tmpBuf 0 count,
        writes := s.writes ++ [(m.outOffset, count)],
        ub := s.ub || compBufOverrun codec compSize || over }

/-- The part of `fdsReadColumn_v1` after the first block of a read that spans
at least two blocks: `remain`, the middle-block loop and the last block. -/
def readRest (codec : Codec) (file : File) (s : Reader) (blockIndex : List UInt8)
    (startRow length size elementSize blockSizeElements : Nat)
    (nrOfBlocks startBlock endBlock blockSize subBlockSize : Int) (blockPEnd : Nat) : Reader :=
  let remain : Int := i32 ((u32 (startRow + length) % blockSizeElements : Nat) : Int)
  let endBlock := if remain = 0 then i32 (endBlock + 1) else endBlock
  let maxBlock : Int := i32 (endBlock - startBlock)
  let outOffset : Int := i32 (subBlockSize * elementSize)
  let m := middleBlocks codec file blockIndex blockSize (maxBlock - 1).toNat 1
    { blockPEnd := blockPEnd, outOffset := outOffset, rd := s }
  if remain = 0 then m.rd
  else
    readLastBlock codec file blockIndex size elementSize blockSizeElements
      nrOfBlocks endBlock maxBlock remain m

/-- The part of `fdsReadColumn_v1` after the block index was read into
`blockIndex`: the single-block branch, or first block, middle blocks and last
block. -/
def readBlocks (codec : Codec) (file : File) (s : Reader) (blockIndex : List UInt8)
    (blockPos startRow length size elementSize blockSizeElements : Nat)
    (nrOfBlocks startBlock endBlock startOffset : Int) : Reader :=
  let blockSize : Int := i32 (elementSize * blockSizeElements)
  let blockPStart := le64 blockIndex 0
  let blockPEnd := le64 blockIndex 10
  let compSize := u64OfInt ((blockPEnd : Int) - blockPStart)
  let algo := le16 blockIndex 8
  if startBlock = endBlock then
    readSingleBlock codec file s blockPos length size elementSize blockSizeElements
      nrOfBlocks startBlock startOffset blockPStart compSize algo
  else
    let subBlockSize : Int := i32 ((blockSizeElements : Int) - startOffset)
    let s := readFirstBlock codec file s blockPos elementSize blockSize startOffset subBlockSize
      blockPStart compSize algo
    readRest codec file s blockIndex startRow length size elementSize blockSizeElements
      nrOfBlocks startBlock endBlock blockSize subBlockSize blockPEnd

/-- `int nrOfBlocks = 1 + (size - 1) / blockSizeElements` of `fdsReadColumn_v1`:
the initialiser is evaluated in `unsigned int` and converted to `int`. -/
def nrOfBlocks (size blockSizeElements : Nat) : Int :=
  i32 ((1 + u32OfInt ((size : Int) - 1) / blockSizeElements : Nat) : Int)

/-- The variable-ratio part of `fdsReadColumn_v1` ("Data is compressed"), entered
after the header read with `blockSizeElements = compress[1]`. With
`blockSizeElements = 0` the initialiser of `nrOfBlocks` divides by zero: the
run ends there with `ub` set. -/
def readVariable (codec : Codec) (file : File) (s : Reader)
    (blockPos startRow length size elementSize blockSizeElements : Nat) : Except Fault Reader :=
  if blockSizeElements = 0 then Except.ok { s with ub := true }
  else
  let nrOfBlocks : Int := nrOfBlocks size blockSizeElements
  let startBlock : Int := i32 ((startRow / blockSizeElements : Nat) : Int)
  let endBlock : Int :=
    i32 ((u32OfInt ((startRow : Int) + length - 1) / blockSizeElements : Nat) : Int)
  let startOffset : Int := i32 ((startRow % blockSizeElements : Nat) : Int)
  let s :=
    if 0 < startBlock then
      s.seekg (u64OfInt ((blockPos : Int) + COL_META_SIZE_V1 + i32 (10 * startBlock)))
    else s
  let indexSize : Int := i32 ((2 + endBlock - startBlock) * 10)
  if indexSize < 0 then Except.error Fault.badArrayNewLength
  else
    let (blockIndex, s) := s.readBuf file indexSize.toNat
    Except.ok (readBlocks codec file s blockIndex blockPos startRow length size elementSize
      blockSizeElements nrOfBlocks startBlock endBlock startOffset)

/-- The uncompressed branch of `fdsReadColumn_v1` (`compress[1] == 0`). -/
def readUncompressed (file : File) (s : Reader) (blockPos startRow length elementSize : Nat) :
    Reader :=
  let s :=
    if 0 < startRow then
      s.seekg (u64 (blockPos + u32 (elementSize * startRow) + COL_META_SIZE_V1))
    else s
  s.readOut file 0 (u32 (elementSize * length))

/-- `fdsReadColumn_v1(myfile, outVec, blockPos, startRow, length, size,
elementSize)`. -/
def fdsReadColumn_v1 (codec : Codec)
    (fixedRatioSourceRepSize fixedRatioTargetRepSize : Nat → Nat) (file : File) (s : Reader)
    (blockPos startRow length size elementSize : Nat) : Except Fault Reader :=
  let s := s.seekg blockPos
  let (compress, s) := s.readBuf file COL_META_SIZE_V1
  if le32 compress 0 = 0 then
    if le32 compress 4 = 0 then
      Except.ok (readUncompressed file s blockPos startRow length elementSize)
    else
      Except.ok (fdsReadFixedCompStream_v1 codec fixedRatioSourceRepSize fixedRatioTargetRepSize
        file s blockPos (le32 compress 4) startRow elementSize length)
  else
    readVariable codec file s blockPos startRow length size elementSize (le32 compress 4)

/-- `fdsReadIntVec_v2`: `fdsReadColumn_v1` with `elementSize = 4` on the data of
the integer vector. -/
def fdsReadIntVec_v2 (codec : Codec)
    (fixedRatioSourceRepSize fixedRatioTargetRepSize : Nat → Nat) (file : File) (s : Reader)
    (blockPos startRow length size : Nat) : Except Fault Reader :=
  fdsReadColumn_v1 codec fixedRatioSourceRepSize fixedRatioTargetRepSize file s
    blockPos startRow length size 4

/-! ## `fdsWriteRealVec_v9` -/

/-- The members of `CompAlgo` that `fdsWriteRealVec_v9` names. -/
inductive CompAlgo where
  | LZ4
  | ZSTD
deriving DecidableEq, Repr

/-- `SingleCompressor(algo, compressionLevel)`. -/
structure SingleCompressor where
  algo : CompAlgo
  compressionLevel : Nat
deriving DecidableEq, Repr

/-- The stream compressors `fdsWriteRealVec_v9` builds:
`StreamLinearCompressor(compress1, compressionLevel)` and
`StreamCompositeCompressor(compress1, compress2, mix)`. -/
inductive StreamCompressor where
  | linear (compress1 : SingleCompressor) (compressionLevel : Nat)
  | composite (compress1 compress2 : SingleCompressor) (mix : Nat)
deriving DecidableEq, Repr

/-- The call `fdsWriteRealVec_v9` makes into the block streamer:
`fdsStreamUncompressed_v2(.., elementSize, blockSizeElems, ..)` or
`fdsStreamcompressed_v2(.., elementSize, streamCompressor, blockSizeElems, ..)`
after `streamCompressor->CompressBufferSize(blockSize)`. -/
inductive StreamCall where
  | uncompressed (elementSize blockSizeElems : Nat)
  | compressed (elementSize : Nat) (streamCompressor : StreamCompressor)
      (compressBufferSize : Int) (blockSizeElems : Nat)
deriving DecidableEq, Repr

/-- `fdsWriteRealVec_v9`: the strategy chosen for compression level
`compression`; `BLOCKSIZE_REAL` (declared in `interface/fstdefines.h`, not among
the sources at hand) is a parameter. -/
def fdsWriteRealVec_v9 (BLOCKSIZE_REAL compression : Nat) : StreamCall :=
  let blockSize : Int := i32 (8 * BLOCKSIZE_REAL)
  if compression = 0 then
    StreamCall.uncompressed 8 BLOCKSIZE_REAL
  else if compression ≤ 50 then
    let compress1 : SingleCompressor := ⟨CompAlgo.LZ4, u32 (2 * compression)⟩
    StreamCall.compressed 8 (StreamCompressor.linear compress1 (u32 (2 * compression)))
      blockSize BLOCKSIZE_REAL
  else
    let compress1 : SingleCompressor := ⟨CompAlgo.LZ4, 100⟩
    let compress2 : SingleCompressor := ⟨CompAlgo.ZSTD, 20⟩
    StreamCall.compressed 8
      (StreamCompressor.composite compress1 compress2 (u32OfInt (2 * ((compression : Int) - 50))))
      blockSize BLOCKSIZE_REAL

/-! ## On-disk layout (vocabulary of the statements) -/

/-- Little-endian value of the `n` file bytes that start at offset `p`. -/
def leFile (file : File) (p : Nat) : Nat → Nat
  | 0 => 0
  | n + 1 => (file p).toNat + 256 * leFile file (p + 1) n

/-- First 32-bit header field of the column at `blockPos`. -/
def header0 (file : File) (blockPos : Nat) : Nat := leFile file blockPos 4

/-- Second 32-bit header field of the column at `blockPos`. -/
def header1 (file : File) (blockPos : Nat) : Nat := leFile file (blockPos + 4) 4

/-- Offset field of block-index entry `k` of the column at `blockPos`. -/
def entryOffset (file : File) (blockPos k : Nat) : Nat := leFile file (blockPos + 8 + 10 * k) 8

/-- Algorithm field of block-index entry `k` of the column at `blockPos`. -/
def entryAlgo (file : File) (blockPos k : Nat) : Nat := leFile file (blockPos + 8 + 10 * k + 8) 2

/-- State of the reader once `fdsReadColumn_v1` has read the header. -/
def afterHeader (file : File) (s : Reader) (blockPos : Nat) : Reader :=
  ((s.seekg blockPos).readBuf file COL_META_SIZE_V1).2

/-! ## Concrete inputs -/

/-- Result of a call, seen from the caller: the output buffer afterwards (the
buffer it passed in when the call failed). -/
def outputOf (s : Reader) (r : Except Fault Reader) : Mem :=
  match r with
  | Except.ok r => r.out
  | Except.error _ => s.out

/-- Stream calls logged by a call that returned. -/
def logOf (r : Except Fault Reader) : List IOEvent :=
  match r with
  | Except.ok r => r.log
  | Except.error _ => []

/-- A call came back without a `Fault`. -/
def returned (r : Except Fault Reader) : Bool :=
  match r with
  | Except.ok _ => true
  | Except.error _ => false

/-- The run executed an operation without defined behaviour. -/
def ubOf (r : Except Fault Reader) : Bool :=
  match r with
  | Except.ok r => r.ub
  | Except.error _ => false

/-- Calls that wrote to `outVec`, logged by a call that returned. -/
def writesOf (r : Except Fault Reader) : List (Int × Nat) :=
  match r with
  | Except.ok r => r.writes
  | Except.error _ => []

/-- Initial state: stream at offset 0, buffers zeroed, empty logs. -/
def reader0 : Reader :=
  { pos := 0, out := fun _ => 0, tmp := fun _ => 0, log := [], writes := [], ub := false }

/-- A rep-size table without entries. -/
def noTable : Nat → Nat := fun _ => 0

/-- A codec that stores every block verbatim, with scratch arrays of 17040 and
16384 bytes. -/
def rawCodec : Codec :=
  { decompress := fun _ _ src => src,
    MAX_COMPRESSBOUND := 17040, MAX_SIZE_COMPRESS_BLOCK := 16384 }

/-- File whose bytes are those of the list, and zero past its end. -/
def fileOfList (l : List UInt8) : File := fun p => l.getD p 0

/-- Uncompressed column at offset 0 (zero header) whose first payload byte is 1. -/
def bigRawFile : File := fun p => if p = 8 then 1 else 0

/-- Ten doubles 0.0 .. 9.0 stored uncompressed at offset 0: the header (0, 0)
and 80 payload bytes (bytes 6 and 7 of each little-endian double, the others are zero). -/
def tenDoubles : File := fileOfList
  [0, 0, 0, 0, 0, 0, 0, 0,
   0, 0, 0, 0, 0, 0, 0x00, 0x00,
   0, 0, 0, 0, 0, 0, 0xF0, 0x3F,
   0, 0, 0, 0, 0, 0, 0x00, 0x40,
   0, 0, 0, 0, 0, 0, 0x08, 0x40,
   0, 0, 0, 0, 0, 0, 0x10, 0x40,
   0, 0, 0, 0, 0, 0, 0x14, 0x40,
   0, 0, 0, 0, 0, 0, 0x18, 0x40,
   0, 0, 0, 0, 0, 0, 0x1C, 0x40,
   0, 0, 0, 0, 0, 0, 0x20, 0x40,
   0, 0, 0, 0, 0, 0, 0x22, 0x40]

/-- A codec that undoes a byte-wise XOR with `0x55` (any algorithm id) and
writes no more than the capacity, with scratch arrays of 17040 and 16384
bytes. -/
def xorCodec : Codec :=
  { decompress := fun _ cap src => (src.map fun b => b ^^^ 0x55).take cap,
    MAX_COMPRESSBOUND := 17040, MAX_SIZE_COMPRESS_BLOCK := 16384 }

/-- A variable-ratio column of ten `int32` values `0 .. 9` stored at offset 3
with four elements per block: three padding bytes, the header `(1, 4)`, four
index entries and three payloads; blocks 0 and 2 are XOR-coded (algorithm 1),
block 1 is stored raw (algorithm 0). Index offsets are relative to the header. -/
def demoColumn : File := fileOfList
  [0xEE, 0xEE, 0xEE,
   0x01, 0x00, 0x00, 0x00, 0x04, 0x00, 0x00, 0x00,
   0x30, 0x00, 0x00, 0x00, 0x00, 0x00, 0x00, 0x00, 0x01, 0x00,
   0x40, 0x00, 0x00, 0x00, 0x00, 0x00, 0x00, 0x00, 0x00, 0x00,
   0x50, 0x00, 0x00, 0x00, 0x00, 0x00, 0x00, 0x00, 0x01, 0x00,
   0x58, 0x00, 0x00, 0x00, 0x00, 0x00, 0x00, 0x00, 0x00, 0x00,
   0x55, 0x55, 0x55, 0x55, 0x54, 0x55, 0x55, 0x55, 0x57, 0x55, 0x55, 0x55, 0x56, 0x55, 0x55, 0x55,
   0x04, 0x00, 0x00, 0x00, 0x05, 0x00, 0x00, 0x00, 0x06, 0x00, 0x00, 0x00, 0x07, 0x00, 0x00, 0x00,
   0x5D, 0x55, 0x55, 0x55, 0x5C, 0x55, 0x55, 0x55]

/-- The demo column with the offset of index entry 1 overwritten by `0x20`,
below the offset `0x30` of entry 0. -/
def corruptColumn : File := fileOfList
  [0xEE, 0xEE, 0xEE,
   0x01, 0x00, 0x00, 0x00, 0x04, 0x00, 0x00, 0x00,
   0x30, 0x00, 0x00, 0x00, 0x00, 0x00, 0x00, 0x00, 0x01, 0x00,
   0x20, 0x00, 0x00, 0x00, 0x00, 0x00, 0x00, 0x00, 0x00, 0x00,
   0x50, 0x00, 0x00, 0x00, 0x00, 0x00, 0x00, 0x00, 0x01, 0x00,
   0x58, 0x00, 0x00, 0x00, 0x00, 0x00, 0x00, 0x00, 0x00, 0x00,
   0x55, 0x55, 0x55, 0x55, 0x54, 0x55, 0x55, 0x55, 0x57, 0x55, 0x55, 0x55, 0x56, 0x55, 0x55, 0x55,
   0x04, 0x00, 0x00, 0x00, 0x05, 0x00, 0x00, 0x00, 0x06, 0x00, 0x00, 0x00, 0x07, 0x00, 0x00, 0x00,
   0x5D, 0x55, 0x55, 0x55, 0x5C, 0x55, 0x55, 0x55]

/-- A run-length codec (any algorithm id): the payload is a byte followed by a
little-endian 32-bit count and decodes to that many copies of the byte; never
more than the capacity is written; the scratch arrays have 17040 and 16384
bytes. -/
def runCodec : Codec :=
  { decompress := fun _ cap src => List.replicate (min cap (le32 src 1)) (src.getD 0 0),
    MAX_COMPRESSBOUND := 17040, MAX_SIZE_COMPRESS_BLOCK := 16384 }

/-- A variable-ratio column of `3 * 2^30` one-byte elements, all equal to 7,
stored at offset 0 in blocks of `2^30 + 1` elements: the header
`(1, 2^30 + 1)`, four index entries (offsets 48, 53, 58, 63, algorithm 1 for the
three blocks) and three run-length payloads of `2^30 + 1`, `2^30 + 1` and
`2^30 - 2` bytes. -/
def runColumn : File := fileOfList
  [0x01, 0x00, 0x00, 0x00, 0x01, 0x00, 0x00, 0x40,
   0x30, 0x00, 0x00, 0x00, 0x00, 0x00, 0x00, 0x00, 0x01, 0x00,
   0x35, 0x00, 0x00, 0x00, 0x00, 0x00, 0x00, 0x00, 0x01, 0x00,
   0x3A, 0x00, 0x00, 0x00, 0x00, 0x00, 0x00, 0x00, 0x01, 0x00,
   0x3F, 0x00, 0x00, 0x00, 0x00, 0x00, 0x00, 0x00, 0x00, 0x00,
   0x07, 0x01, 0x00, 0x00, 0x40,
   0x07, 0x01, 0x00, 0x00, 0x40,
   0x07, 0xFE, 0xFF, 0xFF, 0x3F]

/-- The column whose bytes are all 7. -/
def sevens : Nat → UInt8 := fun _ => 7

/-- Offset of the first payload of `hugeColumn`: the header and `2^31 + 2`
index entries come before it. -/
def hugeBase : Nat := 8 + 10 * (2 ^ 31 + 2)

/-- A variable-ratio column of `2^31 + 1` `int32` values equal to their index,
one element per block, every block stored raw, at offset 0: the header `(1, 1)`,
index entry `k` with offset `hugeBase + 4 * k` and algorithm 0, then the
little-endian values. -/
def hugeColumn : File := fun p =>
  if p < 8 then (if p = 0 ∨ p = 4 then 1 else 0)
  else if p < hugeBase then
    (if (p - 8) % 10 < 8 then UInt8.ofNat ((hugeBase + 4 * ((p - 8) / 10)) / 256 ^ ((p - 8) % 10) % 256)
     else 0)
  else UInt8.ofNat ((p - hugeBase) / 4 / 256 ^ ((p - hugeBase) % 4) % 256)

/-- Byte `i` of the column of `int32` values equal to their index (values below 256). -/
def indexColumn : Nat → UInt8 := fun i => if i % 4 = 0 then UInt8.ofNat (i / 4) else 0

/-- State of the reader once the block index of the window
`startBlock .. endBlock` was read, when the index arithmetic is exact. -/
def afterIndex (s : Reader) (blockPos startBlock endBlock : Nat) : Reader :=
  { s with
    pos := blockPos + 8 + 10 * (endBlock + 2),
    log := s.log ++
      (if 0 < startBlock then [IOEvent.seekg (blockPos + 8 + 10 * startBlock)] else []) ++
      [IOEvent.read (blockPos + 8 + 10 * startBlock) (10 * (endBlock - startBlock + 2))] }

/-- Position of the seek that precedes the first payload read of the
variable-ratio path, as `readSingleBlock` and `readFirstBlock` compute it. -/
def firstSeek (blockPos e : Nat) (startOffset : Int) (blockPStart algo : Nat) : Nat :=
  if algo = 0 then u64OfInt ((blockPos : Int) + blockPStart + i32 (e * startOffset))
  else u64 (blockPos + blockPStart)

/-! ## Stored columns (vocabulary of C1 and C10) -/

/-- The `n` bytes of the column `col` that start at byte `c`. -/
def colBytes (col : Nat → UInt8) (c n : Nat) : List UInt8 :=
  (List.range n).map fun i => col (c + i)

/-- The buffer `out` holds at `[0, n)` the bytes `[c, c + n)` of the column. -/
def Holds (out : Mem) (col : Nat → UInt8) (c n : Nat) : Prop :=
  ∀ i : Nat, i < n → out (i : Int) = col (c + i)

/-- Number of elements of block `k` of a column of `size` elements stored in
blocks of `B` elements. -/
def blockElems (size B k : Nat) : Nat := if (k + 1) * B ≤ size then B else size - k * B

/-- Block `k` of the column `col` is stored as the reader resolves it: its
payload is the bytes from `blockPos + index[k].offset` up to
`blockPos + index[k+1].offset` (so payloads are contiguous in block order), a
block with algorithm id 0 is stored verbatim, and any other block decompresses,
at the capacity of the block, to the bytes of the block. -/
def BlockStored (codec : Codec) (file : File) (col : Nat → UInt8)
    (blockPos size e B k : Nat) : Prop :=
  blockPos + entryOffset file blockPos (k + 1) < 2 ^ 64 ∧
  (entryAlgo file blockPos k = 0 →
    entryOffset file blockPos (k + 1) = entryOffset file blockPos k + e * blockElems size B k ∧
    ∀ i, i < e * blockElems size B k →
      file (blockPos + entryOffset file blockPos k + i) = col (e * (k * B) + i)) ∧
  (entryAlgo file blockPos k ≠ 0 →
    entryOffset file blockPos k ≤ entryOffset file blockPos (k + 1) ∧
    codec (entryAlgo file blockPos k) (e * blockElems size B k)
      (readBytes file (blockPos + entryOffset file blockPos k)
        (entryOffset file blockPos (k + 1) - entryOffset file blockPos k))
      = colBytes col (e * (k * B)) (e * blockElems size B k))

/-- The column `col` of `size` elements of `e` bytes is stored at `blockPos` in
blocks of `B` elements: each of its `1 + (size - 1) / B` blocks is. -/
def StoredColumn (codec : Codec) (file : File) (col : Nat → UInt8)
    (blockPos size e B : Nat) : Prop :=
  ∀ k, k < 1 + (size - 1) / B → BlockStored codec file col blockPos size e B k


/-! ## Fixed-ratio columns (vocabulary of C2) -/

/-- The column `col` is stored at `blockPos` as `units` consecutive rep units of
`T` bytes that follow the 8-byte header, and the codec maps every run of
`n ≥ 1` consecutive stored units, at the capacity `n * R`, to the concatenation
of their `R`-byte sources. -/
def FixedStored (codec : Codec) (file : File) (col : Nat → UInt8)
    (blockPos algo R T units : Nat) : Prop :=
  ∀ j n, 1 ≤ n → j + n ≤ units →
    codec algo (n * R) (readBytes file (blockPos + 8 + j * T) (n * T))
      = colBytes col (j * R) (n * R)

/-- The eight bits of a byte, least significant first, one byte per bit. -/
def unpackBits (b : UInt8) : List UInt8 :=
  (List.range 8).map fun i => UInt8.ofNat (b.toNat / 2 ^ i % 2)

/-- A fixed-ratio codec with one target byte per eight source bytes (any
algorithm id): every target byte is unpacked into its bits. -/
def bitCodec : Codec :=
  { decompress := fun _ _ src => (src.map unpackBits).flatten,
    MAX_COMPRESSBOUND := 17040, MAX_SIZE_COMPRESS_BLOCK := 16384 }

/-- Source rep size of the bit codec: 8 bytes for algorithm 1. -/
def bitSrcRep : Nat → Nat := fun a => if a = 1 then 8 else 0

/-- Target rep size of the bit codec: 1 byte for algorithm 1. -/
def bitTgtRep : Nat → Nat := fun a => if a = 1 then 1 else 0

/-- A fixed-ratio column of 17 one-byte booleans at offset 0: the header
`(0, 1)` and three rep units of one byte. -/
def bitFile : File := fileOfList
  [0x00, 0x00, 0x00, 0x00, 0x01, 0x00, 0x00, 0x00,
   0xA5, 0x3C, 0x01]

/-- The 17 booleans stored in `bitFile`, padded with zeros to three rep units. -/
def bitRows : Nat → UInt8 := fun i =>
  [1, 0, 1, 0, 0, 1, 0, 1,
   0, 0, 1, 1, 1, 1, 0, 0,
   1, 0, 0, 0, 0, 0, 0, 0].getD i 0

/-- Rep sizes of a fixed-ratio codec that stores eight bytes in eight bytes. -/
def eightRep : Nat → Nat := fun _ => 8

/-- The column whose bytes are 0 below byte `2^32` and 1 from there on. -/
def stepRows : Nat → UInt8 := fun i => if 2 ^ 32 ≤ i then 1 else 0

/-- The column `stepRows` stored verbatim at offset 0 behind the header `(0, 1)`. -/
def stepFile : File := fun p => if p = 4 then 1 else if 8 + 2 ^ 32 ≤ p then 1 else 0

/-! ## Files that agree on a range (vocabulary of C10) -/

/-- The files `f` and `g` hold the same `n` bytes from offset `p` on. -/
def SameBytes (f g : File) (p n : Nat) : Prop := ∀ i, i < n → f (p + i) = g (p + i)

/-- Block `k` is laid out as the reader resolves it: its payload runs from
`blockPos + index[k].offset` up to `blockPos + index[k+1].offset`, below `2^64`,
and a block with algorithm id 0 occupies the bytes of its elements. -/
def BlockLaid (file : File) (blockPos size e B k : Nat) : Prop :=
  blockPos + entryOffset file blockPos (k + 1) < 2 ^ 64 ∧
  (entryAlgo file blockPos k = 0 →
    entryOffset file blockPos (k + 1) = entryOffset file blockPos k + e * blockElems size B k) ∧
  (entryAlgo file blockPos k ≠ 0 →
    entryOffset file blockPos k ≤ entryOffset file blockPos (k + 1))

/-- The files `f` and `g` agree on the payload of block `k`, located by the
index of `f`. -/
def SamePayload (f g : File) (blockPos k : Nat) : Prop :=
  SameBytes f g (blockPos + entryOffset f blockPos k)
    (entryOffset f blockPos (k + 1) - entryOffset f blockPos k)

/-- The column `hugeColumn` with the first payload byte, which belongs to
block 0, changed from 0 to 1. -/
def hugeColumnAlt : File := fun p => if p = hugeBase then 1 else hugeColumn p

/-- The demo column with index entry 3 and the payload of block 2 (file bytes
`41 .. 50` and `83` onwards) overwritten by `0xFF`. -/
def demoColumnAlt : File := fun p =>
  if (41 ≤ p ∧ p < 51) ∨ 83 ≤ p then 0xFF else demoColumn p

/-! ## Quantities of the readers, named (vocabulary of C14, C17, C19) -/

/-- Argument of the `seekg` of the uncompressed branch of `fdsReadColumn_v1`:
`blockPos + elementSize * startRow + COL_META_SIZE_V1`, the product in
`unsigned int`, the sum in `unsigned long long`. -/
def uncompressedSeek (blockPos elementSize startRow : Nat) : Nat :=
  u64 (blockPos + u32 (elementSize * startRow) + COL_META_SIZE_V1)

/-- The rep-unit window of `fdsReadFixedCompStream_v1` once the leading partial
unit is dealt with: `startRep` (incremented after a leading partial unit),
`endRep`, `startOffset`, the bytes copied from the leading unit, and whether the
function has returned there (`startRep == endRep`). -/
structure RepWindow where
  startRep : Nat
  endRep : Nat
  startOffset : Nat
  leading : Nat
  finished : Bool

/-- "Determine random-access starting point" and "Process partial repetition
block" of `fdsReadFixedCompStream_v1`. -/
def repWindow (repSize elementSize startRow vecLength : Nat) : RepWindow :=
  let repSizeElement := repSize / elementSize
  let startRep := startRow / repSizeElement
  let endRep := u32OfInt ((startRow : Int) + vecLength - 1) / repSizeElement
  let startRowRep := u32 (startRep * repSizeElement)
  let startOffset := u32OfInt ((startRow : Int) - startRowRep)
  if startOffset ≠ 0 then
    if startRep = endRep then
      { startRep := startRep, endRep := endRep, startOffset := startOffset,
        leading := u32 (elementSize * vecLength), finished := true }
    else
      let length : Int := i32 ((repSizeElement : Int) - startOffset)
      { startRep := u32 (startRep + 1), endRep := endRep, startOffset := startOffset,
        leading := u64OfInt (i32 (elementSize * length)), finished := false }
  else
    { startRep := startRep, endRep := endRep, startOffset := startOffset,
      leading := 0, finished := false }

/-- `nrOfRepsPerBlock = PREF_BLOCK_SIZE_V1 / repSize`. -/
def nrOfRepsPerBlock (repSize : Nat) : Nat := PREF_BLOCK_SIZE_V1 / repSize

/-- `nrOfReps = 1 + endRep - startRep`, in `unsigned int`. -/
def nrOfReps (startRep endRep : Nat) : Nat := u32OfInt (1 + (endRep : Int) - startRep)

/-- `nrOfFullBlocks = (nrOfReps - 1) / nrOfRepsPerBlock`. -/
def nrOfFullBlocks (repSize startRep endRep : Nat) : Nat :=
  u32OfInt ((nrOfReps startRep endRep : Int) - 1) / nrOfRepsPerBlock repSize

/-- `remainReps = nrOfReps - nrOfRepsPerBlock * nrOfFullBlocks`. -/
def remainReps (repSize startRep endRep : Nat) : Nat :=
  u32OfInt ((nrOfReps startRep endRep : Int)
    - nrOfRepsPerBlock repSize * nrOfFullBlocks repSize startRep endRep)

/-- `nrOfElemsLastRep = startRow + vecLength - endRep * repSizeElement`. -/
def nrOfElemsLastRep (repSize elementSize startRow vecLength endRep : Nat) : Nat :=
  u32OfInt ((startRow : Int) + vecLength - endRep * (repSize / elementSize : Nat))

/-- Bytes `fdsReadFixedCompStream_v1` asks to be written to the output: the
`memcpy` of the leading partial unit, `blockSize` per full batch,
`lastBlockSize - repSize` for the last batch and the `memcpy` of the final
unit. -/
def fixedBytesWritten (repSize elementSize startRow vecLength : Nat) : Nat :=
  let w := repWindow repSize elementSize startRow vecLength
  if w.finished then w.leading
  else
    let blockSize := u32 (nrOfRepsPerBlock repSize * repSize)
    let lastBlockSize := u32 (remainReps repSize w.startRep w.endRep * repSize)
    w.leading + nrOfFullBlocks repSize w.startRep w.endRep * blockSize
      + (if lastBlockSize ≠ repSize then u32OfInt ((lastBlockSize : Int) - repSize) else 0)
      + u32 (elementSize * nrOfElemsLastRep repSize elementSize startRow vecLength w.endRep)

/-- Value of `outOffset` after `n` iterations of the middle-block loop of
`fdsReadColumn_v1`: `int outOffset = subBlockSize * elementSize`, then
`outOffset += blockSize` once per iteration, in `int`. -/
def outOffsetAfter (elementSize : Nat) (blockSize subBlockSize : Int) (n : Nat) : Int :=
  (fun o : Int => i32 (o + blockSize))^[n] (i32 (subBlockSize * elementSize))

/-- Size in bytes of the `blockIndex` buffer that `fdsReadColumn_v1` allocates
and fills: `(2 + endBlock - startBlock) * 10`, an `int`. -/
def indexSize (startBlock endBlock : Int) : Int := i32 ((2 + endBlock - startBlock) * 10)

/-- Dereferences of `blockIndex` by the block phases of `fdsReadColumn_v1`, in
program order, as byte offset and width: `&blockIndex[0]`, `&blockIndex[10]`
and `&blockIndex[8]` before the first block, `&blockIndex[10 + 10 * blockCount]`
and `&blockIndex[8 + 10 * blockCount]` in each iteration of the middle-block
loop, `&blockIndex[10 + 10 * maxBlock]` and `&blockIndex[8 + 10 * maxBlock]` for
the last block. -/
def indexAccesses (startRow length blockSizeElements : Nat) (startBlock endBlock : Int) :
    List (Int × Nat) :=
  let head : List (Int × Nat) := [(0, 8), (10, 8), (8, 2)]
  if startBlock = endBlock then head
  else
    let remain : Int := i32 ((u32 (startRow + length) % blockSizeElements : Nat) : Int)
    let endBlock := if remain = 0 then i32 (endBlock + 1) else endBlock
    let maxBlock : Int := i32 (endBlock - startBlock)
    let middle : List (Int × Nat) :=
      ((List.range (maxBlock - 1).toNat).map fun (i : Nat) =>
        [(i32 (10 + 10 * (1 + (i : Int))), 8), (i32 (8 + 10 * (1 + (i : Int))), 2)]).flatten
    let last : List (Int × Nat) :=
      if remain = 0 then []
      else [(i32 (10 + 10 * maxBlock), 8), (i32 (8 + 10 * maxBlock), 2)]
    head ++ middle ++ last

/-! ## Stream calls of the blocks after the first (vocabulary of C11, C18) -/

/-- Byte length of the payload of block `k`, by the index. -/
def payloadLen (file : File) (blockPos k : Nat) : Nat :=
  entryOffset file blockPos (k + 1) - entryOffset file blockPos k

/-- One `read` per block `sb + j .. sb + j + n - 1`, each at the start of the
payload of its block, `blockPos + index[k].offset`, with the byte count
`count k`; no `seekg`. -/
def blockReads (file : File) (blockPos : Nat) (count : Nat → Nat) (first n : Nat) :
    List IOEvent :=
  (List.range n).map fun (i : Nat) =>
    IOEvent.read (blockPos + entryOffset file blockPos (first + i)) (count (first + i))

/-- Bytes read for block `k` after the first block: the whole payload, except
for a block with algorithm id 0 in which the window ends (`remain ≠ 0`), of
which `elementSize * remain` bytes are read. -/
def tailCount (file : File) (blockPos e endBlock remain k : Nat) : Nat :=
  if k = endBlock ∧ remain ≠ 0 ∧ entryAlgo file blockPos k = 0 then e * remain
  else payloadLen file blockPos k

/-- A variable-ratio column of three blocks of `B` elements at offset 0, every
block stored raw in `step` bytes, all payload bytes equal to 7: the header
`(1, B)`, four index entries with the offsets `48 + k * step` and algorithm 0,
then the payloads. -/
def rawColumn (B step : Nat) : File := fun p =>
  if p < 4 then (if p = 0 then 1 else 0)
  else if p < 8 then UInt8.ofNat (B / 256 ^ (p - 4) % 256)
  else if p < 48 then
    (if (p - 8) % 10 < 8 then
      UInt8.ofNat ((48 + (p - 8) / 10 * step) / 256 ^ ((p - 8) % 10) % 256)
     else 0)
  else 7


/-! ## Frame of the output buffer (vocabulary of C13) -/

/-- The buffer `out1` differs from `out0` at most at the indices `[0, n)`. -/
def Frame (out0 out1 : Mem) (n : Nat) : Prop :=
  ∀ a : Int, (a < 0 ∨ (n : Int) ≤ a) → out1 a = out0 a

/-- The decompressor writes at most `dstCapacity` bytes. -/
def RespectsCapacity (codec : Codec) : Prop :=
  ∀ (algo cap : Nat) (src : List UInt8), (codec algo cap src).length ≤ cap

/-! ## Scratch arrays (vocabulary of C1, C10, C11, C13, C18) -/

/-- Block `k`, if compressed, fits the scratch arrays: its payload, which runs
from `index[k].offset` to `index[k+1].offset`, has at most `MAX_COMPRESSBOUND`
bytes, and a block of `B` elements has at most `MAX_SIZE_COMPRESS_BLOCK`
bytes. -/
def ScratchFits (codec : Codec) (file : File) (blockPos e B k : Nat) : Prop :=
  entryAlgo file blockPos k ≠ 0 →
    entryOffset file blockPos k ≤ entryOffset file blockPos (k + 1) ∧
    entryOffset file blockPos (k + 1) - entryOffset file blockPos k
      ≤ codec.MAX_COMPRESSBOUND ∧
    e * B ≤ codec.MAX_SIZE_COMPRESS_BLOCK

/-- The same for entry `k` of an index buffer. -/
def IndexFits (codec : Codec) (idx : List UInt8) (e B k : Nat) : Prop :=
  le16 idx ((10 * k + 8 : Nat) : Int) ≠ 0 →
    le64 idx ((10 * k : Nat) : Int) ≤ le64 idx ((10 * (k + 1) : Nat) : Int) ∧
    le64 idx ((10 * (k + 1) : Nat) : Int) - le64 idx ((10 * k : Nat) : Int)
      ≤ codec.MAX_COMPRESSBOUND ∧
    e * B ≤ codec.MAX_SIZE_COMPRESS_BLOCK

/-- A variable-ratio column of `2^20` one-byte elements, all equal to 7, stored
at offset 0 as one block of `2^20` elements: the header `(1, 2^20)`, two index
entries (offsets 28 and 33, algorithm 1 for the block) and one run-length
payload of `2^20` bytes. -/
def bigBlockColumn : File := fileOfList
  [0x01, 0x00, 0x00, 0x00, 0x00, 0x00, 0x10, 0x00,
   0x1C, 0x00, 0x00, 0x00, 0x00, 0x00, 0x00, 0x00, 0x01, 0x00,
   0x21, 0x00, 0x00, 0x00, 0x00, 0x00, 0x00, 0x00, 0x00, 0x00,
   0x07, 0x00, 0x00, 0x10, 0x00]

/-! ## Slices of a window (vocabulary of C13) -/

/-- Modelled from the spec: the slices a variable-ratio read emits, as the
index of the first output byte and the byte count of each. A window inside one
block is one slice of `length` elements at 0; otherwise the first block gives
`B - startOffset` elements, every block between the first and the last gives
`B`, and the last block gives `(startRow + length) - endBlock * B`, each slice
following the one before it. -/
def windowSlices (e B startRow length : Nat) : List (Int × Nat) :=
  let startBlock := startRow / B
  let endBlock := (startRow + length - 1) / B
  let first := B - startRow % B
  if startBlock = endBlock then [((0 : Int), e * length)]
  else
    [((0 : Int), e * first)]
      ++ (List.range (endBlock - startBlock - 1)).map
          (fun (i : Nat) => (((e * first + i * (e * B) : Nat) : Int), e * B))
      ++ [(((e * first + (endBlock - startBlock - 1) * (e * B) : Nat) : Int),
            e * (startRow + length - endBlock * B))]

/-- Each write of the list starts where the one before it ended, the first one
at `start`. -/
def packedFrom : Int → List (Int × Nat) → Bool
  | _, [] => true
  | start, w :: rest => decide (w.1 = start) && packedFrom (start + (w.2 : Int)) rest

/-- Modelled from the spec: the element counts a variable-ratio read emits:
`length` for a window inside one block, otherwise `B - startOffset` for the
first block, `B` for every block between the first and the last, and
`(startRow + length) - endBlock * B` for the last block. -/
def windowCounts (B startRow length : Nat) : List Nat :=
  let startBlock := startRow / B
  let endBlock := (startRow + length - 1) / B
  if startBlock = endBlock then [length]
  else
    [B - startRow % B] ++ List.replicate (endBlock - startBlock - 1) B
      ++ [startRow + length - endBlock * B]

/-! ## Further concrete inputs -/

/-- Offset of the first payload of `longColumn`: the header and `2^31 + 3`
index entries come before it. -/
def longBase : Nat := 8 + 10 * (2 ^ 31 + 3)

/-- A variable-ratio column of `2^31 + 2` `int32` values equal to their index,
one element per block, every block stored raw, at offset 0: the header `(1, 1)`,
index entry `k` with offset `longBase + 4 * k` and algorithm 0, then the
little-endian values. -/
def longColumn : File := fun p =>
  if p < 8 then (if p = 0 ∨ p = 4 then 1 else 0)
  else if p < longBase then
    (if (p - 8) % 10 < 8 then UInt8.ofNat ((longBase + 4 * ((p - 8) / 10)) / 256 ^ ((p - 8) % 10) % 256)
     else 0)
  else UInt8.ofNat ((p - longBase) / 4 / 256 ^ ((p - longBase) % 4) % 256)

/-- Byte `i` of the column of little-endian `int32` values equal to their index. -/
def wideIndexColumn : Nat → UInt8 := fun i => UInt8.ofNat (i / 4 / 256 ^ (i % 4) % 256)

/-- A variable-ratio column of twelve four-byte elements at offset 0, four
elements per block, all decoded bytes equal to 7: the header `(1, 4)`, four
index entries (offsets 48, 64, 20064, 20080) and three payloads; blocks 0 and 2
are stored raw in 16 bytes, block 1 is compressed (algorithm 1) and its payload
has 20000 bytes. -/
def fatColumn : File := fun p =>
  if p < 48 then
    fileOfList
      [0x01, 0x00, 0x00, 0x00, 0x04, 0x00, 0x00, 0x00,
       0x30, 0x00, 0x00, 0x00, 0x00, 0x00, 0x00, 0x00, 0x00, 0x00,
       0x40, 0x00, 0x00, 0x00, 0x00, 0x00, 0x00, 0x00, 0x01, 0x00,
       0x60, 0x4E, 0x00, 0x00, 0x00, 0x00, 0x00, 0x00, 0x00, 0x00,
       0x70, 0x4E, 0x00, 0x00, 0x00, 0x00, 0x00, 0x00, 0x00, 0x00] p
  else 7

/-- A variable-ratio column of `3 * 2^29` four-byte elements at offset 0 in
blocks of `2^29` elements (`2^31` bytes), all bytes equal to 7: the header
`(1, 2^29)`, four index entries (offsets 48, `48 + 2^31`, `53 + 2^31`,
`53 + 2^32`) and three payloads; blocks 0 and 2 are stored raw, block 1 is the
run-length payload `07 00 00 00 80` (algorithm 1). -/
def mixedColumn : File := fun p =>
  if p < 48 then
    fileOfList
      [0x01, 0x00, 0x00, 0x00, 0x00, 0x00, 0x00, 0x20,
       0x30, 0x00, 0x00, 0x00, 0x00, 0x00, 0x00, 0x00, 0x00, 0x00,
       0x30, 0x00, 0x00, 0x80, 0x00, 0x00, 0x00, 0x00, 0x01, 0x00,
       0x35, 0x00, 0x00, 0x80, 0x00, 0x00, 0x00, 0x00, 0x00, 0x00,
       0x35, 0x00, 0x00, 0x00, 0x01, 0x00, 0x00, 0x00, 0x00, 0x00] p
  else if 2 ^ 31 + 49 ≤ p ∧ p < 2 ^ 31 + 52 then 0
  else if p = 2 ^ 31 + 52 then 0x80
  else 7

/-! ## Positions of stream calls (vocabulary of C9) -/

/-- Total of the size arguments of a list of logged writes. -/
def bytesWritten (ws : List (Int × Nat)) : Nat := (ws.map Prod.snd).sum

/-! ## Basic facts -/

theorem u32_of_lt {n : Nat} (h : n < 2 ^ 32) : u32 n = n := by
  unfold u32; exact Nat.mod_eq_of_lt h

theorem u64_of_lt {n : Nat} (h : n < 2 ^ 64) : u64 n = n := by
  unfold u64; exact Nat.mod_eq_of_lt h

theorem i32_of_bounds {z : Int} (h0 : -2 ^ 31 ≤ z) (h1 : z < 2 ^ 31) : i32 z = z := by
  unfold i32; omega

theorem i32_natCast {n : Nat} (h : n < 2 ^ 31) : i32 (n : Int) = n := by
  unfold i32; omega

theorem u32OfInt_natCast {n : Nat} (h : n < 2 ^ 32) : u32OfInt (n : Int) = n := by
  unfold u32OfInt; omega

theorem u64OfInt_natCast {n : Nat} (h : n < 2 ^ 64) : u64OfInt (n : Int) = n := by
  unfold u64OfInt; omega

theorem u32OfInt_of_bounds {z : Int} (h0 : 0 ≤ z) (h1 : z < 2 ^ 32) : (u32OfInt z : Int) = z := by
  unfold u32OfInt; omega

theorem u64OfInt_of_bounds {z : Int} (h0 : 0 ≤ z) (h1 : z < 2 ^ 64) : (u64OfInt z : Int) = z := by
  unfold u64OfInt; omega

theorem leFile_lt (file : File) (p n : Nat) : leFile file p n < 256 ^ n := by
  induction n generalizing p with
  | zero => simp [leFile]
  | succ n ih =>
    have h1 := ih (p + 1)
    have h2 : (file p).toNat < 256 := (file p).val.isLt
    simp only [leFile, pow_succ]
    omega

theorem byteAt_readBytes (file : File) (p n i : Nat) (h : i < n) :
    byteAt (readBytes file p n) (i : Int) = (file (p + i)).toNat := by
  simp [byteAt, readBytes, List.getD_eq_getElem?_getD, List.getElem?_range h]

theorem leAt_readBytes (file : File) (p n : Nat) (w : Nat) :
    ∀ i : Nat, i + w ≤ n → leAt (readBytes file p n) (i : Int) w = leFile file (p + i) w := by
  induction w with
  | zero => intro i _; rfl
  | succ w ih =>
    intro i h
    have h1 := ih (i + 1) (by omega)
    have h2 := byteAt_readBytes file p n i (by omega)
    simp only [leAt, leFile]
    rw [h2]
    have h3 : ((i : Int) + 1) = ((i + 1 : Nat) : Int) := by push_cast; rfl
    rw [h3, h1]
    rfl

theorem fill_inside (m : Mem) (off : Int) (file : File) (p n : Nat) (a : Int)
    (h : off ≤ a ∧ a < off + n) : fill m off file p n a = file (p + (a - off).toNat) :=
  if_pos h

theorem fill_outside (m : Mem) (off : Int) (file : File) (p n : Nat) (a : Int)
    (h : ¬ (off ≤ a ∧ a < off + n)) : fill m off file p n a = m a :=
  if_neg h

theorem store_inside (m : Mem) (off : Int) (bs : List UInt8) (a : Int)
    (h : off ≤ a ∧ a < off + bs.length) : store m off bs a = bs.getD (a - off).toNat 0 :=
  if_pos h

theorem store_outside (m : Mem) (off : Int) (bs : List UInt8) (a : Int)
    (h : ¬ (off ≤ a ∧ a < off + bs.length)) : store m off bs a = m a :=
  if_neg h

theorem copy_inside (dst : Mem) (dOff : Int) (src : Mem) (sOff : Int) (n : Nat) (a : Int)
    (h : dOff ≤ a ∧ a < dOff + n) : copy dst dOff src sOff n a = src (sOff + (a - dOff)) :=
  if_pos h

theorem copy_outside (dst : Mem) (dOff : Int) (src : Mem) (sOff : Int) (n : Nat) (a : Int)
    (h : ¬ (dOff ≤ a ∧ a < dOff + n)) : copy dst dOff src sOff n a = dst a :=
  if_neg h

@[simp] theorem seekg_pos (s : Reader) (p : Nat) : (s.seekg p).pos = p := rfl

@[simp] theorem seekg_out (s : Reader) (p : Nat) : (s.seekg p).out = s.out := rfl

@[simp] theorem seekg_tmp (s : Reader) (p : Nat) : (s.seekg p).tmp = s.tmp := rfl

@[simp] theorem seekg_log (s : Reader) (p : Nat) :
    (s.seekg p).log = s.log ++ [IOEvent.seekg p] := rfl

@[simp] theorem readBuf_fst (file : File) (s : Reader) (n : Nat) :
    (s.readBuf file n).1 = readBytes file s.pos n := rfl

@[simp] theorem readBuf_pos (file : File) (s : Reader) (n : Nat) :
    (s.readBuf file n).2.pos = s.pos + n := rfl

@[simp] theorem readBuf_out (file : File) (s : Reader) (n : Nat) :
    (s.readBuf file n).2.out = s.out := rfl

@[simp] theorem readBuf_tmp (file : File) (s : Reader) (n : Nat) :
    (s.readBuf file n).2.tmp = s.tmp := rfl

@[simp] theorem readBuf_log (file : File) (s : Reader) (n : Nat) :
    (s.readBuf file n).2.log = s.log ++ [IOEvent.read s.pos n] := rfl

@[simp] theorem readOut_pos (file : File) (s : Reader) (off : Int) (n : Nat) :
    (s.readOut file off n).pos = s.pos + n := rfl

@[simp] theorem readOut_out (file : File) (s : Reader) (off : Int) (n : Nat) :
    (s.readOut file off n).out = fill s.out off file s.pos n := rfl

@[simp] theorem readOut_tmp (file : File) (s : Reader) (off : Int) (n : Nat) :
    (s.readOut file off n).tmp = s.tmp := rfl

@[simp] theorem readOut_log (file : File) (s : Reader) (off : Int) (n : Nat) :
    (s.readOut file off n).log = s.log ++ [IOEvent.read s.pos n] := rfl

@[simp] theorem afterHeader_pos (file : File) (s : Reader) (blockPos : Nat) :
    (afterHeader file s blockPos).pos = blockPos + 8 := rfl

@[simp] theorem afterHeader_out (file : File) (s : Reader) (blockPos : Nat) :
    (afterHeader file s blockPos).out = s.out := rfl

@[simp] theorem afterHeader_tmp (file : File) (s : Reader) (blockPos : Nat) :
    (afterHeader file s blockPos).tmp = s.tmp := rfl

@[simp] theorem afterHeader_log (file : File) (s : Reader) (blockPos : Nat) :
    (afterHeader file s blockPos).log =
      s.log ++ [IOEvent.seekg blockPos, IOEvent.read blockPos 8] := by
  simp [afterHeader, COL_META_SIZE_V1]

/-- The header fields `compress[0]`, `compress[1]` the reader decodes are the
two little-endian 32-bit values stored at `blockPos` and `blockPos + 4`. -/
theorem header_decode (file : File) (s : Reader) (blockPos : Nat) :
    le32 ((s.seekg blockPos).readBuf file COL_META_SIZE_V1).1 0 = header0 file blockPos ∧
    le32 ((s.seekg blockPos).readBuf file COL_META_SIZE_V1).1 4 = header1 file blockPos := by
  constructor
  · have := leAt_readBytes file blockPos 8 4 0 (by omega)
    simpa [le32, header0, COL_META_SIZE_V1] using this
  · have := leAt_readBytes file blockPos 8 4 4 (by omega)
    simpa [le32, header1, COL_META_SIZE_V1] using this

/-- Unfolding of `fdsReadColumn_v1` along the header fields. -/
theorem fdsReadColumn_v1_eq (codec : Codec) (srcRep tgtRep : Nat → Nat) (file : File)
    (s : Reader) (blockPos startRow length size elementSize : Nat) :
    fdsReadColumn_v1 codec srcRep tgtRep file s blockPos startRow length size elementSize =
      if header0 file blockPos = 0 then
        if header1 file blockPos = 0 then
          Except.ok (readUncompressed file (afterHeader file s blockPos) blockPos startRow length
            elementSize)
        else
          Except.ok (fdsReadFixedCompStream_v1 codec srcRep tgtRep file
            (afterHeader file s blockPos) blockPos (header1 file blockPos) startRow elementSize
            length)
      else
        readVariable codec file (afterHeader file s blockPos) blockPos startRow length size
          elementSize (header1 file blockPos) := by
  have h := header_decode file s blockPos
  unfold fdsReadColumn_v1
  simp only [h.1, h.2]
  rfl

/-! ## C5: level-to-strategy mapping of `fdsWriteRealVec_v9` -/

/-- C5: for a compression level `c` in `[0, 100]`, `fdsWriteRealVec_v9` takes the
uncompressed path when `c = 0`, a linear mix of uncompressed and LZ4 with level
`2c` and mix `2c` when `0 < c ≤ 50`, and a composite mix of LZ4 at level 100 and
ZSTD at level 20 with mix `2(c - 50)` when `50 < c`; every level and mix lies
in `[0, 100]`, the element size is 8 and the block size `BLOCKSIZE_REAL`
elements. -/
theorem fdsWriteRealVec_v9_strategy (BLOCKSIZE_REAL c : Nat) (hc : c ≤ 100) :
    (c = 0 → fdsWriteRealVec_v9 BLOCKSIZE_REAL c = StreamCall.uncompressed 8 BLOCKSIZE_REAL) ∧
    (0 < c → c ≤ 50 →
      fdsWriteRealVec_v9 BLOCKSIZE_REAL c =
        StreamCall.compressed 8
          (StreamCompressor.linear ⟨CompAlgo.LZ4, 2 * c⟩ (2 * c))
          (i32 (8 * BLOCKSIZE_REAL)) BLOCKSIZE_REAL ∧
      2 * c ≤ 100) ∧
    (50 < c →
      fdsWriteRealVec_v9 BLOCKSIZE_REAL c =
        StreamCall.compressed 8
          (StreamCompressor.composite ⟨CompAlgo.LZ4, 100⟩ ⟨CompAlgo.ZSTD, 20⟩ (2 * (c - 50)))
          (i32 (8 * BLOCKSIZE_REAL)) BLOCKSIZE_REAL ∧
      2 * (c - 50) ≤ 100) := by
  refine ⟨?_, ?_, ?_⟩
  · intro h
    simp [fdsWriteRealVec_v9, h]
  · intro h1 h2
    have h3 : u32 (2 * c) = 2 * c := u32_of_lt (by omega)
    have h4 : c ≠ 0 := by omega
    simp [fdsWriteRealVec_v9, h4, h2, h3]
    omega
  · intro h1
    have h3 : u32OfInt (2 * ((c : Int) - 50)) = 2 * (c - 50) := by
      unfold u32OfInt; omega
    have h4 : c ≠ 0 := by omega
    have h5 : ¬ c ≤ 50 := by omega
    simp [fdsWriteRealVec_v9, h4, h5, h3]
    omega

/-- Witness for C5 at level 75 with 2048-element blocks. -/
theorem fdsWriteRealVec_v9_strategy_witness :
    (75 : Nat) ≤ 100 ∧
    fdsWriteRealVec_v9 2048 75 =
      StreamCall.compressed 8
        (StreamCompressor.composite ⟨CompAlgo.LZ4, 100⟩ ⟨CompAlgo.ZSTD, 20⟩ (2 * (75 - 50)))
        (i32 (8 * (2048 : Nat))) 2048 :=
  ⟨by decide, ((fdsWriteRealVec_v9_strategy 2048 75 (by decide)).2.2 (by decide)).1⟩

/-! ## C4: header dispatch -/

/-- C4: `fdsReadColumn_v1` seeks to `blockPos`, reads the 8 header bytes and
decodes the two 32-bit fields stored there; header `(0, 0)` gives the
uncompressed read, header `(0, a)` with `a ≠ 0` the fixed-ratio read with
algorithm id `a`, and any header with a non-zero first field the
variable-ratio read with `blockSizeElements` equal to the second field. The
three cases cover every header and exclude each other. -/
theorem fdsReadColumn_v1_dispatch (codec : Codec) (srcRep tgtRep : Nat → Nat) (file : File)
    (s : Reader) (blockPos startRow length size elementSize : Nat) :
    (afterHeader file s blockPos).log =
      s.log ++ [IOEvent.seekg blockPos, IOEvent.read blockPos 8] ∧
    (header0 file blockPos = 0 ∧ header1 file blockPos = 0 →
      fdsReadColumn_v1 codec srcRep tgtRep file s blockPos startRow length size elementSize =
        Except.ok (readUncompressed file (afterHeader file s blockPos) blockPos startRow length
          elementSize)) ∧
    (header0 file blockPos = 0 ∧ header1 file blockPos ≠ 0 →
      fdsReadColumn_v1 codec srcRep tgtRep file s blockPos startRow length size elementSize =
        Except.ok (fdsReadFixedCompStream_v1 codec srcRep tgtRep file
          (afterHeader file s blockPos) blockPos (header1 file blockPos) startRow elementSize
          length)) ∧
    (header0 file blockPos ≠ 0 →
      fdsReadColumn_v1 codec srcRep tgtRep file s blockPos startRow length size elementSize =
        readVariable codec file (afterHeader file s blockPos) blockPos startRow length size
          elementSize (header1 file blockPos)) := by
  rw [fdsReadColumn_v1_eq]
  refine ⟨afterHeader_log file s blockPos, ?_, ?_, ?_⟩
  · rintro ⟨h0, h1⟩
    simp [h0, h1]
  · rintro ⟨h0, h1⟩
    simp [h0, h1]
  · intro h0
    simp [h0]

/-- Instance of C4 on the ten-doubles file (header `(0, 0)`). -/
theorem fdsReadColumn_v1_dispatch_witness :
    fdsReadColumn_v1 rawCodec noTable noTable tenDoubles reader0 0 3 4 10 8 =
      Except.ok (readUncompressed tenDoubles (afterHeader tenDoubles reader0 0) 0 3 4 8) :=
  (fdsReadColumn_v1_dispatch rawCodec noTable noTable tenDoubles reader0 0 3 4 10 8).2.1
    ⟨by decide, by decide⟩

/-! ## C3: uncompressed read -/

/-- Closed form of the uncompressed branch when the two 32-bit products and the
seek position are exact. -/
theorem readUncompressed_exact (file : File) (s : Reader)
    (blockPos startRow length elementSize : Nat)
    (hs : startRow * elementSize < 2 ^ 32) (hl : length * elementSize < 2 ^ 32)
    (hpos : blockPos + 8 + startRow * elementSize < 2 ^ 64)
    (hp : s.pos = blockPos + 8) :
    (readUncompressed file s blockPos startRow length elementSize).out =
        fill s.out 0 file (blockPos + 8 + startRow * elementSize) (length * elementSize) ∧
    (readUncompressed file s blockPos startRow length elementSize).log =
        s.log ++ (if 0 < startRow then
            [IOEvent.seekg (blockPos + 8 + startRow * elementSize)] else []) ++
          [IOEvent.read (blockPos + 8 + startRow * elementSize) (length * elementSize)] := by
  have e1 : u32 (elementSize * startRow) = startRow * elementSize := by
    rw [Nat.mul_comm]; exact u32_of_lt hs
  have e2 : u32 (elementSize * length) = length * elementSize := by
    rw [Nat.mul_comm]; exact u32_of_lt hl
  have e3 : u64 (blockPos + startRow * elementSize + 8) = blockPos + 8 + startRow * elementSize := by
    rw [u64_of_lt (by omega)]; omega
  unfold readUncompressed
  simp only [e1, e2, COL_META_SIZE_V1, e3]
  by_cases h : 0 < startRow
  · simp [h]
  · have h0 : startRow = 0 := by omega
    subst h0
    simp [hp]

/-- C3 (amended): for a column whose header at `blockPos` is `(0, 0)` and a
window with `startRow + length ≤ size`, `startRow * elementSize < 2^32`,
`length * elementSize < 2^32` and the seek offset below `2^64`,
`fdsReadColumn_v1` returns, the output holds at `[0, length * elementSize)` the
file bytes that start at `blockPos + 8 + startRow * elementSize`, every other
byte of the output is unchanged, and the only stream calls after the header
read are the seek (when `startRow > 0`) and one read of
`length * elementSize` bytes at that offset; `length = 0` is included. -/
theorem uncompressed_read (codec : Codec) (srcRep tgtRep : Nat → Nat) (file : File)
    (s : Reader) (blockPos startRow length size elementSize : Nat)
    (h0 : header0 file blockPos = 0) (h1 : header1 file blockPos = 0)
    (_hrange : startRow + length ≤ size)
    (hs : startRow * elementSize < 2 ^ 32) (hl : length * elementSize < 2 ^ 32)
    (hpos : blockPos + 8 + startRow * elementSize < 2 ^ 64) :
    ∃ r, fdsReadColumn_v1 codec srcRep tgtRep file s blockPos startRow length size elementSize =
        Except.ok r ∧
      (∀ i : Nat, i < length * elementSize →
        r.out i = file (blockPos + 8 + startRow * elementSize + i)) ∧
      (∀ a : Int, (a < 0 ∨ ((length * elementSize : Nat) : Int) ≤ a) → r.out a = s.out a) ∧
      r.log = s.log ++ [IOEvent.seekg blockPos, IOEvent.read blockPos 8] ++
        (if 0 < startRow then [IOEvent.seekg (blockPos + 8 + startRow * elementSize)] else []) ++
        [IOEvent.read (blockPos + 8 + startRow * elementSize) (length * elementSize)] := by
  have hx := readUncompressed_exact file (afterHeader file s blockPos) blockPos startRow length
    elementSize hs hl hpos rfl
  refine ⟨readUncompressed file (afterHeader file s blockPos) blockPos startRow length
    elementSize, ?_, ?_, ?_, ?_⟩
  · rw [fdsReadColumn_v1_eq]; simp [h0, h1]
  · intro i hi
    rw [hx.1, fill_inside _ _ _ _ _ _ (by omega)]
    congr 1
  · intro a ha
    rw [hx.1, fill_outside _ _ _ _ _ _ (by omega), afterHeader_out]
  · rw [hx.2, afterHeader_log]

/-- Witness for C3 (amended): ten doubles 0.0 .. 9.0, read `(3, 4)` gives the 32
bytes of 3.0, 4.0, 5.0, 6.0. -/
theorem uncompressed_read_witness :
    ∃ r, fdsReadColumn_v1 rawCodec noTable noTable tenDoubles reader0 0 3 4 10 8 = Except.ok r ∧
      (List.range 32).map (fun i => r.out (i : Int)) =
        [0, 0, 0, 0, 0, 0, 0x08, 0x40, 0, 0, 0, 0, 0, 0, 0x10, 0x40,
         0, 0, 0, 0, 0, 0, 0x14, 0x40, 0, 0, 0, 0, 0, 0, 0x18, 0x40] := by
  obtain ⟨r, hr, hout, -, -⟩ := uncompressed_read rawCodec noTable noTable tenDoubles reader0
    0 3 4 10 8 (by decide) (by decide) (by decide) (by decide) (by decide) (by decide)
  refine ⟨r, hr, ?_⟩
  have h : ∀ i : Nat, i < 32 → r.out (i : Int) = tenDoubles (32 + i) := by
    intro i hi
    have := hout i (by omega)
    simpa using this
  have hmap : (List.range 32).map (fun i => r.out (i : Int)) =
      (List.range 32).map (fun i => tenDoubles (32 + i)) :=
    List.map_congr_left (fun i hi => h i (List.mem_range.1 hi))
  rw [hmap]
  decide

/-- C3 as stated fails: with `elementSize = 8`, `startRow = 0` and
`length = 2^29` the 32-bit product `elementSize * length` is 0, so nothing is
read and the first output byte is not the first payload byte. -/
theorem uncompressed_read_counterexample :
    header0 bigRawFile 0 = 0 ∧ header1 bigRawFile 0 = 0 ∧
    0 + 2 ^ 29 ≤ 2 ^ 29 ∧ 0 * 8 < 2 ^ 32 ∧
    returned (fdsReadColumn_v1 rawCodec noTable noTable bigRawFile reader0 0 0 (2 ^ 29) (2 ^ 29) 8)
      = true ∧
    outputOf reader0
        (fdsReadColumn_v1 rawCodec noTable noTable bigRawFile reader0 0 0 (2 ^ 29) (2 ^ 29) 8) 0
      ≠ bigRawFile (0 + 8 + 0 * 8 + 0) ∧
    logOf (fdsReadColumn_v1 rawCodec noTable noTable bigRawFile reader0 0 0 (2 ^ 29) (2 ^ 29) 8)
      = [IOEvent.seekg 0, IOEvent.read 0 8, IOEvent.read 8 0] := by
  decide!

/-! ## Variable-ratio path: the block-index read -/

theorem i32_ten_mul {n : Nat} (h : 10 * n < 2 ^ 31) : i32 (10 * (n : Int)) = 10 * (n : Int) := by
  unfold i32; omega

theorem indexSize_exact {sb eb : Nat} (h : sb ≤ eb) (h2 : 10 * (eb + 2) < 2 ^ 31) :
    i32 ((2 + (eb : Int) - sb) * 10) = ((10 * (eb - sb + 2) : Nat) : Int) := by
  unfold i32; omega

theorem indexSeek_exact {blockPos sb : Nat} (h : blockPos + 8 + 10 * sb < 2 ^ 64) :
    u64OfInt ((blockPos : Int) + (COL_META_SIZE_V1 : Nat) + 10 * (sb : Int))
      = blockPos + 8 + 10 * sb := by
  unfold u64OfInt COL_META_SIZE_V1; omega

theorem u32OfInt_pred {n : Nat} (h0 : 1 ≤ n) (h : n < 2 ^ 32 + 1) :
    u32OfInt ((n : Int) - 1) = n - 1 := by
  unfold u32OfInt; omega

theorem u32OfInt_add_pred {a b : Nat} (h0 : 1 ≤ b) (h : a + b < 2 ^ 32 + 1) :
    u32OfInt ((a : Int) + b - 1) = a + b - 1 := by
  unfold u32OfInt; omega

@[simp] theorem afterIndex_pos (s : Reader) (blockPos sb eb : Nat) :
    (afterIndex s blockPos sb eb).pos = blockPos + 8 + 10 * (eb + 2) := rfl

@[simp] theorem afterIndex_out (s : Reader) (blockPos sb eb : Nat) :
    (afterIndex s blockPos sb eb).out = s.out := rfl

@[simp] theorem afterIndex_tmp (s : Reader) (blockPos sb eb : Nat) :
    (afterIndex s blockPos sb eb).tmp = s.tmp := rfl

@[simp] theorem afterIndex_log (s : Reader) (blockPos sb eb : Nat) :
    (afterIndex s blockPos sb eb).log = s.log ++
      (if 0 < sb then [IOEvent.seekg (blockPos + 8 + 10 * sb)] else []) ++
      [IOEvent.read (blockPos + 8 + 10 * sb) (10 * (eb - sb + 2))] := rfl

theorem Reader.ext_fields {a b : Reader} (h1 : a.pos = b.pos) (h2 : a.out = b.out)
    (h3 : a.tmp = b.tmp) (h4 : a.log = b.log) (h5 : a.writes = b.writes) (h6 : a.ub = b.ub) :
    a = b := by
  cases a; cases b; simp_all

/-- With `length ≥ 1`, `startRow + length ≤ size < 2^32` and the index
arithmetic inside the `int` range, the reader does not fail, reads the index
entries `startBlock .. endBlock + 1` at `blockPos + 8 + 10 * startBlock` and
continues with `readBlocks` on these bytes. -/
theorem readVariable_index (codec : Codec) (file : File) (s : Reader)
    (blockPos startRow length size e B : Nat) (hB : 1 ≤ B)
    (hlen : 1 ≤ length) (hN : startRow + length ≤ size) (hsz : size < 2 ^ 32)
    (hidx : 10 * ((startRow + length - 1) / B + 2) < 2 ^ 31)
    (hpos : blockPos + 8 + 10 * (startRow / B) < 2 ^ 64)
    (hp : s.pos = blockPos + 8) :
    readVariable codec file s blockPos startRow length size e B =
      Except.ok (readBlocks codec file
        (afterIndex s blockPos (startRow / B) ((startRow + length - 1) / B))
        (readBytes file (blockPos + 8 + 10 * (startRow / B))
          (10 * ((startRow + length - 1) / B - startRow / B + 2)))
        blockPos startRow length size e B
        (i32 ((1 + (size - 1) / B : Nat) : Int))
        ((startRow / B : Nat) : Int) (((startRow + length - 1) / B : Nat) : Int)
        (i32 ((startRow % B : Nat) : Int))) := by
  have hsbeb : startRow / B ≤ (startRow + length - 1) / B := Nat.div_le_div_right (by omega)
  have h10 : 10 * (startRow / B) < 2 ^ 31 := by omega
  have hsb31 : startRow / B < 2 ^ 31 := by omega
  have heb31 : (startRow + length - 1) / B < 2 ^ 31 := by omega
  have hsz1 : 1 ≤ size := by omega
  have hsz2 : size < 2 ^ 32 + 1 := by omega
  have hsl : startRow + length < 2 ^ 32 + 1 := by omega
  have e1 : u32OfInt ((size : Int) - 1) = size - 1 := u32OfInt_pred hsz1 hsz2
  have e2 : u32OfInt ((startRow : Int) + length - 1) = startRow + length - 1 :=
    u32OfInt_add_pred hlen hsl
  have hB0 : ¬ (B = 0) := by omega
  unfold readVariable nrOfBlocks
  rw [if_neg hB0]
  dsimp only
  rw [e1, e2]
  clear e1 e2 hsz1 hsz2 hsl hN hsz hlen hB0 hB
  generalize i32 ((startRow % B : Nat) : Int) = so
  generalize i32 ((1 + (size - 1) / B : Nat) : Int) = nb
  generalize startRow / B = sb at *
  generalize (startRow + length - 1) / B = eb at *
  have hnn : ¬ (((10 * (eb - sb + 2) : Nat) : Int) < 0) := by omega
  rw [i32_natCast hsb31, i32_natCast heb31, i32_ten_mul h10, indexSize_exact hsbeb hidx,
    indexSeek_exact hpos, if_neg hnn]
  simp only [Int.toNat_ofNat]
  by_cases h0 : 0 < sb
  · have h0' : (0 : Int) < (sb : Int) := by omega
    have hX : ((s.seekg (blockPos + 8 + 10 * sb)).readBuf file (10 * (eb - sb + 2))).2
        = afterIndex s blockPos sb eb := by
      apply Reader.ext_fields
      · rw [readBuf_pos, seekg_pos, afterIndex_pos]; omega
      · rfl
      · rfl
      · rw [readBuf_log, seekg_log, seekg_pos, afterIndex_log, if_pos h0]
      · rfl
      · rfl
    rw [if_pos h0', hX, readBuf_fst, seekg_pos]
  · have h0' : ¬ (0 : Int) < (sb : Int) := by omega
    have hz : sb = 0 := by omega
    have hX : (s.readBuf file (10 * (eb - sb + 2))).2 = afterIndex s blockPos sb eb := by
      apply Reader.ext_fields
      · rw [readBuf_pos, afterIndex_pos, hp]; omega
      · rfl
      · rfl
      · rw [readBuf_log, afterIndex_log, if_neg h0, hp, hz]; simp
      · rfl
      · rfl
    rw [if_neg h0', hX, readBuf_fst, hp, hz]


/-! ## Variable-ratio path: index entries and the log of stream calls -/

/-- Entry `j` of the index buffer read at entry `sb` is index entry `sb + j`
of the column. -/
theorem blockIndex_entry (file : File) (blockPos sb n j : Nat) (h : j < n) :
    le64 (readBytes file (blockPos + 8 + 10 * sb) (10 * n)) ((10 * j : Nat) : Int)
      = entryOffset file blockPos (sb + j) ∧
    le16 (readBytes file (blockPos + 8 + 10 * sb) (10 * n)) ((10 * j + 8 : Nat) : Int)
      = entryAlgo file blockPos (sb + j) := by
  constructor
  · have h1 := leAt_readBytes file (blockPos + 8 + 10 * sb) (10 * n) 8 (10 * j) (by omega)
    have h2 : blockPos + 8 + 10 * sb + 10 * j = blockPos + 8 + 10 * (sb + j) := by omega
    unfold le64 entryOffset
    rw [h1, h2]
  · have h1 := leAt_readBytes file (blockPos + 8 + 10 * sb) (10 * n) 2 (10 * j + 8) (by omega)
    have h2 : blockPos + 8 + 10 * sb + (10 * j + 8) = blockPos + 8 + 10 * (sb + j) + 8 := by
      omega
    unfold le16 entryAlgo
    rw [h1, h2]

theorem entryOffset_lt (file : File) (blockPos k : Nat) : entryOffset file blockPos k < 2 ^ 64 := by
  have := leFile_lt file (blockPos + 8 + 10 * k) 8
  unfold entryOffset
  omega

theorem header1_lt (file : File) (blockPos : Nat) : header1 file blockPos < 2 ^ 32 := by
  have := leFile_lt file (blockPos + 4) 4
  unfold header1
  omega

/-- The 64-bit difference of two offsets. -/
theorem u64OfInt_sub {a b : Nat} (ha : a < 2 ^ 64) (hb : b < 2 ^ 64) :
    u64OfInt ((a : Int) - b) = (a + 2 ^ 64 - b) % 2 ^ 64 := by
  unfold u64OfInt; omega

theorem u64OfInt_sub_of_le {a b : Nat} (ha : a < 2 ^ 64) (hb : b ≤ a) :
    u64OfInt ((a : Int) - b) = a - b := by
  unfold u64OfInt; omega

theorem readSingleBlock_log (codec : Codec) (file : File) (s : Reader)
    (blockPos length size e B : Nat) (nb sb so : Int) (pStart compSize algo : Nat) :
    (readSingleBlock codec file s blockPos length size e B nb sb so pStart compSize algo).log =
      s.log ++ [IOEvent.seekg (firstSeek blockPos e so pStart algo),
        IOEvent.read (firstSeek blockPos e so pStart algo)
          (if algo = 0 then u32 (length * e) else compSize)] := by
  unfold readSingleBlock firstSeek
  by_cases h : algo = 0
  · simp [h]
  · simp only [h, if_false]
    split_ifs <;> simp

theorem readFirstBlock_log (codec : Codec) (file : File) (s : Reader)
    (blockPos e : Nat) (blockSize so subBlockSize : Int) (pStart compSize algo : Nat) :
    (readFirstBlock codec file s blockPos e blockSize so subBlockSize pStart compSize algo).log =
      s.log ++ [IOEvent.seekg (firstSeek blockPos e so pStart algo),
        IOEvent.read (firstSeek blockPos e so pStart algo)
          (if algo = 0 then (i32 (e * subBlockSize)).toNat else compSize)] := by
  unfold readFirstBlock firstSeek
  by_cases h : algo = 0
  · simp [h]
  · simp only [h, if_false]
    split <;> simp

theorem middleBlock_log (codec : Codec) (file : File) (blockIndex : List UInt8) (blockSize : Int)
    (blockCount : Int) (m : MidState) :
    ∃ n, (middleBlock codec file blockIndex blockSize blockCount m).rd.log =
      m.rd.log ++ [IOEvent.read m.rd.pos n] := by
  simp only [middleBlock]
  split
  · exact ⟨_, rfl⟩
  · exact ⟨_, rfl⟩

theorem middleBlocks_log (codec : Codec) (file : File) (blockIndex : List UInt8) (blockSize : Int)
    (n : Nat) : ∀ (blockCount : Int) (m : MidState),
    ∃ rest, (middleBlocks codec file blockIndex blockSize n blockCount m).rd.log =
      m.rd.log ++ rest := by
  induction n with
  | zero => intro bc m; exact ⟨[], by simp [middleBlocks]⟩
  | succ n ih =>
    intro bc m
    obtain ⟨k, hk⟩ := middleBlock_log codec file blockIndex blockSize bc m
    obtain ⟨rest, hrest⟩ := ih (bc + 1) (middleBlock codec file blockIndex blockSize bc m)
    refine ⟨[IOEvent.read m.rd.pos k] ++ rest, ?_⟩
    rw [middleBlocks, hrest, hk, List.append_assoc]

theorem readLastBlock_log (codec : Codec) (file : File) (blockIndex : List UInt8)
    (size e B : Nat) (nb endBlock maxBlock remain : Int) (m : MidState) :
    ∃ n, (readLastBlock codec file blockIndex size e B nb endBlock maxBlock remain m).log =
      m.rd.log ++ [IOEvent.read m.rd.pos n] := by
  simp only [readLastBlock]
  split_ifs <;> exact ⟨_, rfl⟩

theorem readRest_log (codec : Codec) (file : File) (s : Reader) (blockIndex : List UInt8)
    (startRow length size e B : Nat) (nb sb eb blockSize subBlockSize : Int) (pEnd : Nat) :
    ∃ rest, (readRest codec file s blockIndex startRow length size e B nb sb eb blockSize
      subBlockSize pEnd).log = s.log ++ rest := by
  simp only [readRest]
  generalize i32 ((u32 (startRow + length) % B : Nat) : Int) = remain
  generalize (if remain = 0 then i32 (eb + 1) else eb) = eb2
  generalize i32 (eb2 - sb) = maxBlock
  obtain ⟨rest, hrest⟩ := middleBlocks_log codec file blockIndex blockSize (maxBlock - 1).toNat 1
    { blockPEnd := pEnd, outOffset := i32 (subBlockSize * e), rd := s }
  by_cases h : remain = 0
  · rw [if_pos h]
    exact ⟨rest, hrest⟩
  · rw [if_neg h]
    obtain ⟨k, hk⟩ := readLastBlock_log codec file blockIndex size e B nb eb2 maxBlock remain
      (middleBlocks codec file blockIndex blockSize (maxBlock - 1).toNat 1
        { blockPEnd := pEnd, outOffset := i32 (subBlockSize * e), rd := s })
    rw [hk, hrest]
    exact ⟨rest ++ [IOEvent.read _ k], by rw [List.append_assoc]⟩

/-- Stream calls of the payload phase: one seek, to `firstSeek`, then reads
only; the first read is at the seek position and, for a compressed first
block, asks for the 64-bit difference of the first two offsets of the index
buffer. -/
theorem readBlocks_log (codec : Codec) (file : File) (s : Reader) (blockIndex : List UInt8)
    (blockPos startRow length size e B : Nat) (nb sb eb so : Int) :
    ∃ (p n : Nat) (rest : List IOEvent),
      (readBlocks codec file s blockIndex blockPos startRow length size e B nb sb eb so).log =
        s.log ++ [IOEvent.seekg p, IOEvent.read p n] ++ rest ∧
      p = firstSeek blockPos e so (le64 blockIndex 0) (le16 blockIndex 8) ∧
      (le16 blockIndex 8 ≠ 0 →
        n = u64OfInt ((le64 blockIndex 10 : Int) - le64 blockIndex 0)) := by
  simp only [readBlocks]
  by_cases h : sb = eb
  · rw [if_pos h, readSingleBlock_log]
    exact ⟨_, _, [], by rw [List.append_nil], rfl, fun h0 => if_neg h0⟩
  · rw [if_neg h]
    obtain ⟨rest, hrest⟩ := readRest_log codec file
      (readFirstBlock codec file s blockPos e (i32 (↑e * ↑B)) so (i32 (↑B - so))
        (le64 blockIndex 0) (u64OfInt (↑(le64 blockIndex 10) - ↑(le64 blockIndex 0)))
        (le16 blockIndex 8))
      blockIndex startRow length size e B nb sb eb (i32 (↑e * ↑B)) (i32 (↑B - so))
      (le64 blockIndex 10)
    rw [hrest, readFirstBlock_log]
    exact ⟨_, _, rest, rfl, rfl, fun h0 => if_neg h0⟩


/-! ## Variable-ratio path: up to the first payload read -/

/-- Everything `fdsReadColumn_v1` does on a variable-ratio column up to the
first payload read, when the index arithmetic is exact. -/
theorem variable_read_start (codec : Codec) (srcRep tgtRep : Nat → Nat) (file : File)
    (s : Reader) (blockPos startRow length size e B : Nat)
    (h0 : header0 file blockPos ≠ 0) (h1 : header1 file blockPos = B) (hB : 1 ≤ B)
    (hlen : 1 ≤ length) (hN : startRow + length ≤ size) (hsz : size < 2 ^ 32)
    (hidx : 10 * ((startRow + length - 1) / B + 2) < 2 ^ 31)
    (hpos : blockPos + 8 + 10 * (startRow / B) < 2 ^ 64) :
    fdsReadColumn_v1 codec srcRep tgtRep file s blockPos startRow length size e =
      Except.ok (readBlocks codec file
        (afterIndex (afterHeader file s blockPos) blockPos (startRow / B)
          ((startRow + length - 1) / B))
        (readBytes file (blockPos + 8 + 10 * (startRow / B))
          (10 * ((startRow + length - 1) / B - startRow / B + 2)))
        blockPos startRow length size e B
        (i32 ((1 + (size - 1) / B : Nat) : Int))
        ((startRow / B : Nat) : Int) (((startRow + length - 1) / B : Nat) : Int)
        (i32 ((startRow % B : Nat) : Int))) := by
  rw [fdsReadColumn_v1_eq, if_neg h0, h1]
  exact readVariable_index codec file (afterHeader file s blockPos) blockPos startRow length size
    e B hB hlen hN hsz hidx hpos (afterHeader_pos file s blockPos)

/-! ## C8: position of the first payload read -/

theorem i32_mul_i32 {e so : Nat} (h : e * so < 2 ^ 31) :
    i32 ((e : Int) * i32 (so : Int)) = ((e * so : Nat) : Int) := by
  rcases Nat.eq_zero_or_pos e with he | he
  · subst he
    rw [Nat.zero_mul]
    have h0 : ((0 : Nat) : Int) * i32 (so : Int) = ((0 : Nat) : Int) := by
      rw [Int.natCast_zero, Int.zero_mul]
    rw [h0]
    exact i32_natCast (by omega)
  · have hso : so ≤ e * so := Nat.le_mul_of_pos_left so he
    rw [i32_natCast (by omega), ← Int.natCast_mul]
    exact i32_natCast h

theorem u64OfInt_add3 (a b c : Nat) :
    u64OfInt ((a : Int) + (b : Int) + ((c : Nat) : Int)) = (a + b + c) % 2 ^ 64 := by
  unfold u64OfInt; omega

/-- The seek position of the first payload read without the 32-bit wrappers. -/
theorem firstSeek_exact (blockPos e so pStart algo : Nat)
    (hso : algo = 0 → e * so < 2 ^ 31) :
    firstSeek blockPos e (i32 (so : Int)) pStart algo =
      (blockPos + pStart + (if algo = 0 then e * so else 0)) % 2 ^ 64 := by
  unfold firstSeek
  by_cases h : algo = 0
  · rw [if_pos h, if_pos h, i32_mul_i32 (hso h), u64OfInt_add3]
  · rw [if_neg h, if_neg h, Nat.add_zero]
    unfold u64
    rfl

/-- The first two entries of the index buffer are the index entries of
`startBlock` and `startBlock + 1`. -/
theorem blockIndex_head (file : File) (blockPos sb n : Nat) :
    le64 (readBytes file (blockPos + 8 + 10 * sb) (10 * (n + 2))) 0
      = entryOffset file blockPos sb ∧
    le16 (readBytes file (blockPos + 8 + 10 * sb) (10 * (n + 2))) 8
      = entryAlgo file blockPos sb ∧
    le64 (readBytes file (blockPos + 8 + 10 * sb) (10 * (n + 2))) 10
      = entryOffset file blockPos (sb + 1) := by
  have h0 := blockIndex_entry file blockPos sb (n + 2) 0 (by omega)
  have h1 := blockIndex_entry file blockPos sb (n + 2) 1 (by omega)
  exact ⟨h0.1, h0.2, h1.1⟩

/-- Stream calls of a variable-ratio read up to the first payload read, in
terms of the index entries stored in the file. -/
theorem variable_read_log (codec : Codec) (srcRep tgtRep : Nat → Nat) (file : File)
    (s : Reader) (blockPos startRow length size e B : Nat)
    (h0 : header0 file blockPos ≠ 0) (h1 : header1 file blockPos = B) (hB : 1 ≤ B)
    (hlen : 1 ≤ length) (hN : startRow + length ≤ size) (hsz : size < 2 ^ 32)
    (hidx : 10 * ((startRow + length - 1) / B + 2) < 2 ^ 31)
    (hpos : blockPos + 8 + 10 * (startRow / B) < 2 ^ 64)
    (hso : entryAlgo file blockPos (startRow / B) = 0 → e * (startRow % B) < 2 ^ 31) :
    ∃ (r : Reader) (n : Nat) (rest : List IOEvent),
      fdsReadColumn_v1 codec srcRep tgtRep file s blockPos startRow length size e = Except.ok r ∧
      r.log = s.log ++ [IOEvent.seekg blockPos, IOEvent.read blockPos 8] ++
        (if 0 < startRow / B then [IOEvent.seekg (blockPos + 8 + 10 * (startRow / B))] else []) ++
        [IOEvent.read (blockPos + 8 + 10 * (startRow / B))
          (10 * ((startRow + length - 1) / B - startRow / B + 2))] ++
        [IOEvent.seekg ((blockPos + entryOffset file blockPos (startRow / B) +
            (if entryAlgo file blockPos (startRow / B) = 0 then e * (startRow % B) else 0))
            % 2 ^ 64),
          IOEvent.read ((blockPos + entryOffset file blockPos (startRow / B) +
            (if entryAlgo file blockPos (startRow / B) = 0 then e * (startRow % B) else 0))
            % 2 ^ 64) n] ++ rest ∧
      (entryAlgo file blockPos (startRow / B) ≠ 0 →
        n = (entryOffset file blockPos (startRow / B + 1) + 2 ^ 64
              - entryOffset file blockPos (startRow / B)) % 2 ^ 64) := by
  have hstart := variable_read_start codec srcRep tgtRep file s blockPos startRow length size e B
    h0 h1 hB hlen hN hsz hidx hpos
  obtain ⟨p, n, rest, hlog, hp, hn⟩ := readBlocks_log codec file
    (afterIndex (afterHeader file s blockPos) blockPos (startRow / B)
      ((startRow + length - 1) / B))
    (readBytes file (blockPos + 8 + 10 * (startRow / B))
      (10 * ((startRow + length - 1) / B - startRow / B + 2)))
    blockPos startRow length size e B
    (i32 ((1 + (size - 1) / B : Nat) : Int))
    ((startRow / B : Nat) : Int) (((startRow + length - 1) / B : Nat) : Int)
    (i32 ((startRow % B : Nat) : Int))
  obtain ⟨e0, e8, e10⟩ := blockIndex_head file blockPos (startRow / B)
    ((startRow + length - 1) / B - startRow / B)
  rw [e0, e8, firstSeek_exact blockPos e (startRow % B) _ _ hso] at hp
  rw [e0, e8, e10, u64OfInt_sub (entryOffset_lt file blockPos _) (entryOffset_lt file blockPos _)]
    at hn
  refine ⟨_, n, rest, hstart, ?_, hn⟩
  rw [hlog, afterIndex_log, afterHeader_log, hp]

/-- C8 (amended): in a variable-ratio read (`length ≥ 1`,
`startRow + length ≤ size < 2^32`, index arithmetic exact) the reader starts
reading the payload of the first requested block at
`blockPos + index[startBlock].offset` when the block is compressed, and at
`blockPos + index[startBlock].offset + startOffset * elementSize` when its
algorithm id is 0 (with `startOffset * elementSize < 2^31`), both modulo
`2^64`: the stored offset is relative to the column start `blockPos`. -/
theorem first_payload_position (codec : Codec) (srcRep tgtRep : Nat → Nat) (file : File)
    (s : Reader) (blockPos startRow length size e B : Nat)
    (h0 : header0 file blockPos ≠ 0) (h1 : header1 file blockPos = B) (hB : 1 ≤ B)
    (hlen : 1 ≤ length) (hN : startRow + length ≤ size) (hsz : size < 2 ^ 32)
    (hidx : 10 * ((startRow + length - 1) / B + 2) < 2 ^ 31)
    (hpos : blockPos + 8 + 10 * (startRow / B) < 2 ^ 64)
    (hso : entryAlgo file blockPos (startRow / B) = 0 → e * (startRow % B) < 2 ^ 31) :
    ∃ (r : Reader) (before : List IOEvent) (n : Nat) (rest : List IOEvent),
      fdsReadColumn_v1 codec srcRep tgtRep file s blockPos startRow length size e = Except.ok r ∧
      before = s.log ++ [IOEvent.seekg blockPos, IOEvent.read blockPos 8] ++
        (if 0 < startRow / B then [IOEvent.seekg (blockPos + 8 + 10 * (startRow / B))] else []) ++
        [IOEvent.read (blockPos + 8 + 10 * (startRow / B))
          (10 * ((startRow + length - 1) / B - startRow / B + 2))] ∧
      (entryAlgo file blockPos (startRow / B) ≠ 0 →
        r.log = before ++
          [IOEvent.seekg ((blockPos + entryOffset file blockPos (startRow / B)) % 2 ^ 64),
           IOEvent.read ((blockPos + entryOffset file blockPos (startRow / B)) % 2 ^ 64) n]
          ++ rest) ∧
      (entryAlgo file blockPos (startRow / B) = 0 →
        r.log = before ++
          [IOEvent.seekg ((blockPos + entryOffset file blockPos (startRow / B)
              + e * (startRow % B)) % 2 ^ 64),
           IOEvent.read ((blockPos + entryOffset file blockPos (startRow / B)
              + e * (startRow % B)) % 2 ^ 64) n]
          ++ rest) := by
  obtain ⟨r, n, rest, hr, hlog, -⟩ := variable_read_log codec srcRep tgtRep file s blockPos
    startRow length size e B h0 h1 hB hlen hN hsz hidx hpos hso
  refine ⟨r, _, n, rest, hr, rfl, ?_, ?_⟩
  · intro ha
    rw [hlog, if_neg ha]
    simp only [Nat.add_zero]
  · intro ha
    rw [hlog, if_pos ha]

/-- Witness for C8 (amended): the demo column sits at offset 3; the window
`(5, 2)` starts in block 1, stored raw with relative offset `0x40`, one element
in: the first payload read is at `3 + 64 + 4 = 71`. -/
theorem first_payload_position_witness :
    entryAlgo demoColumn 3 (5 / 4) = 0 ∧ entryOffset demoColumn 3 (5 / 4) = 64 ∧
    ∃ (r : Reader) (before : List IOEvent) (n : Nat) (rest : List IOEvent),
      fdsReadColumn_v1 xorCodec noTable noTable demoColumn reader0 3 5 2 10 4 = Except.ok r ∧
      r.log = before ++ [IOEvent.seekg ((3 + 64 + 4 * (5 % 4)) % 2 ^ 64),
        IOEvent.read ((3 + 64 + 4 * (5 % 4)) % 2 ^ 64) n] ++ rest := by
  obtain ⟨r, before, n, rest, h1, -, -, h4⟩ := first_payload_position xorCodec noTable noTable
    demoColumn reader0 3 5 2 10 4 4 (by decide) (by decide) (by decide) (by decide) (by decide)
    (by decide) (by decide) (by decide) (by decide)
  have ha : entryAlgo demoColumn 3 (5 / 4) = 0 := by decide
  have ho : entryOffset demoColumn 3 (5 / 4) = 64 := by decide
  refine ⟨ha, ho, r, before, n, rest, h1, ?_⟩
  have h5 := h4 ha
  rw [ho] at h5
  exact h5

/-- C8 as stated fails: for the demo column at `blockPos = 3` the offset stored
for the compressed block 0 is 48 and for the raw block 1 it is 64, but the
reader seeks to 51 for the window `(0, 4)` and to 71 for the window `(5, 2)`:
`blockPos` is added to the stored offset. -/
theorem first_payload_position_counterexample :
    entryOffset demoColumn 3 0 = 48 ∧ entryAlgo demoColumn 3 0 ≠ 0 ∧
    logOf (fdsReadColumn_v1 xorCodec noTable noTable demoColumn reader0 3 0 4 10 4)
      = [IOEvent.seekg 3, IOEvent.read 3 8, IOEvent.read 11 20,
         IOEvent.seekg 51, IOEvent.read 51 16] ∧
    entryOffset demoColumn 3 1 = 64 ∧ entryAlgo demoColumn 3 1 = 0 ∧
    logOf (fdsReadColumn_v1 xorCodec noTable noTable demoColumn reader0 3 5 2 10 4)
      = [IOEvent.seekg 3, IOEvent.read 3 8, IOEvent.seekg 21, IOEvent.read 21 20,
         IOEvent.seekg 71, IOEvent.read 71 8] := by
  decide!

/-! ## C9: the block-index window -/

/-- C7 (amended): `fdsReadColumn_v1` has no check of the block index. In a
variable-ratio read (`length ≥ 1`, `startRow + length ≤ size < 2^32`, index
arithmetic exact) whose first block is compressed and has
`index[k+1].offset < index[k].offset`, the call returns normally and the
reader asks the stream for `index[k+1].offset + 2^64 - index[k].offset` bytes
at `blockPos + index[k].offset`: the 64-bit difference of the two offsets is
used as the compressed size. -/
theorem corrupt_index_not_rejected (codec : Codec) (srcRep tgtRep : Nat → Nat) (file : File)
    (s : Reader) (blockPos startRow length size e B : Nat)
    (h0 : header0 file blockPos ≠ 0) (h1 : header1 file blockPos = B) (hB : 1 ≤ B)
    (hlen : 1 ≤ length) (hN : startRow + length ≤ size) (hsz : size < 2 ^ 32)
    (hidx : 10 * ((startRow + length - 1) / B + 2) < 2 ^ 31)
    (hpos : blockPos + 8 + 10 * (startRow / B) < 2 ^ 64)
    (halgo : entryAlgo file blockPos (startRow / B) ≠ 0)
    (hbad : entryOffset file blockPos (startRow / B + 1) < entryOffset file blockPos (startRow / B)) :
    ∃ (r : Reader) (before rest : List IOEvent),
      fdsReadColumn_v1 codec srcRep tgtRep file s blockPos startRow length size e = Except.ok r ∧
      r.log = before ++
        [IOEvent.seekg ((blockPos + entryOffset file blockPos (startRow / B)) % 2 ^ 64),
         IOEvent.read ((blockPos + entryOffset file blockPos (startRow / B)) % 2 ^ 64)
           (entryOffset file blockPos (startRow / B + 1) + 2 ^ 64
             - entryOffset file blockPos (startRow / B))] ++ rest := by
  obtain ⟨r, n, rest, hr, hlog, hn⟩ := variable_read_log codec srcRep tgtRep file s blockPos
    startRow length size e B h0 h1 hB hlen hN hsz hidx hpos (fun h => absurd h halgo)
  have hlt := entryOffset_lt file blockPos (startRow / B)
  have hn2 : n = entryOffset file blockPos (startRow / B + 1) + 2 ^ 64
      - entryOffset file blockPos (startRow / B) := by
    rw [hn halgo]
    exact Nat.mod_eq_of_lt (by omega)
  refine ⟨r, s.log ++ [IOEvent.seekg blockPos, IOEvent.read blockPos 8] ++
    (if 0 < startRow / B then [IOEvent.seekg (blockPos + 8 + 10 * (startRow / B))] else []) ++
    [IOEvent.read (blockPos + 8 + 10 * (startRow / B))
      (10 * ((startRow + length - 1) / B - startRow / B + 2))], rest, hr, ?_⟩
  rw [hlog, if_neg halgo, hn2]
  simp only [Nat.add_zero]

/-- Witness for C7 (amended): in the corrupt column entry 1 has offset `0x20`,
below the `0x30` of entry 0; the window `(0, 4)` is read without an error. -/
theorem corrupt_index_not_rejected_witness :
    entryOffset corruptColumn 3 (0 / 4 + 1) < entryOffset corruptColumn 3 (0 / 4) ∧
    ∃ (r : Reader) (before rest : List IOEvent),
      fdsReadColumn_v1 xorCodec noTable noTable corruptColumn reader0 3 0 4 10 4 = Except.ok r ∧
      r.log = before ++
        [IOEvent.seekg ((3 + entryOffset corruptColumn 3 (0 / 4)) % 2 ^ 64),
         IOEvent.read ((3 + entryOffset corruptColumn 3 (0 / 4)) % 2 ^ 64)
           (entryOffset corruptColumn 3 (0 / 4 + 1) + 2 ^ 64
             - entryOffset corruptColumn 3 (0 / 4))] ++ rest :=
  ⟨by decide, corrupt_index_not_rejected xorCodec noTable noTable corruptColumn reader0
    3 0 4 10 4 4 (by decide) (by decide) (by decide) (by decide) (by decide) (by decide)
    (by decide) (by decide) (by decide) (by decide)⟩

/-- C7 as stated fails: the window `(0, 4)` covers block 0 of the corrupt
column, whose successor offset is smaller; the call returns normally, having
asked for `2^64 - 16` bytes of payload. -/
theorem corrupt_index_counterexample :
    header0 corruptColumn 3 ≠ 0 ∧
    entryOffset corruptColumn 3 1 < entryOffset corruptColumn 3 0 ∧
    returned (fdsReadColumn_v1 xorCodec noTable noTable corruptColumn reader0 3 0 4 10 4) = true ∧
    logOf (fdsReadColumn_v1 xorCodec noTable noTable corruptColumn reader0 3 0 4 10 4)
      = [IOEvent.seekg 3, IOEvent.read 3 8, IOEvent.read 11 20,
         IOEvent.seekg 51, IOEvent.read 51 (2 ^ 64 - 16)] := by
  decide!

/-! ## C6: zero-length reads -/

/-- C6, the code at failing inputs: on the demo column a read of length 0 at
row 3 reads two index entries (20 bytes at offset 11) and the 16 payload bytes
of block 0; a read of length 0 at row 0 computes `endBlock` from
`0 + 0 - 1 = 2^32 - 1`, an index size that is negative as an `int`, and fails
in `new char[..]`. -/
theorem zero_length_read_variable :
    header0 demoColumn 3 ≠ 0 ∧
    logOf (fdsReadColumn_v1 xorCodec noTable noTable demoColumn reader0 3 3 0 10 4)
      = [IOEvent.seekg 3, IOEvent.read 3 8, IOEvent.read 11 20,
         IOEvent.seekg 51, IOEvent.read 51 16] ∧
    fdsReadColumn_v1 xorCodec noTable noTable demoColumn reader0 3 0 0 10 4
      = Except.error Fault.badArrayNewLength ∧
    returned (fdsReadColumn_v1 xorCodec noTable noTable demoColumn reader0 3 0 0 10 4) = false := by
  refine ⟨by decide, by decide!, ?_, by decide!⟩
  rw [fdsReadColumn_v1_eq, if_neg (by decide)]
  simp only [readVariable]
  rw [if_neg (by decide), if_pos (by decide!)]

/-! ## C1: memory lemmas -/

theorem colBytes_length (col : Nat → UInt8) (c n : Nat) : (colBytes col c n).length = n := by
  simp [colBytes]

theorem colBytes_getD (col : Nat → UInt8) (c n i : Nat) (h : i < n) :
    (colBytes col c n).getD i 0 = col (c + i) := by
  simp [colBytes, List.getD_eq_getElem?_getD, List.getElem?_range h]

theorem Holds.zero (out : Mem) (col : Nat → UInt8) (c : Nat) : Holds out col c 0 :=
  fun _ h => absurd h (Nat.not_lt_zero _)

theorem Holds.fill {out : Mem} {col : Nat → UInt8} {c n : Nat} (h : Holds out col c n)
    (file : File) (p m : Nat) (hf : ∀ i, i < m → file (p + i) = col (c + n + i)) :
    Holds (fill out (n : Int) file p m) col c (n + m) := by
  intro i hi
  by_cases hin : i < n
  · rw [fill_outside _ _ _ _ _ _ (by omega)]
    exact h i hin
  · rw [fill_inside _ _ _ _ _ _ (by omega)]
    have h1 : ((i : Int) - (n : Int)).toNat = i - n := by omega
    rw [h1, hf (i - n) (by omega)]
    congr 1
    omega

theorem Holds.store {out : Mem} {col : Nat → UInt8} {c n : Nat} (h : Holds out col c n)
    (m : Nat) (bs : List UInt8) (hb : bs = colBytes col (c + n) m) :
    Holds (store out (n : Int) bs) col c (n + m) := by
  intro i hi
  have hl : bs.length = m := by rw [hb, colBytes_length]
  by_cases hin : i < n
  · rw [store_outside _ _ _ _ (by omega)]
    exact h i hin
  · rw [store_inside _ _ _ _ (by omega)]
    have h1 : ((i : Int) - (n : Int)).toNat = i - n := by omega
    rw [h1, hb, colBytes_getD _ _ _ _ (by omega)]
    congr 1
    omega

theorem Holds.copy {out : Mem} {col : Nat → UInt8} {c n : Nat} (h : Holds out col c n)
    (src : Mem) (sOff : Int) (m : Nat)
    (hs : ∀ i : Nat, i < m → src (sOff + (i : Int)) = col (c + n + i)) :
    Holds (copy out (n : Int) src sOff m) col c (n + m) := by
  intro i hi
  by_cases hin : i < n
  · rw [copy_outside _ _ _ _ _ _ (by omega)]
    exact h i hin
  · rw [copy_inside _ _ _ _ _ _ (by omega)]
    have h1 : (i : Int) - (n : Int) = ((i - n : Nat) : Int) := by omega
    rw [h1, hs (i - n) (by omega)]
    congr 1
    omega

theorem Holds.mono {out : Mem} {col : Nat → UInt8} {c n m : Nat} (h : Holds out col c n)
    (hm : m ≤ n) : Holds out col c m :=
  fun i hi => h i (by omega)

theorem i32_mul_cast {a b : Nat} (h : a * b < 2 ^ 31) :
    i32 ((a : Int) * (b : Int)) = ((a * b : Nat) : Int) := by
  rw [← Int.natCast_mul]
  exact i32_natCast h

theorem i32_sub_cast {a b : Nat} (hb : b ≤ a) (ha : a < 2 ^ 31) :
    i32 ((a : Int) - (b : Int)) = ((a - b : Nat) : Int) := by
  rw [← Int.ofNat_sub hb]
  exact i32_natCast (by omega)

theorem u64OfInt_add2 (a b : Nat) (h : a + b < 2 ^ 64) :
    u64OfInt ((a : Int) + (b : Int)) = a + b := by
  unfold u64OfInt; omega

/-! ## C1: the first block of a multi-block read -/

/-- Arithmetic of one block: the 32-bit quantities of a block of `B` elements
read from offset `so` are exact when a block has fewer than `2^31` bytes. -/
theorem block_exact {e B so : Nat} (he : 1 ≤ e) (hso : so ≤ B) (hblk : e * B < 2 ^ 31) :
    B < 2 ^ 31 ∧ e * so < 2 ^ 31 ∧ e * (B - so) < 2 ^ 31 ∧ e * so + e * (B - so) = e * B := by
  have h1 : B ≤ e * B := Nat.le_mul_of_pos_left B he
  have h2 : e * so ≤ e * B := Nat.mul_le_mul_left e hso
  have h3 : e * (B - so) ≤ e * B := Nat.mul_le_mul_left e (Nat.sub_le B so)
  have h4 : e * so + e * (B - so) = e * B := by
    rw [← Nat.mul_add, Nat.add_sub_cancel' hso]
  omega

theorem readFirstBlock_spec (codec : Codec) (file : File) (s : Reader) (col : Nat → UInt8)
    (bp e B so pStart pEnd algo c : Nat)
    (he : 1 ≤ e) (hso : so < B) (hblk : e * B < 2 ^ 31) (hend : bp + pEnd < 2 ^ 64)
    (hraw : algo = 0 → pEnd = pStart + e * B ∧
      ∀ i, i < e * B → file (bp + pStart + i) = col (c + i))
    (hcmp : algo ≠ 0 → pStart ≤ pEnd ∧
      codec algo (e * B) (readBytes file (bp + pStart) (pEnd - pStart)) = colBytes col c (e * B)) :
    (readFirstBlock codec file s bp e (i32 ((e : Int) * (B : Int))) (i32 (so : Int))
        (i32 ((B : Int) - i32 (so : Int))) pStart (u64OfInt ((pEnd : Int) - (pStart : Int)))
        algo).pos = bp + pEnd ∧
    Holds (readFirstBlock codec file s bp e (i32 ((e : Int) * (B : Int))) (i32 (so : Int))
        (i32 ((B : Int) - i32 (so : Int))) pStart (u64OfInt ((pEnd : Int) - (pStart : Int)))
        algo).out col (c + e * so) (e * (B - so)) := by
  obtain ⟨hB31, hso31, hsub31, hsum⟩ := block_exact he (Nat.le_of_lt hso) hblk
  have hso31' : so < 2 ^ 31 := by omega
  have hblk32 : e * B < 2 ^ 32 := by omega
  have hsub64 : e * (B - so) < 2 ^ 64 := by omega
  have e1 : i32 (so : Int) = (so : Int) := i32_natCast hso31'
  have e2 : i32 ((B : Int) - (so : Int)) = ((B - so : Nat) : Int) :=
    i32_sub_cast (Nat.le_of_lt hso) hB31
  have e3 : i32 ((e : Int) * ((B - so : Nat) : Int)) = ((e * (B - so) : Nat) : Int) :=
    i32_mul_cast hsub31
  have e4 : i32 ((e : Int) * (so : Int)) = ((e * so : Nat) : Int) := i32_mul_cast hso31
  have e5 : i32 ((e : Int) * (B : Int)) = ((e * B : Nat) : Int) := i32_mul_cast hblk
  have e6 : u32OfInt ((e * B : Nat) : Int) = e * B := u32OfInt_natCast hblk32
  have hu : u64OfInt ((e * (B - so) : Nat) : Int) = e * (B - so) := u64OfInt_natCast hsub64
  rw [e1, e2, e5]
  by_cases ha : algo = 0
  · obtain ⟨hpe, hfile⟩ := hraw ha
    have hP : u64OfInt ((bp : Int) + (pStart : Int) + ((e * so : Nat) : Int))
        = bp + pStart + e * so := by
      rw [u64OfInt_add3]
      clear e1 e2 e3 e4 e5 e6 hu
      exact Nat.mod_eq_of_lt (by omega)
    simp only [readFirstBlock, if_pos ha, e3, e4, hP, Int.toNat_ofNat, readOut_pos, seekg_pos,
      readOut_out, seekg_out]
    clear e1 e2 e3 e4 e5 e6 hu hP
    constructor
    · omega
    · have h0 := (Holds.zero s.out col (c + e * so)).fill file (bp + pStart + e * so) (e * (B - so))
        (by
          intro i hi
          exact (congrArg file (by omega)).trans
            ((hfile (e * so + i) (by omega)).trans (congrArg col (by omega))))
      rw [Nat.zero_add] at h0
      exact h0
  · obtain ⟨hle, hdec⟩ := hcmp ha
    have hP : u64 (bp + pStart) = bp + pStart := by
      clear e1 e2 e3 e4 e5 e6 hu
      exact u64_of_lt (by omega)
    have hC : u64OfInt ((pEnd : Int) - (pStart : Int)) = pEnd - pStart := by
      clear e1 e2 e3 e4 e5 e6 hu hP
      exact u64OfInt_sub_of_le (by omega) hle
    by_cases hz : so = 0
    · subst hz
      simp only [readFirstBlock, if_neg ha, hP, hC, e6, readBuf_pos, readBuf_fst, seekg_pos,
        readBuf_out, seekg_out, Int.natCast_zero, if_true, hdec]
      clear e1 e2 e3 e4 e5 e6 hu hP hC
      constructor
      · omega
      · have h0 := (Holds.zero s.out col (c + e * 0)).store (e * (B - 0)) (colBytes col c (e * B))
          (by simp)
        rw [Nat.zero_add] at h0
        exact h0
    · have hz' : ¬ ((so : Int) = 0) := by
        clear e1 e2 e3 e4 e5 e6 hu hP hC
        omega
      simp only [readFirstBlock, if_neg ha, hP, hC, e6, e3, e4, hu, readBuf_pos, readBuf_fst,
        seekg_pos, readBuf_out, readBuf_tmp, seekg_out, seekg_tmp, if_neg hz', hdec]
      clear e1 e2 e3 e4 e5 e6 hu hP hC
      constructor
      · omega
      · have ht : Holds (store s.tmp 0 (colBytes col c (e * B))) col c (e * B) := by
          have h0 := (Holds.zero s.tmp col c).store (e * B) (colBytes col c (e * B)) (by simp)
          rw [Nat.zero_add] at h0
          exact h0
        have h0 := (Holds.zero s.out col (c + e * so)).copy
          (store s.tmp 0 (colBytes col c (e * B))) ((e * so : Nat) : Int) (e * (B - so))
          (by
            intro i hi
            exact (congrArg _ (by omega)).trans
              ((ht (e * so + i) (by omega)).trans (congrArg col (by omega))))
        rw [Nat.zero_add] at h0
        exact h0

/-! ## C1: the middle blocks -/

theorem i32_index {k j : Nat} (h : k + 10 * j < 2 ^ 31) :
    i32 ((k : Int) + 10 * (j : Int)) = ((k + 10 * j : Nat) : Int) := by
  unfold i32; omega

theorem i32_add_cast {a b : Nat} (h : a + b < 2 ^ 31) :
    i32 ((a : Int) + (b : Int)) = ((a + b : Nat) : Int) := by
  unfold i32; omega

/-- One iteration of the middle-block loop on a full block whose payload starts
at the stream position: the block is appended to the output. -/
theorem middleBlock_spec (codec : Codec) (file : File) (col : Nat → UInt8)
    (blockIndex : List UInt8) (m : MidState) (bp e B j o c0 pStart pEnd algo : Nat)
    (hblk : e * B < 2 ^ 31) (hj : 10 + 10 * j < 2 ^ 31) (ho : o + e * B < 2 ^ 31)
    (hidx1 : le64 blockIndex ((10 + 10 * j : Nat) : Int) = pEnd)
    (hidx2 : le16 blockIndex ((8 + 10 * j : Nat) : Int) = algo)
    (hmp : m.blockPEnd = pStart) (hmpos : m.rd.pos = bp + pStart)
    (hmo : m.outOffset = (o : Int)) (hout : Holds m.rd.out col c0 o)
    (hend : bp + pEnd < 2 ^ 64)
    (hraw : algo = 0 → pEnd = pStart + e * B ∧
      ∀ i, i < e * B → file (bp + pStart + i) = col (c0 + o + i))
    (hcmp : algo ≠ 0 → pStart ≤ pEnd ∧
      codec algo (e * B) (readBytes file (bp + pStart) (pEnd - pStart))
        = colBytes col (c0 + o) (e * B)) :
    (middleBlock codec file blockIndex ((e * B : Nat) : Int) (j : Int) m).blockPEnd = pEnd ∧
    (middleBlock codec file blockIndex ((e * B : Nat) : Int) (j : Int) m).rd.pos = bp + pEnd ∧
    (middleBlock codec file blockIndex ((e * B : Nat) : Int) (j : Int) m).outOffset
      = ((o + e * B : Nat) : Int) ∧
    Holds (middleBlock codec file blockIndex ((e * B : Nat) : Int) (j : Int) m).rd.out col c0
      (o + e * B) := by
  have hj8 : 8 + 10 * j < 2 ^ 31 := by omega
  have hblk32 : e * B < 2 ^ 32 := by omega
  have i1 : i32 (10 + 10 * (j : Int)) = ((10 + 10 * j : Nat) : Int) := by
    have := @i32_index 10 j hj
    exact this
  have i2 : i32 (8 + 10 * (j : Int)) = ((8 + 10 * j : Nat) : Int) := by
    have := @i32_index 8 j hj8
    exact this
  have i3 : i32 ((o : Int) + ((e * B : Nat) : Int)) = ((o + e * B : Nat) : Int) := i32_add_cast ho
  have i4 : u32OfInt ((e * B : Nat) : Int) = e * B := u32OfInt_natCast hblk32
  by_cases ha : algo = 0
  · obtain ⟨hpe, hfile⟩ := hraw ha
    simp only [middleBlock, i1, i2, hidx1, hidx2, if_pos ha, hmo, i3, Int.toNat_ofNat,
      readOut_pos, readOut_out, hmpos]
    clear i1 i2 i3 i4
    refine ⟨trivial, by omega, trivial, ?_⟩
    exact hout.fill file (bp + pStart) (e * B) hfile
  · obtain ⟨hle, hdec⟩ := hcmp ha
    have hC : u64OfInt ((pEnd : Int) - (pStart : Int)) = pEnd - pStart := by
      clear i1 i2 i3 i4
      exact u64OfInt_sub_of_le (by omega) hle
    simp only [middleBlock, i1, i2, hidx1, hidx2, if_neg ha, hmo, i3, i4, hmp, hC,
      readBuf_pos, readBuf_out, readBuf_fst, hmpos, hdec]
    clear i1 i2 i3 i4 hC
    refine ⟨trivial, by omega, trivial, ?_⟩
    exact hout.store (e * B) _ rfl

theorem blockStart_succ (e k B : Nat) : e * ((k + 1) * B) = e * (k * B) + e * B := by ring

theorem blockElems_full {size B k : Nat} (h : (k + 1) * B ≤ size) : blockElems size B k = B := by
  unfold blockElems
  rw [if_pos h]

/-- The middle-block loop on `n` full blocks starting at block `sb + j`, whose
payload starts at the stream position: the blocks are appended to the
output. -/
theorem middleBlocks_spec (codec : Codec) (file : File) (col : Nat → UInt8)
    (bp size e B sb w sr : Nat) (hw : 10 * (w + 2) < 2 ^ 31) (hblk : e * B < 2 ^ 31) :
    ∀ (n j : Nat) (m : MidState) (o : Nat),
      1 ≤ j → j + n ≤ w + 1 → o + n * (e * B) < 2 ^ 31 →
      (∀ k, sb + j ≤ k → k < sb + j + n →
        (k + 1) * B ≤ size ∧ BlockStored codec file col bp size e B k) →
      m.blockPEnd = entryOffset file bp (sb + j) →
      m.rd.pos = bp + entryOffset file bp (sb + j) →
      m.outOffset = (o : Int) →
      Holds m.rd.out col (e * sr) o →
      e * sr + o = e * ((sb + j) * B) →
      (middleBlocks codec file (readBytes file (bp + 8 + 10 * sb) (10 * (w + 2)))
          ((e * B : Nat) : Int) n (j : Int) m).blockPEnd = entryOffset file bp (sb + j + n) ∧
      (middleBlocks codec file (readBytes file (bp + 8 + 10 * sb) (10 * (w + 2)))
          ((e * B : Nat) : Int) n (j : Int) m).rd.pos = bp + entryOffset file bp (sb + j + n) ∧
      (middleBlocks codec file (readBytes file (bp + 8 + 10 * sb) (10 * (w + 2)))
          ((e * B : Nat) : Int) n (j : Int) m).outOffset = ((o + n * (e * B) : Nat) : Int) ∧
      Holds (middleBlocks codec file (readBytes file (bp + 8 + 10 * sb) (10 * (w + 2)))
          ((e * B : Nat) : Int) n (j : Int) m).rd.out col (e * sr) (o + n * (e * B)) := by
  intro n
  induction n with
  | zero =>
    intro j m o _ _ _ _ h1 h2 h3 h4 _
    simp only [middleBlocks, Nat.add_zero, Nat.zero_mul]
    exact ⟨h1, h2, h3, h4⟩
  | succ n ih =>
    intro j m o hj hjn ho hblocks h1 h2 h3 h4 h5
    have hsm : (n + 1) * (e * B) = n * (e * B) + e * B := Nat.succ_mul n (e * B)
    obtain ⟨hfull, hend, hraw, hcmp⟩ := hblocks (sb + j) (Nat.le_refl _) (by omega)
    rw [blockElems_full hfull] at hraw hcmp
    have hi := blockIndex_entry file bp sb (w + 2) j (by omega)
    have hi' := blockIndex_entry file bp sb (w + 2) (j + 1) (by omega)
    have hc1 : ((10 + 10 * j : Nat) : Int) = ((10 * (j + 1) : Nat) : Int) := by
      congr 1
      omega
    have hc2 : ((8 + 10 * j : Nat) : Int) = ((10 * j + 8 : Nat) : Int) := by
      congr 1
      omega
    have hstep := middleBlock_spec codec file col
      (readBytes file (bp + 8 + 10 * sb) (10 * (w + 2))) m bp e B j o (e * sr)
      (entryOffset file bp (sb + j)) (entryOffset file bp (sb + j + 1))
      (entryAlgo file bp (sb + j)) hblk (by omega) (by omega)
      (by rw [hc1]; exact hi'.1) (by rw [hc2]; exact hi.2) h1 h2 h3 h4 hend
      (by
        intro ha
        obtain ⟨hr1, hr2⟩ := hraw ha
        refine ⟨hr1, ?_⟩
        intro i hi
        rw [hr2 i hi, h5])
      (by
        intro ha
        obtain ⟨hr1, hr2⟩ := hcmp ha
        refine ⟨hr1, ?_⟩
        rw [hr2, h5])
    obtain ⟨s1, s2, s3, s4⟩ := hstep
    have hcast : ((j : Int) + 1) = ((j + 1 : Nat) : Int) := by push_cast; rfl
    have hnext := ih (j + 1)
      (middleBlock codec file (readBytes file (bp + 8 + 10 * sb) (10 * (w + 2)))
        ((e * B : Nat) : Int) (j : Int) m)
      (o + e * B) (by omega) (by omega) (by omega)
      (by
        intro k hk1 hk2
        exact hblocks k (by omega) (by omega))
      s1 s2 s3 s4
      (by
        rw [← Nat.add_assoc sb j 1, blockStart_succ e (sb + j) B, ← h5, Nat.add_assoc])
    have ha1 : sb + (j + 1) + n = sb + j + (n + 1) := by omega
    have ha2 : o + e * B + n * (e * B) = o + (n + 1) * (e * B) := by omega
    rw [ha1, ha2] at hnext
    rw [middleBlocks, hcast]
    exact hnext

/-! ## C1: block geometry -/

/-- The test `block == nrOfBlocks - 1` of the reader, on `int` values, holds
exactly for the last block. -/
theorem lastBlock_test {k q : Nat} (hk : k < 2 ^ 31) (hq : q < 2 ^ 32) :
    ((k : Int) = i32 (i32 ((1 + q : Nat) : Int) - 1)) ↔ k = q := by
  unfold i32; omega

/-- The reader's element count of the last block is exact when
`size + B ≤ 2^32`. -/
theorem lastBlockCount_eq {size B : Nat} (hs : 1 ≤ size) (hB : 1 ≤ B) (hNB : size + B ≤ 2 ^ 32) :
    lastBlockCount size B = 1 + (size - 1) % B := by
  have h1 : u32OfInt ((size : Int) + (B : Int) - 1) = size - 1 + B := by
    unfold u32OfInt; omega
  have h2 : (size - 1) % B < B := Nat.mod_lt _ (by omega)
  unfold lastBlockCount
  rw [h1, Nat.add_mod_right]
  exact u32_of_lt (by omega)

/-- Element count of a block in terms of quotient and remainder of
`size - 1`. -/
theorem blockElems_eq {size B k : Nat} (hs : 1 ≤ size) (hB : 1 ≤ B) (hk : k ≤ (size - 1) / B) :
    blockElems size B k = if k = (size - 1) / B then 1 + (size - 1) % B else B := by
  have hdm : B * ((size - 1) / B) + (size - 1) % B = size - 1 := Nat.div_add_mod _ _
  have hr : (size - 1) % B < B := Nat.mod_lt _ (by omega)
  unfold blockElems
  by_cases hkq : k = (size - 1) / B
  · rw [if_pos hkq]
    rw [← hkq] at hdm
    have hm : (k + 1) * B = B * k + B := by ring
    have hm2 : k * B = B * k := Nat.mul_comm k B
    clear hkq
    generalize (size - 1) % B = r at *
    generalize (k + 1) * B = x at *
    generalize k * B = y at *
    generalize B * k = z at *
    split_ifs <;> omega
  · rw [if_neg hkq]
    have hlt : k + 1 ≤ (size - 1) / B := by omega
    have hmul : (k + 1) * B ≤ (size - 1) / B * B := Nat.mul_le_mul_right B hlt
    have hm2 : (size - 1) / B * B = B * ((size - 1) / B) := Nat.mul_comm _ _
    have hfull : (k + 1) * B ≤ size := by
      rw [hm2] at hmul
      generalize (size - 1) / B = q at *
      generalize (k + 1) * B = x at *
      generalize B * q = y at *
      omega
    rw [if_pos hfull]

/-- The element count the reader assumes for a compressed block (`curSize`) is
the element count of the block. -/
theorem curSize_eq {size B k : Nat} (hs : 1 ≤ size) (hsz : size < 2 ^ 32) (hB : 1 ≤ B)
    (hNB : size + B ≤ 2 ^ 32) (hk : k ≤ (size - 1) / B) (hk31 : k < 2 ^ 31) :
    (if (k : Int) = i32 (i32 ((1 + (size - 1) / B : Nat) : Int) - 1)
      then lastBlockCount size B else B) = blockElems size B k := by
  have hq : (size - 1) / B < 2 ^ 32 := Nat.lt_of_le_of_lt (Nat.div_le_self _ _) (by omega)
  rw [blockElems_eq hs hB hk, lastBlockCount_eq hs hB hNB]
  by_cases hkq : k = (size - 1) / B
  · rw [if_pos ((lastBlock_test hk31 hq).2 hkq), if_pos hkq]
  · rw [if_neg (fun h => hkq ((lastBlock_test hk31 hq).1 h)), if_neg hkq]

theorem blockElems_le {size B k : Nat} (hB : 1 ≤ B) (hk : k * B < size) :
    blockElems size B k ≤ B ∧
    1 ≤ blockElems size B k ∧ k * B + blockElems size B k ≤ size := by
  unfold blockElems
  have hm : (k + 1) * B = k * B + B := Nat.succ_mul k B
  split_ifs <;> omega

/-- Quotients and remainders of a window `[startRow, startRow + length)`. -/
theorem window_geom (sr len B : Nat) (hB : 1 ≤ B) (hlen : 1 ≤ len) :
    sr / B ≤ (sr + len - 1) / B ∧ sr % B < B ∧ sr = sr / B * B + sr % B ∧
    (sr / B = (sr + len - 1) / B → sr % B + len ≤ B) ∧
    (sr / B < (sr + len - 1) / B → (sr / B + 1) * B ≤ sr + len - 1) ∧
    ((sr + len) % B ≠ 0 →
      sr + len = (sr + len - 1) / B * B + (sr + len) % B ∧ (sr + len) % B < B) ∧
    ((sr + len) % B = 0 → sr + len = ((sr + len - 1) / B + 1) * B) := by
  have h1 : B * (sr / B) + sr % B = sr := Nat.div_add_mod _ _
  have h2 : sr % B < B := Nat.mod_lt _ (by omega)
  have h3 : B * ((sr + len - 1) / B) + (sr + len - 1) % B = sr + len - 1 := Nat.div_add_mod _ _
  have h4 : (sr + len - 1) % B < B := Nat.mod_lt _ (by omega)
  have h5 : sr / B ≤ (sr + len - 1) / B := Nat.div_le_div_right (by omega)
  have c1 : sr / B * B = B * (sr / B) := Nat.mul_comm _ _
  have c2 : (sr + len - 1) / B * B = B * ((sr + len - 1) / B) := Nat.mul_comm _ _
  have c3 : ((sr + len - 1) / B + 1) * B = B * ((sr + len - 1) / B) + B := by ring
  have c4 : (sr / B + 1) * B = B * (sr / B) + B := by ring
  have hsl : sr + len = B * ((sr + len - 1) / B) + ((sr + len - 1) % B + 1) := by omega
  generalize hq : (sr + len - 1) / B = q at *
  generalize hr : (sr + len - 1) % B = r at *
  generalize hq0 : sr / B = q0 at *
  generalize hr0 : sr % B = r0 at *
  have hcases : (r + 1 < B ∧ (sr + len) % B = r + 1) ∨ (r + 1 = B ∧ (sr + len) % B = 0) := by
    by_cases hfull : r + 1 < B
    · left
      refine ⟨hfull, ?_⟩
      rw [hsl, Nat.mul_add_mod, Nat.mod_eq_of_lt hfull]
    · right
      have hB' : r + 1 = B := by omega
      refine ⟨hB', ?_⟩
      rw [hsl, hB', Nat.mul_add_mod, Nat.mod_self]
  generalize (sr + len) % B = rem at *
  refine ⟨h5, h2, by omega, ?_, ?_, ?_, ?_⟩
  · intro heq
    rw [← heq] at h3
    omega
  · intro hlt
    have hle : q0 + 1 ≤ q := hlt
    have hmul : B * (q0 + 1) ≤ B * q := Nat.mul_le_mul_left B hle
    have c5 : B * (q0 + 1) = B * q0 + B := by ring
    omega
  · intro hne
    omega
  · intro heq
    omega

/-! ## C1: a window inside one block -/

theorem le_div_of_mul_lt {k B size : Nat} (hB : 1 ≤ B) (hk : k * B < size) :
    k ≤ (size - 1) / B := by
  rw [Nat.le_div_iff_mul_le (by omega)]
  omega

theorem tmp_holds (tmp : Mem) (col : Nat → UInt8) (c n : Nat) :
    Holds (store tmp 0 (colBytes col c n)) col c n := by
  have h0 := (Holds.zero tmp col c).store n (colBytes col c n) (by simp)
  rw [Nat.zero_add] at h0
  exact h0

/-- The single-block branch on a stored block: the output receives the `len`
elements of the block that start at element `so`. -/
theorem readSingleBlock_spec (codec : Codec) (file : File) (s : Reader) (col : Nat → UInt8)
    (bp len size e B k so : Nat)
    (hsz : size < 2 ^ 32) (hB : 1 ≤ B) (hNB : size + B ≤ 2 ^ 32)
    (hblk : e * B < 2 ^ 31) (hkB : k * B < size) (hk31 : k < 2 ^ 31)
    (hwin : so + len ≤ blockElems size B k)
    (hst : BlockStored codec file col bp size e B k) :
    Holds (readSingleBlock codec file s bp len size e B
        (i32 ((1 + (size - 1) / B : Nat) : Int)) (k : Int) (i32 (so : Int))
        (entryOffset file bp k)
        (u64OfInt ((entryOffset file bp (k + 1) : Int) - (entryOffset file bp k : Int)))
        (entryAlgo file bp k)).out col (e * (k * B) + e * so) (e * len) := by
  obtain ⟨hcB, hc1, -⟩ := blockElems_le hB hkB
  have hk := le_div_of_mul_lt hB hkB
  have hcur := curSize_eq (by omega) hsz hB hNB hk hk31
  obtain ⟨hend, hraw, hcmp⟩ := hst
  generalize hcnt : blockElems size B k = cnt at *
  have hm1 : e * cnt ≤ e * B := Nat.mul_le_mul_left e hcB
  have hm2 : e * (so + len) ≤ e * cnt := Nat.mul_le_mul_left e hwin
  have hm3 : e * (so + len) = e * so + e * len := Nat.mul_add e so len
  have hso31 : e * so < 2 ^ 31 := by omega
  have hlen32 : e * len < 2 ^ 32 := by omega
  have hcnt32 : e * cnt < 2 ^ 32 := by omega
  have hlt := entryOffset_lt file bp (k + 1)
  have x1 : u32 (len * e) = e * len := by rw [Nat.mul_comm]; exact u32_of_lt hlen32
  have x2 : u32 (e * len) = e * len := u32_of_lt hlen32
  have x3 : u32 (e * cnt) = e * cnt := u32_of_lt hcnt32
  have x4 : i32 ((e : Int) * i32 (so : Int)) = ((e * so : Nat) : Int) := i32_mul_i32 hso31
  by_cases ha : entryAlgo file bp k = 0
  · obtain ⟨hpe, hfile⟩ := hraw ha
    have hP : u64OfInt ((bp : Int) + (entryOffset file bp k : Int) + ((e * so : Nat) : Int))
        = bp + entryOffset file bp k + e * so := by
      rw [u64OfInt_add3]
      clear x1 x2 x3 x4 hcur
      exact Nat.mod_eq_of_lt (by omega)
    simp only [readSingleBlock, if_pos ha, x1, x4, hP, readOut_out, seekg_out, seekg_pos]
    clear x1 x2 x3 x4 hcur hP
    have h0 := (Holds.zero s.out col (e * (k * B) + e * so)).fill file
      (bp + entryOffset file bp k + e * so) (e * len)
      (by
        intro i hi
        exact (congrArg file (by omega)).trans
          ((hfile (e * so + i) (by omega)).trans (congrArg col (by omega))))
    rw [Nat.zero_add] at h0
    exact h0
  · obtain ⟨hle, hdec⟩ := hcmp ha
    have hP : u64 (bp + entryOffset file bp k) = bp + entryOffset file bp k := by
      clear x1 x2 x3 x4 hcur
      exact u64_of_lt (by omega)
    have hC : u64OfInt ((entryOffset file bp (k + 1) : Int) - (entryOffset file bp k : Int))
        = entryOffset file bp (k + 1) - entryOffset file bp k := by
      clear x1 x2 x3 x4 hcur hP
      exact u64OfInt_sub_of_le hlt hle
    by_cases hfull : len = cnt
    · have hso0 : so = 0 := by
        clear x1 x2 x3 x4 hcur hP hC
        omega
      have hcl : e * cnt = e * len := by rw [hfull]
      rw [hcl] at hdec
      simp only [readSingleBlock, if_neg ha, hcur, if_pos hfull]
      simp only [hP, hC, x2, readBuf_fst, readBuf_out, seekg_pos, seekg_out, hdec]
      clear x1 x2 x3 x4 hcur hP hC
      have h0 := (Holds.zero s.out col (e * (k * B) + e * so)).store (e * len)
        (colBytes col (e * (k * B)) (e * len))
        (by
          rw [hso0, Nat.mul_zero, Nat.add_zero])
      rw [Nat.zero_add] at h0
      exact h0
    · simp only [readSingleBlock, if_neg ha, hcur, if_neg hfull]
      simp only [hP, hC, x2, x3, x4, readBuf_fst, readBuf_out, readBuf_tmp, seekg_pos, seekg_out,
        seekg_tmp, hdec]
      clear x1 x2 x3 x4 hcur hP hC
      have ht := tmp_holds s.tmp col (e * (k * B)) (e * cnt)
      have h0 := (Holds.zero s.out col (e * (k * B) + e * so)).copy
        (store s.tmp 0 (colBytes col (e * (k * B)) (e * cnt))) ((e * so : Nat) : Int) (e * len)
        (by
          intro i hi
          exact (congrArg _ (by omega)).trans
            ((ht (e * so + i) (by omega)).trans (congrArg col (by omega))))
      rw [Nat.zero_add] at h0
      exact h0

/-! ## C1: the last block of a multi-block read -/

/-- The last block of a multi-block read on a stored block whose payload starts
at the stream position: its first `rem` elements are appended to the
output. -/
theorem readLastBlock_spec (codec : Codec) (file : File) (col : Nat → UInt8)
    (blockIndex : List UInt8) (m : MidState) (bp size e B k w rem o c0 : Nat)
    (he : 1 ≤ e) (hsz : size < 2 ^ 32) (hB : 1 ≤ B) (hNB : size + B ≤ 2 ^ 32)
    (hblk : e * B < 2 ^ 31) (hkB : k * B < size) (hk31 : k < 2 ^ 31)
    (hw : 10 + 10 * w < 2 ^ 31)
    (hidx1 : le64 blockIndex ((10 + 10 * w : Nat) : Int) = entryOffset file bp (k + 1))
    (hidx2 : le16 blockIndex ((8 + 10 * w : Nat) : Int) = entryAlgo file bp k)
    (hmp : m.blockPEnd = entryOffset file bp k)
    (hmpos : m.rd.pos = bp + entryOffset file bp k)
    (hmo : m.outOffset = (o : Int)) (hout : Holds m.rd.out col c0 o)
    (hc : c0 + o = e * (k * B))
    (hremc : rem ≤ blockElems size B k)
    (hst : BlockStored codec file col bp size e B k) :
    Holds (readLastBlock codec file blockIndex size e B
        (i32 ((1 + (size - 1) / B : Nat) : Int)) (k : Int) (w : Int) (rem : Int) m).out
      col c0 (o + e * rem) := by
  obtain ⟨hcB, hc1, -⟩ := blockElems_le hB hkB
  have hk := le_div_of_mul_lt hB hkB
  have hcur := curSize_eq (by omega) hsz hB hNB hk hk31
  obtain ⟨hend, hraw, hcmp⟩ := hst
  generalize hcnt : blockElems size B k = cnt at *
  have hm1 : e * cnt ≤ e * B := Nat.mul_le_mul_left e hcB
  have hm2 : e * rem ≤ e * cnt := Nat.mul_le_mul_left e hremc
  have hrem31 : e * rem < 2 ^ 31 := by clear hcur; omega
  have hrem64 : e * rem < 2 ^ 64 := by clear hcur; omega
  have hB31 : B ≤ e * B := Nat.le_mul_of_pos_left B he
  have hcnt31 : cnt < 2 ^ 31 := by
    clear hcur
    omega
  have hcnt32 : cnt * e < 2 ^ 32 := by rw [Nat.mul_comm]; clear hcur; omega
  have hw8 : 8 + 10 * w < 2 ^ 31 := by clear hcur; omega
  have hlt := entryOffset_lt file bp (k + 1)
  have i1 : i32 (10 + 10 * (w : Int)) = ((10 + 10 * w : Nat) : Int) := by
    have := @i32_index 10 w hw
    exact this
  have i2 : i32 (8 + 10 * (w : Int)) = ((8 + 10 * w : Nat) : Int) := by
    have := @i32_index 8 w hw8
    exact this
  have x1 : i32 ((e : Int) * (rem : Int)) = ((e * rem : Nat) : Int) := i32_mul_cast hrem31
  have x2 : u64OfInt ((e * rem : Nat) : Int) = e * rem := u64OfInt_natCast hrem64
  have hcurI : (if (k : Int) = i32 (i32 ((1 + (size - 1) / B : Nat) : Int) - 1)
      then i32 ((lastBlockCount size B : Nat) : Int) else i32 (B : Int)) = (cnt : Int) := by
    rw [← hcur]
    split_ifs with h
    · rw [if_pos h] at hcur
      rw [hcur]
      exact i32_natCast hcnt31
    · rw [if_neg h] at hcur
      rw [hcur]
      exact i32_natCast hcnt31
  have x3 : u32OfInt ((cnt : Int) * (e : Int)) = e * cnt := by
    rw [← Int.natCast_mul, Nat.mul_comm e cnt]
    exact u32OfInt_natCast hcnt32
  by_cases ha : entryAlgo file bp k = 0
  · obtain ⟨hpe, hfile⟩ := hraw ha
    simp only [readLastBlock, i1, i2, hidx1, hidx2, if_pos ha, hmo, x1, Int.toNat_ofNat,
      readOut_out, hmpos]
    clear i1 i2 x1 x2 x3 hcurI hcur
    exact hout.fill file (bp + entryOffset file bp k) (e * rem)
      (by
        intro i hi
        rw [hfile i (by omega), hc])
  · obtain ⟨hle, hdec⟩ := hcmp ha
    have hC : u64OfInt ((entryOffset file bp (k + 1) : Int) - (entryOffset file bp k : Int))
        = entryOffset file bp (k + 1) - entryOffset file bp k := by
      clear i1 i2 x1 x2 x3 hcurI hcur
      exact u64OfInt_sub_of_le hlt hle
    by_cases hfull : rem = cnt
    · have hfullI : (rem : Int) = (cnt : Int) := by rw [hfull]
      have hcl : e * cnt = e * rem := by rw [hfull]
      simp only [readLastBlock, i1, i2, hidx1, hidx2, if_neg ha, hmp, hcurI, if_pos hfullI]
      simp only [hC, x3, readBuf_fst, readBuf_out, hmpos, hdec, hmo]
      clear i1 i2 x1 x2 x3 hcurI hcur hC
      rw [hcl]
      exact hout.store (e * rem) _ (by rw [hc])
    · have hfullI : ¬ ((rem : Int) = (cnt : Int)) := by
        clear i1 i2 x1 x2 x3 hcurI hcur hC
        omega
      simp only [readLastBlock, i1, i2, hidx1, hidx2, if_neg ha, hmp, hcurI, if_neg hfullI]
      simp only [hC, x1, x2, x3, readBuf_fst, readBuf_out, readBuf_tmp, hmpos, hdec, hmo]
      clear i1 i2 x1 x2 x3 hcurI hcur hC
      have ht := tmp_holds m.rd.tmp col (e * (k * B)) (e * cnt)
      exact hout.copy (store m.rd.tmp 0 (colBytes col (e * (k * B)) (e * cnt))) 0 (e * rem)
        (by
          intro i hi
          rw [Int.zero_add, ht i (by omega), hc])

/-! ## C1: the payload phase on a stored column -/

theorem blockStored_of_lt {codec : Codec} {file : File} {col : Nat → UInt8}
    {bp size e B k : Nat} (hB : 1 ≤ B) (hst : StoredColumn codec file col bp size e B)
    (hk : k * B < size) : BlockStored codec file col bp size e B k :=
  hst k (by have := le_div_of_mul_lt hB hk; omega)

/-- A window inside one block. -/
theorem readBlocks_single (codec : Codec) (file : File) (s : Reader) (col : Nat → UInt8)
    (bp sr len size e B sb so : Nat)
    (hsz : size < 2 ^ 32) (hB : 1 ≤ B) (hNB : size + B ≤ 2 ^ 32)
    (hblk : e * B < 2 ^ 31) (hN : sr + len ≤ size) (hlen : 1 ≤ len)
    (hsb31 : sb < 2 ^ 31) (hsr : sr = sb * B + so) (hwin : so + len ≤ B)
    (hst : StoredColumn codec file col bp size e B) :
    Holds (readBlocks codec file s (readBytes file (bp + 8 + 10 * sb) (10 * (0 + 2)))
        bp sr len size e B (i32 ((1 + (size - 1) / B : Nat) : Int)) (sb : Int) (sb : Int)
        (i32 (so : Int))).out col (e * sr) (e * len) := by
  have hkB : sb * B < size := by omega
  have hbs := blockStored_of_lt hB hst hkB
  have hwin' : so + len ≤ blockElems size B sb := by
    unfold blockElems
    have hm : (sb + 1) * B = sb * B + B := Nat.succ_mul sb B
    split_ifs <;> omega
  obtain ⟨e0, e8, e10⟩ := blockIndex_head file bp sb 0
  have hmul : e * sr = e * (sb * B) + e * so := by rw [hsr, Nat.mul_add]
  have hspec := readSingleBlock_spec codec file s col bp len size e B sb so hsz hB hNB hblk hkB
    hsb31 hwin' hbs
  simp only [readBlocks, if_true, e0, e8, e10]
  rw [hmul]
  exact hspec

theorem i32_succ_cast {a : Nat} (h : a + 1 < 2 ^ 31) :
    i32 ((a : Int) + 1) = ((a + 1 : Nat) : Int) := by
  unfold i32; omega

theorem i32_span {sb w : Nat} (h : sb + w < 2 ^ 31) :
    i32 (((sb + w : Nat) : Int) - (sb : Int)) = (w : Int) := by
  unfold i32; omega

theorem i32_mul_cast_comm {a b : Nat} (h : b * a < 2 ^ 31) :
    i32 ((a : Int) * (b : Int)) = ((b * a : Nat) : Int) := by
  rw [← Int.natCast_mul, Nat.mul_comm a b]
  exact i32_natCast h

theorem toNat_pred_cast (w : Nat) : (((w : Int) - 1).toNat) = w - 1 := by omega

/-- Element counts of a window over the blocks `sb .. sb + w` (`w ≥ 1`), in
bytes. -/
theorem window_bytes {e B sb w so sr len tail : Nat} (hso : so < B)
    (hsr : sr = sb * B + so) (hsl : sr + len = (sb + w) * B + tail) (hw : 1 ≤ w) :
    e * sr = e * (sb * B) + e * so ∧
    e * len = e * (B - so) + (w - 1) * (e * B) + e * tail ∧
    e * sr + e * (B - so) = e * ((sb + 1) * B) ∧
    e * sr + (e * (B - so) + (w - 1) * (e * B)) = e * ((sb + w) * B) := by
  obtain ⟨v, rfl⟩ : ∃ v, w = v + 1 := ⟨w - 1, by omega⟩
  obtain ⟨d, rfl⟩ : ∃ d, B = so + d := ⟨B - so, by omega⟩
  have hlen : len = d + v * (so + d) + tail := by
    have h1 : (sb + (v + 1)) * (so + d) = sb * (so + d) + v * (so + d) + (so + d) := by ring
    omega
  subst hsr
  subst hlen
  simp only [Nat.add_sub_cancel, Nat.add_sub_cancel_left]
  refine ⟨by ring, by ring, by ring, by ring⟩

/-- The blocks after the first one of a window over the blocks `sb .. sb + w`
(`w ≥ 1`) of a stored column: with the output holding the slice of the first
block and the stream at the payload of block `sb + 1`, the output ends up
holding the whole window. -/
theorem readRest_spec (codec : Codec) (file : File) (r1 : Reader) (col : Nat → UInt8)
    (bp sr len size e B sb w so : Nat)
    (he : 1 ≤ e) (hsz : size < 2 ^ 32) (hB : 1 ≤ B) (hNB : size + B ≤ 2 ^ 32)
    (hblk : e * B < 2 ^ 31) (hN : sr + len ≤ size)
    (hout : e * len < 2 ^ 31) (hidx : 10 * (sb + w + 2) < 2 ^ 31)
    (hw : 1 ≤ w) (hso : so < B) (hsr : sr = sb * B + so)
    (hr0 : (sr + len) % B ≠ 0 → sr + len = (sb + w) * B + (sr + len) % B)
    (hr1 : (sr + len) % B = 0 → sr + len = (sb + w + 1) * B)
    (hst : StoredColumn codec file col bp size e B)
    (hpos : r1.pos = bp + entryOffset file bp (sb + 1))
    (hfirst : Holds r1.out col (e * sr) (e * (B - so))) :
    Holds (readRest codec file r1 (readBytes file (bp + 8 + 10 * sb) (10 * (w + 2)))
        sr len size e B (i32 ((1 + (size - 1) / B : Nat) : Int)) (sb : Int)
        ((sb + w : Nat) : Int) ((e * B : Nat) : Int) ((B - so : Nat) : Int)
        (entryOffset file bp (sb + 1))).out col (e * sr) (e * len) := by
  have hremlt : (sr + len) % B < B := Nat.mod_lt _ (by omega)
  have hB31 : B ≤ e * B := Nat.le_mul_of_pos_left B he
  have hsub : e * (B - so) ≤ e * B := Nat.mul_le_mul_left e (Nat.sub_le B so)
  have hsub31 : e * (B - so) < 2 ^ 31 := by omega
  have hsl32 : sr + len < 2 ^ 32 := by omega
  have hsw31 : sb + w + 1 < 2 ^ 31 := by omega
  have hsw31' : sb + w < 2 ^ 31 := by omega
  have hsw31'' : sb + (w + 1) < 2 ^ 31 := by omega
  have hw10 : 10 + 10 * w < 2 ^ 31 := by omega
  have hw2 : 10 * (w + 2) < 2 ^ 31 := by omega
  have hfull : ∀ k t, k + 1 ≤ t → t * B ≤ size → (k + 1) * B ≤ size ∧ k * B < size := by
    intro k t hk ht
    have hmul : (k + 1) * B ≤ t * B := Nat.mul_le_mul_right B hk
    have hs : (k + 1) * B = k * B + B := Nat.succ_mul k B
    omega
  generalize hrem : (sr + len) % B = rem at *
  have hrem31 : rem < 2 ^ 31 := by omega
  by_cases hz : rem = 0
  · -- the window ends on a block boundary
    have hsl := hr1 hz
    have hsl' : sr + len = (sb + w) * B + B := by rw [hsl, Nat.succ_mul]
    obtain ⟨g1, g2, g3, g4⟩ := window_bytes (e := e) hso hsr hsl' hw
    have hwsucc : (w - 1) * (e * B) + e * B = w * (e * B) := by
      obtain ⟨v, rfl⟩ : ∃ v, w = v + 1 := ⟨w - 1, by omega⟩
      rw [Nat.add_sub_cancel, Nat.succ_mul]
    have g2' : e * (B - so) + w * (e * B) = e * len := by omega
    have hloop := middleBlocks_spec codec file col bp size e B sb w sr hw2 hblk w 1
      { blockPEnd := entryOffset file bp (sb + 1), outOffset := ((e * (B - so) : Nat) : Int),
        rd := r1 }
      (e * (B - so)) (Nat.le_refl 1) (by omega) (by omega)
      (by
        intro k hk1 hk2
        obtain ⟨h1, h2⟩ := hfull k (sb + w + 1) (by omega) (by omega)
        exact ⟨h1, blockStored_of_lt hB hst h2⟩)
      rfl hpos rfl hfirst g3
    have hfin := hloop.2.2.2
    rw [Nat.cast_one, g2'] at hfin
    clear hloop
    have hu : u32 (sr + len) = sr + len := u32_of_lt hsl32
    have x1 : i32 (((B - so : Nat) : Int) * (e : Int)) = ((e * (B - so) : Nat) : Int) :=
      i32_mul_cast_comm hsub31
    have x2 : i32 (rem : Int) = (rem : Int) := i32_natCast hrem31
    have hz' : (rem : Int) = 0 := by rw [hz]; rfl
    have x3 : i32 (((sb + w : Nat) : Int) + 1) = ((sb + (w + 1) : Nat) : Int) := by
      have := @i32_succ_cast (sb + w) hsw31
      rw [this, Nat.add_assoc]
    have x4 : i32 (((sb + (w + 1) : Nat) : Int) - (sb : Int)) = ((w + 1 : Nat) : Int) :=
      i32_span hsw31''
    have x5 : ((((w + 1 : Nat) : Int)) - 1).toNat = w := by
      rw [toNat_pred_cast, Nat.add_sub_cancel]
    simp only [readRest, hu, hrem, x2, if_pos hz', x3, x4, x5, x1]
    exact hfin
  · -- the last block is read in part
    obtain hsl := hr0 hz
    obtain ⟨g1, g2, g3, g4⟩ := window_bytes (e := e) hso hsr hsl hw
    have hkB : (sb + w) * B < size := by omega
    have hloop := middleBlocks_spec codec file col bp size e B sb w sr hw2 hblk (w - 1) 1
      { blockPEnd := entryOffset file bp (sb + 1), outOffset := ((e * (B - so) : Nat) : Int),
        rd := r1 }
      (e * (B - so)) (Nat.le_refl 1) (by omega) (by omega)
      (by
        intro k hk1 hk2
        obtain ⟨h1, h2⟩ := hfull k (sb + w) (by omega) (by omega)
        exact ⟨h1, blockStored_of_lt hB hst h2⟩)
      rfl hpos rfl hfirst g3
    obtain ⟨l1, l2, l3, l4⟩ := hloop
    have hk1 : sb + 1 + (w - 1) = sb + w := by omega
    rw [hk1] at l1 l2
    have hi := blockIndex_entry file bp sb (w + 2) w (by omega)
    have hi' := blockIndex_entry file bp sb (w + 2) (w + 1) (by omega)
    have hc1 : ((10 + 10 * w : Nat) : Int) = ((10 * (w + 1) : Nat) : Int) := by
      congr 1
      omega
    have hc2 : ((8 + 10 * w : Nat) : Int) = ((10 * w + 8 : Nat) : Int) := by
      congr 1
      omega
    have hremc : rem ≤ blockElems size B (sb + w) := by
      unfold blockElems
      have hm : (sb + w + 1) * B = (sb + w) * B + B := Nat.succ_mul (sb + w) B
      split_ifs <;> omega
    have hlast := readLastBlock_spec codec file col
      (readBytes file (bp + 8 + 10 * sb) (10 * (w + 2)))
      (middleBlocks codec file (readBytes file (bp + 8 + 10 * sb) (10 * (w + 2)))
        ((e * B : Nat) : Int) (w - 1) ((1 : Nat) : Int)
        { blockPEnd := entryOffset file bp (sb + 1), outOffset := ((e * (B - so) : Nat) : Int),
          rd := r1 })
      bp size e B (sb + w) w rem (e * (B - so) + (w - 1) * (e * B)) (e * sr)
      he hsz hB hNB hblk hkB hsw31' hw10
      (by rw [hc1]; exact hi'.1) (by rw [hc2]; exact hi.2) l1 l2 l3 l4 g4 hremc
      (blockStored_of_lt hB hst hkB)
    rw [Nat.cast_one, ← g2] at hlast
    clear l1 l2 l3 l4
    have hz' : ¬ ((rem : Int) = 0) := by omega
    have hu : u32 (sr + len) = sr + len := u32_of_lt hsl32
    have x1 : i32 (((B - so : Nat) : Int) * (e : Int)) = ((e * (B - so) : Nat) : Int) :=
      i32_mul_cast_comm hsub31
    have x2 : i32 (rem : Int) = (rem : Int) := i32_natCast hrem31
    have x4 : i32 (((sb + w : Nat) : Int) - (sb : Int)) = (w : Int) := i32_span hsw31'
    have x5 : ((w : Int) - 1).toNat = w - 1 := toNat_pred_cast w
    simp only [readRest, hu, hrem, x2, if_neg hz', x4, x5, x1]
    exact hlast

/-- A window over the blocks `sb .. sb + w` with `w ≥ 1`. -/
theorem readBlocks_multi (codec : Codec) (file : File) (s : Reader) (col : Nat → UInt8)
    (bp sr len size e B sb w so : Nat)
    (he : 1 ≤ e) (hsz : size < 2 ^ 32) (hB : 1 ≤ B) (hNB : size + B ≤ 2 ^ 32)
    (hblk : e * B < 2 ^ 31) (hN : sr + len ≤ size)
    (hout : e * len < 2 ^ 31) (hidx : 10 * (sb + w + 2) < 2 ^ 31)
    (hw : 1 ≤ w) (hso : so < B) (hsr : sr = sb * B + so)
    (hfullw : (sb + 1) * B ≤ sr + len - 1)
    (hr0 : (sr + len) % B ≠ 0 → sr + len = (sb + w) * B + (sr + len) % B)
    (hr1 : (sr + len) % B = 0 → sr + len = (sb + w + 1) * B)
    (hst : StoredColumn codec file col bp size e B) :
    Holds (readBlocks codec file s (readBytes file (bp + 8 + 10 * sb) (10 * (w + 2)))
        bp sr len size e B (i32 ((1 + (size - 1) / B : Nat) : Int)) (sb : Int)
        ((sb + w : Nat) : Int) (i32 (so : Int))).out col (e * sr) (e * len) := by
  have hm : (sb + 1) * B = sb * B + B := Nat.succ_mul sb B
  have hfull1 : (sb + 1) * B ≤ size := by omega
  have hkB : sb * B < size := by omega
  obtain ⟨b1, b2, b3⟩ := blockStored_of_lt hB hst hkB
  rw [blockElems_full hfull1] at b2 b3
  obtain ⟨e0, e8, e10⟩ := blockIndex_head file bp sb w
  have hmul : e * sr = e * (sb * B) + e * so := by rw [hsr, Nat.mul_add]
  have hf := readFirstBlock_spec codec file s col bp e B so (entryOffset file bp sb)
    (entryOffset file bp (sb + 1)) (entryAlgo file bp sb) (e * (sb * B)) he hso hblk b1 b2 b3
  rw [← hmul] at hf
  have hB31 : B < 2 ^ 31 := by
    have := Nat.le_mul_of_pos_left B he
    omega
  have hso31 : so < 2 ^ 31 := by omega
  have hne : ¬ ((sb : Int) = ((sb + w : Nat) : Int)) := by omega
  have x1 : i32 (so : Int) = (so : Int) := i32_natCast hso31
  have x2 : i32 ((B : Int) - (so : Int)) = ((B - so : Nat) : Int) :=
    i32_sub_cast (Nat.le_of_lt hso) hB31
  have x3 : i32 ((e : Int) * (B : Int)) = ((e * B : Nat) : Int) := i32_mul_cast hblk
  simp only [x1, x2, x3] at hf
  have hrest := readRest_spec codec file _ col bp sr len size e B sb w so he hsz hB hNB hblk hN
    hout hidx hw hso hsr hr0 hr1 hst hf.1 hf.2
  simp only [readBlocks, if_neg hne, e0, e8, e10, x1, x2, x3]
  exact hrest

/-- The block reads of a variable-ratio read deliver the requested rows: the
output holds the column bytes of rows `sr .. sr + len - 1`. -/
theorem readBlocks_holds (codec : Codec) (file : File) (s : Reader) (col : Nat → UInt8)
    (bp sr len size e B : Nat)
    (he : 1 ≤ e) (hsz : size < 2 ^ 32) (hB : 1 ≤ B) (hNB : size + B ≤ 2 ^ 32)
    (hblk : e * B < 2 ^ 31) (hN : sr + len ≤ size) (hlen : 1 ≤ len)
    (hout : e * len < 2 ^ 31) (hidx : 10 * ((sr + len - 1) / B + 2) < 2 ^ 31)
    (hst : StoredColumn codec file col bp size e B) :
    Holds (readBlocks codec file s
        (readBytes file (bp + 8 + 10 * (sr / B)) (10 * ((sr + len - 1) / B - sr / B + 2)))
        bp sr len size e B (i32 ((1 + (size - 1) / B : Nat) : Int)) ((sr / B : Nat) : Int)
        (((sr + len - 1) / B : Nat) : Int) (i32 ((sr % B : Nat) : Int))).out col
      (e * sr) (e * len) := by
  obtain ⟨g1, g2, g3, g4, g5, g6, g7⟩ := window_geom sr len B hB hlen
  generalize sr / B = sb at *
  generalize (sr + len - 1) / B = eb at *
  generalize sr % B = so at *
  rcases Nat.eq_or_lt_of_le g1 with heq | hlt
  · subst heq
    have hsb31 : sb < 2 ^ 31 := by omega
    have := readBlocks_single codec file s col bp sr len size e B sb so hsz hB hNB hblk hN hlen
      hsb31 g3 (g4 rfl) hst
    rw [Nat.sub_self]
    exact this
  · obtain ⟨w, rfl⟩ := Nat.exists_eq_add_of_le (Nat.le_of_lt hlt)
    have hw : 1 ≤ w := by omega
    have hcancel : sb + w - sb = w := by omega
    rw [hcancel]
    exact readBlocks_multi codec file s col bp sr len size e B sb w so he hsz hB hNB hblk hN
      hout hidx hw g2 g3 (g5 hlt) (fun h => (g6 h).1) g7 hst

/-- A variable-ratio read of a stored column returns, and its output holds the
bytes of the requested rows. -/
theorem variable_read_holds (codec : Codec) (srcRep tgtRep : Nat → Nat) (file : File)
    (s : Reader) (col : Nat → UInt8) (blockPos startRow length size e B : Nat)
    (h0 : header0 file blockPos ≠ 0) (h1 : header1 file blockPos = B) (hB : 1 ≤ B)
    (hst : StoredColumn codec file col blockPos size e B)
    (hlen : 1 ≤ length) (hN : startRow + length ≤ size) (hout : length * e < 2 ^ 31)
    (hNB : size + B ≤ 2 ^ 32) (hblk : e * B < 2 ^ 31)
    (hidx : 10 * ((startRow + length - 1) / B + 2) < 2 ^ 31)
    (hpos : blockPos + 8 + 10 * (startRow / B) < 2 ^ 64) :
    ∃ r, fdsReadColumn_v1 codec srcRep tgtRep file s blockPos startRow length size e
        = Except.ok r ∧
      Holds r.out col (e * startRow) (e * length) := by
  have hsz : size < 2 ^ 32 := by omega
  have hout' : e * length < 2 ^ 31 := by rw [Nat.mul_comm]; exact hout
  refine ⟨_, variable_read_start codec srcRep tgtRep file s blockPos startRow length size e B
    h0 h1 hB hlen hN hsz hidx hpos, ?_⟩
  rcases Nat.eq_zero_or_pos e with he | he
  · subst he
    intro i hi
    rw [Nat.zero_mul] at hi
    exact absurd hi (Nat.not_lt_zero i)
  · exact readBlocks_holds codec file _ col blockPos startRow length size e B he hsz hB hNB hblk
      hN hlen hout' hidx hst

/-! ## Scratch arrays: no access outside `compBuf` and `tmpBuf` -/

@[simp] theorem seekg_ub (s : Reader) (p : Nat) : (s.seekg p).ub = s.ub := rfl

@[simp] theorem seekg_writes (s : Reader) (p : Nat) : (s.seekg p).writes = s.writes := rfl

@[simp] theorem readBuf_ub (file : File) (s : Reader) (n : Nat) :
    (s.readBuf file n).2.ub = s.ub := rfl

@[simp] theorem readBuf_writes (file : File) (s : Reader) (n : Nat) :
    (s.readBuf file n).2.writes = s.writes := rfl

@[simp] theorem readOut_ub (file : File) (s : Reader) (off : Int) (n : Nat) :
    (s.readOut file off n).ub = s.ub := rfl

@[simp] theorem readOut_writes (file : File) (s : Reader) (off : Int) (n : Nat) :
    (s.readOut file off n).writes = s.writes ++ [(off, n)] := rfl

@[simp] theorem afterHeader_ub (file : File) (s : Reader) (blockPos : Nat) :
    (afterHeader file s blockPos).ub = s.ub := rfl

@[simp] theorem afterHeader_writes (file : File) (s : Reader) (blockPos : Nat) :
    (afterHeader file s blockPos).writes = s.writes := rfl

@[simp] theorem afterIndex_ub (s : Reader) (blockPos sb eb : Nat) :
    (afterIndex s blockPos sb eb).ub = s.ub := rfl

@[simp] theorem afterIndex_writes (s : Reader) (blockPos sb eb : Nat) :
    (afterIndex s blockPos sb eb).writes = s.writes := rfl

theorem leAt_lt (bs : List UInt8) (n : Nat) : ∀ i : Int, leAt bs i n < 256 ^ n := by
  induction n with
  | zero => intro i; simp [leAt]
  | succ n ih =>
    intro i
    have h1 := ih (i + 1)
    have h2 : byteAt bs i < 256 := by
      unfold byteAt
      split
      · exact (bs.getD i.toNat 0).val.isLt
      · decide
    simp only [leAt, pow_succ]
    omega

theorem le64_lt (bs : List UInt8) (i : Int) : le64 bs i < 2 ^ 64 := by
  have h := leAt_lt bs 8 i
  unfold le64
  have h8 : (256 : Nat) ^ 8 = 2 ^ 64 := by decide
  omega

theorem compBufOverrun_false {codec : Codec} {n : Nat} (h : n ≤ codec.MAX_COMPRESSBOUND) :
    compBufOverrun codec n = false := by
  unfold compBufOverrun
  exact decide_eq_false (by omega)

theorem tmpBufOverrun_false {codec : Codec} {d n : Nat} {off : Int}
    (hd : d ≤ codec.MAX_SIZE_COMPRESS_BLOCK) (h0 : 0 ≤ off)
    (hn : off + (n : Int) ≤ (codec.MAX_SIZE_COMPRESS_BLOCK : Int)) :
    tmpBufOverrun codec d off n = false := by
  unfold tmpBufOverrun
  exact decide_eq_false (by omega)

theorem lastBlockCount_le (size B : Nat) (hB : 1 ≤ B) (hB32 : B < 2 ^ 32) :
    lastBlockCount size B ≤ B := by
  unfold lastBlockCount
  have h := Nat.mod_lt (u32OfInt ((size : Int) + (B : Int) - 1)) (by omega : 0 < B)
  rw [u32_of_lt (by omega)]
  omega


/-- The flag after the single-block branch. -/
theorem readSingleBlock_ub_eq (codec : Codec) (f : File) (s : Reader)
    (bp len size e B : Nat) (nb sb so : Int) (pStart compSize algo : Nat) :
    (readSingleBlock codec f s bp len size e B nb sb so pStart compSize algo).ub =
      if algo = 0 then s.ub
      else if len = (if sb = i32 (nb - 1) then lastBlockCount size B else B) then
        s.ub || compBufOverrun codec compSize
      else
        s.ub || compBufOverrun codec compSize ||
          tmpBufOverrun codec
            (codec algo (u32 (e * (if sb = i32 (nb - 1) then lastBlockCount size B else B)))
              (readBytes f (u64 (bp + pStart)) compSize)).length
            (i32 (e * so)) (u32 (e * len)) := by
  by_cases ha : algo = 0
  · simp only [readSingleBlock, if_pos ha]; rfl
  · simp only [readSingleBlock, if_neg ha]
    generalize (if sb = i32 (nb - 1) then lastBlockCount size B else B) = cur
    by_cases hl : len = cur
    · simp only [if_pos hl]; rfl
    · simp only [if_neg hl]; rfl

/-- The write to `outVec` of the single-block branch. -/
theorem readSingleBlock_writes_eq (codec : Codec) (f : File) (s : Reader)
    (bp len size e B : Nat) (nb sb so : Int) (pStart compSize algo : Nat) :
    (readSingleBlock codec f s bp len size e B nb sb so pStart compSize algo).writes =
      s.writes ++ [((0 : Int), if algo = 0 then u32 (len * e) else u32 (e * len))] := by
  by_cases ha : algo = 0
  · simp only [readSingleBlock, if_pos ha]; rfl
  · simp only [readSingleBlock, if_neg ha]
    generalize (if sb = i32 (nb - 1) then lastBlockCount size B else B) = cur
    by_cases hl : len = cur
    · simp only [if_pos hl]; rfl
    · simp only [if_neg hl]; rfl

/-- The flag after the first block of a multi-block read. -/
theorem readFirstBlock_ub_eq (codec : Codec) (f : File) (s : Reader)
    (bp e : Nat) (bs so sub : Int) (pStart compSize algo : Nat) :
    (readFirstBlock codec f s bp e bs so sub pStart compSize algo).ub =
      if algo = 0 then s.ub
      else if so = 0 then s.ub || compBufOverrun codec compSize
      else
        s.ub || compBufOverrun codec compSize ||
          tmpBufOverrun codec
            (codec algo (u32OfInt bs) (readBytes f (u64 (bp + pStart)) compSize)).length
            (i32 (e * so)) (u64OfInt (i32 (e * sub))) := by
  by_cases ha : algo = 0
  · simp only [readFirstBlock, if_pos ha]; rfl
  · simp only [readFirstBlock, if_neg ha]
    by_cases hs : so = 0
    · simp only [if_pos hs]; rfl
    · simp only [if_neg hs]; rfl

/-- The write to `outVec` of the first block of a multi-block read. -/
theorem readFirstBlock_writes_eq (codec : Codec) (f : File) (s : Reader)
    (bp e : Nat) (bs so sub : Int) (pStart compSize algo : Nat) :
    (readFirstBlock codec f s bp e bs so sub pStart compSize algo).writes =
      s.writes ++ [((0 : Int),
        if algo = 0 then (i32 (e * sub)).toNat
        else if so = 0 then u32OfInt bs else u64OfInt (i32 (e * sub)))] := by
  by_cases ha : algo = 0
  · simp only [readFirstBlock, if_pos ha]; rfl
  · simp only [readFirstBlock, if_neg ha]
    by_cases hs : so = 0
    · simp only [if_pos hs]; rfl
    · simp only [if_neg hs]; rfl

/-- The loop-carried variables and the flag after one middle-block iteration. -/
theorem middleBlock_eq (codec : Codec) (f : File) (idx : List UInt8) (bs bc : Int)
    (m : MidState) :
    (middleBlock codec f idx bs bc m).blockPEnd = le64 idx (i32 (10 + 10 * bc)) ∧
    (middleBlock codec f idx bs bc m).outOffset = i32 (m.outOffset + bs) ∧
    (middleBlock codec f idx bs bc m).rd.ub =
      (if le16 idx (i32 (8 + 10 * bc)) = 0 then m.rd.ub
       else m.rd.ub || compBufOverrun codec
        (u64OfInt ((le64 idx (i32 (10 + 10 * bc)) : Int) - m.blockPEnd))) ∧
    (middleBlock codec f idx bs bc m).rd.writes =
      m.rd.writes ++ [(m.outOffset,
        if le16 idx (i32 (8 + 10 * bc)) = 0 then bs.toNat else u32OfInt bs)] := by
  refine ⟨rfl, rfl, ?_, ?_⟩
  · simp only [middleBlock]
    generalize le16 idx (i32 (8 + 10 * bc)) = algo
    by_cases ha : algo = 0
    · simp only [if_pos ha]; rfl
    · simp only [if_neg ha]; rfl
  · simp only [middleBlock]
    generalize le16 idx (i32 (8 + 10 * bc)) = algo
    by_cases ha : algo = 0
    · simp only [if_pos ha]; rfl
    · simp only [if_neg ha]; rfl

/-- The flag after the last block of a multi-block read. -/
theorem readLastBlock_ub_eq (codec : Codec) (f : File) (idx : List UInt8)
    (size e B : Nat) (nb eb mb rem : Int) (m : MidState) :
    (readLastBlock codec f idx size e B nb eb mb rem m).ub =
      if le16 idx (i32 (8 + 10 * mb)) = 0 then m.rd.ub
      else if rem = (if eb = i32 (nb - 1) then i32 (lastBlockCount size B) else i32 B) then
        m.rd.ub || compBufOverrun codec
          (u64OfInt ((le64 idx (i32 (10 + 10 * mb)) : Int) - m.blockPEnd))
      else
        m.rd.ub || compBufOverrun codec
            (u64OfInt ((le64 idx (i32 (10 + 10 * mb)) : Int) - m.blockPEnd)) ||
          tmpBufOverrun codec
            (codec (le16 idx (i32 (8 + 10 * mb)))
              (u32OfInt ((if eb = i32 (nb - 1) then i32 (lastBlockCount size B) else i32 B) * e))
              (readBytes f m.rd.pos
                (u64OfInt ((le64 idx (i32 (10 + 10 * mb)) : Int) - m.blockPEnd)))).length
            0 (u64OfInt (i32 (e * rem))) := by
  simp only [readLastBlock]
  generalize le16 idx (i32 (8 + 10 * mb)) = algo
  generalize (if eb = i32 (nb - 1) then i32 (lastBlockCount size B) else i32 B) = cur
  by_cases ha : algo = 0
  · simp only [if_pos ha]; rfl
  · simp only [if_neg ha]
    by_cases hr : rem = cur
    · simp only [if_pos hr]; rfl
    · simp only [if_neg hr]; rfl

/-- The write to `outVec` of the last block of a multi-block read. -/
theorem readLastBlock_writes_eq (codec : Codec) (f : File) (idx : List UInt8)
    (size e B : Nat) (nb eb mb rem : Int) (m : MidState) :
    (readLastBlock codec f idx size e B nb eb mb rem m).writes =
      m.rd.writes ++ [(m.outOffset,
        if le16 idx (i32 (8 + 10 * mb)) = 0 then (i32 (e * rem)).toNat
        else if rem = (if eb = i32 (nb - 1) then i32 (lastBlockCount size B) else i32 B) then
          u32OfInt ((if eb = i32 (nb - 1) then i32 (lastBlockCount size B) else i32 B) * e)
        else u64OfInt (i32 (e * rem)))] := by
  simp only [readLastBlock]
  generalize le16 idx (i32 (8 + 10 * mb)) = algo
  generalize (if eb = i32 (nb - 1) then i32 (lastBlockCount size B) else i32 B) = cur
  by_cases ha : algo = 0
  · simp only [if_pos ha]; rfl
  · simp only [if_neg ha]
    by_cases hr : rem = cur
    · simp only [if_pos hr]; rfl
    · simp only [if_neg hr]; rfl

/-- The single-block branch stays inside the scratch arrays when a compressed
block fits them. -/
theorem readSingleBlock_ub (codec : Codec) (f : File) (s : Reader)
    (bp len size e B so : Nat) (nb sb : Int) (pStart compSize algo : Nat)
    (hcap : RespectsCapacity codec) (he : 1 ≤ e) (hB : 1 ≤ B) (hblk : e * B < 2 ^ 31)
    (hwin : so + len ≤ B)
    (hfit : algo ≠ 0 →
      compSize ≤ codec.MAX_COMPRESSBOUND ∧ e * B ≤ codec.MAX_SIZE_COMPRESS_BLOCK) :
    (readSingleBlock codec f s bp len size e B nb sb (i32 (so : Int)) pStart compSize algo).ub
      = s.ub := by
  rw [readSingleBlock_ub_eq]
  by_cases ha : algo = 0
  · rw [if_pos ha]
  · rw [if_neg ha]
    obtain ⟨hc, ht⟩ := hfit ha
    have hB31 : B < 2 ^ 31 := by
      have := Nat.le_mul_of_pos_left B he
      omega
    have hcur : (if sb = i32 (nb - 1) then lastBlockCount size B else B) ≤ B := by
      split_ifs
      · exact lastBlockCount_le size B hB (by omega)
      · exact Nat.le_refl B
    have hm1 : e * so + e * len ≤ e * B := by
      rw [← Nat.mul_add]
      exact Nat.mul_le_mul_left e hwin
    generalize (if sb = i32 (nb - 1) then lastBlockCount size B else B) = cur at hcur ⊢
    have hcB : e * cur ≤ e * B := Nat.mul_le_mul_left e hcur
    have b1 : e * so < 2 ^ 31 := by omega
    have b2 : e * len < 2 ^ 32 := by omega
    have b3 : e * cur < 2 ^ 32 := by omega
    have b4 : (0 : Int) ≤ ((e * so : Nat) : Int) := Int.ofNat_nonneg _
    have b5 : ((e * so : Nat) : Int) + ((e * len : Nat) : Int)
        ≤ (codec.MAX_SIZE_COMPRESS_BLOCK : Int) := by omega
    have b6 : ∀ src, (codec algo (e * cur) src).length ≤ codec.MAX_SIZE_COMPRESS_BLOCK :=
      fun src => Nat.le_trans (hcap _ _ _) (by omega)
    rw [i32_mul_i32 b1, u32_of_lt b2, u32_of_lt b3, compBufOverrun_false hc, Bool.or_false]
    by_cases hlc : len = cur
    · rw [if_pos hlc]
    · rw [if_neg hlc, tmpBufOverrun_false (b6 _) b4 b5, Bool.or_false]

/-- The first block of a multi-block read stays inside the scratch arrays when
a compressed block fits them. -/
theorem readFirstBlock_ub (codec : Codec) (f : File) (s : Reader)
    (bp e B so pStart compSize algo : Nat)
    (hcap : RespectsCapacity codec) (he : 1 ≤ e) (hso : so < B) (hblk : e * B < 2 ^ 31)
    (hfit : algo ≠ 0 →
      compSize ≤ codec.MAX_COMPRESSBOUND ∧ e * B ≤ codec.MAX_SIZE_COMPRESS_BLOCK) :
    (readFirstBlock codec f s bp e (i32 ((e : Int) * (B : Int))) (i32 (so : Int))
        (i32 ((B : Int) - i32 (so : Int))) pStart compSize algo).ub = s.ub := by
  rw [readFirstBlock_ub_eq]
  by_cases ha : algo = 0
  · rw [if_pos ha]
  · rw [if_neg ha]
    obtain ⟨hc, ht⟩ := hfit ha
    obtain ⟨hB31, hso31, hsub31, hsum⟩ := block_exact he (Nat.le_of_lt hso) hblk
    have hso31' : so < 2 ^ 31 := by omega
    have hblk32 : e * B < 2 ^ 32 := by omega
    have hsub64 : e * (B - so) < 2 ^ 64 := by omega
    have b4 : (0 : Int) ≤ ((e * so : Nat) : Int) := Int.ofNat_nonneg _
    have b5 : ((e * so : Nat) : Int) + ((e * (B - so) : Nat) : Int)
        ≤ (codec.MAX_SIZE_COMPRESS_BLOCK : Int) := by omega
    have b6 : ∀ src, (codec algo (e * B) src).length ≤ codec.MAX_SIZE_COMPRESS_BLOCK :=
      fun src => Nat.le_trans (hcap _ _ _) ht
    rw [i32_natCast hso31', i32_sub_cast (Nat.le_of_lt hso) hB31, i32_mul_cast hsub31,
      i32_mul_cast hso31, i32_mul_cast hblk, u32OfInt_natCast hblk32, u64OfInt_natCast hsub64,
      compBufOverrun_false hc, Bool.or_false]
    by_cases hs0 : (so : Int) = 0
    · rw [if_pos hs0]
    · rw [if_neg hs0, tmpBufOverrun_false (b6 _) b4 b5, Bool.or_false]

theorem i32_index_ten {j : Nat} (hj : 10 + 10 * j < 2 ^ 31) :
    i32 (10 + 10 * (j : Int)) = ((10 * (j + 1) : Nat) : Int) := by
  have h := @i32_index 10 j hj
  have hc : ((10 + 10 * j : Nat) : Int) = ((10 * (j + 1) : Nat) : Int) := by
    congr 1
    omega
  exact h.trans hc

theorem i32_index_eight {j : Nat} (hj : 8 + 10 * j < 2 ^ 31) :
    i32 (8 + 10 * (j : Int)) = ((10 * j + 8 : Nat) : Int) := by
  have h := @i32_index 8 j hj
  have hc : ((8 + 10 * j : Nat) : Int) = ((10 * j + 8 : Nat) : Int) := by
    congr 1
    omega
  exact h.trans hc

/-- One middle-block iteration stays inside `compBuf` when the payload of a
compressed block fits it. -/
theorem middleBlock_ub (codec : Codec) (f : File) (idx : List UInt8) (m : MidState)
    (bs : Int) (e B j : Nat) (hj : 10 + 10 * j < 2 ^ 31)
    (hmp : m.blockPEnd = le64 idx ((10 * j : Nat) : Int))
    (hfit : IndexFits codec idx e B j) :
    (middleBlock codec f idx bs (j : Int) m).rd.ub = m.rd.ub ∧
    (middleBlock codec f idx bs (j : Int) m).blockPEnd
      = le64 idx ((10 * (j + 1) : Nat) : Int) := by
  have hj8 : 8 + 10 * j < 2 ^ 31 := by omega
  obtain ⟨q1, -, q3, -⟩ := middleBlock_eq codec f idx bs (j : Int) m
  rw [q1, q3, i32_index_ten hj, i32_index_eight hj8, hmp]
  refine ⟨?_, rfl⟩
  by_cases ha : le16 idx ((10 * j + 8 : Nat) : Int) = 0
  · rw [if_pos ha]
  · obtain ⟨h1, h2, -⟩ := hfit ha
    rw [if_neg ha, u64OfInt_sub_of_le (le64_lt _ _) h1, compBufOverrun_false h2, Bool.or_false]

/-- The middle-block loop stays inside `compBuf` when the payloads of the
compressed blocks it reads fit it. -/
theorem middleBlocks_ub (codec : Codec) (f : File) (idx : List UInt8) (bs : Int) (e B : Nat) :
    ∀ (n j : Nat) (m : MidState),
      10 * (j + n + 1) < 2 ^ 31 →
      m.blockPEnd = le64 idx ((10 * j : Nat) : Int) →
      (∀ k, j ≤ k → k < j + n → IndexFits codec idx e B k) →
      (middleBlocks codec f idx bs n (j : Int) m).rd.ub = m.rd.ub ∧
      (middleBlocks codec f idx bs n (j : Int) m).blockPEnd
        = le64 idx ((10 * (j + n) : Nat) : Int) := by
  intro n
  induction n with
  | zero =>
    intro j m _ h1 _
    rw [middleBlocks, Nat.add_zero]
    exact ⟨rfl, h1⟩
  | succ n ih =>
    intro j m hj h1 hfit
    obtain ⟨s1, s2⟩ := middleBlock_ub codec f idx m bs e B j (by omega) h1
      (hfit j (Nat.le_refl _) (by omega))
    have hcast : ((j : Int) + 1) = ((j + 1 : Nat) : Int) := by push_cast; rfl
    obtain ⟨t1, t2⟩ := ih (j + 1) (middleBlock codec f idx bs (j : Int) m) (by omega) s2
      (fun k hk1 hk2 => hfit k (by omega) (by omega))
    have hjn : j + 1 + n = j + (n + 1) := by omega
    rw [middleBlocks, hcast, t1, t2, s1, hjn]
    exact ⟨rfl, rfl⟩

/-- The last block of a multi-block read stays inside the scratch arrays when a
compressed block fits them. -/
theorem readLastBlock_ub (codec : Codec) (f : File) (idx : List UInt8) (m : MidState)
    (size e B rem w : Nat) (nb eb : Int)
    (hcap : RespectsCapacity codec) (he : 1 ≤ e) (hB : 1 ≤ B) (hblk : e * B < 2 ^ 31)
    (hrem : rem ≤ B) (hw : 10 + 10 * w < 2 ^ 31)
    (hmp : m.blockPEnd = le64 idx ((10 * w : Nat) : Int))
    (hfit : IndexFits codec idx e B w) :
    (readLastBlock codec f idx size e B nb eb (w : Int) (rem : Int) m).ub = m.rd.ub := by
  have hw8 : 8 + 10 * w < 2 ^ 31 := by omega
  have hB31 : B < 2 ^ 31 := by
    have := Nat.le_mul_of_pos_left B he
    omega
  rw [readLastBlock_ub_eq, i32_index_ten hw, i32_index_eight hw8, hmp]
  by_cases ha : le16 idx ((10 * w + 8 : Nat) : Int) = 0
  · rw [if_pos ha]
  · obtain ⟨h1, h2, ht⟩ := hfit ha
    have hlc := lastBlockCount_le size B hB (by omega)
    have hcur : ∃ c : Nat, c ≤ B ∧
        (if eb = i32 (nb - 1) then i32 ((lastBlockCount size B : Nat) : Int)
          else i32 ((B : Nat) : Int)) = (c : Int) := by
      split_ifs
      · exact ⟨lastBlockCount size B, hlc, i32_natCast (by omega)⟩
      · exact ⟨B, Nat.le_refl B, i32_natCast hB31⟩
    obtain ⟨c, hcB, hce⟩ := hcur
    have hm1 : e * rem ≤ e * B := Nat.mul_le_mul_left e hrem
    have hm2 : c * e ≤ e * B := by
      rw [Nat.mul_comm c e]
      exact Nat.mul_le_mul_left e hcB
    have b1 : e * rem < 2 ^ 31 := by omega
    have b2 : e * rem < 2 ^ 64 := by omega
    have b3 : c * e < 2 ^ 32 := by omega
    have b5 : (0 : Int) + ((e * rem : Nat) : Int) ≤ (codec.MAX_SIZE_COMPRESS_BLOCK : Int) := by
      omega
    have b6 : ∀ a src, (codec a (c * e) src).length ≤ codec.MAX_SIZE_COMPRESS_BLOCK :=
      fun a src => Nat.le_trans (hcap _ _ _) (by omega)
    have x3 : u32OfInt ((c : Int) * (e : Int)) = c * e := by
      rw [← Int.natCast_mul]
      exact u32OfInt_natCast b3
    rw [if_neg ha, hce, x3, i32_mul_cast b1, u64OfInt_natCast b2,
      u64OfInt_sub_of_le (le64_lt _ _) h1, compBufOverrun_false h2, Bool.or_false]
    by_cases hr : (rem : Int) = (c : Int)
    · rw [if_pos hr]
    · rw [if_neg hr, tmpBufOverrun_false (b6 _ _) (Int.le_refl 0) b5, Bool.or_false]

/-- The blocks after the first one stay inside the scratch arrays when the
compressed blocks among them fit. -/
theorem readRest_ub (codec : Codec) (f : File) (r1 : Reader) (idx : List UInt8)
    (sr len size e B sb w so pEnd : Nat) (nb : Int)
    (hcap : RespectsCapacity codec) (he : 1 ≤ e) (hsz : size < 2 ^ 32) (hB : 1 ≤ B)
    (hblk : e * B < 2 ^ 31) (hN : sr + len ≤ size)
    (hidx : 10 * (sb + w + 2) < 2 ^ 31) (hw : 1 ≤ w)
    (hpe : pEnd = le64 idx ((10 * 1 : Nat) : Int))
    (hfit : ∀ k, 1 ≤ k → k ≤ w → IndexFits codec idx e B k) :
    (readRest codec f r1 idx sr len size e B nb (sb : Int) ((sb + w : Nat) : Int)
      ((e * B : Nat) : Int) ((B - so : Nat) : Int) pEnd).ub = r1.ub := by
  have hremlt : (sr + len) % B < B := Nat.mod_lt _ (by omega)
  have hsl32 : sr + len < 2 ^ 32 := by omega
  have hsw31 : sb + w + 1 < 2 ^ 31 := by omega
  have hsw31' : sb + w < 2 ^ 31 := by omega
  have hsw31'' : sb + (w + 1) < 2 ^ 31 := by omega
  have hB31 : B < 2 ^ 31 := by
    have := Nat.le_mul_of_pos_left B he
    omega
  have hsub : e * (B - so) ≤ e * B := Nat.mul_le_mul_left e (Nat.sub_le B so)
  have hsub31 : e * (B - so) < 2 ^ 31 := by omega
  generalize hrem : (sr + len) % B = rem at *
  have hrem31 : rem < 2 ^ 31 := by omega
  have hcast1 : (1 : Int) = ((1 : Nat) : Int) := rfl
  by_cases hz : rem = 0
  · obtain ⟨l1, -⟩ := middleBlocks_ub codec f idx ((e * B : Nat) : Int) e B w 1
      { blockPEnd := pEnd, outOffset := ((e * (B - so) : Nat) : Int), rd := r1 }
      (by omega) hpe (fun k hk1 hk2 => hfit k hk1 (by omega))
    have hz' : (rem : Int) = 0 := by rw [hz]; rfl
    have hu : u32 (sr + len) = sr + len := u32_of_lt hsl32
    have x1 : i32 (((B - so : Nat) : Int) * (e : Int)) = ((e * (B - so) : Nat) : Int) :=
      i32_mul_cast_comm hsub31
    have x2 : i32 (rem : Int) = (rem : Int) := i32_natCast hrem31
    have x3 : i32 (((sb + w : Nat) : Int) + 1) = ((sb + (w + 1) : Nat) : Int) := by
      have := @i32_succ_cast (sb + w) hsw31
      rw [this, Nat.add_assoc]
    have x4 : i32 (((sb + (w + 1) : Nat) : Int) - (sb : Int)) = ((w + 1 : Nat) : Int) :=
      i32_span hsw31''
    have x5 : ((((w + 1 : Nat) : Int)) - 1).toNat = w := by
      rw [toNat_pred_cast, Nat.add_sub_cancel]
    simp only [readRest, hu, hrem, x2, if_pos hz', x3, x4, x5, x1]
    rw [hcast1]
    exact l1
  · obtain ⟨l1, l2⟩ := middleBlocks_ub codec f idx ((e * B : Nat) : Int) e B (w - 1) 1
      { blockPEnd := pEnd, outOffset := ((e * (B - so) : Nat) : Int), rd := r1 }
      (by omega) hpe (fun k hk1 hk2 => hfit k hk1 (by omega))
    have hw1 : 1 + (w - 1) = w := by omega
    rw [hw1] at l2
    have hlast := readLastBlock_ub codec f idx
      (middleBlocks codec f idx ((e * B : Nat) : Int) (w - 1) ((1 : Nat) : Int)
        { blockPEnd := pEnd, outOffset := ((e * (B - so) : Nat) : Int), rd := r1 })
      size e B rem w nb ((sb + w : Nat) : Int) hcap he hB hblk (Nat.le_of_lt hremlt) (by omega)
      l2 (hfit w hw (Nat.le_refl w))
    rw [l1] at hlast
    clear l1 l2
    have hz' : ¬ ((rem : Int) = 0) := by omega
    have hu : u32 (sr + len) = sr + len := u32_of_lt hsl32
    have x1 : i32 (((B - so : Nat) : Int) * (e : Int)) = ((e * (B - so) : Nat) : Int) :=
      i32_mul_cast_comm hsub31
    have x2 : i32 (rem : Int) = (rem : Int) := i32_natCast hrem31
    have x4 : i32 (((sb + w : Nat) : Int) - (sb : Int)) = (w : Int) := i32_span hsw31'
    have x5 : ((w : Int) - 1).toNat = w - 1 := toNat_pred_cast w
    simp only [readRest, hu, hrem, x2, if_neg hz', x4, x5, x1]
    rw [hcast1]
    exact hlast

/-- The block reads of a variable-ratio read stay inside the scratch arrays when
the compressed blocks of the window fit them. -/
theorem readBlocks_ub (codec : Codec) (f : File) (s : Reader) (idx : List UInt8)
    (bp sr len size e B : Nat) (nb : Int)
    (hcap : RespectsCapacity codec) (he : 1 ≤ e) (hsz : size < 2 ^ 32) (hB : 1 ≤ B)
    (hblk : e * B < 2 ^ 31) (hN : sr + len ≤ size) (hlen : 1 ≤ len)
    (hidx : 10 * ((sr + len - 1) / B + 2) < 2 ^ 31)
    (hfit : ∀ k, k ≤ (sr + len - 1) / B - sr / B → IndexFits codec idx e B k) :
    (readBlocks codec f s idx bp sr len size e B nb ((sr / B : Nat) : Int)
      (((sr + len - 1) / B : Nat) : Int) (i32 ((sr % B : Nat) : Int))).ub = s.ub := by
  obtain ⟨g1, g2, g3, g4, g5, g6, g7⟩ := window_geom sr len B hB hlen
  have c0 : ((10 * 0 : Nat) : Int) = 0 := rfl
  have c8 : ((10 * 0 + 8 : Nat) : Int) = 8 := rfl
  have c10 : ((10 * (0 + 1) : Nat) : Int) = 10 := rfl
  have a0 := hfit 0 (Nat.zero_le _)
  unfold IndexFits at a0
  rw [c0, c8, c10] at a0
  have hfit0 : le16 idx 8 ≠ 0 →
      u64OfInt ((le64 idx 10 : Int) - (le64 idx 0 : Int)) ≤ codec.MAX_COMPRESSBOUND ∧
      e * B ≤ codec.MAX_SIZE_COMPRESS_BLOCK := by
    intro ha
    obtain ⟨h1, h2, h3⟩ := a0 ha
    rw [u64OfInt_sub_of_le (le64_lt _ _) h1]
    exact ⟨h2, h3⟩
  clear a0
  generalize sr / B = sb at *
  generalize (sr + len - 1) / B = eb at *
  generalize sr % B = so at *
  rcases Nat.eq_or_lt_of_le g1 with heq | hlt
  · subst heq
    simp only [readBlocks, if_true]
    exact readSingleBlock_ub codec f s bp len size e B so nb _ _ _ _ hcap he hB hblk (g4 rfl)
      hfit0
  · obtain ⟨w, rfl⟩ := Nat.exists_eq_add_of_le (Nat.le_of_lt hlt)
    have hw : 1 ≤ w := by omega
    have hcancel : sb + w - sb = w := by omega
    rw [hcancel] at hfit
    have hB31 : B < 2 ^ 31 := by
      have := Nat.le_mul_of_pos_left B he
      omega
    have hso31 : so < 2 ^ 31 := by omega
    have hne : ¬ ((sb : Int) = ((sb + w : Nat) : Int)) := by omega
    have hf := readFirstBlock_ub codec f s bp e B so (le64 idx 0)
      (u64OfInt ((le64 idx 10 : Int) - (le64 idx 0 : Int))) (le16 idx 8) hcap he g2 hblk hfit0
    have x1 : i32 (so : Int) = (so : Int) := i32_natCast hso31
    have x2 : i32 ((B : Int) - (so : Int)) = ((B - so : Nat) : Int) :=
      i32_sub_cast (Nat.le_of_lt g2) hB31
    have x3 : i32 ((e : Int) * (B : Int)) = ((e * B : Nat) : Int) := i32_mul_cast hblk
    simp only [x1, x2, x3] at hf
    have hrest := readRest_ub codec f
      (readFirstBlock codec f s bp e ((e * B : Nat) : Int) (so : Int) ((B - so : Nat) : Int)
        (le64 idx 0) (u64OfInt ((le64 idx 10 : Int) - (le64 idx 0 : Int))) (le16 idx 8))
      idx sr len size e B sb w so (le64 idx 10) nb hcap he hsz hB hblk hN hidx hw
      rfl (fun k _ hk2 => hfit k hk2)
    simp only [readBlocks, if_neg hne, x1, x2, x3]
    rw [hrest]
    exact hf

/-- Entries of the index buffer fit when the blocks they describe do. -/
theorem indexFits_of_scratchFits (codec : Codec) (file : File) (bp e B sb w k : Nat)
    (hk : k ≤ w) (h : ScratchFits codec file bp e B (sb + k)) :
    IndexFits codec (readBytes file (bp + 8 + 10 * sb) (10 * (w + 2))) e B k := by
  obtain ⟨a1, a2⟩ := blockIndex_entry file bp sb (w + 2) k (by omega)
  obtain ⟨b1, -⟩ := blockIndex_entry file bp sb (w + 2) (k + 1) (by omega)
  unfold IndexFits
  rw [a1, a2, b1]
  exact h

/-- The payload phase of a variable-ratio read stays inside the scratch arrays
when the compressed blocks of the window fit them. -/
theorem readBlocks_fits (codec : Codec) (file : File) (s : Reader)
    (bp sr len size e B : Nat) (nb : Int)
    (hcap : RespectsCapacity codec) (he : 1 ≤ e) (hsz : size < 2 ^ 32) (hB : 1 ≤ B)
    (hblk : e * B < 2 ^ 31) (hN : sr + len ≤ size) (hlen : 1 ≤ len)
    (hidx : 10 * ((sr + len - 1) / B + 2) < 2 ^ 31)
    (hfit : ∀ k, sr / B ≤ k → k ≤ (sr + len - 1) / B → ScratchFits codec file bp e B k) :
    (readBlocks codec file s
      (readBytes file (bp + 8 + 10 * (sr / B)) (10 * ((sr + len - 1) / B - sr / B + 2)))
      bp sr len size e B nb ((sr / B : Nat) : Int)
      (((sr + len - 1) / B : Nat) : Int) (i32 ((sr % B : Nat) : Int))).ub = s.ub := by
  have hle : sr / B ≤ (sr + len - 1) / B := Nat.div_le_div_right (by omega)
  apply readBlocks_ub codec file s _ bp sr len size e B nb hcap he hsz hB hblk hN hlen hidx
  intro k hk
  exact indexFits_of_scratchFits codec file bp e B (sr / B) _ k hk
    (hfit (sr / B + k) (by omega) (by omega))

/-! ## C1: variable-ratio sub-range read -/

/-- C1 (amended): for a column of `size = N ≥ 1` elements of `elementSize ≥ 1`
bytes stored at `blockPos` with `header[0] ≠ 0` and `header[1] = B ≥ 1`
(contiguous payloads, index entry `k` locating payload `k` at
`blockPos + offset`, every payload decoding to the bytes of its block), a
decompressor that never writes more than the capacity it is given, and a window
with `length ≥ 1`, `startRow + length ≤ N` and `length * elementSize < 2^31`,
if moreover every compressed block fits the scratch arrays (payload of at most
`MAX_COMPRESSBOUND` bytes, `elementSize * B ≤ MAX_SIZE_COMPRESS_BLOCK`),
`N + B ≤ 2^32`, `elementSize * B < 2^31`, the index window fits an `int` byte
count (`10 * (endBlock + 2) < 2^31`) and the index position fits 64 bits, then
`fdsReadColumn_v1` returns without an access outside a scratch array and the
output buffer holds exactly the bytes
`[startRow * elementSize, (startRow + length) * elementSize)` of the column;
when the full read `(0, N)` meets the same bounds, these are the bytes the
full read holds at that slice. -/
theorem variable_subrange_read (codec : Codec) (srcRep tgtRep : Nat → Nat) (file : File)
    (s : Reader) (col : Nat → UInt8) (blockPos startRow length size e B : Nat)
    (h0 : header0 file blockPos ≠ 0) (h1 : header1 file blockPos = B) (hB : 1 ≤ B)
    (he : 1 ≤ e) (hcap : RespectsCapacity codec)
    (hst : StoredColumn codec file col blockPos size e B)
    (hfit : ∀ k, k < 1 + (size - 1) / B → ScratchFits codec file blockPos e B k)
    (hlen : 1 ≤ length) (hN : startRow + length ≤ size) (hout : length * e < 2 ^ 31)
    (hNB : size + B ≤ 2 ^ 32) (hblk : e * B < 2 ^ 31)
    (hidx : 10 * ((startRow + length - 1) / B + 2) < 2 ^ 31)
    (hpos : blockPos + 8 + 10 * (startRow / B) < 2 ^ 64) :
    ∃ r, fdsReadColumn_v1 codec srcRep tgtRep file s blockPos startRow length size e
        = Except.ok r ∧
      r.ub = s.ub ∧
      Holds r.out col (e * startRow) (e * length) ∧
      (size * e < 2 ^ 31 → 10 * ((size - 1) / B + 2) < 2 ^ 31 →
        ∃ rf, fdsReadColumn_v1 codec srcRep tgtRep file s blockPos 0 size size e
            = Except.ok rf ∧
          rf.ub = s.ub ∧
          ∀ i : Nat, i < e * length → r.out (i : Int) = rf.out ((e * startRow + i : Nat) : Int)) := by
  have hsz : size < 2 ^ 32 := by omega
  have hsize : 1 ≤ size := by omega
  have hout' : e * length < 2 ^ 31 := by rw [Nat.mul_comm]; exact hout
  have hwin : ∀ (sr len : Nat), 1 ≤ len → sr + len ≤ size →
      ∀ k, sr / B ≤ k → k ≤ (sr + len - 1) / B → ScratchFits codec file blockPos e B k := by
    intro sr len _ hsl k _ hk
    have hm : (sr + len - 1) / B ≤ (size - 1) / B := Nat.div_le_div_right (by omega)
    exact hfit k (by omega)
  have hstart := variable_read_start codec srcRep tgtRep file s blockPos startRow length size e B
    h0 h1 hB hlen hN hsz hidx hpos
  have hub := readBlocks_fits codec file
    (afterIndex (afterHeader file s blockPos) blockPos (startRow / B)
      ((startRow + length - 1) / B))
    blockPos startRow length size e B (i32 ((1 + (size - 1) / B : Nat) : Int))
    hcap he hsz hB hblk hN hlen hidx (hwin startRow length hlen hN)
  rw [afterIndex_ub, afterHeader_ub] at hub
  have hh := readBlocks_holds codec file
    (afterIndex (afterHeader file s blockPos) blockPos (startRow / B)
      ((startRow + length - 1) / B))
    col blockPos startRow length size e B he hsz hB hNB hblk hN hlen hout' hidx hst
  refine ⟨_, hstart, hub, hh, ?_⟩
  intro hfull hfidx
  have hpos0 : blockPos + 8 + 10 * (0 / B) < 2 ^ 64 := by
    rw [Nat.zero_div]
    omega
  have hfidx' : 10 * ((0 + size - 1) / B + 2) < 2 ^ 31 := by
    rw [Nat.zero_add]
    exact hfidx
  have hN0 : 0 + size ≤ size := by omega
  have hfull' : e * size < 2 ^ 31 := by rw [Nat.mul_comm]; exact hfull
  have hstartf := variable_read_start codec srcRep tgtRep file s blockPos 0 size size e B
    h0 h1 hB hsize hN0 hsz hfidx' hpos0
  have hubf := readBlocks_fits codec file
    (afterIndex (afterHeader file s blockPos) blockPos (0 / B) ((0 + size - 1) / B))
    blockPos 0 size size e B (i32 ((1 + (size - 1) / B : Nat) : Int))
    hcap he hsz hB hblk hN0 hsize hfidx' (hwin 0 size hsize hN0)
  rw [afterIndex_ub, afterHeader_ub] at hubf
  have hhf := readBlocks_holds codec file
    (afterIndex (afterHeader file s blockPos) blockPos (0 / B) ((0 + size - 1) / B))
    col blockPos 0 size size e B he hsz hB hNB hblk hN0 hsize hfull' hfidx' hst
  refine ⟨_, hstartf, hubf, ?_⟩
  intro i hi
  have hle : e * startRow + e * length ≤ e * size := by
    rw [← Nat.mul_add]
    exact Nat.mul_le_mul_left e hN
  have h2 := hhf (e * startRow + i) (by omega)
  rw [Nat.mul_zero, Nat.zero_add (e * startRow + i)] at h2
  rw [hh i hi, h2]

theorem demoColumn_stored : StoredColumn xorCodec demoColumn indexColumn 3 10 4 4 := by
  unfold StoredColumn BlockStored
  decide!

theorem xorCodec_respects : RespectsCapacity xorCodec := by
  intro algo cap src
  show ((src.map fun b => b ^^^ 0x55).take cap).length ≤ cap
  rw [List.length_take]
  exact Nat.min_le_left _ _

theorem demoColumn_fits : ∀ k, k < 1 + (10 - 1) / 4 → ScratchFits xorCodec demoColumn 3 4 4 k := by
  intro k hk
  have h3 : 1 + (10 - 1) / 4 = 3 := by decide
  rw [h3] at hk
  have hcases : k = 0 ∨ k = 1 ∨ k = 2 := by omega
  unfold ScratchFits
  rcases hcases with rfl | rfl | rfl
  · decide
  · decide
  · decide

/-- C1 on the demo column (ten `int32` values `0 .. 9` at offset 3, four
elements per block): the read `(3, 2)` spans blocks 0 and 1 and delivers the
bytes `12 .. 19` of the column, the same bytes the full read holds there. -/
theorem variable_subrange_read_witness :
    ∃ r, fdsReadColumn_v1 xorCodec noTable noTable demoColumn reader0 3 3 2 10 4
        = Except.ok r ∧
      r.ub = false ∧
      Holds r.out indexColumn (4 * 3) (4 * 2) ∧
      ∃ rf, fdsReadColumn_v1 xorCodec noTable noTable demoColumn reader0 3 0 10 10 4
          = Except.ok rf ∧
        rf.ub = false ∧
        ∀ i : Nat, i < 4 * 2 → r.out (i : Int) = rf.out ((4 * 3 + i : Nat) : Int) := by
  obtain ⟨r, h1, h2, h3, h4⟩ := variable_subrange_read xorCodec noTable noTable demoColumn
    reader0 indexColumn 3 3 2 10 4 4 (by decide) (by decide) (by decide) (by decide)
    xorCodec_respects demoColumn_stored demoColumn_fits (by decide)
    (by decide) (by decide) (by decide) (by decide) (by decide) (by decide)
  exact ⟨r, h1, h2, h3, h4 (by decide) (by decide)⟩

theorem colBytes_sevens (c n : Nat) : colBytes sevens c n = List.replicate n 7 := by
  unfold colBytes sevens
  rw [List.map_const', List.length_range]

theorem runCodec_run (a cap cnt : Nat) (src : List UInt8) (h : le32 src 1 = cnt)
    (hv : src.getD 0 0 = 7) (hc : cap ≤ cnt) : runCodec a cap src = List.replicate cap 7 := by
  show List.replicate (min cap (le32 src 1)) (src.getD 0 0) = List.replicate cap 7
  rw [h, hv, Nat.min_eq_left hc]

theorem runCodec_length (a cap : Nat) (src : List UInt8) :
    (runCodec a cap src).length = min cap (le32 src 1) := by
  show (List.replicate (min cap (le32 src 1)) (src.getD 0 0)).length = min cap (le32 src 1)
  exact List.length_replicate _ _

theorem runCodec_respects : RespectsCapacity runCodec := by
  intro algo cap src
  rw [runCodec_length]
  exact Nat.min_le_left _ _

theorem runColumn_stored :
    StoredColumn runCodec runColumn sevens 0 (3 * 2 ^ 30) 1 (2 ^ 30 + 1) := by
  intro k hk
  have h3 : 1 + (3 * 2 ^ 30 - 1) / (2 ^ 30 + 1) = 3 := by decide
  rw [h3] at hk
  have hcases : k = 0 ∨ k = 1 ∨ k = 2 := by omega
  rcases hcases with rfl | rfl | rfl
  · refine ⟨by decide, fun h => absurd h (by decide), fun _ => ⟨by decide, ?_⟩⟩
    rw [colBytes_sevens]
    exact runCodec_run _ _ (2 ^ 30 + 1) _ (by decide) (by decide) (by decide)
  · refine ⟨by decide, fun h => absurd h (by decide), fun _ => ⟨by decide, ?_⟩⟩
    rw [colBytes_sevens]
    exact runCodec_run _ _ (2 ^ 30 + 1) _ (by decide) (by decide) (by decide)
  · refine ⟨by decide, fun h => absurd h (by decide), fun _ => ⟨by decide, ?_⟩⟩
    rw [colBytes_sevens]
    exact runCodec_run _ _ (2 ^ 30 - 2) _ (by decide) (by decide) (by decide)

theorem bigBlockColumn_stored :
    StoredColumn runCodec bigBlockColumn sevens 0 (2 ^ 20) 1 (2 ^ 20) := by
  intro k hk
  have h1 : 1 + (2 ^ 20 - 1) / 2 ^ 20 = 1 := by decide
  rw [h1] at hk
  have hk0 : k = 0 := by omega
  subst hk0
  refine ⟨by decide, fun h => absurd h (by decide), fun _ => ⟨by decide, ?_⟩⟩
  rw [colBytes_sevens]
  exact runCodec_run _ _ (2 ^ 20) _ (by decide) (by decide) (by decide)

theorem ubOf_ok (r : Reader) : ubOf (Except.ok r) = r.ub := rfl

/-- Flag of the single-block branch for a compressed block of which a part is
requested. -/
theorem readSingleBlock_tmp_ub (codec : Codec) (f : File) (s : Reader)
    (bp len size e B : Nat) (nb sb so : Int) (pStart compSize algo : Nat)
    (ha : algo ≠ 0)
    (hlc : len ≠ (if sb = i32 (nb - 1) then lastBlockCount size B else B)) :
    (readSingleBlock codec f s bp len size e B nb sb so pStart compSize algo).ub =
      (s.ub || compBufOverrun codec compSize ||
        tmpBufOverrun codec (codec algo
          (u32 (e * (if sb = i32 (nb - 1) then lastBlockCount size B else B)))
          (readBytes f (u64 (bp + pStart)) compSize)).length
          (i32 (e * so)) (u32 (e * len))) := by
  simp only [readSingleBlock, if_neg ha, if_neg hlc]
  rfl

/-- C1 as stated fails in two ways. The column of `2^20` bytes equal to 7 is
stored as one run-length block of `B = 2^20` one-byte elements; the read of its
first two elements decodes the whole block, `2^20` bytes, into `tmpBuf`, an
array of `MAX_SIZE_COMPRESS_BLOCK = 16384` bytes, and so has no defined
behaviour. The column of `3 * 2^30` bytes equal to 7 is stored in blocks of
`B = 2^30 + 1` elements (run-length payloads); its last block, block 2, holds
`2^30 - 2` elements, but `1 + (size + B - 1) % B` is evaluated in
`unsigned int`, where `size + B - 1 = 2^32` wraps to 0, and gives 1. The read
of the first two elements of block 2 decodes one byte into the scratch buffer
(no access outside it) and copies two: the second output byte is not the
column's. -/
theorem variable_subrange_read_counterexample :
    (header0 bigBlockColumn 0 ≠ 0 ∧ header1 bigBlockColumn 0 = 2 ^ 20 ∧ 1 ≤ 2 ^ 20 ∧
      StoredColumn runCodec bigBlockColumn sevens 0 (2 ^ 20) 1 (2 ^ 20) ∧
      1 ≤ 2 ∧ 0 + 2 ≤ 2 ^ 20 ∧ 2 * 1 < 2 ^ 31 ∧
      ubOf (fdsReadColumn_v1 runCodec noTable noTable bigBlockColumn reader0 0 0 2 (2 ^ 20) 1)
        = true) ∧
    (header0 runColumn 0 ≠ 0 ∧ header1 runColumn 0 = 2 ^ 30 + 1 ∧ 1 ≤ 2 ^ 30 + 1 ∧
      StoredColumn runCodec runColumn sevens 0 (3 * 2 ^ 30) 1 (2 ^ 30 + 1) ∧
      1 ≤ 2 ∧ 2 * (2 ^ 30 + 1) + 2 ≤ 3 * 2 ^ 30 ∧ 2 * 1 < 2 ^ 31 ∧
      blockElems (3 * 2 ^ 30) (2 ^ 30 + 1) 2 = 2 ^ 30 - 2 ∧
      lastBlockCount (3 * 2 ^ 30) (2 ^ 30 + 1) = 1 ∧
      returned (fdsReadColumn_v1 runCodec noTable noTable runColumn reader0 0 (2 * (2 ^ 30 + 1)) 2
        (3 * 2 ^ 30) 1) = true ∧
      ubOf (fdsReadColumn_v1 runCodec noTable noTable runColumn reader0 0 (2 * (2 ^ 30 + 1)) 2
        (3 * 2 ^ 30) 1) = false ∧
      ¬ Holds (outputOf reader0 (fdsReadColumn_v1 runCodec noTable noTable runColumn reader0 0
        (2 * (2 ^ 30 + 1)) 2 (3 * 2 ^ 30) 1)) sevens (1 * (2 * (2 ^ 30 + 1))) (1 * 2)) := by
  have hbig : ubOf (fdsReadColumn_v1 runCodec noTable noTable bigBlockColumn reader0 0 0 2
      (2 ^ 20) 1) = true := by
    rw [variable_read_start runCodec noTable noTable bigBlockColumn reader0 0 0 2 (2 ^ 20) 1
      (2 ^ 20) (by decide) (by decide) (by decide) (by decide) (by decide) (by decide)
      (by decide) (by decide), ubOf_ok]
    simp only [readBlocks]
    rw [if_pos (by decide), readSingleBlock_tmp_ub _ _ _ _ _ _ _ _ _ _ _ _ _ _ (by decide!)
      (by decide!), runCodec_length]
    decide!
  refine ⟨⟨by decide, by decide, by decide, bigBlockColumn_stored, by decide, by decide,
    by decide, hbig⟩, by decide, by decide, by decide, runColumn_stored, by decide, by decide,
    by decide, by decide, by decide!, by decide!, by decide!, ?_⟩
  intro h
  have h1 := h 1 (by decide)
  have hv : outputOf reader0 (fdsReadColumn_v1 runCodec noTable noTable runColumn reader0 0
      (2 * (2 ^ 30 + 1)) 2 (3 * 2 ^ 30) 1) ((1 : Nat) : Int) = 0 := by decide!
  rw [hv] at h1
  exact absurd h1 (by decide)

/-! ## C2: fixed-ratio sub-range read -/

theorem readBytes_length (file : File) (p n : Nat) : (readBytes file p n).length = n := by
  simp [readBytes]

theorem readBytes_append (file : File) (p a b : Nat) :
    readBytes file p (a + b) = readBytes file p a ++ readBytes file (p + a) b := by
  unfold readBytes
  rw [List.range_add, List.map_append, List.map_map]
  congr 1
  apply List.map_congr_left
  intro i _
  show file (p + (a + i)) = file (p + a + i)
  rw [Nat.add_assoc]

theorem readBytes_take (file : File) (p a b : Nat) :
    (readBytes file p (a + b)).take a = readBytes file p a := by
  rw [readBytes_append]
  exact List.take_left' (readBytes_length file p a)

theorem readBytes_drop_take (file : File) (p a b : Nat) :
    ((readBytes file p (a + b)).drop a).take b = readBytes file (p + a) b := by
  rw [readBytes_append, List.drop_left' (readBytes_length file p a)]
  exact List.take_of_length_le (Nat.le_of_eq (readBytes_length file (p + a) b))

/-- The loop over full blocks of the fixed-ratio reader: `n` blocks of `nPB`
rep units each, starting with block `b`, are appended to the output. -/
theorem fixedFullBlocks_spec (codec : Codec) (file : File) (col : Nat → UInt8)
    (bp algo R T units nPB sr c o : Nat) (hnPB : 1 ≤ nPB)
    (hst : FixedStored codec file col bp algo R T units) (hc : c + o = sr * R) :
    ∀ (n b : Nat) (s : Reader), sr + (b + n) * nPB ≤ units → (b + n) * (nPB * R) < 2 ^ 32 →
      s.pos = bp + 8 + (sr + b * nPB) * T → Holds s.out col c (o + b * (nPB * R)) →
      (fixedFullBlocks codec file algo (o : Int) (nPB * R) (nPB * T) n b s).pos
          = bp + 8 + (sr + (b + n) * nPB) * T ∧
      (fixedFullBlocks codec file algo (o : Int) (nPB * R) (nPB * T) n b s).tmp = s.tmp ∧
      Holds (fixedFullBlocks codec file algo (o : Int) (nPB * R) (nPB * T) n b s).out col c
        (o + (b + n) * (nPB * R)) := by
  intro n
  induction n with
  | zero =>
    intro b s _ _ hpos hh
    exact ⟨hpos, rfl, hh⟩
  | succ n ih =>
    intro b s hu h32 hpos hh
    have hb1 : b + (n + 1) = b + 1 + n := by omega
    rw [hb1] at hu h32 ⊢
    have hmono : (b + 1) * nPB ≤ (b + 1 + n) * nPB := Nat.mul_le_mul_right _ (by omega)
    have hmono2 : b * (nPB * R) ≤ (b + 1 + n) * (nPB * R) := Nat.mul_le_mul_right _ (by omega)
    have hsm : (b + 1) * nPB = b * nPB + nPB := Nat.succ_mul b nPB
    have hdec := hst (sr + b * nPB) nPB hnPB (by omega)
    have hu32 : u32 (b * (nPB * R)) = b * (nPB * R) := u32_of_lt (by omega)
    have hoff : ((o : Int) + ((b * (nPB * R) : Nat) : Int)) = ((o + b * (nPB * R) : Nat) : Int) := by
      rw [Int.natCast_add]
    have hcol : (sr + b * nPB) * R = c + (o + b * (nPB * R)) := by
      rw [← Nat.add_assoc, hc]
      ring
    rw [hcol, ← hpos] at hdec
    have hstore := hh.store (nPB * R) _ hdec
    have hnext : o + b * (nPB * R) + nPB * R = o + (b + 1) * (nPB * R) := by ring
    rw [hnext] at hstore
    have hposn : s.pos + nPB * T = bp + 8 + (sr + (b + 1) * nPB) * T := by
      rw [hpos]
      ring
    simp only [fixedFullBlocks, Reader.readBuf, hu32, hoff]
    exact ih (b + 1) _ hu h32 hposn hstore

theorem u32OfInt_eq {z : Int} {n : Nat} (h : z = (n : Int)) (hn : n < 2 ^ 32) :
    u32OfInt z = n := by
  rw [h]
  exact u32OfInt_natCast hn

theorem fixedTail_spec (codec : Codec) (file : File) (s : Reader) (col : Nat → UInt8)
    (bp algo e q T startRow len sr er o last units : Nat)
    (he : 1 ≤ e) (hq : 1 ≤ q) (hR : e * q ≤ PREF_BLOCK_SIZE_V1)
    (hst : FixedStored codec file col bp algo (e * q) T units) (her : er < units)
    (hsr : sr ≤ er) (hT : PREF_BLOCK_SIZE_V1 / (e * q) * T < 2 ^ 32)
    (hend : startRow + len = er * q + last) (hlast1 : 1 ≤ last) (hlast : last ≤ q)
    (hsum : startRow + len < 2 ^ 32) (hout : e * len < 2 ^ 32)
    (hc : e * startRow + o = sr * (e * q))
    (hpos : s.pos = bp + 8 + sr * T) (hh : Holds s.out col (e * startRow) o) :
    Holds (fixedTail codec file s algo (e * q) T startRow len e q sr er (o : Int)).out col
      (e * startRow) (e * len) := by
  have hRpos : 1 ≤ e * q := Nat.mul_pos he hq
  have hlastR : e * last ≤ e * q := Nat.mul_le_mul_left e hlast
  have hqR : q ≤ e * q := Nat.le_mul_of_pos_left q he
  have htot : e * startRow + e * len = er * (e * q) + e * last := by
    rw [← Nat.mul_add, hend]
    ring
  have hnPB1 : 1 ≤ PREF_BLOCK_SIZE_V1 / (e * q) := Nat.div_pos hR hRpos
  have hnPBR : PREF_BLOCK_SIZE_V1 / (e * q) * (e * q) ≤ PREF_BLOCK_SIZE_V1 :=
    Nat.div_mul_le_self _ _
  have hP : PREF_BLOCK_SIZE_V1 = 16384 := rfl
  have hnPBle : PREF_BLOCK_SIZE_V1 / (e * q) ≤ PREF_BLOCK_SIZE_V1 := Nat.div_le_self _ _
  have her32 : er + 1 < 2 ^ 32 := by
    have := Nat.le_mul_of_pos_right er hq
    omega
  have hnel : u32OfInt ((startRow : Int) + (len : Int) - (er : Int) * (q : Int)) = last :=
    u32OfInt_eq (by rw [← Int.natCast_add, hend]; push_cast; ring) (by omega)
  have hel32 : u32 (e * last) = e * last := u32_of_lt (by omega)
  simp only [fixedTail, Reader.readBuf, hnel, hel32]
  clear hnel hel32
  obtain ⟨m, rfl⟩ := Nat.exists_eq_add_of_le hsr
  have y1 : u32OfInt (1 + ((sr + m : Nat) : Int) - (sr : Int)) = m + 1 :=
    u32OfInt_eq (by omega) (by omega)
  have y2 : u32OfInt (((m + 1 : Nat) : Int) - 1) = m := u32OfInt_eq (by omega) (by omega)
  simp only [y1, y2]
  clear y1 y2
  generalize PREF_BLOCK_SIZE_V1 / (e * q) = nPB at *
  generalize e * q = R at *
  have hdm : nPB * (m / nPB) + m % nPB = m := Nat.div_add_mod m nPB
  have hrem : m % nPB < nPB := Nat.mod_lt m (by omega)
  generalize m / nPB = nf at *
  generalize m % nPB = rem at *
  subst hdm
  have hrem1 : (rem + 1) * R ≤ nPB * R := Nat.mul_le_mul_right R hrem
  have hrem1T : (rem + 1) * T ≤ nPB * T := Nat.mul_le_mul_right T hrem
  have hsR : (rem + 1) * R = rem * R + R := Nat.succ_mul rem R
  have hsT : (rem + 1) * T = rem * T + T := Nat.succ_mul rem T
  have hsplit : (sr + (nPB * nf + rem)) * R = sr * R + nf * (nPB * R) + rem * R := by ring
  have hlen : e * len = o + nf * (nPB * R) + rem * R + e * last := by omega
  have y3 : u32OfInt (((nPB * nf + rem + 1 : Nat) : Int) - (nPB : Int) * (nf : Int)) = rem + 1 :=
    u32OfInt_eq (by push_cast; ring) (by omega)
  have y4 : u32 (nPB * R) = nPB * R := u32_of_lt (by omega)
  have y5 : u32 (nPB * T) = nPB * T := u32_of_lt hT
  have y6 : u32 ((rem + 1) * R) = (rem + 1) * R := u32_of_lt (by omega)
  have y7 : u32 ((rem + 1) * T) = (rem + 1) * T := u32_of_lt (by omega)
  have y8 : u32 (nf * (nPB * R)) = nf * (nPB * R) := u32_of_lt (by omega)
  have y9 : u32OfInt ((((rem + 1) * R : Nat) : Int) - (R : Int)) = rem * R :=
    u32OfInt_eq (by rw [hsR]; push_cast; ring) (by omega)
  have y10 : u32OfInt ((((rem + 1) * T : Nat) : Int) - (T : Int)) = rem * T :=
    u32OfInt_eq (by rw [hsT]; push_cast; ring) (by omega)
  have y11 : u32OfInt ((nf : Int) * ((nPB * R : Nat) : Int) + (((rem + 1) * R : Nat) : Int)
      - (R : Int)) = nf * (nPB * R) + rem * R :=
    u32OfInt_eq (by rw [hsR]; push_cast; ring) (by omega)
  simp only [y3, y4, y5, y6, y7, y8, y9, y10, y11]
  clear y3 y4 y5 y6 y7 y8 y9 y10 y11
  have hcomm : nf * nPB = nPB * nf := Nat.mul_comm _ _
  obtain ⟨fpos, -, fout⟩ := fixedFullBlocks_spec codec file col bp algo R T units nPB sr
    (e * startRow) o hnPB1 hst hc nf 0 s (by rw [Nat.zero_add]; omega)
    (by rw [Nat.zero_add]; omega)
    (by rw [Nat.zero_mul, Nat.add_zero]; exact hpos)
    (by rw [Nat.zero_mul, Nat.add_zero]; exact hh)
  rw [Nat.zero_add] at fpos fout
  generalize fixedFullBlocks codec file algo (o : Int) (nPB * R) (nPB * T) nf 0 s = F
    at fpos fout ⊢
  have hoff1 : ((o : Int) + ((nf * (nPB * R) : Nat) : Int))
      = ((o + nf * (nPB * R) : Nat) : Int) := (Int.natCast_add _ _).symm
  have hoff2 : (o : Int) + ((nf * (nPB * R) + rem * R : Nat) : Int)
      = ((o + nf * (nPB * R) + rem * R : Nat) : Int) := by
    push_cast
    ring
  have hcl : e * startRow + (o + nf * (nPB * R) + rem * R) = (sr + (nPB * nf + rem)) * R := by
    omega
  have hlastdec : codec algo R
      (List.take T (List.drop (rem * T) (readBytes file F.pos ((rem + 1) * T))))
      = colBytes col (e * startRow + (o + nf * (nPB * R) + rem * R)) R := by
    have h1 := hst (sr + (nPB * nf + rem)) 1 (Nat.le_refl 1) (by omega)
    rw [Nat.one_mul, Nat.one_mul] at h1
    have hp : bp + 8 + (sr + nf * nPB) * T + rem * T = bp + 8 + (sr + (nPB * nf + rem)) * T := by
      ring
    rw [hsT, readBytes_drop_take, fpos, hp, hcl]
    exact h1
  simp only [hoff1, hoff2, hlastdec]
  have hout1 : Holds
      (if (rem + 1) * R ≠ R then
        { pos := F.pos + (rem + 1) * T,
          out := store F.out ((o + nf * (nPB * R) : Nat) : Int)
            (codec algo (rem * R) (List.take (rem * T) (readBytes file F.pos ((rem + 1) * T)))),
          tmp := F.tmp,
          log := F.log ++ [IOEvent.read F.pos ((rem + 1) * T)],
          writes := F.writes ++ [(((o + nf * (nPB * R) : Nat) : Int), rem * R)],
          ub := F.ub }
      else
        { pos := F.pos + (rem + 1) * T,
          out := F.out,
          tmp := F.tmp,
          log := F.log ++ [IOEvent.read F.pos ((rem + 1) * T)],
          writes := F.writes,
          ub := F.ub : Reader }).out col
      (e * startRow) (o + nf * (nPB * R) + rem * R) := by
    split_ifs with hcond
    · have hrem0 : 1 ≤ rem := by
        rcases Nat.eq_zero_or_pos rem with h0 | h0
        · subst h0
          rw [Nat.zero_add, Nat.one_mul] at hcond
          exact absurd rfl hcond
        · exact h0
      have h1 := hst (sr + nf * nPB) rem hrem0 (by omega)
      have hcl2 : (sr + nf * nPB) * R = e * startRow + (o + nf * (nPB * R)) := by
        rw [← Nat.add_assoc, hc]
        ring
      rw [hcl2, ← fpos] at h1
      have h2 : List.take (rem * T) (readBytes file F.pos ((rem + 1) * T))
          = readBytes file F.pos (rem * T) := by
        rw [hsT, readBytes_take]
      exact fout.store (rem * R) _ (by rw [h2]; exact h1)
    · have hz : rem * R = 0 := by omega
      rw [hz, Nat.add_zero]
      exact fout
  rw [hlen]
  refine hout1.copy _ 0 (e * last) ?_
  intro i hi
  have h1 := tmp_holds
    (if (rem + 1) * R ≠ R then
        { pos := F.pos + (rem + 1) * T,
          out := store F.out ((o + nf * (nPB * R) : Nat) : Int)
            (codec algo (rem * R) (List.take (rem * T) (readBytes file F.pos ((rem + 1) * T)))),
          tmp := F.tmp,
          log := F.log ++ [IOEvent.read F.pos ((rem + 1) * T)],
          writes := F.writes ++ [(((o + nf * (nPB * R) : Nat) : Int), rem * R)],
          ub := F.ub }
      else
        { pos := F.pos + (rem + 1) * T,
          out := F.out,
          tmp := F.tmp,
          log := F.log ++ [IOEvent.read F.pos ((rem + 1) * T)],
          writes := F.writes,
          ub := F.ub : Reader }).tmp
    col (e * startRow + (o + nf * (nPB * R) + rem * R)) R i (by omega)
  rw [Int.zero_add]
  exact h1

/-- The fixed-ratio reader on a stored column, entered with the stream after
the header: the output holds the bytes of the requested rows. -/
theorem fixedStream_spec (codec : Codec) (srcRep tgtRep : Nat → Nat) (file : File)
    (s : Reader) (col : Nat → UInt8) (bp algo startRow len N e q : Nat)
    (hrep : srcRep algo = e * q) (he : 1 ≤ e) (hq : 1 ≤ q)
    (hR : srcRep algo ≤ PREF_BLOCK_SIZE_V1)
    (hst : FixedStored codec file col bp algo (srcRep algo) (tgtRep algo) ((N - 1) / q + 1))
    (hlen : 1 ≤ len) (hN : startRow + len ≤ N) (hN32 : N < 2 ^ 32)
    (hout : len * e < 2 ^ 32)
    (hT : PREF_BLOCK_SIZE_V1 / srcRep algo * tgtRep algo < 2 ^ 32)
    (hseek : startRow / q * tgtRep algo < 2 ^ 32)
    (hpos : bp + 8 + startRow / q * tgtRep algo < 2 ^ 64)
    (hs : s.pos = bp + 8) :
    Holds (fdsReadFixedCompStream_v1 codec srcRep tgtRep file s bp algo startRow e len).out col
      (e * startRow) (e * len) := by
  obtain ⟨g1, g2, g3, g4, g5, g6, g7⟩ := window_geom startRow len q hq hlen
  have hqd : e * q / e = q := Nat.mul_div_cancel_left q he
  have her : (startRow + len - 1) / q < (N - 1) / q + 1 :=
    Nat.lt_succ_of_le (Nat.div_le_div_right (by omega))
  have hout' : e * len < 2 ^ 32 := by rw [Nat.mul_comm]; exact hout
  have hup : u32OfInt ((startRow : Int) + (len : Int) - 1) = startRow + len - 1 :=
    u32OfInt_add_pred hlen (by omega)
  rw [hrep] at hR hst hT
  have hne0 : ¬ (e = 0 ∨ q = 0) := by omega
  simp only [fdsReadFixedCompStream_v1, Reader.readBuf, hrep, hqd, hup, COL_META_SIZE_V1,
    if_neg hne0]
  clear hup hrep hne0
  generalize tgtRep algo = T at *
  generalize startRow / q = sr0 at *
  generalize (startRow + len - 1) / q = er at *
  generalize startRow % q = so at *
  have hS : ∃ S : Reader, (if 0 < sr0 then s.seekg (u64 (bp + 8 + u32 (sr0 * T))) else s) = S ∧
      S.pos = bp + 8 + sr0 * T := by
    refine ⟨_, rfl, ?_⟩
    split_ifs with h0
    · rw [u32_of_lt hseek, u64_of_lt hpos]
      rfl
    · have hz : sr0 = 0 := by omega
      rw [hs, hz, Nat.zero_mul, Nat.add_zero]
  obtain ⟨S, hSe, hSp⟩ := hS
  have hqR : q ≤ e * q := Nat.le_mul_of_pos_left q he
  have hP : PREF_BLOCK_SIZE_V1 = 16384 := rfl
  have hsoR : e * so ≤ e * q := Nat.mul_le_mul_left e (Nat.le_of_lt g2)
  have hsubR : e * (q - so) ≤ e * q := Nat.mul_le_mul_left e (Nat.sub_le q so)
  have b1 : sr0 * q < 2 ^ 32 := by omega
  have b2 : ((startRow : Int) - ((sr0 * q : Nat) : Int)) = (so : Int) := by omega
  have b3 : so < 2 ^ 32 := by omega
  have b4 : e * so < 2 ^ 32 := by omega
  have b5 : q < 2 ^ 31 := by omega
  have b6 : e * (q - so) < 2 ^ 31 := by omega
  have b7 : e * (q - so) < 2 ^ 64 := by omega
  have b8 : sr0 + 1 < 2 ^ 32 := by
    have := Nat.le_mul_of_pos_right sr0 hq
    omega
  have z1 : u32 (sr0 * q) = sr0 * q := u32_of_lt b1
  have z2 : u32OfInt ((startRow : Int) - ((sr0 * q : Nat) : Int)) = so := u32OfInt_eq b2 b3
  have z3 : u32 (e * so) = e * so := u32_of_lt b4
  have z4 : u32 (e * len) = e * len := u32_of_lt hout'
  have z5 : i32 ((q : Int) - (so : Int)) = ((q - so : Nat) : Int) :=
    i32_sub_cast (Nat.le_of_lt g2) b5
  have z6 : i32 ((e : Int) * ((q - so : Nat) : Int)) = ((e * (q - so) : Nat) : Int) :=
    i32_mul_cast b6
  have z7 : u64OfInt ((e * (q - so) : Nat) : Int) = e * (q - so) := u64OfInt_natCast b7
  have z8 : u32 (sr0 + 1) = sr0 + 1 := u32_of_lt b8
  simp only [hSe, z1, z2, z3, z4, z5, z6, z7, z8]
  clear z1 z2 z3 z4 z5 z6 z7 z8 hSe
  have hlast : ∃ last, startRow + len = er * q + last ∧ 1 ≤ last ∧ last ≤ q := by
    by_cases hm : (startRow + len) % q = 0
    · refine ⟨q, ?_, hq, Nat.le_refl q⟩
      rw [g7 hm, Nat.succ_mul]
    · exact ⟨(startRow + len) % q, (g6 hm).1, by omega, Nat.le_of_lt (g6 hm).2⟩
  obtain ⟨last, hend, hl1, hlq⟩ := hlast
  clear g6 g7
  have hdec1 := hst sr0 1 (Nat.le_refl 1) (by omega)
  rw [Nat.one_mul, Nat.one_mul, ← hSp] at hdec1
  have hc0 : e * startRow = sr0 * (e * q) + e * so := by
    rw [g3]
    ring
  by_cases hso : so = 0
  · -- the window starts on a rep unit
    subst hso
    have hne : ¬ ((0 : Nat) ≠ 0) := fun h => h rfl
    simp only [if_neg hne]
    have h := fixedTail_spec codec file S col bp algo e q T startRow len sr0 er 0 last
      ((N - 1) / q + 1) he hq hR hst her g1 hT hend hl1 hlq (by omega) hout' (by omega) hSp
      (Holds.zero _ _ _)
    rw [Nat.cast_zero] at h
    exact h
  · simp only [if_pos hso]
    have htmp := tmp_holds S.tmp col (sr0 * (e * q)) (e * q)
    rw [← hdec1] at htmp
    by_cases hse : sr0 = er
    · -- the window lies inside one rep unit
      simp only [if_pos hse]
      have hwin := g4 hse
      have hbytes : e * so + e * len ≤ e * q := by
        rw [← Nat.mul_add]
        exact Nat.mul_le_mul_left e hwin
      have h := (Holds.zero S.out col (e * startRow)).copy
        (store S.tmp 0 (codec algo (e * q) (readBytes file S.pos T))) ((e * so : Nat) : Int)
        (e * len) (by
          intro i hi
          have h2 := htmp (e * so + i) (by omega)
          rw [Nat.add_zero, hc0, Nat.add_assoc, ← h2, Int.natCast_add])
      rw [Nat.zero_add, Nat.cast_zero] at h
      exact h
    · -- a leading partial unit, then the batches
      simp only [if_neg hse]
      have hlt : sr0 < er := by omega
      have hfirst := (Holds.zero S.out col (e * startRow)).copy
        (store S.tmp 0 (codec algo (e * q) (readBytes file S.pos T))) ((e * so : Nat) : Int)
        (e * (q - so)) (by
          intro i hi
          have hb : e * so + e * (q - so) = e * q := by
            rw [← Nat.mul_add]
            congr 1
            omega
          have h2 := htmp (e * so + i) (by omega)
          rw [Nat.add_zero, hc0, Nat.add_assoc, ← h2, Int.natCast_add])
      rw [Nat.zero_add, Nat.cast_zero] at hfirst
      have hc1 : e * startRow + e * (q - so) = (sr0 + 1) * (e * q) := by
        have hb : e * so + e * (q - so) = e * q := by
          rw [← Nat.mul_add]
          congr 1
          omega
        have hsm : (sr0 + 1) * (e * q) = sr0 * (e * q) + e * q := Nat.succ_mul _ _
        omega
      have hp1 : S.pos + T = bp + 8 + (sr0 + 1) * T := by
        rw [hSp, Nat.succ_mul]
        omega
      exact fixedTail_spec codec file _ col bp algo e q T startRow len (sr0 + 1) er
        (e * (q - so)) last ((N - 1) / q + 1) he hq hR hst her hlt hT hend hl1 hlq (by omega)
        hout' hc1 hp1 hfirst

/-- C2 (amended): for a column stored at `blockPos` with `header[0] = 0` and
`header[1] = algo ≠ 0` as a sequence of `targetRepSize`-byte units, where
`sourceRepSize = elementSize * q` with `q ≥ 1` is at most `PREF_BLOCK_SIZE_V1`
and every run of consecutive units decodes to the concatenation of their
sources, and for a window with `length ≥ 1` and `startRow + length ≤ N`, if
moreover `N < 2^32`, `length * elementSize < 2^32`, a batch of target units fits
32 bits (`(PREF_BLOCK_SIZE_V1 / sourceRepSize) * targetRepSize < 2^32`) and the
seek offset `startRep * targetRepSize` is below `2^32` (the position below
`2^64`), then `fdsReadColumn_v1` returns the result of
`fdsReadFixedCompStream_v1`, whose output holds exactly the elements
`startRow .. startRow + length - 1` of the column; aligned or unaligned start
and end and a slice inside one rep unit are all covered. -/
theorem fixed_subrange_read (codec : Codec) (srcRep tgtRep : Nat → Nat) (file : File)
    (s : Reader) (col : Nat → UInt8) (blockPos algo startRow length N e q : Nat)
    (h0 : header0 file blockPos = 0) (h1 : header1 file blockPos = algo) (ha : algo ≠ 0)
    (hrep : srcRep algo = e * q) (he : 1 ≤ e) (hq : 1 ≤ q)
    (hR : srcRep algo ≤ PREF_BLOCK_SIZE_V1)
    (hst : FixedStored codec file col blockPos algo (srcRep algo) (tgtRep algo)
      ((N - 1) / q + 1))
    (hlen : 1 ≤ length) (hN : startRow + length ≤ N) (hN32 : N < 2 ^ 32)
    (hout : length * e < 2 ^ 32)
    (hT : PREF_BLOCK_SIZE_V1 / srcRep algo * tgtRep algo < 2 ^ 32)
    (hseek : startRow / q * tgtRep algo < 2 ^ 32)
    (hpos : blockPos + 8 + startRow / q * tgtRep algo < 2 ^ 64) :
    ∃ r, fdsReadColumn_v1 codec srcRep tgtRep file s blockPos startRow length N e
        = Except.ok r ∧
      r = fdsReadFixedCompStream_v1 codec srcRep tgtRep file (afterHeader file s blockPos)
        blockPos algo startRow e length ∧
      Holds r.out col (e * startRow) (e * length) := by
  have hne : ¬ (header1 file blockPos = 0) := by rw [h1]; exact ha
  refine ⟨_, ?_, rfl, ?_⟩
  · rw [fdsReadColumn_v1_eq, if_pos h0, if_neg hne, h1]
  · exact fixedStream_spec codec srcRep tgtRep file _ col blockPos algo startRow length N e q
      hrep he hq hR hst hlen hN hN32 hout hT hseek hpos (afterHeader_pos file s blockPos)

theorem bitFile_stored : FixedStored bitCodec bitFile bitRows 0 1 (bitSrcRep 1) (bitTgtRep 1)
    ((17 - 1) / 8 + 1) := by
  intro j n hn hjn
  have h3 : (17 - 1) / 8 + 1 = 3 := by decide
  rw [h3] at hjn
  have hj : j ≤ 2 := by omega
  have hn3 : n ≤ 3 := by omega
  interval_cases j <;> interval_cases n <;> first | omega | decide

/-- C2 on 17 booleans stored one byte per eight (`N = 17`): the read `(5, 10)`
starts and ends inside a rep unit and delivers rows `5 .. 14`. -/
theorem fixed_subrange_read_witness :
    ∃ r, fdsReadColumn_v1 bitCodec bitSrcRep bitTgtRep bitFile reader0 0 5 10 17 1
        = Except.ok r ∧
      r = fdsReadFixedCompStream_v1 bitCodec bitSrcRep bitTgtRep bitFile
        (afterHeader bitFile reader0 0) 0 1 5 1 10 ∧
      Holds r.out bitRows (1 * 5) (1 * 10) :=
  fixed_subrange_read bitCodec bitSrcRep bitTgtRep bitFile reader0 bitRows 0 1 5 10 17 1 8
    (by decide) (by decide) (by decide) (by decide) (by decide) (by decide) (by decide)
    bitFile_stored (by decide) (by decide) (by decide) (by decide) (by decide) (by decide)
    (by decide)

theorem stepFile_stored :
    FixedStored rawCodec stepFile stepRows 0 1 (eightRep 1) (eightRep 1)
      ((2 ^ 29 + 1 - 1) / 1 + 1) := by
  intro j n _ _
  unfold rawCodec readBytes colBytes
  apply List.map_congr_left
  intro i _
  unfold stepFile stepRows eightRep
  have h4 : ¬ (0 + 8 + j * 8 + i = 4) := by omega
  rw [if_neg h4]
  by_cases h : 2 ^ 32 ≤ j * 8 + i
  · rw [if_pos h, if_pos (by omega)]
  · rw [if_neg h, if_neg (by omega)]

/-- C2 as stated fails: a column of `2^29 + 1` eight-byte elements stored
verbatim in eight-byte rep units (bytes 0 below byte `2^32`, 1 from there on)
is read at `startRow = 2^29`; the seek offset `startRep * targetRepSize = 2^32`
wraps to 0 in `unsigned int`, rep unit 0 is read and the output holds zeros,
not the bytes of element `2^29`. -/
theorem fixed_subrange_read_counterexample :
    header0 stepFile 0 = 0 ∧ header1 stepFile 0 = 1 ∧
    eightRep 1 = 8 * 1 ∧ eightRep 1 ≤ PREF_BLOCK_SIZE_V1 ∧
    FixedStored rawCodec stepFile stepRows 0 1 (eightRep 1) (eightRep 1)
      ((2 ^ 29 + 1 - 1) / 1 + 1) ∧
    1 ≤ 1 ∧ 2 ^ 29 + 1 ≤ 2 ^ 29 + 1 ∧
    returned (fdsReadColumn_v1 rawCodec eightRep eightRep stepFile reader0 0 (2 ^ 29) 1
      (2 ^ 29 + 1) 8) = true ∧
    ¬ Holds (outputOf reader0 (fdsReadColumn_v1 rawCodec eightRep eightRep stepFile reader0 0
      (2 ^ 29) 1 (2 ^ 29 + 1) 8)) stepRows (8 * 2 ^ 29) (8 * 1) := by
  refine ⟨by decide, by decide, by decide, by decide, stepFile_stored, by decide, by decide,
    by decide!, ?_⟩
  intro h
  have h1 := h 0 (by decide)
  have hv : outputOf reader0 (fdsReadColumn_v1 rawCodec eightRep eightRep stepFile reader0 0
      (2 ^ 29) 1 (2 ^ 29 + 1) 8) ((0 : Nat) : Int) = 0 := by decide!
  rw [hv] at h1
  exact absurd h1 (by decide)

/-! ## C10: the read depends only on the needed blocks -/

theorem SameBytes.sub {f g : File} {p n : Nat} (h : SameBytes f g p n) (p' n' : Nat)
    (h1 : p ≤ p') (h2 : p' + n' ≤ p + n) : SameBytes f g p' n' := by
  intro i hi
  have := h (p' - p + i) (by omega)
  have e : p + (p' - p + i) = p' + i := by omega
  rw [e] at this
  exact this

theorem readBytes_congr {f g : File} {p n : Nat} (h : SameBytes f g p n) :
    readBytes f p n = readBytes g p n := by
  unfold readBytes
  apply List.map_congr_left
  intro i hi
  exact h i (List.mem_range.mp hi)

theorem fill_congr {f g : File} {p n : Nat} (h : SameBytes f g p n) (m : Mem) (off : Int) :
    fill m off f p n = fill m off g p n := by
  funext a
  unfold fill
  split_ifs with hc
  · exact h _ (by omega)
  · rfl

theorem readOut_congr {f g : File} (s : Reader) (off : Int) (n : Nat)
    (h : SameBytes f g s.pos n) : s.readOut f off n = s.readOut g off n := by
  unfold Reader.readOut
  rw [fill_congr h]

theorem readBuf_congr {f g : File} (s : Reader) (n : Nat)
    (h : SameBytes f g s.pos n) : s.readBuf f n = s.readBuf g n := by
  unfold Reader.readBuf
  rw [readBytes_congr h]

theorem readSingleBlock_congr (codec : Codec) (f g : File) (s : Reader)
    (bp len size e B : Nat) (nb sb so : Int) (pStart compSize algo : Nat)
    (hraw : algo = 0 →
      SameBytes f g (u64OfInt ((bp : Int) + pStart + i32 (e * so))) (u32 (len * e)))
    (hcmp : algo ≠ 0 → SameBytes f g (u64 (bp + pStart)) compSize) :
    readSingleBlock codec f s bp len size e B nb sb so pStart compSize algo =
      readSingleBlock codec g s bp len size e B nb sb so pStart compSize algo := by
  by_cases ha : algo = 0
  · simp only [readSingleBlock, if_pos ha]
    exact readOut_congr _ _ _ (hraw ha)
  · simp only [readSingleBlock, if_neg ha]
    rw [readBuf_congr (s.seekg (u64 (bp + pStart))) compSize (hcmp ha)]

theorem readFirstBlock_congr (codec : Codec) (f g : File) (s : Reader) (bp e : Nat)
    (blockSize so sub : Int) (pStart compSize algo : Nat)
    (hraw : algo = 0 →
      SameBytes f g (u64OfInt ((bp : Int) + pStart + i32 (e * so))) (i32 (e * sub)).toNat)
    (hcmp : algo ≠ 0 → SameBytes f g (u64 (bp + pStart)) compSize) :
    readFirstBlock codec f s bp e blockSize so sub pStart compSize algo =
      readFirstBlock codec g s bp e blockSize so sub pStart compSize algo := by
  by_cases ha : algo = 0
  · simp only [readFirstBlock, if_pos ha]
    exact readOut_congr _ _ _ (hraw ha)
  · simp only [readFirstBlock, if_neg ha]
    rw [readBuf_congr (s.seekg (u64 (bp + pStart))) compSize (hcmp ha)]

theorem middleBlock_congr (codec : Codec) (f g : File) (idx : List UInt8) (blockSize j : Int)
    (m : MidState)
    (hraw : le16 idx (i32 (8 + 10 * j)) = 0 → SameBytes f g m.rd.pos blockSize.toNat)
    (hcmp : le16 idx (i32 (8 + 10 * j)) ≠ 0 →
      SameBytes f g m.rd.pos
        (u64OfInt ((le64 idx (i32 (10 + 10 * j)) : Int) - m.blockPEnd))) :
    middleBlock codec f idx blockSize j m = middleBlock codec g idx blockSize j m := by
  by_cases ha : le16 idx (i32 (8 + 10 * j)) = 0
  · simp only [middleBlock, if_pos ha]
    rw [readOut_congr _ _ _ (hraw ha)]
  · simp only [middleBlock, if_neg ha]
    rw [readBuf_congr _ _ (hcmp ha)]

theorem readLastBlock_congr (codec : Codec) (f g : File) (idx : List UInt8)
    (size e B : Nat) (nb eb mb rem : Int) (m : MidState)
    (hraw : le16 idx (i32 (8 + 10 * mb)) = 0 →
      SameBytes f g m.rd.pos (i32 (e * rem)).toNat)
    (hcmp : le16 idx (i32 (8 + 10 * mb)) ≠ 0 →
      SameBytes f g m.rd.pos
        (u64OfInt ((le64 idx (i32 (10 + 10 * mb)) : Int) - m.blockPEnd))) :
    readLastBlock codec f idx size e B nb eb mb rem m =
      readLastBlock codec g idx size e B nb eb mb rem m := by
  by_cases ha : le16 idx (i32 (8 + 10 * mb)) = 0
  · simp only [readLastBlock, if_pos ha]
    exact readOut_congr _ _ _ (hraw ha)
  · simp only [readLastBlock, if_neg ha]
    rw [readBuf_congr _ _ (hcmp ha)]

/-- One middle-block iteration on two files that agree on the payload of the
block: the same state results, and the stream is at the end of the payload. -/
theorem middleBlock_same (codec : Codec) (f g : File) (idx : List UInt8) (m : MidState)
    (bp e B j pStart pEnd algo : Nat)
    (hblk : e * B < 2 ^ 31) (hj : 10 + 10 * j < 2 ^ 31)
    (hidx1 : le64 idx ((10 + 10 * j : Nat) : Int) = pEnd)
    (hidx2 : le16 idx ((8 + 10 * j : Nat) : Int) = algo)
    (hmp : m.blockPEnd = pStart) (hmpos : m.rd.pos = bp + pStart)
    (hend : bp + pEnd < 2 ^ 64)
    (hraw : algo = 0 → pEnd = pStart + e * B) (hcmp : algo ≠ 0 → pStart ≤ pEnd)
    (hsame : SameBytes f g (bp + pStart) (pEnd - pStart)) :
    middleBlock codec f idx ((e * B : Nat) : Int) (j : Int) m
      = middleBlock codec g idx ((e * B : Nat) : Int) (j : Int) m ∧
    (middleBlock codec f idx ((e * B : Nat) : Int) (j : Int) m).blockPEnd = pEnd ∧
    (middleBlock codec f idx ((e * B : Nat) : Int) (j : Int) m).rd.pos = bp + pEnd := by
  have hj8 : 8 + 10 * j < 2 ^ 31 := by omega
  have hC : algo ≠ 0 → u64OfInt ((pEnd : Int) - (pStart : Int)) = pEnd - pStart :=
    fun ha => u64OfInt_sub_of_le (by omega) (hcmp ha)
  have i1 : i32 (10 + 10 * (j : Int)) = ((10 + 10 * j : Nat) : Int) := by
    have := @i32_index 10 j hj
    exact this
  have i2 : i32 (8 + 10 * (j : Int)) = ((8 + 10 * j : Nat) : Int) := by
    have := @i32_index 8 j hj8
    exact this
  refine ⟨middleBlock_congr codec f g idx _ _ m ?_ ?_, ?_, ?_⟩
  · rw [i2, hidx2, hmpos, Int.toNat_ofNat]
    intro ha
    have h1 := hraw ha
    clear i1 i2
    exact hsame.sub _ _ (Nat.le_refl _) (by omega)
  · rw [i2, i1, hidx2, hidx1, hmpos, hmp]
    intro ha
    rw [hC ha]
    exact hsame
  · simp only [middleBlock, i1, hidx1]
  · by_cases ha : algo = 0
    · have h1 := hraw ha
      simp only [middleBlock, i2, hidx2, if_pos ha, Int.toNat_ofNat, readOut_pos, hmpos]
      clear i1 i2
      omega
    · have h1 := hcmp ha
      have h2 := hC ha
      simp only [middleBlock, i1, i2, hidx1, hidx2, if_neg ha, hmp, h2, readBuf_pos, hmpos]
      clear i1 i2 h2 hC
      omega

/-- The middle-block loop over `n` full blocks on two files that agree on the
payloads of these blocks. -/
theorem middleBlocks_same (codec : Codec) (f g : File) (bp size e B sb w : Nat)
    (hw : 10 * (w + 2) < 2 ^ 31) (hblk : e * B < 2 ^ 31) :
    ∀ (n j : Nat) (m : MidState),
      1 ≤ j → j + n ≤ w + 1 →
      (∀ k, sb + j ≤ k → k < sb + j + n →
        (k + 1) * B ≤ size ∧ BlockLaid f bp size e B k ∧ SamePayload f g bp k) →
      m.blockPEnd = entryOffset f bp (sb + j) →
      m.rd.pos = bp + entryOffset f bp (sb + j) →
      middleBlocks codec f (readBytes f (bp + 8 + 10 * sb) (10 * (w + 2)))
          ((e * B : Nat) : Int) n (j : Int) m
        = middleBlocks codec g (readBytes f (bp + 8 + 10 * sb) (10 * (w + 2)))
          ((e * B : Nat) : Int) n (j : Int) m ∧
      (middleBlocks codec f (readBytes f (bp + 8 + 10 * sb) (10 * (w + 2)))
          ((e * B : Nat) : Int) n (j : Int) m).blockPEnd = entryOffset f bp (sb + j + n) ∧
      (middleBlocks codec f (readBytes f (bp + 8 + 10 * sb) (10 * (w + 2)))
          ((e * B : Nat) : Int) n (j : Int) m).rd.pos
        = bp + entryOffset f bp (sb + j + n) := by
  intro n
  induction n with
  | zero =>
    intro j m _ _ _ h1 h2
    simp only [middleBlocks, Nat.add_zero]
    exact ⟨trivial, h1, h2⟩
  | succ n ih =>
    intro j m hj hjn hblocks h1 h2
    obtain ⟨hfull, ⟨hend, hraw, hcmp⟩, hsame⟩ := hblocks (sb + j) (Nat.le_refl _) (by omega)
    rw [blockElems_full hfull] at hraw
    have hi := blockIndex_entry f bp sb (w + 2) j (by omega)
    have hi' := blockIndex_entry f bp sb (w + 2) (j + 1) (by omega)
    have hc1 : ((10 + 10 * j : Nat) : Int) = ((10 * (j + 1) : Nat) : Int) := by
      congr 1
      omega
    have hc2 : ((8 + 10 * j : Nat) : Int) = ((10 * j + 8 : Nat) : Int) := by
      congr 1
      omega
    obtain ⟨s0, s1, s2⟩ := middleBlock_same codec f g
      (readBytes f (bp + 8 + 10 * sb) (10 * (w + 2))) m bp e B j
      (entryOffset f bp (sb + j)) (entryOffset f bp (sb + j + 1))
      (entryAlgo f bp (sb + j)) hblk (by omega)
      (by rw [hc1]; exact hi'.1) (by rw [hc2]; exact hi.2) h1 h2 hend hraw hcmp hsame
    have hcast : ((j : Int) + 1) = ((j + 1 : Nat) : Int) := by push_cast; rfl
    have hnext := ih (j + 1)
      (middleBlock codec f (readBytes f (bp + 8 + 10 * sb) (10 * (w + 2)))
        ((e * B : Nat) : Int) (j : Int) m)
      (by omega) (by omega)
      (by
        intro k hk1 hk2
        exact hblocks k (by omega) (by omega))
      s1 s2
    have ha1 : sb + (j + 1) + n = sb + j + (n + 1) := by omega
    rw [ha1] at hnext
    rw [middleBlocks, middleBlocks, hcast, ← s0]
    exact hnext

/-- The single-block branch on two files that agree on the payload of the
block. -/
theorem readSingleBlock_same (codec : Codec) (f g : File) (s : Reader)
    (bp len size e B k so : Nat) (nb : Int)
    (hB : 1 ≤ B) (hblk : e * B < 2 ^ 31) (hkB : k * B < size)
    (hwin : so + len ≤ blockElems size B k)
    (hlaid : BlockLaid f bp size e B k) (hsame : SamePayload f g bp k) :
    readSingleBlock codec f s bp len size e B nb (k : Int) (i32 (so : Int))
        (entryOffset f bp k)
        (u64OfInt ((entryOffset f bp (k + 1) : Int) - (entryOffset f bp k : Int)))
        (entryAlgo f bp k)
      = readSingleBlock codec g s bp len size e B nb (k : Int) (i32 (so : Int))
        (entryOffset f bp k)
        (u64OfInt ((entryOffset f bp (k + 1) : Int) - (entryOffset f bp k : Int)))
        (entryAlgo f bp k) := by
  obtain ⟨hcB, -, -⟩ := blockElems_le hB hkB
  obtain ⟨hend, hraw, hcmp⟩ := hlaid
  unfold SamePayload at hsame
  generalize blockElems size B k = cnt at *
  have hm1 : e * cnt ≤ e * B := Nat.mul_le_mul_left e hcB
  have hm2 : e * (so + len) ≤ e * cnt := Nat.mul_le_mul_left e hwin
  have hm3 : e * (so + len) = e * so + e * len := Nat.mul_add e so len
  have hso31 : e * so < 2 ^ 31 := by omega
  have hlen32 : e * len < 2 ^ 32 := by omega
  have hlt := entryOffset_lt f bp (k + 1)
  have x1 : u32 (len * e) = e * len := by rw [Nat.mul_comm]; exact u32_of_lt hlen32
  have x4 : i32 ((e : Int) * i32 (so : Int)) = ((e * so : Nat) : Int) := i32_mul_i32 hso31
  apply readSingleBlock_congr
  · intro ha
    have hpe := hraw ha
    have hP : u64OfInt ((bp : Int) + (entryOffset f bp k : Int) + ((e * so : Nat) : Int))
        = bp + entryOffset f bp k + e * so := by
      rw [u64OfInt_add3]
      clear x1 x4
      exact Nat.mod_eq_of_lt (by omega)
    rw [x1, x4, hP]
    clear x1 x4 hP
    exact hsame.sub _ _ (by omega) (by omega)
  · intro ha
    have hle := hcmp ha
    have hP : u64 (bp + entryOffset f bp k) = bp + entryOffset f bp k := by
      clear x1 x4
      exact u64_of_lt (by omega)
    rw [hP, u64OfInt_sub_of_le hlt hle]
    exact hsame

/-- The first block of a multi-block read on two files that agree on the
payload of the block: the same state results, and the stream is at the end of
the payload. -/
theorem readFirstBlock_same (codec : Codec) (f g : File) (s : Reader)
    (bp e B so pStart pEnd algo : Nat)
    (he : 1 ≤ e) (hso : so < B) (hblk : e * B < 2 ^ 31) (hend : bp + pEnd < 2 ^ 64)
    (hraw : algo = 0 → pEnd = pStart + e * B) (hcmp : algo ≠ 0 → pStart ≤ pEnd)
    (hsame : SameBytes f g (bp + pStart) (pEnd - pStart)) :
    readFirstBlock codec f s bp e (i32 ((e : Int) * (B : Int))) (i32 (so : Int))
        (i32 ((B : Int) - i32 (so : Int))) pStart (u64OfInt ((pEnd : Int) - (pStart : Int)))
        algo
      = readFirstBlock codec g s bp e (i32 ((e : Int) * (B : Int))) (i32 (so : Int))
        (i32 ((B : Int) - i32 (so : Int))) pStart (u64OfInt ((pEnd : Int) - (pStart : Int)))
        algo ∧
    (readFirstBlock codec f s bp e (i32 ((e : Int) * (B : Int))) (i32 (so : Int))
        (i32 ((B : Int) - i32 (so : Int))) pStart (u64OfInt ((pEnd : Int) - (pStart : Int)))
        algo).pos = bp + pEnd := by
  obtain ⟨hB31, hso31, hsub31, hsum⟩ := block_exact he (Nat.le_of_lt hso) hblk
  have hso31' : so < 2 ^ 31 := by omega
  have hC : algo ≠ 0 → u64OfInt ((pEnd : Int) - (pStart : Int)) = pEnd - pStart :=
    fun ha => u64OfInt_sub_of_le (by omega) (hcmp ha)
  have hP1 : algo = 0 → u64OfInt ((bp : Int) + (pStart : Int) + ((e * so : Nat) : Int))
      = bp + pStart + e * so := by
    intro ha
    have := hraw ha
    rw [u64OfInt_add3]
    exact Nat.mod_eq_of_lt (by omega)
  have hP2 : algo ≠ 0 → u64 (bp + pStart) = bp + pStart := by
    intro ha
    have := hcmp ha
    exact u64_of_lt (by omega)
  have e1 : i32 (so : Int) = (so : Int) := i32_natCast hso31'
  have e2 : i32 ((B : Int) - (so : Int)) = ((B - so : Nat) : Int) :=
    i32_sub_cast (Nat.le_of_lt hso) hB31
  have e3 : i32 ((e : Int) * ((B - so : Nat) : Int)) = ((e * (B - so) : Nat) : Int) :=
    i32_mul_cast hsub31
  have e4 : i32 ((e : Int) * (so : Int)) = ((e * so : Nat) : Int) := i32_mul_cast hso31
  rw [e1, e2]
  constructor
  · apply readFirstBlock_congr
    · intro ha
      have hpe := hraw ha
      rw [e3, e4, hP1 ha, Int.toNat_ofNat]
      clear e1 e2 e3 e4 hP1 hP2 hC
      exact hsame.sub _ _ (by omega) (by omega)
    · intro ha
      rw [hP2 ha, hC ha]
      exact hsame
  · by_cases ha : algo = 0
    · have hpe := hraw ha
      have hP := hP1 ha
      simp only [readFirstBlock, if_pos ha, e3, e4, hP, Int.toNat_ofNat, readOut_pos, seekg_pos]
      clear e1 e2 e3 e4 hP1 hP2 hC hP
      omega
    · have hle := hcmp ha
      have hP := hP2 ha
      have hC' := hC ha
      by_cases hz : (so : Int) = 0
      · simp only [readFirstBlock, if_neg ha, hP, hC', readBuf_pos, seekg_pos, if_pos hz]
        clear e1 e2 e3 e4 hP1 hP2 hC hP hC'
        omega
      · simp only [readFirstBlock, if_neg ha, hP, hC', readBuf_pos, seekg_pos, if_neg hz]
        clear e1 e2 e3 e4 hP1 hP2 hC hP hC'
        omega

/-- The last block of a multi-block read on two files that agree on the payload
of the block. -/
theorem readLastBlock_same (codec : Codec) (f g : File) (idx : List UInt8) (m : MidState)
    (bp size e B w rem pStart pEnd algo : Nat) (nb eb : Int)
    (hrem : e * rem < 2 ^ 31) (hw : 10 + 10 * w < 2 ^ 31)
    (hidx1 : le64 idx ((10 + 10 * w : Nat) : Int) = pEnd)
    (hidx2 : le16 idx ((8 + 10 * w : Nat) : Int) = algo)
    (hmp : m.blockPEnd = pStart) (hmpos : m.rd.pos = bp + pStart)
    (hend : bp + pEnd < 2 ^ 64)
    (hraw : algo = 0 → pStart + e * rem ≤ pEnd) (hcmp : algo ≠ 0 → pStart ≤ pEnd)
    (hsame : SameBytes f g (bp + pStart) (pEnd - pStart)) :
    readLastBlock codec f idx size e B nb eb (w : Int) (rem : Int) m
      = readLastBlock codec g idx size e B nb eb (w : Int) (rem : Int) m := by
  have hw8 : 8 + 10 * w < 2 ^ 31 := by omega
  have hC : algo ≠ 0 → u64OfInt ((pEnd : Int) - (pStart : Int)) = pEnd - pStart :=
    fun ha => u64OfInt_sub_of_le (by omega) (hcmp ha)
  have i1 : i32 (10 + 10 * (w : Int)) = ((10 + 10 * w : Nat) : Int) := by
    have := @i32_index 10 w hw
    exact this
  have i2 : i32 (8 + 10 * (w : Int)) = ((8 + 10 * w : Nat) : Int) := by
    have := @i32_index 8 w hw8
    exact this
  have x1 : i32 ((e : Int) * (rem : Int)) = ((e * rem : Nat) : Int) := i32_mul_cast hrem
  apply readLastBlock_congr
  · rw [i2, hidx2, x1, hmpos, Int.toNat_ofNat]
    intro ha
    have := hraw ha
    clear i1 i2 x1 hC
    exact hsame.sub _ _ (Nat.le_refl _) (by omega)
  · rw [i2, i1, hidx2, hidx1, hmpos, hmp]
    intro ha
    rw [hC ha]
    exact hsame

/-- The blocks after the first one on two files that agree on the payloads of
the blocks `sb + 1 .. sb + w`. -/
theorem readRest_same (codec : Codec) (f g : File) (r1 : Reader)
    (bp sr len size e B sb w so : Nat) (nb : Int)
    (he : 1 ≤ e) (hsz : size < 2 ^ 32) (hB : 1 ≤ B)
    (hblk : e * B < 2 ^ 31) (hN : sr + len ≤ size)
    (hidx : 10 * (sb + w + 2) < 2 ^ 31)
    (hw : 1 ≤ w) (hsr : sr = sb * B + so)
    (hr0 : (sr + len) % B ≠ 0 → sr + len = (sb + w) * B + (sr + len) % B)
    (hr1 : (sr + len) % B = 0 → sr + len = (sb + w + 1) * B)
    (hblocks : ∀ k, sb ≤ k → k ≤ sb + w → BlockLaid f bp size e B k ∧ SamePayload f g bp k)
    (hpos : r1.pos = bp + entryOffset f bp (sb + 1)) :
    readRest codec f r1 (readBytes f (bp + 8 + 10 * sb) (10 * (w + 2)))
        sr len size e B nb (sb : Int) ((sb + w : Nat) : Int) ((e * B : Nat) : Int)
        ((B - so : Nat) : Int) (entryOffset f bp (sb + 1))
      = readRest codec g r1 (readBytes f (bp + 8 + 10 * sb) (10 * (w + 2)))
        sr len size e B nb (sb : Int) ((sb + w : Nat) : Int) ((e * B : Nat) : Int)
        ((B - so : Nat) : Int) (entryOffset f bp (sb + 1)) := by
  have hremlt : (sr + len) % B < B := Nat.mod_lt _ (by omega)
  have hB31 : B ≤ e * B := Nat.le_mul_of_pos_left B he
  have hsl32 : sr + len < 2 ^ 32 := by omega
  have hsw31 : sb + w + 1 < 2 ^ 31 := by omega
  have hsw31' : sb + w < 2 ^ 31 := by omega
  have hsw31'' : sb + (w + 1) < 2 ^ 31 := by omega
  have hw10 : 10 + 10 * w < 2 ^ 31 := by omega
  have hw2 : 10 * (w + 2) < 2 ^ 31 := by omega
  have hfull : ∀ k t, k + 1 ≤ t → t * B ≤ size → (k + 1) * B ≤ size := by
    intro k t hk ht
    have hmul : (k + 1) * B ≤ t * B := Nat.mul_le_mul_right B hk
    omega
  generalize hrem : (sr + len) % B = rem at *
  have hrem31 : rem < 2 ^ 31 := by omega
  have hremB : e * rem ≤ e * B := Nat.mul_le_mul_left e (Nat.le_of_lt hremlt)
  by_cases hz : rem = 0
  · have hsl := hr1 hz
    have hloop := middleBlocks_same codec f g bp size e B sb w hw2 hblk w 1
      { blockPEnd := entryOffset f bp (sb + 1),
        outOffset := i32 (((B - so : Nat) : Int) * (e : Int)), rd := r1 }
      (Nat.le_refl 1) (by omega)
      (by
        intro k hk1 hk2
        obtain ⟨h1, h2⟩ := hblocks k (by omega) (by omega)
        exact ⟨hfull k (sb + w + 1) (by omega) (by omega), h1, h2⟩)
      rfl hpos
    have hfin := hloop.1
    rw [Nat.cast_one] at hfin
    clear hloop
    have hu : u32 (sr + len) = sr + len := u32_of_lt hsl32
    have x2 : i32 (rem : Int) = (rem : Int) := i32_natCast hrem31
    have hz' : (rem : Int) = 0 := by rw [hz]; rfl
    have x3 : i32 (((sb + w : Nat) : Int) + 1) = ((sb + (w + 1) : Nat) : Int) := by
      have := @i32_succ_cast (sb + w) hsw31
      rw [this, Nat.add_assoc]
    have x4 : i32 (((sb + (w + 1) : Nat) : Int) - (sb : Int)) = ((w + 1 : Nat) : Int) :=
      i32_span hsw31''
    have x5 : ((((w + 1 : Nat) : Int)) - 1).toNat = w := by
      rw [toNat_pred_cast, Nat.add_sub_cancel]
    simp only [readRest, hu, hrem, x2, if_pos hz', x3, x4, x5]
    rw [hfin]
  · have hsl := hr0 hz
    have hkB : (sb + w) * B < size := by omega
    have hloop := middleBlocks_same codec f g bp size e B sb w hw2 hblk (w - 1) 1
      { blockPEnd := entryOffset f bp (sb + 1),
        outOffset := i32 (((B - so : Nat) : Int) * (e : Int)), rd := r1 }
      (Nat.le_refl 1) (by omega)
      (by
        intro k hk1 hk2
        obtain ⟨h1, h2⟩ := hblocks k (by omega) (by omega)
        exact ⟨hfull k (sb + w) (by omega) (by omega), h1, h2⟩)
      rfl hpos
    obtain ⟨l0, l1, l2⟩ := hloop
    have hk1 : sb + 1 + (w - 1) = sb + w := by omega
    rw [hk1] at l1 l2
    rw [Nat.cast_one] at l0 l1 l2
    have hi := blockIndex_entry f bp sb (w + 2) w (by omega)
    have hi' := blockIndex_entry f bp sb (w + 2) (w + 1) (by omega)
    have hc1 : ((10 + 10 * w : Nat) : Int) = ((10 * (w + 1) : Nat) : Int) := by
      congr 1
      omega
    have hc2 : ((8 + 10 * w : Nat) : Int) = ((10 * w + 8 : Nat) : Int) := by
      congr 1
      omega
    have hremc : rem ≤ blockElems size B (sb + w) := by
      unfold blockElems
      have hm : (sb + w + 1) * B = (sb + w) * B + B := Nat.succ_mul (sb + w) B
      split_ifs <;> omega
    have hremc' : e * rem ≤ e * blockElems size B (sb + w) := Nat.mul_le_mul_left e hremc
    obtain ⟨⟨hend, hraw, hcmp⟩, hsame⟩ := hblocks (sb + w) (by omega) (Nat.le_refl _)
    have hlast := readLastBlock_same codec f g
      (readBytes f (bp + 8 + 10 * sb) (10 * (w + 2)))
      (middleBlocks codec f (readBytes f (bp + 8 + 10 * sb) (10 * (w + 2)))
        ((e * B : Nat) : Int) (w - 1) 1
        { blockPEnd := entryOffset f bp (sb + 1),
          outOffset := i32 (((B - so : Nat) : Int) * (e : Int)), rd := r1 })
      bp size e B w rem (entryOffset f bp (sb + w)) (entryOffset f bp (sb + w + 1))
      (entryAlgo f bp (sb + w)) nb ((sb + w : Nat) : Int) (by omega) hw10
      (by rw [hc1]; exact hi'.1) (by rw [hc2]; exact hi.2) l1 l2 hend
      (by
        intro ha
        have := hraw ha
        omega)
      hcmp hsame
    have hz' : ¬ ((rem : Int) = 0) := by omega
    have hu : u32 (sr + len) = sr + len := u32_of_lt hsl32
    have x2 : i32 (rem : Int) = (rem : Int) := i32_natCast hrem31
    have x4 : i32 (((sb + w : Nat) : Int) - (sb : Int)) = (w : Int) := i32_span hsw31'
    have x5 : ((w : Int) - 1).toNat = w - 1 := toNat_pred_cast w
    simp only [readRest, hu, hrem, x2, if_neg hz', x4, x5]
    rw [← l0]
    exact hlast

/-- The block reads of a variable-ratio read on two files that agree on the
payloads of the blocks of the window. -/
theorem readBlocks_same (codec : Codec) (f g : File) (s : Reader)
    (bp sr len size e B : Nat) (nb : Int)
    (he : 1 ≤ e) (hsz : size < 2 ^ 32) (hB : 1 ≤ B)
    (hblk : e * B < 2 ^ 31) (hN : sr + len ≤ size) (hlen : 1 ≤ len)
    (hidx : 10 * ((sr + len - 1) / B + 2) < 2 ^ 31)
    (hblocks : ∀ k, sr / B ≤ k → k ≤ (sr + len - 1) / B →
      BlockLaid f bp size e B k ∧ SamePayload f g bp k) :
    readBlocks codec f s
        (readBytes f (bp + 8 + 10 * (sr / B)) (10 * ((sr + len - 1) / B - sr / B + 2)))
        bp sr len size e B nb ((sr / B : Nat) : Int) (((sr + len - 1) / B : Nat) : Int)
        (i32 ((sr % B : Nat) : Int))
      = readBlocks codec g s
        (readBytes f (bp + 8 + 10 * (sr / B)) (10 * ((sr + len - 1) / B - sr / B + 2)))
        bp sr len size e B nb ((sr / B : Nat) : Int) (((sr + len - 1) / B : Nat) : Int)
        (i32 ((sr % B : Nat) : Int)) := by
  obtain ⟨g1, g2, g3, g4, g5, g6, g7⟩ := window_geom sr len B hB hlen
  generalize sr / B = sb at *
  generalize (sr + len - 1) / B = eb at *
  generalize sr % B = so at *
  have hB31 : B < 2 ^ 31 := by
    have := Nat.le_mul_of_pos_left B he
    omega
  have hso31 : so < 2 ^ 31 := by omega
  have hsbB : sb * B < size := by omega
  rcases Nat.eq_or_lt_of_le g1 with heq | hlt
  · subst heq
    obtain ⟨hl, hs⟩ := hblocks sb (Nat.le_refl _) (Nat.le_refl _)
    have hwin' : so + len ≤ blockElems size B sb := by
      have h4 := g4 rfl
      unfold blockElems
      have hm : (sb + 1) * B = sb * B + B := Nat.succ_mul sb B
      split_ifs <;> omega
    obtain ⟨e0, e8, e10⟩ := blockIndex_head f bp sb 0
    have hspec := readSingleBlock_same codec f g s bp len size e B sb so nb hB hblk hsbB hwin'
      hl hs
    rw [Nat.sub_self]
    simp only [readBlocks, if_true, e0, e8, e10]
    exact hspec
  · obtain ⟨w, rfl⟩ := Nat.exists_eq_add_of_le (Nat.le_of_lt hlt)
    have hw : 1 ≤ w := by omega
    have hcancel : sb + w - sb = w := by omega
    rw [hcancel]
    have hfullw := g5 hlt
    have hm : (sb + 1) * B = sb * B + B := Nat.succ_mul sb B
    have hfull1 : (sb + 1) * B ≤ size := by omega
    obtain ⟨⟨b1, b2, b3⟩, hs⟩ := hblocks sb (Nat.le_refl _) (by omega)
    rw [blockElems_full hfull1] at b2
    obtain ⟨e0, e8, e10⟩ := blockIndex_head f bp sb w
    have hf := readFirstBlock_same codec f g s bp e B so (entryOffset f bp sb)
      (entryOffset f bp (sb + 1)) (entryAlgo f bp sb) he g2 hblk b1 b2 b3 hs
    have hne : ¬ ((sb : Int) = ((sb + w : Nat) : Int)) := by omega
    have x1 : i32 (so : Int) = (so : Int) := i32_natCast hso31
    have x2 : i32 ((B : Int) - (so : Int)) = ((B - so : Nat) : Int) :=
      i32_sub_cast (Nat.le_of_lt g2) hB31
    have x3 : i32 ((e : Int) * (B : Int)) = ((e * B : Nat) : Int) := i32_mul_cast hblk
    simp only [x1, x2, x3] at hf
    have hrest := readRest_same codec f g _ bp sr len size e B sb w so nb he hsz hB hblk hN
      hidx hw g3 (fun h => (g6 h).1) g7
      (fun k hk1 hk2 => hblocks k hk1 hk2) hf.2
    simp only [readBlocks, if_neg hne, e0, e8, e10, x1, x2, x3]
    rw [← hf.1]
    exact hrest

theorem leFile_congr {f g : File} (n : Nat) :
    ∀ p, SameBytes f g p n → leFile f p n = leFile g p n := by
  induction n with
  | zero => intro p _; rfl
  | succ n ih =>
    intro p h
    have h0 := h 0 (Nat.succ_pos n)
    rw [Nat.add_zero] at h0
    have h1 := ih (p + 1) (h.sub (p + 1) n (Nat.le_succ p) (by omega))
    simp only [leFile, h0, h1]

/-- C10 (amended): let two files agree on the 8-byte header at `blockPos`
(variable-ratio, `header[1] = B ≥ 1`), on the index entries of the blocks
`startBlock .. endBlock + 1` and on the payload bytes of the blocks
`startBlock .. endBlock`, where these blocks are laid out as the index says
(offsets non-decreasing and below `2^64`, a block with algorithm id 0
occupying the bytes of its elements) and, when compressed, fit the scratch
arrays (payload of at most `MAX_COMPRESSBOUND` bytes,
`elementSize * B ≤ MAX_SIZE_COMPRESS_BLOCK`), with a decompressor that never
writes more than the capacity it is given. For `elementSize ≥ 1`, `length ≥ 1`,
`startRow + length ≤ size < 2^32`, `elementSize * B < 2^31`,
`10 * (endBlock + 2) < 2^31` and the index position below `2^64`,
`fdsReadColumn_v1` returns on both files with the same result (output buffer,
stream position and log of stream calls) and without an access outside a
scratch array: nothing outside the header, these index entries and these
payloads influences the read. -/
theorem read_needs_only_window (codec : Codec) (srcRep tgtRep : Nat → Nat) (f g : File)
    (s : Reader) (blockPos startRow length size e B : Nat)
    (h0 : header0 f blockPos ≠ 0) (h1 : header1 f blockPos = B) (hB : 1 ≤ B) (he : 1 ≤ e)
    (hcap : RespectsCapacity codec)
    (hhead : SameBytes f g blockPos 8)
    (hindex : SameBytes f g (blockPos + 8 + 10 * (startRow / B))
      (10 * ((startRow + length - 1) / B - startRow / B + 2)))
    (hblocks : ∀ k, startRow / B ≤ k → k ≤ (startRow + length - 1) / B →
      BlockLaid f blockPos size e B k ∧ SamePayload f g blockPos k)
    (hfit : ∀ k, startRow / B ≤ k → k ≤ (startRow + length - 1) / B →
      ScratchFits codec f blockPos e B k)
    (hlen : 1 ≤ length) (hN : startRow + length ≤ size) (hsz : size < 2 ^ 32)
    (hblk : e * B < 2 ^ 31)
    (hidx : 10 * ((startRow + length - 1) / B + 2) < 2 ^ 31)
    (hpos : blockPos + 8 + 10 * (startRow / B) < 2 ^ 64) :
    ∃ r, fdsReadColumn_v1 codec srcRep tgtRep f s blockPos startRow length size e
        = Except.ok r ∧
      fdsReadColumn_v1 codec srcRep tgtRep g s blockPos startRow length size e
        = Except.ok r ∧
      r.ub = s.ub := by
  have hg0 : header0 g blockPos = header0 f blockPos :=
    (leFile_congr 4 blockPos (hhead.sub blockPos 4 (Nat.le_refl _) (by omega))).symm
  have hg1 : header1 g blockPos = header1 f blockPos :=
    (leFile_congr 4 (blockPos + 4) (hhead.sub (blockPos + 4) 4 (by omega) (by omega))).symm
  have hf := variable_read_start codec srcRep tgtRep f s blockPos startRow length size e B
    h0 h1 hB hlen hN hsz hidx hpos
  have hg := variable_read_start codec srcRep tgtRep g s blockPos startRow length size e B
    (by rw [hg0]; exact h0) (by rw [hg1]; exact h1) hB hlen hN hsz hidx hpos
  have hah : afterHeader g s blockPos = afterHeader f s blockPos := rfl
  rw [← readBytes_congr hindex, hah] at hg
  have hub := readBlocks_fits codec f
    (afterIndex (afterHeader f s blockPos) blockPos (startRow / B)
      ((startRow + length - 1) / B))
    blockPos startRow length size e B (i32 ((1 + (size - 1) / B : Nat) : Int))
    hcap he hsz hB hblk hN hlen hidx hfit
  rw [afterIndex_ub, afterHeader_ub] at hub
  refine ⟨_, hf, ?_, hub⟩
  rw [hg]
  exact congrArg Except.ok
    (readBlocks_same codec f g _ blockPos startRow length size e B _ he hsz hB hblk hN hlen
      hidx hblocks).symm

theorem demoColumnAlt_blocks : ∀ k, 3 / 4 ≤ k → k ≤ (3 + 2 - 1) / 4 →
    BlockLaid demoColumn 3 10 4 4 k ∧ SamePayload demoColumn demoColumnAlt 3 k := by
  intro k _ hk
  have h2 : (3 + 2 - 1) / 4 = 1 := by decide
  rw [h2] at hk
  have hcases : k = 0 ∨ k = 1 := by omega
  unfold BlockLaid SamePayload SameBytes
  rcases hcases with rfl | rfl
  · decide
  · decide

/-- C10 on the demo column: the read `(3, 2)` needs the blocks 0 and 1; the file
that differs in index entry 3 and in the payload of block 2 gives the same
result, and no scratch array is overrun. -/
theorem read_needs_only_window_witness :
    ∃ r, fdsReadColumn_v1 xorCodec noTable noTable demoColumn reader0 3 3 2 10 4
        = Except.ok r ∧
      fdsReadColumn_v1 xorCodec noTable noTable demoColumnAlt reader0 3 3 2 10 4
        = Except.ok r ∧
      r.ub = false :=
  read_needs_only_window xorCodec noTable noTable demoColumn demoColumnAlt reader0 3 3 2 10 4 4
    (by decide) (by decide) (by decide) (by decide) xorCodec_respects
    (by unfold SameBytes; decide) (by unfold SameBytes; decide) demoColumnAlt_blocks
    (fun k _ hk => demoColumn_fits k (Nat.lt_of_le_of_lt hk (by decide)))
    (by decide) (by decide) (by decide) (by decide) (by decide) (by decide)

/-- C10 as stated fails. (1) `hugeColumn` and `hugeColumnAlt` agree on the
header, on the index entries of the blocks `2^31` and `2^31 + 1` and on the
payload of block `2^31` (they differ in one payload byte of block 0), and block
`2^31` is laid out as the index says; the read of row `2^31` has
`startBlock = 2^31`, negative as the `int` it is stored in, reads the payload
of block 0 and gives different outputs on the two files. (2) `fatColumn`,
compared with itself: the payload of the compressed block 1 has 20000 bytes,
more than `compBuf` holds, and the read `(1, 9)` over the blocks 0, 1, 2 writes
outside `compBuf`. -/
theorem read_needs_only_window_counterexample :
    (header0 hugeColumn 0 ≠ 0 ∧ header1 hugeColumn 0 = 1 ∧
      SameBytes hugeColumn hugeColumnAlt 0 8 ∧
      SameBytes hugeColumn hugeColumnAlt (0 + 8 + 10 * (2 ^ 31 / 1))
        (10 * ((2 ^ 31 + 1 - 1) / 1 - 2 ^ 31 / 1 + 2)) ∧
      SamePayload hugeColumn hugeColumnAlt 0 (2 ^ 31) ∧
      BlockLaid hugeColumn 0 (2 ^ 31 + 1) 4 1 (2 ^ 31) ∧
      1 ≤ 1 ∧ 2 ^ 31 + 1 ≤ 2 ^ 31 + 1 ∧
      outputOf reader0 (fdsReadColumn_v1 rawCodec noTable noTable hugeColumn reader0 0 (2 ^ 31) 1
        (2 ^ 31 + 1) 4) 0 = 0 ∧
      outputOf reader0 (fdsReadColumn_v1 rawCodec noTable noTable hugeColumnAlt reader0 0
        (2 ^ 31) 1 (2 ^ 31 + 1) 4) 0 = 1) ∧
    (header0 fatColumn 0 ≠ 0 ∧ header1 fatColumn 0 = 4 ∧
      (∀ k, k < 3 → BlockLaid fatColumn 0 12 4 4 k ∧ SamePayload fatColumn fatColumn 0 k) ∧
      1 ≤ 9 ∧ 1 + 9 ≤ 12 ∧
      ubOf (fdsReadColumn_v1 runCodec noTable noTable fatColumn reader0 0 1 9 12 4) = true) := by
  refine ⟨by unfold SamePayload BlockLaid SameBytes; decide!, by decide!, by decide!, ?_,
    by decide, by decide, by decide!⟩
  intro k hk
  refine ⟨?_, fun _ _ => rfl⟩
  have hcases : k = 0 ∨ k = 1 ∨ k = 2 := by omega
  unfold BlockLaid
  rcases hcases with rfl | rfl | rfl
  · decide!
  · decide!
  · decide!

/-! ## C12: block geometry -/

theorem lastBlockCount_of_dvd {size B : Nat} (hs : 1 ≤ size) (hB : 1 ≤ B) (hB32 : B < 2 ^ 32)
    (hd : 2 ^ 32 % B = 0) : lastBlockCount size B = 1 + (size - 1) % B := by
  have h1 : u32OfInt ((size : Int) + (B : Int) - 1) = (size - 1 + B) % 2 ^ 32 := by
    unfold u32OfInt; omega
  have h2 : (size - 1) % B < B := Nat.mod_lt _ (by omega)
  unfold lastBlockCount
  rw [h1, Nat.mod_mod_of_dvd _ (Nat.dvd_of_mod_eq_zero hd), Nat.add_mod_right]
  exact u32_of_lt (by omega)

theorem nrOfBlocks_eq {size B : Nat} (hs : 1 ≤ size) (hs32 : size < 2 ^ 32)
    (hnb : 1 + (size - 1) / B < 2 ^ 31) :
    nrOfBlocks size B = ((1 + (size - 1) / B : Nat) : Int) := by
  have h1 : u32OfInt ((size : Int) - 1) = size - 1 := u32OfInt_pred hs (by omega)
  unfold nrOfBlocks
  rw [h1]
  exact i32_natCast hnb

/-- C12 (amended): for `1 ≤ size < 2^32` and `1 ≤ B < 2^32` with
`size + B ≤ 2^32` or `B` a divisor of `2^32`, and with `⌈size / B⌉ < 2^31`, the
reader's block count `int nrOfBlocks = 1 + (size - 1) / B` is `⌈size / B⌉`, its
last-block element count `1 + (size + B - 1) % B`, computed in `unsigned int`,
is `1 + ((size - 1) mod B)`, and `(nrOfBlocks - 1) * B` plus the last-block
count is `size`. -/
theorem block_geometry (size B : Nat) (hs : 1 ≤ size) (hB : 1 ≤ B) (hs32 : size < 2 ^ 32)
    (hB32 : B < 2 ^ 32) (hfit : size + B ≤ 2 ^ 32 ∨ 2 ^ 32 % B = 0)
    (hnb : (size + B - 1) / B < 2 ^ 31) :
    nrOfBlocks size B = (((size + B - 1) / B : Nat) : Int) ∧
    lastBlockCount size B = 1 + (size - 1) % B ∧
    (nrOfBlocks size B - 1) * (B : Int) + (lastBlockCount size B : Int) = (size : Int) := by
  have hceil : (size + B - 1) / B = 1 + (size - 1) / B := by
    have e1 : size + B - 1 = size - 1 + B := by omega
    rw [e1, Nat.add_div_right _ (by omega), Nat.add_comm]
  rw [hceil] at hnb ⊢
  have hn := nrOfBlocks_eq (B := B) hs hs32 hnb
  have hl : lastBlockCount size B = 1 + (size - 1) % B := by
    rcases hfit with h | h
    · exact lastBlockCount_eq hs hB h
    · exact lastBlockCount_of_dvd hs hB hB32 h
  have hdm : B * ((size - 1) / B) + (size - 1) % B = size - 1 := Nat.div_add_mod _ _
  refine ⟨hn, hl, ?_⟩
  rw [hn, hl]
  have hc : (((1 + (size - 1) / B : Nat) : Int) - 1) * (B : Int)
      = ((B * ((size - 1) / B) : Nat) : Int) := by
    push_cast
    ring
  rw [hc]
  omega

/-- C12 on a column of 100000 elements in blocks of 4096: 25 blocks, the last
one of 1696 elements. -/
theorem block_geometry_witness :
    nrOfBlocks 100000 4096 = (((100000 + 4096 - 1) / 4096 : Nat) : Int) ∧
    lastBlockCount 100000 4096 = 1 + (100000 - 1) % 4096 ∧
    (nrOfBlocks 100000 4096 - 1) * ((4096 : Nat) : Int) + (lastBlockCount 100000 4096 : Int)
      = ((100000 : Nat) : Int) :=
  block_geometry 100000 4096 (by decide) (by decide) (by decide) (by decide)
    (Or.inl (by decide)) (by decide)

/-- C12 as stated fails in two ways. For `size = 3 * 2^30` and `B = 2^30 + 1`,
both below `2^32`, `size + B - 1 = 2^32` wraps to 0 in `unsigned int` and the
last-block count is 1, not `1 + ((size - 1) mod B) = 2^30 - 2`; three blocks
are counted, and `2 * B + 1` is not `size`. For `size = 2^31` and `B = 1` the
count `2^31` does not fit the `int nrOfBlocks`, which is `-2^31`. -/
theorem block_geometry_counterexample :
    (1 ≤ 3 * 2 ^ 30 ∧ 3 * 2 ^ 30 < 2 ^ 32 ∧ 1 ≤ 2 ^ 30 + 1 ∧ 2 ^ 30 + 1 < 2 ^ 32 ∧
      nrOfBlocks (3 * 2 ^ 30) (2 ^ 30 + 1) = 3 ∧
      lastBlockCount (3 * 2 ^ 30) (2 ^ 30 + 1) = 1 ∧
      1 + (3 * 2 ^ 30 - 1) % (2 ^ 30 + 1) = 2 ^ 30 - 2 ∧
      (nrOfBlocks (3 * 2 ^ 30) (2 ^ 30 + 1) - 1) * ((2 ^ 30 + 1 : Nat) : Int)
        + (lastBlockCount (3 * 2 ^ 30) (2 ^ 30 + 1) : Int) ≠ ((3 * 2 ^ 30 : Nat) : Int)) ∧
    (1 ≤ 2 ^ 31 ∧ 2 ^ 31 < 2 ^ 32 ∧ 1 ≤ 1 ∧ 1 < 2 ^ 32 ∧
      (2 ^ 31 + 1 - 1) / 1 = 2 ^ 31 ∧
      nrOfBlocks (2 ^ 31) 1 = -(2 ^ 31) ∧
      nrOfBlocks (2 ^ 31) 1 ≠ (((2 ^ 31 + 1 - 1) / 1 : Nat) : Int)) := by
  decide!

/-! ## C16: seek position of the uncompressed read -/

theorem readUncompressed_seek (file : File) (s : Reader) (blockPos startRow length e : Nat)
    (h : 0 < startRow) :
    (readUncompressed file s blockPos startRow length e).log =
      s.log ++ [IOEvent.seekg (uncompressedSeek blockPos e startRow),
        IOEvent.read (uncompressedSeek blockPos e startRow) (u32 (e * length))] := by
  simp only [readUncompressed, if_pos h, uncompressedSeek, readOut_log, seekg_log, seekg_pos,
    List.append_assoc, List.singleton_append]

/-- C16 (amended): for `startRow > 0` with `startRow * elementSize < 2^32` and
`blockPos + 8 + startRow * elementSize < 2^64` (any `elementSize`, in particular
4 and 8), the position `fdsReadColumn_v1` seeks to on the uncompressed path,
`blockPos + elementSize * startRow + 8` with the product in `unsigned int`, is
the mathematical value `blockPos + 8 + startRow * elementSize`, and the payload
is read there. -/
theorem uncompressed_seek_exact (codec : Codec) (srcRep tgtRep : Nat → Nat) (file : File)
    (s : Reader) (blockPos startRow length size e : Nat)
    (h0 : header0 file blockPos = 0) (h1 : header1 file blockPos = 0)
    (hsr : 0 < startRow) (hprod : startRow * e < 2 ^ 32)
    (hpos : blockPos + 8 + startRow * e < 2 ^ 64) :
    uncompressedSeek blockPos e startRow = blockPos + 8 + startRow * e ∧
    ∃ r, fdsReadColumn_v1 codec srcRep tgtRep file s blockPos startRow length size e
        = Except.ok r ∧
      r.log = s.log ++ [IOEvent.seekg blockPos, IOEvent.read blockPos 8,
        IOEvent.seekg (blockPos + 8 + startRow * e),
        IOEvent.read (blockPos + 8 + startRow * e) (u32 (e * length))] := by
  have hseek : uncompressedSeek blockPos e startRow = blockPos + 8 + startRow * e := by
    have e1 : u32 (e * startRow) = startRow * e := by
      rw [Nat.mul_comm]
      exact u32_of_lt hprod
    unfold uncompressedSeek
    rw [e1, COL_META_SIZE_V1, u64_of_lt (by omega)]
    omega
  refine ⟨hseek, readUncompressed file (afterHeader file s blockPos) blockPos startRow length e,
    ?_, ?_⟩
  · rw [fdsReadColumn_v1_eq, if_pos h0, if_pos h1]
  · rw [readUncompressed_seek _ _ _ _ _ _ hsr, hseek, afterHeader_log, List.append_assoc]
    rfl

/-- C16 on the ten doubles: row 3 of 8-byte elements at `blockPos = 0` is sought
at offset 32. -/
theorem uncompressed_seek_exact_witness :
    uncompressedSeek 0 8 3 = 0 + 8 + 3 * 8 ∧
    ∃ r, fdsReadColumn_v1 rawCodec noTable noTable tenDoubles reader0 0 3 4 10 8
        = Except.ok r ∧
      r.log = reader0.log ++ [IOEvent.seekg 0, IOEvent.read 0 8,
        IOEvent.seekg (0 + 8 + 3 * 8), IOEvent.read (0 + 8 + 3 * 8) (u32 (8 * 4))] :=
  uncompressed_seek_exact rawCodec noTable noTable tenDoubles reader0 0 3 4 10 8
    (by decide) (by decide) (by decide) (by decide) (by decide)

/-- C16 as stated fails: for `startRow = 2^30` and `elementSize = 4` the 32-bit
product is 0 and the reader seeks to `blockPos + 8`, not to
`blockPos + 8 + 2^32`. -/
theorem uncompressed_seek_exact_counterexample :
    0 < 2 ^ 30 ∧ 2 ^ 30 < 2 ^ 32 ∧ (4 = 4 ∨ 4 = 8) ∧
    header0 bigRawFile 0 = 0 ∧ header1 bigRawFile 0 = 0 ∧
    uncompressedSeek 0 4 (2 ^ 30) = 8 ∧
    uncompressedSeek 0 4 (2 ^ 30) ≠ 0 + 8 + 2 ^ 30 * 4 ∧
    logOf (fdsReadColumn_v1 rawCodec noTable noTable bigRawFile reader0 0 (2 ^ 30) 1
      (2 ^ 30 + 1) 4) = [IOEvent.seekg 0, IOEvent.read 0 8, IOEvent.seekg 8, IOEvent.read 8 4] := by
  decide!

/-! ## C15: unknown fixed-ratio algorithm -/

/-- C15 (the code as it is): with `header[0] = 0` and `header[1]` naming an
algorithm whose source rep size is below 1, no error is raised: the test
`if (repSize < 1)` of the source has an empty body, and the run goes on to
`repSizeElement = repSize / elementSize = 0` and divides `startRow` by it.
Up to this division by zero, which has no defined behaviour, it has made no
stream call after the header read and has written nothing. -/
theorem unknown_fixed_algo_not_rejected (codec : Codec) (srcRep tgtRep : Nat → Nat)
    (file : File) (s : Reader) (blockPos startRow length size e : Nat)
    (h0 : header0 file blockPos = 0) (h1 : header1 file blockPos ≠ 0)
    (hrep : srcRep (header1 file blockPos) < 1) :
    ∃ r, fdsReadColumn_v1 codec srcRep tgtRep file s blockPos startRow length size e
        = Except.ok r ∧
      r.ub = true ∧
      r.log = s.log ++ [IOEvent.seekg blockPos, IOEvent.read blockPos 8] ∧
      r.out = s.out ∧ r.writes = s.writes := by
  have hz : srcRep (header1 file blockPos) = 0 := by omega
  have hc : e = 0 ∨ srcRep (header1 file blockPos) / e = 0 := by
    rw [hz, Nat.zero_div]
    exact Or.inr rfl
  have hr : fdsReadFixedCompStream_v1 codec srcRep tgtRep file (afterHeader file s blockPos)
      blockPos (header1 file blockPos) startRow e length
      = { afterHeader file s blockPos with ub := true } := by
    simp only [fdsReadFixedCompStream_v1, if_pos hc]
  refine ⟨{ afterHeader file s blockPos with ub := true }, ?_, rfl, ?_, rfl, rfl⟩
  · rw [fdsReadColumn_v1_eq, if_pos h0, if_neg h1, hr]
  · exact afterHeader_log file s blockPos

/-- C15 on the 17-boolean file read with a table that knows no algorithm
(source rep size 0 for id 1): no error, the division by zero is reached after
the header read. -/
theorem unknown_fixed_algo_not_rejected_witness :
    ∃ r, fdsReadColumn_v1 bitCodec noTable noTable bitFile reader0 0 5 10 17 1 = Except.ok r ∧
      r.ub = true ∧
      r.log = reader0.log ++ [IOEvent.seekg 0, IOEvent.read 0 8] ∧
      r.out = reader0.out ∧ r.writes = reader0.writes :=
  unknown_fixed_algo_not_rejected bitCodec noTable noTable bitFile reader0 0 5 10 17 1
    (by decide) (by decide) (by decide)

/-! ## C14: rep-unit arithmetic of the fixed-ratio read -/

/-- The batch quantities for the rep units `sr .. sr + m`. -/
theorem tail_counts (R sr m : Nat) (hm2 : m + 1 < 2 ^ 32) :
    nrOfReps sr (sr + m) = m + 1 ∧
    nrOfFullBlocks R sr (sr + m) = m / nrOfRepsPerBlock R ∧
    remainReps R sr (sr + m) = m % nrOfRepsPerBlock R + 1 := by
  have h1 : nrOfReps sr (sr + m) = m + 1 := by
    unfold nrOfReps
    exact u32OfInt_eq (by omega) hm2
  have h2 : nrOfFullBlocks R sr (sr + m) = m / nrOfRepsPerBlock R := by
    unfold nrOfFullBlocks
    rw [h1, u32OfInt_eq (n := m) (by omega) (by omega)]
  have h3 : remainReps R sr (sr + m) = m % nrOfRepsPerBlock R + 1 := by
    unfold remainReps
    rw [h1, h2]
    have hdm : nrOfRepsPerBlock R * (m / nrOfRepsPerBlock R) + m % nrOfRepsPerBlock R = m :=
      Nat.div_add_mod m _
    have hle : m % nrOfRepsPerBlock R ≤ m := Nat.mod_le _ _
    generalize m / nrOfRepsPerBlock R = nf at *
    generalize m % nrOfRepsPerBlock R = rem at *
    generalize nrOfRepsPerBlock R = nPB at *
    subst hdm
    exact u32OfInt_eq (by push_cast; ring) (by omega)
  exact ⟨h1, h2, h3⟩

/-- The rep-unit window without the 32-bit wrappers. -/
theorem repWindow_eq (e q startRow len : Nat) (he : 1 ≤ e) (hq : 1 ≤ q)
    (hR : e * q ≤ PREF_BLOCK_SIZE_V1) (hlen : 1 ≤ len) (hs32 : startRow < 2 ^ 32)
    (hsum : startRow + len ≤ 2 ^ 32) :
    repWindow (e * q) e startRow len =
      if startRow % q ≠ 0 then
        if startRow / q = (startRow + len - 1) / q then
          { startRep := startRow / q, endRep := (startRow + len - 1) / q,
            startOffset := startRow % q, leading := u32 (e * len), finished := true }
        else
          { startRep := startRow / q + 1, endRep := (startRow + len - 1) / q,
            startOffset := startRow % q, leading := e * (q - startRow % q), finished := false }
      else
        { startRep := startRow / q, endRep := (startRow + len - 1) / q,
          startOffset := startRow % q, leading := 0, finished := false } := by
  obtain ⟨g1, g2, g3, -, -, -, -⟩ := window_geom startRow len q hq hlen
  have hqd : e * q / e = q := Nat.mul_div_cancel_left q he
  have hup : u32OfInt ((startRow : Int) + (len : Int) - 1) = startRow + len - 1 :=
    u32OfInt_add_pred hlen (by omega)
  have hP : PREF_BLOCK_SIZE_V1 = 16384 := rfl
  have hqR : q ≤ e * q := Nat.le_mul_of_pos_left q he
  have hsubR : e * (q - startRow % q) ≤ e * q := Nat.mul_le_mul_left e (Nat.sub_le q _)
  have hle : startRow / q ≤ startRow := Nat.div_le_self _ _
  simp only [repWindow, hqd, hup]
  clear hup
  generalize startRow / q = sr0 at *
  generalize (startRow + len - 1) / q = er at *
  generalize startRow % q = so at *
  have b1 : sr0 * q < 2 ^ 32 := by omega
  have b2 : ((startRow : Int) - ((sr0 * q : Nat) : Int)) = (so : Int) := by omega
  have b3 : so < 2 ^ 32 := by omega
  have b5 : q < 2 ^ 31 := by omega
  have b6 : e * (q - so) < 2 ^ 31 := by omega
  have b7 : e * (q - so) < 2 ^ 64 := by omega
  have z1 : u32 (sr0 * q) = sr0 * q := u32_of_lt b1
  have z2 : u32OfInt ((startRow : Int) - ((sr0 * q : Nat) : Int)) = so := u32OfInt_eq b2 b3
  by_cases hso : so = 0
  · have hne : ¬ (so ≠ 0) := fun h => h hso
    simp only [z1, z2, if_neg hne]
  · have b8 : sr0 + 1 < 2 ^ 32 := by
      have hq2 : sr0 * 2 ≤ sr0 * q := Nat.mul_le_mul_left sr0 (by omega)
      omega
    have z5 : i32 ((q : Int) - (so : Int)) = ((q - so : Nat) : Int) :=
      i32_sub_cast (Nat.le_of_lt g2) b5
    have z6 : i32 ((e : Int) * ((q - so : Nat) : Int)) = ((e * (q - so) : Nat) : Int) :=
      i32_mul_cast b6
    have z7 : u64OfInt ((e * (q - so) : Nat) : Int) = e * (q - so) := u64OfInt_natCast b7
    have z8 : u32 (sr0 + 1) = sr0 + 1 := u32_of_lt b8
    simp only [z1, z2, z5, z6, z7, z8, if_pos hso]

/-- The batch and tail quantities for the rep units `sr .. er`, `lead` bytes
having been written before. -/
theorem rep_unit_tail (e q startRow len sr er last lead : Nat) (he : 1 ≤ e) (hq : 1 ≤ q)
    (hR : e * q ≤ PREF_BLOCK_SIZE_V1) (hsr : sr ≤ er) (hm2 : er - sr + 1 < 2 ^ 32)
    (hend : startRow + len = er * q + last) (hlast : last ≤ q)
    (hc : e * startRow + lead = sr * (e * q)) :
    1 ≤ nrOfReps sr er ∧ 1 ≤ remainReps (e * q) sr er ∧
    remainReps (e * q) sr er ≤ nrOfRepsPerBlock (e * q) ∧
    nrOfElemsLastRep (e * q) e startRow len er = last ∧
    lead + nrOfFullBlocks (e * q) sr er * u32 (nrOfRepsPerBlock (e * q) * (e * q))
      + (if u32 (remainReps (e * q) sr er * (e * q)) ≠ e * q
          then u32OfInt ((u32 (remainReps (e * q) sr er * (e * q)) : Int) - ((e * q : Nat) : Int))
          else 0)
      + u32 (e * nrOfElemsLastRep (e * q) e startRow len er) = len * e := by
  have hRpos : 1 ≤ e * q := Nat.mul_pos he hq
  have hlastR : e * last ≤ e * q := Nat.mul_le_mul_left e hlast
  have hqR : q ≤ e * q := Nat.le_mul_of_pos_left q he
  have hqd : e * q / e = q := Nat.mul_div_cancel_left q he
  have htot : e * startRow + e * len = er * (e * q) + e * last := by
    rw [← Nat.mul_add, hend]
    ring
  have hP : PREF_BLOCK_SIZE_V1 = 16384 := rfl
  have hnel : nrOfElemsLastRep (e * q) e startRow len er = last := by
    unfold nrOfElemsLastRep
    rw [hqd]
    exact u32OfInt_eq (by rw [← Int.natCast_add, hend]; push_cast; ring) (by omega)
  obtain ⟨m, rfl⟩ := Nat.exists_eq_add_of_le hsr
  have hmm : sr + m - sr = m := by omega
  rw [hmm] at hm2
  obtain ⟨c1, c2, c3⟩ := tail_counts (e * q) sr m hm2
  have hnPB1 : 1 ≤ nrOfRepsPerBlock (e * q) := Nat.div_pos hR hRpos
  have hnPBR : nrOfRepsPerBlock (e * q) * (e * q) ≤ PREF_BLOCK_SIZE_V1 :=
    Nat.div_mul_le_self _ _
  have hrem : m % nrOfRepsPerBlock (e * q) < nrOfRepsPerBlock (e * q) :=
    Nat.mod_lt m (by omega)
  have hdm : nrOfRepsPerBlock (e * q) * (m / nrOfRepsPerBlock (e * q))
      + m % nrOfRepsPerBlock (e * q) = m := Nat.div_add_mod m _
  have hel32 : u32 (e * last) = e * last := u32_of_lt (by omega)
  rw [hnel, c1, c2, c3, hel32]
  clear c1 c2 c3 hnel hel32
  generalize nrOfRepsPerBlock (e * q) = nPB at *
  generalize e * q = R at *
  generalize m / nPB = nf at *
  generalize m % nPB = rem at *
  subst hdm
  have hrem1 : (rem + 1) * R ≤ nPB * R := Nat.mul_le_mul_right R hrem
  have hsR : (rem + 1) * R = rem * R + R := Nat.succ_mul rem R
  have hsplit : (sr + (nPB * nf + rem)) * R = sr * R + nf * (nPB * R) + rem * R := by ring
  have y4 : u32 (nPB * R) = nPB * R := u32_of_lt (by omega)
  have y6 : u32 ((rem + 1) * R) = (rem + 1) * R := u32_of_lt (by omega)
  have hlastb : (if (rem + 1) * R ≠ R
      then u32OfInt ((((rem + 1) * R : Nat) : Int) - (R : Int)) else 0) = rem * R := by
    split_ifs with h
    · exact u32OfInt_eq (by rw [hsR]; push_cast; ring) (by omega)
    · omega
  rw [y4, y6, hlastb]
  clear y4 y6 hlastb
  refine ⟨by omega, by omega, by omega, rfl, ?_⟩
  have hmc : len * e = e * len := Nat.mul_comm _ _
  omega

/-- The rep-unit quantities of a read whose `sourceRepSize` is `elementSize * repElems`:
the bytes asked to be written are `length * elementSize`, and unless the read
ends in the leading partial unit the unit counts are in range. -/
theorem rep_unit_counts (e q startRow len : Nat) (he : 1 ≤ e) (hq : 1 ≤ q)
    (hR : e * q ≤ PREF_BLOCK_SIZE_V1) (hlen : 1 ≤ len) (hs32 : startRow < 2 ^ 32)
    (hl32 : len < 2 ^ 32) (hsum : startRow + len ≤ 2 ^ 32) :
    fixedBytesWritten (e * q) e startRow len = len * e ∧
    ((repWindow (e * q) e startRow len).finished = false →
      1 ≤ nrOfReps (repWindow (e * q) e startRow len).startRep
        (repWindow (e * q) e startRow len).endRep ∧
      1 ≤ remainReps (e * q) (repWindow (e * q) e startRow len).startRep
        (repWindow (e * q) e startRow len).endRep ∧
      remainReps (e * q) (repWindow (e * q) e startRow len).startRep
        (repWindow (e * q) e startRow len).endRep ≤ nrOfRepsPerBlock (e * q) ∧
      1 ≤ nrOfElemsLastRep (e * q) e startRow len (repWindow (e * q) e startRow len).endRep ∧
      nrOfElemsLastRep (e * q) e startRow len (repWindow (e * q) e startRow len).endRep
        ≤ e * q / e) := by
  obtain ⟨g1, g2, g3, g4, g5, g6, g7⟩ := window_geom startRow len q hq hlen
  have hw := repWindow_eq e q startRow len he hq hR hlen hs32 hsum
  have hqd : e * q / e = q := Nat.mul_div_cancel_left q he
  have hP : PREF_BLOCK_SIZE_V1 = 16384 := rfl
  have hqR : q ≤ e * q := Nat.le_mul_of_pos_left q he
  have hlast : ∃ last, startRow + len = (startRow + len - 1) / q * q + last ∧ 1 ≤ last ∧
      last ≤ q := by
    by_cases hm : (startRow + len) % q = 0
    · exact ⟨q, (g7 hm).trans (Nat.succ_mul _ _), hq, Nat.le_refl q⟩
    · exact ⟨(startRow + len) % q, (g6 hm).1, by omega, Nat.le_of_lt (g6 hm).2⟩
  obtain ⟨last, hend, hl1, hlq⟩ := hlast
  clear g6 g7
  have hle : startRow / q ≤ startRow := Nat.div_le_self _ _
  have hc0 : e * startRow = startRow / q * (e * q) + e * (startRow % q) := by
    have h := congrArg (fun x => e * x) g3
    simp only at h
    rw [Nat.mul_add] at h
    rw [h]
    ring
  rw [hqd]
  unfold fixedBytesWritten
  simp only [hw]
  clear hw
  generalize startRow / q = sr0 at *
  generalize (startRow + len - 1) / q = er at *
  generalize startRow % q = so at *
  have her32 : er < 2 ^ 32 := by
    have := Nat.le_mul_of_pos_right er hq
    omega
  by_cases hso : so = 0
  · have hne : ¬ (so ≠ 0) := fun h => h hso
    simp only [if_neg hne, Bool.false_eq_true, if_false]
    have hz : e * so = 0 := by rw [hso, Nat.mul_zero]
    have hm2 : er - sr0 + 1 < 2 ^ 32 := by
      rcases Nat.eq_zero_or_pos sr0 with h0 | h0
      · have := Nat.le_mul_of_pos_right er hq
        subst h0
        omega
      · omega
    obtain ⟨t1, t2, t3, t4, t5⟩ := rep_unit_tail e q startRow len sr0 er last 0 he hq hR g1 hm2
      hend hlq (by omega)
    refine ⟨t5, fun _ => ⟨t1, t2, t3, ?_, ?_⟩⟩
    · rw [t4]; exact hl1
    · rw [t4]; exact hlq
  · simp only [if_pos hso]
    by_cases hse : sr0 = er
    · simp only [if_pos hse, if_true]
      have hwin := g4 hse
      have hbytes : e * len ≤ e * q := Nat.mul_le_mul_left e (by omega)
      refine ⟨?_, fun h => absurd h (by decide)⟩
      rw [u32_of_lt (by omega), Nat.mul_comm]
    · simp only [if_neg hse, Bool.false_eq_true, if_false]
      have hlt : sr0 + 1 ≤ er := by omega
      have hb : e * so + e * (q - so) = e * q := by
        rw [← Nat.mul_add]
        congr 1
        omega
      have hsm : (sr0 + 1) * (e * q) = sr0 * (e * q) + e * q := Nat.succ_mul _ _
      obtain ⟨t1, t2, t3, t4, t5⟩ := rep_unit_tail e q startRow len (sr0 + 1) er last
        (e * (q - so)) he hq hR hlt (by omega) hend hlq (by omega)
      refine ⟨t5, fun _ => ⟨t1, t2, t3, ?_, ?_⟩⟩
      · rw [t4]; exact hl1
      · rw [t4]; exact hlq

theorem bytesWritten_append (a b : List (Int × Nat)) :
    bytesWritten (a ++ b) = bytesWritten a + bytesWritten b := by
  unfold bytesWritten
  rw [List.map_append, List.sum_append]

theorem bytesWritten_single (off : Int) (n : Nat) : bytesWritten [(off, n)] = n := by
  unfold bytesWritten
  rw [List.map_cons, List.map_nil, List.sum_cons, List.sum_nil, Nat.add_zero]

/-- The full-batch loop logs one write of `blockSize` bytes per iteration and
leaves the flag as it is. -/
theorem fixedFullBlocks_sizes (codec : Codec) (file : File) (algo : Nat) (outP : Int)
    (bs tbs : Nat) : ∀ (n block : Nat) (s : Reader),
    bytesWritten (fixedFullBlocks codec file algo outP bs tbs n block s).writes
      = bytesWritten s.writes + n * bs ∧
    (fixedFullBlocks codec file algo outP bs tbs n block s).ub = s.ub := by
  intro n
  induction n with
  | zero =>
    intro block s
    rw [fixedFullBlocks, Nat.zero_mul, Nat.add_zero]
    exact ⟨rfl, rfl⟩
  | succ n ih =>
    intro block s
    rw [fixedFullBlocks]
    obtain ⟨h1, h2⟩ := ih (block + 1)
      { (s.readBuf file tbs).2 with
        out := store (s.readBuf file tbs).2.out (outP + u32 (block * bs))
          (codec algo bs (s.readBuf file tbs).1),
        writes := (s.readBuf file tbs).2.writes ++ [(outP + u32 (block * bs), bs)] }
    refine ⟨h1.trans ?_, h2.trans rfl⟩
    show bytesWritten (s.writes ++ [(outP + u32 (block * bs), bs)]) + n * bs
      = bytesWritten s.writes + (n + 1) * bs
    rw [bytesWritten_append, bytesWritten_single, Nat.succ_mul]
    omega

/-- The part after the leading partial unit logs the writes of the full
batches, of the last batch and of the final unit, and leaves the flag as it
is. -/
theorem fixedTail_sizes (codec : Codec) (file : File) (s : Reader)
    (algo R T startRow len e sr er : Nat) (outP : Int) :
    bytesWritten (fixedTail codec file s algo R T startRow len e (R / e) sr er outP).writes
      = bytesWritten s.writes
        + nrOfFullBlocks R sr er * u32 (nrOfRepsPerBlock R * R)
        + (if u32 (remainReps R sr er * R) ≠ R
            then u32OfInt ((u32 (remainReps R sr er * R) : Int) - (R : Int)) else 0)
        + u32 (e * nrOfElemsLastRep R e startRow len er) ∧
    (fixedTail codec file s algo R T startRow len e (R / e) sr er outP).ub = s.ub := by
  obtain ⟨hF, hU⟩ := fixedFullBlocks_sizes codec file algo outP (u32 (nrOfRepsPerBlock R * R))
    (u32 (nrOfRepsPerBlock R * T)) (nrOfFullBlocks R sr er) 0 s
  simp only [nrOfFullBlocks, remainReps, nrOfReps, nrOfRepsPerBlock, nrOfElemsLastRep] at hF hU ⊢
  simp only [fixedTail, Reader.readBuf]
  generalize fixedFullBlocks codec file algo outP (u32 (PREF_BLOCK_SIZE_V1 / R * R))
    (u32 (PREF_BLOCK_SIZE_V1 / R * T))
    (u32OfInt ((u32OfInt (1 + (er : Int) - (sr : Int)) : Int) - 1) / (PREF_BLOCK_SIZE_V1 / R))
    0 s = F at hF hU ⊢
  split_ifs with h
  · refine ⟨?_, hU⟩
    show bytesWritten (F.writes ++ [_] ++ [_]) = _
    rw [bytesWritten_append, bytesWritten_append, bytesWritten_single, bytesWritten_single, hF]
  · refine ⟨?_, hU⟩
    show bytesWritten (F.writes ++ [_]) = _
    rw [bytesWritten_append, bytesWritten_single, hF, Nat.add_zero]

/-- The writes `fdsReadFixedCompStream_v1` logs add up to `fixedBytesWritten`,
and with `elementSize ≥ 1` and `repSize / elementSize ≥ 1` no division by zero
is executed. -/
theorem fixedStream_sizes (codec : Codec) (srcRep tgtRep : Nat → Nat) (file : File)
    (s : Reader) (blockPos algo startRow e len : Nat)
    (hne : ¬ (e = 0 ∨ srcRep algo / e = 0)) :
    bytesWritten (fdsReadFixedCompStream_v1 codec srcRep tgtRep file s blockPos algo startRow e
        len).writes
      = bytesWritten s.writes + fixedBytesWritten (srcRep algo) e startRow len ∧
    (fdsReadFixedCompStream_v1 codec srcRep tgtRep file s blockPos algo startRow e len).ub
      = s.ub := by
  simp only [fdsReadFixedCompStream_v1, if_neg hne, fixedBytesWritten, repWindow, Reader.readBuf]
  generalize srcRep algo = R
  generalize tgtRep algo = T
  have hS : (if 0 < startRow / (R / e)
      then s.seekg (u64 (blockPos + COL_META_SIZE_V1 + u32 (startRow / (R / e) * T)))
      else s).writes = s.writes ∧
      (if 0 < startRow / (R / e)
      then s.seekg (u64 (blockPos + COL_META_SIZE_V1 + u32 (startRow / (R / e) * T)))
      else s).ub = s.ub := by
    split <;> exact ⟨rfl, rfl⟩
  generalize (if 0 < startRow / (R / e)
      then s.seekg (u64 (blockPos + COL_META_SIZE_V1 + u32 (startRow / (R / e) * T)))
      else s) = S at hS ⊢
  obtain ⟨hw, hu⟩ := hS
  generalize u32OfInt ((startRow : Int) - ((u32 (startRow / (R / e) * (R / e)) : Nat) : Int)) = so
  generalize u32OfInt ((startRow : Int) + (len : Int) - 1) / (R / e) = er
  by_cases h1 : so ≠ 0
  · simp only [if_pos h1]
    by_cases h2 : startRow / (R / e) = er
    · simp only [if_pos h2, if_true]
      refine ⟨?_, hu⟩
      show bytesWritten (S.writes ++ [_]) = _
      rw [bytesWritten_append, bytesWritten_single, hw]
    · simp only [if_neg h2, Bool.false_eq_true, if_false]
      obtain ⟨t1, t2⟩ := fixedTail_sizes codec file
        { pos := S.pos + T, out := copy S.out 0 (store S.tmp 0 (codec algo R (readBytes file S.pos T)))
            (u32 (e * so)) (u64OfInt (i32 ((e : Int) * i32 (((R / e : Nat) : Int) - (so : Int))))),
          tmp := store S.tmp 0 (codec algo R (readBytes file S.pos T)),
          log := S.log ++ [IOEvent.read S.pos T],
          writes := S.writes ++ [((0 : Int),
            u64OfInt (i32 ((e : Int) * i32 (((R / e : Nat) : Int) - (so : Int)))))],
          ub := S.ub }
        algo R T startRow len e (u32 (startRow / (R / e) + 1)) er
        (i32 ((e : Int) * i32 (((R / e : Nat) : Int) - (so : Int))))
      refine ⟨t1.trans ?_, t2.trans hu⟩
      rw [bytesWritten_append, bytesWritten_single, hw]
      simp only [Nat.add_assoc]
  · simp only [if_neg h1, Bool.false_eq_true, if_false]
    obtain ⟨t1, t2⟩ := fixedTail_sizes codec file S algo R T startRow len e (startRow / (R / e))
      er 0
    refine ⟨t1.trans ?_, t2.trans hu⟩
    rw [hw]
    simp only [Nat.add_assoc, Nat.zero_add]

/-- C14: in `fdsReadFixedCompStream_v1`, for 32-bit `startRow` and `length ≥ 1`
with `startRow + length ≤ 2^32` (the window lies inside a column of at most
`2^32` elements), `elementSize ≥ 1` and a source rep size
`sourceRepSize = elementSize * repElems` (a multiple of the element size, as the
format requires) with `repElems ≥ 1` and `sourceRepSize ≤ PREF_BLOCK_SIZE_V1`:
no division by zero is executed, the sizes of the writes the reader makes to
the output (leading partial unit, full batches, last batch, truncated final
unit) add up to `length * elementSize`, and unless the read ends in the leading
partial unit, `nrOfReps ≥ 1`, `1 ≤ remainReps ≤ nrOfRepsPerBlock` and
`1 ≤ nrOfElemsLastRep ≤ repElems`. -/
theorem rep_unit_arithmetic (codec : Codec) (srcRep tgtRep : Nat → Nat) (file : File)
    (s : Reader) (blockPos algo e q startRow len : Nat)
    (hrep : srcRep algo = e * q) (he : 1 ≤ e) (hq : 1 ≤ q)
    (hR : e * q ≤ PREF_BLOCK_SIZE_V1) (hlen : 1 ≤ len) (hs32 : startRow < 2 ^ 32)
    (hl32 : len < 2 ^ 32) (hsum : startRow + len ≤ 2 ^ 32) :
    (fdsReadFixedCompStream_v1 codec srcRep tgtRep file s blockPos algo startRow e len).ub
      = s.ub ∧
    bytesWritten (fdsReadFixedCompStream_v1 codec srcRep tgtRep file s blockPos algo startRow e
        len).writes = bytesWritten s.writes + len * e ∧
    ((repWindow (e * q) e startRow len).finished = false →
      1 ≤ nrOfReps (repWindow (e * q) e startRow len).startRep
        (repWindow (e * q) e startRow len).endRep ∧
      1 ≤ remainReps (e * q) (repWindow (e * q) e startRow len).startRep
        (repWindow (e * q) e startRow len).endRep ∧
      remainReps (e * q) (repWindow (e * q) e startRow len).startRep
        (repWindow (e * q) e startRow len).endRep ≤ nrOfRepsPerBlock (e * q) ∧
      1 ≤ nrOfElemsLastRep (e * q) e startRow len (repWindow (e * q) e startRow len).endRep ∧
      nrOfElemsLastRep (e * q) e startRow len (repWindow (e * q) e startRow len).endRep
        ≤ e * q / e) := by
  have hqd : e * q / e = q := Nat.mul_div_cancel_left q he
  have hne : ¬ (e = 0 ∨ srcRep algo / e = 0) := by
    rw [hrep, hqd]
    omega
  obtain ⟨w1, w2⟩ := fixedStream_sizes codec srcRep tgtRep file s blockPos algo startRow e len hne
  obtain ⟨c1, c2⟩ := rep_unit_counts e q startRow len he hq hR hlen hs32 hl32 hsum
  rw [hrep, c1] at w1
  exact ⟨w2, w1, c2⟩

/-- C14 on 17 booleans with 8 elements per rep unit (`bitFile`), read `(5, 10)`:
a leading partial unit of 3 elements, then one unit with 7 elements left: the
reader writes 10 bytes. -/
theorem rep_unit_arithmetic_witness :
    (fdsReadFixedCompStream_v1 bitCodec bitSrcRep bitTgtRep bitFile reader0 0 1 5 1 10).ub
      = false ∧
    bytesWritten (fdsReadFixedCompStream_v1 bitCodec bitSrcRep bitTgtRep bitFile reader0 0 1 5 1
        10).writes = bytesWritten [] + 10 * 1 ∧
    ((repWindow (1 * 8) 1 5 10).finished = false →
      1 ≤ nrOfReps (repWindow (1 * 8) 1 5 10).startRep (repWindow (1 * 8) 1 5 10).endRep ∧
      1 ≤ remainReps (1 * 8) (repWindow (1 * 8) 1 5 10).startRep
        (repWindow (1 * 8) 1 5 10).endRep ∧
      remainReps (1 * 8) (repWindow (1 * 8) 1 5 10).startRep
        (repWindow (1 * 8) 1 5 10).endRep ≤ nrOfRepsPerBlock (1 * 8) ∧
      1 ≤ nrOfElemsLastRep (1 * 8) 1 5 10 (repWindow (1 * 8) 1 5 10).endRep ∧
      nrOfElemsLastRep (1 * 8) 1 5 10 (repWindow (1 * 8) 1 5 10).endRep ≤ 1 * 8 / 1) :=
  rep_unit_arithmetic bitCodec bitSrcRep bitTgtRep bitFile reader0 0 1 1 8 5 10 (by decide)
    (by decide) (by decide) (by decide) (by decide) (by decide) (by decide) (by decide)

/-- The batches `fixedTail` reads are the `nrOfFullBlocks` full batches and one
batch of `remainReps` units. -/
theorem fixedTail_pos (codec : Codec) (file : File) (s : Reader)
    (algo R T startRow len e q sr er : Nat) (outP : Int) :
    (fixedTail codec file s algo R T startRow len e q sr er outP).pos =
      (fixedFullBlocks codec file algo outP (u32 (nrOfRepsPerBlock R * R))
        (u32 (nrOfRepsPerBlock R * T)) (nrOfFullBlocks R sr er) 0 s).pos
        + u32 (remainReps R sr er * T) := by
  simp only [fixedTail, Reader.readBuf, nrOfFullBlocks, remainReps, nrOfReps, nrOfRepsPerBlock]
  split_ifs <;> rfl

/-! ## C19: the running output offset -/

theorem middleBlocks_outOffset (codec : Codec) (file : File) (idx : List UInt8)
    (blockSize : Int) : ∀ (n : Nat) (j : Int) (m : MidState),
    (middleBlocks codec file idx blockSize n j m).outOffset
      = (fun o : Int => i32 (o + blockSize))^[n] m.outOffset := by
  intro n
  induction n with
  | zero => intro j m; rfl
  | succ n ih =>
    intro j m
    rw [middleBlocks, ih, Function.iterate_succ_apply]
    rfl

theorem iterate_outOffset (bs : Nat) : ∀ (n o : Nat), o + n * bs < 2 ^ 31 →
    (fun z : Int => i32 (z + (bs : Int)))^[n] (o : Int) = ((o + n * bs : Nat) : Int) := by
  intro n
  induction n with
  | zero => intro o _; simp
  | succ n ih =>
    intro o h
    have hs : (n + 1) * bs = n * bs + bs := Nat.succ_mul n bs
    have h1 : i32 ((o : Int) + (bs : Int)) = ((o + bs : Nat) : Int) := i32_add_cast (by omega)
    rw [Function.iterate_succ_apply, h1, ih (o + bs) (by omega)]
    congr 1
    omega

theorem i32_sub_wrapped {B so : Nat} (hso : so ≤ B) (h : B - so < 2 ^ 31) :
    i32 ((B : Int) - i32 (so : Int)) = ((B - so : Nat) : Int) := by
  unfold i32
  omega

/-- C19 (amended): in a variable-ratio read over at least two blocks with
`elementSize ≥ 1` (in particular 4 or 8), `startRow + length ≤ size < 2^32` and
`length * elementSize < 2^31`, the value of `outOffset` at the write that
follows `n` middle blocks, for every `n` with the blocks
`startBlock + 1 .. startBlock + n` inside the window, is the number of bytes
emitted so far, `elementSize * (B - startOffset) + n * (elementSize * B)`, and
lies below `2^31`; this is the value the middle-block loop of the reader
carries. -/
theorem outOffset_exact (codec : Codec) (file : File) (idx : List UInt8) (s : Reader)
    (p startRow length size e B n : Nat)
    (he : 1 ≤ e) (hB : 1 ≤ B) (_hN : startRow + length ≤ size) (_hsz : size < 2 ^ 32)
    (hout : length * e < 2 ^ 31)
    (hn : (startRow / B + 1 + n) * B ≤ startRow + length) :
    outOffsetAfter e (i32 ((e : Int) * (B : Int)))
        (i32 ((B : Int) - i32 ((startRow % B : Nat) : Int))) n
      = ((e * (B - startRow % B) + n * (e * B) : Nat) : Int) ∧
    e * (B - startRow % B) + n * (e * B) < 2 ^ 31 ∧
    (middleBlocks codec file idx (i32 ((e : Int) * (B : Int))) n 1
        { blockPEnd := p,
          outOffset := i32 (i32 ((B : Int) - i32 ((startRow % B : Nat) : Int)) * (e : Int)),
          rd := s }).outOffset
      = outOffsetAfter e (i32 ((e : Int) * (B : Int)))
        (i32 ((B : Int) - i32 ((startRow % B : Nat) : Int))) n := by
  have hdm : B * (startRow / B) + startRow % B = startRow := Nat.div_add_mod _ _
  have hso : startRow % B < B := Nat.mod_lt _ (by omega)
  generalize startRow % B = so at *
  generalize startRow / B = sb at *
  have hbytes : e * ((sb + 1 + n) * B) ≤ e * (startRow + length) :=
    Nat.mul_le_mul_left e hn
  have hexp : e * ((sb + 1 + n) * B) = e * (B * sb) + e * B + n * (e * B) := by ring
  have hexp2 : e * (startRow + length) = e * (B * sb) + e * so + length * e := by
    rw [← hdm]
    ring
  have hsplit : e * so + e * (B - so) = e * B := by
    rw [← Nat.mul_add]
    congr 1
    omega
  have hB1 : B ≤ e * B := Nat.le_mul_of_pos_left B he
  have htotal : e * (B - so) + n * (e * B) < 2 ^ 31 := by omega
  have hsubB : B - so ≤ e * (B - so) := Nat.le_mul_of_pos_left _ he
  have h31 : B - so < 2 ^ 31 := by omega
  have hsub31 : e * (B - so) < 2 ^ 31 := by omega
  have x2 : i32 ((B : Int) - i32 (so : Int)) = ((B - so : Nat) : Int) :=
    i32_sub_wrapped (Nat.le_of_lt hso) h31
  have x4 : i32 (((B - so : Nat) : Int) * (e : Int)) = ((e * (B - so) : Nat) : Int) :=
    i32_mul_cast_comm hsub31
  have hval : outOffsetAfter e (i32 ((e : Int) * (B : Int))) (i32 ((B : Int) - i32 (so : Int))) n
      = ((e * (B - so) + n * (e * B) : Nat) : Int) := by
    unfold outOffsetAfter
    rw [x2, x4]
    rcases Nat.eq_zero_or_pos n with h0 | h0
    · subst h0
      rw [Nat.zero_mul, Nat.add_zero]
      rfl
    · have h1 : e * B ≤ n * (e * B) := Nat.le_mul_of_pos_left _ h0
      have hblk : e * B < 2 ^ 31 := by
        clear x2 x4
        omega
      rw [i32_mul_cast hblk]
      exact iterate_outOffset (e * B) n (e * (B - so)) htotal
  refine ⟨hval, htotal, ?_⟩
  rw [middleBlocks_outOffset, outOffsetAfter]

/-- C19 on the demo column (`B = 4`, `elementSize = 4`), read `(1, 9)`: after one
middle block 28 bytes are emitted. -/
theorem outOffset_exact_witness :
    outOffsetAfter 4 (i32 ((4 : Nat) * (4 : Nat))) (i32 ((4 : Nat) - i32 ((1 % 4 : Nat) : Int))) 1
      = ((4 * (4 - 1 % 4) + 1 * (4 * 4) : Nat) : Int) ∧
    4 * (4 - 1 % 4) + 1 * (4 * 4) < 2 ^ 31 ∧
    (middleBlocks xorCodec demoColumn [] (i32 ((4 : Nat) * (4 : Nat))) 1 1
        { blockPEnd := 64,
          outOffset := i32 (i32 ((4 : Nat) - i32 ((1 % 4 : Nat) : Int)) * (4 : Nat)),
          rd := reader0 }).outOffset
      = outOffsetAfter 4 (i32 ((4 : Nat) * (4 : Nat)))
        (i32 ((4 : Nat) - i32 ((1 % 4 : Nat) : Int))) 1 :=
  outOffset_exact xorCodec demoColumn [] reader0 64 1 9 10 4 4 1 (by decide) (by decide)
    (by decide) (by decide) (by decide) (by decide)

/-- C19 as stated fails: with `elementSize = 4`, `B = 2^28` and the window
`(0, 3 * 2^28)` (`size = 3 * 2^28 < 2^32`), `2^31` bytes are emitted when the
second middle block is written, but `outOffset` is `-2^31`. -/
theorem outOffset_exact_counterexample :
    0 + 3 * 2 ^ 28 ≤ 3 * 2 ^ 28 ∧ 3 * 2 ^ 28 < 2 ^ 32 ∧ (4 = 4 ∨ 4 = 8) ∧
    (0 / 2 ^ 28 + 1 + 1) * 2 ^ 28 ≤ 0 + 3 * 2 ^ 28 ∧
    4 * (2 ^ 28 - 0 % 2 ^ 28) + 1 * (4 * 2 ^ 28) = 2 ^ 31 ∧
    outOffsetAfter 4 (i32 ((4 : Nat) * (2 ^ 28 : Nat)))
      (i32 ((2 ^ 28 : Nat) - i32 ((0 % 2 ^ 28 : Nat) : Int))) 1 = -2 ^ 31 := by
  decide!

/-! ## C17: accesses to the block index -/

theorem i32_eq_iff {a b : Nat} (ha : a < 2 ^ 32) (hb : b < 2 ^ 32) :
    i32 (a : Int) = i32 (b : Int) ↔ a = b := by
  unfold i32; omega

theorem i32_zero_iff {a : Nat} (ha : a < 2 ^ 32) : i32 (a : Int) = 0 ↔ a = 0 := by
  unfold i32; omega

theorem indexSize_wrapped {sb w : Nat} (hw : 10 * (w + 2) < 2 ^ 31) :
    indexSize (i32 (sb : Int)) (i32 ((sb + w : Nat) : Int)) = ((10 * (w + 2) : Nat) : Int) := by
  unfold indexSize i32; omega

theorem maxBlock_wrapped {sb w : Nat} (hw : w < 2 ^ 31) :
    i32 (i32 ((sb + w : Nat) : Int) - i32 (sb : Int)) = (w : Int) := by
  unfold i32; omega

theorem maxBlock_succ_wrapped {sb w : Nat} (hw : w + 1 < 2 ^ 31) :
    i32 (i32 (i32 ((sb + w : Nat) : Int) + 1) - i32 (sb : Int)) = ((w + 1 : Nat) : Int) := by
  unfold i32; omega

theorem i32_index_succ {k i : Nat} (h : k + 10 * (1 + i) < 2 ^ 31) :
    i32 ((k : Int) + 10 * (1 + (i : Int))) = ((k + 10 * (1 + i) : Nat) : Int) := by
  unfold i32; omega

theorem head_in_bounds {w : Nat} (a : Int × Nat)
    (ha : a ∈ ([(0, 8), (10, 8), (8, 2)] : List (Int × Nat))) :
    0 ≤ a.1 ∧ a.1 + (a.2 : Int) ≤ ((10 * (w + 2) : Nat) : Int) := by
  simp only [List.mem_cons, List.mem_singleton, List.not_mem_nil, or_false] at ha
  rcases ha with rfl | rfl | rfl
  · constructor
    · decide
    · show (0 : Int) + ((8 : Nat) : Int) ≤ _
      omega
  · constructor
    · decide
    · show (10 : Int) + ((8 : Nat) : Int) ≤ _
      omega
  · constructor
    · decide
    · show (8 : Int) + ((2 : Nat) : Int) ≤ _
      omega

theorem middle_in_bounds {w n : Nat} (hn : n ≤ w) (hw : 10 * (w + 2) < 2 ^ 31) (a : Int × Nat)
    (ha : a ∈ ((List.range n).map fun (i : Nat) =>
      [(i32 (10 + 10 * (1 + (i : Int))), 8), (i32 (8 + 10 * (1 + (i : Int))), 2)]).flatten) :
    0 ≤ a.1 ∧ a.1 + (a.2 : Int) ≤ ((10 * (w + 2) : Nat) : Int) := by
  rw [List.mem_flatten] at ha
  obtain ⟨l, hl, hal⟩ := ha
  rw [List.mem_map] at hl
  obtain ⟨i, hi, rfl⟩ := hl
  rw [List.mem_range] at hi
  have e1 : i32 (10 + 10 * (1 + (i : Int))) = ((10 + 10 * (1 + i) : Nat) : Int) := by
    have := @i32_index_succ 10 i (by omega)
    exact this
  have e2 : i32 (8 + 10 * (1 + (i : Int))) = ((8 + 10 * (1 + i) : Nat) : Int) := by
    have := @i32_index_succ 8 i (by omega)
    exact this
  rw [e1, e2] at hal
  clear e1 e2
  simp only [List.mem_cons, List.mem_singleton, List.not_mem_nil, or_false] at hal
  rcases hal with rfl | rfl
  · constructor
    · show (0 : Int) ≤ ((10 + 10 * (1 + i) : Nat) : Int)
      omega
    · show ((10 + 10 * (1 + i) : Nat) : Int) + ((8 : Nat) : Int) ≤ _
      omega
  · constructor
    · show (0 : Int) ≤ ((8 + 10 * (1 + i) : Nat) : Int)
      omega
    · show ((8 + 10 * (1 + i) : Nat) : Int) + ((2 : Nat) : Int) ≤ _
      omega

/-- C17 (amended): in a variable-ratio read with `B ≥ 1`, `length ≥ 1`,
`startRow + length ≤ size < 2^32` whose index byte count fits an `int`,
`10 * (endBlock - startBlock + 2) < 2^31`, every 8-byte offset and 2-byte
algorithm id dereferenced in the single-block, first-block, middle-block and
last-block phases lies inside the `blockIndex` buffer of
`(2 + endBlock - startBlock) * 10` bytes, also after `endBlock` was incremented
for a window that ends on a block boundary. -/
theorem index_accesses_in_bounds (startRow length size B : Nat) (hB : 1 ≤ B) (hlen : 1 ≤ length)
    (hN : startRow + length ≤ size) (hsz : size < 2 ^ 32)
    (hfit : 10 * ((startRow + length - 1) / B - startRow / B + 2) < 2 ^ 31) :
    ∀ a ∈ indexAccesses startRow length B (i32 ((startRow / B : Nat) : Int))
        (i32 ((u32OfInt ((startRow : Int) + length - 1) / B : Nat) : Int)),
      0 ≤ a.1 ∧
      a.1 + (a.2 : Int) ≤ indexSize (i32 ((startRow / B : Nat) : Int))
        (i32 ((u32OfInt ((startRow : Int) + length - 1) / B : Nat) : Int)) := by
  obtain ⟨g1, -, -, -, -, -, -⟩ := window_geom startRow length B hB hlen
  have hup : u32OfInt ((startRow : Int) + (length : Int) - 1) = startRow + length - 1 :=
    u32OfInt_add_pred hlen (by omega)
  have heb : (startRow + length - 1) / B ≤ startRow + length - 1 := Nat.div_le_self _ _
  rw [hup]
  clear hup
  generalize startRow / B = sb at *
  generalize (startRow + length - 1) / B = eb at *
  obtain ⟨w, rfl⟩ := Nat.exists_eq_add_of_le g1
  have hcancel : sb + w - sb = w := by omega
  rw [hcancel] at hfit
  rw [indexSize_wrapped hfit]
  intro a ha
  by_cases hw0 : w = 0
  · subst hw0
    simp only [indexAccesses, Nat.add_zero, if_true] at ha
    exact head_in_bounds a ha
  · have hne : ¬ (i32 (sb : Int) = i32 ((sb + w : Nat) : Int)) := by
      rw [i32_eq_iff (by omega) (by omega)]
      omega
    have hm1 : i32 (i32 ((sb + w : Nat) : Int) - i32 (sb : Int)) = (w : Int) :=
      maxBlock_wrapped (by omega)
    have hm2 : i32 (i32 (i32 ((sb + w : Nat) : Int) + 1) - i32 (sb : Int))
        = ((w + 1 : Nat) : Int) := maxBlock_succ_wrapped (by omega)
    by_cases hrem : i32 ((u32 (startRow + length) % B : Nat) : Int) = 0
    · simp only [indexAccesses, if_neg hne, hrem, if_true, hm2, List.append_nil,
        List.mem_append] at ha
      rcases ha with ha | ha
      · exact head_in_bounds a ha
      · have hn : (((w + 1 : Nat) : Int) - 1).toNat ≤ w := by omega
        exact middle_in_bounds hn hfit a ha
    · simp only [indexAccesses, if_neg hne, if_neg hrem, hm1, List.mem_append] at ha
      rcases ha with (ha | ha) | ha
      · exact head_in_bounds a ha
      · have hn : ((w : Int) - 1).toNat ≤ w := by omega
        exact middle_in_bounds hn hfit a ha
      · have e1 : i32 (10 + 10 * (w : Int)) = ((10 + 10 * w : Nat) : Int) := by
          have := @i32_index 10 w (by omega)
          exact this
        have e2 : i32 (8 + 10 * (w : Int)) = ((8 + 10 * w : Nat) : Int) := by
          have := @i32_index 8 w (by omega)
          exact this
        rw [e1, e2] at ha
        clear e1 e2 hm1 hm2 hne hrem
        simp only [List.mem_cons, List.mem_singleton, List.not_mem_nil, or_false] at ha
        rcases ha with rfl | rfl
        · constructor
          · show (0 : Int) ≤ ((10 + 10 * w : Nat) : Int)
            omega
          · show ((10 + 10 * w : Nat) : Int) + ((8 : Nat) : Int) ≤ _
            omega
        · constructor
          · show (0 : Int) ≤ ((8 + 10 * w : Nat) : Int)
            omega
          · show ((8 + 10 * w : Nat) : Int) + ((2 : Nat) : Int) ≤ _
            omega

/-- C17 on the demo geometry (`B = 4`, read `(1, 9)` of 10 rows, blocks 0 to 2):
all dereferences lie inside the 40 index bytes. -/
theorem index_accesses_in_bounds_witness :
    (1 : Nat) ≤ 4 ∧ (1 : Nat) ≤ 9 ∧ 1 + 9 ≤ 10 ∧
    (indexAccesses 1 9 4 (i32 ((1 / 4 : Nat) : Int))
        (i32 ((u32OfInt (((1 : Nat) : Int) + (9 : Nat) - 1) / 4 : Nat) : Int))).all
      (fun a => decide (0 ≤ a.1 ∧
        a.1 + (a.2 : Int) ≤ indexSize (i32 ((1 / 4 : Nat) : Int))
          (i32 ((u32OfInt (((1 : Nat) : Int) + (9 : Nat) - 1) / 4 : Nat) : Int)))) = true :=
  ⟨by decide, by decide, by decide,
    List.all_eq_true.mpr (fun a ha => decide_eq_true
      (index_accesses_in_bounds 1 9 10 4 (by decide) (by decide) (by decide) (by decide)
        (by decide) a ha))⟩

/-- C17 as stated fails: with `B = 1` the window `(0, 429496729)` spans the
blocks `0 .. 429496728`; `(2 + endBlock - startBlock) * 10 = 4294967300` is 4 as
an `int`, so 4 index bytes are allocated and read, and the first dereference,
the 8-byte offset at `&blockIndex[0]`, already leaves the buffer. -/
theorem index_accesses_in_bounds_counterexample :
    1 ≤ 429496729 ∧ 0 + 429496729 ≤ 429496729 ∧ 429496729 < 2 ^ 32 ∧
    indexSize (i32 ((0 / 1 : Nat) : Int))
      (i32 ((u32OfInt (((0 : Nat) : Int) + (429496729 : Nat) - 1) / 1 : Nat) : Int)) = 4 ∧
    (indexAccesses 0 429496729 1 (i32 ((0 / 1 : Nat) : Int))
      (i32 ((u32OfInt (((0 : Nat) : Int) + (429496729 : Nat) - 1) / 1 : Nat) : Int))).head?
      = some (0, 8) ∧
    ¬ ((0 : Int) + ((8 : Nat) : Int) ≤ 4) := by
  decide!

/-! ## C18: sequential payload reads -/

theorem SameBytes.refl (f : File) (p n : Nat) : SameBytes f f p n := fun _ _ => rfl

theorem blockReads_succ (file : File) (bp : Nat) (count : Nat → Nat) (first n : Nat) :
    blockReads file bp count first (n + 1) =
      IOEvent.read (bp + entryOffset file bp first) (count first)
        :: blockReads file bp count (first + 1) n := by
  unfold blockReads
  rw [List.range_succ_eq_map, List.map_cons, List.map_map]
  refine congrArg₂ List.cons rfl (List.map_congr_left ?_)
  intro i _
  show IOEvent.read (bp + entryOffset file bp (first + (i + 1))) (count (first + (i + 1)))
    = IOEvent.read (bp + entryOffset file bp (first + 1 + i)) (count (first + 1 + i))
  rw [Nat.add_assoc, Nat.add_comm 1 i]

theorem blockReads_snoc (file : File) (bp : Nat) (count : Nat → Nat) (first n : Nat) :
    blockReads file bp count first (n + 1) =
      blockReads file bp count first n
        ++ [IOEvent.read (bp + entryOffset file bp (first + n)) (count (first + n))] := by
  unfold blockReads
  rw [List.range_succ, List.map_append]
  rfl

theorem blockReads_congr (file : File) (bp : Nat) (c1 c2 : Nat → Nat) (first n : Nat)
    (h : ∀ k, first ≤ k → k < first + n → c1 k = c2 k) :
    blockReads file bp c1 first n = blockReads file bp c2 first n := by
  unfold blockReads
  apply List.map_congr_left
  intro i hi
  rw [List.mem_range] at hi
  rw [h (first + i) (by omega) (by omega)]

/-- Stream call of one middle-block iteration on a laid-out block. -/
theorem middleBlock_log_exact (codec : Codec) (f : File) (idx : List UInt8) (m : MidState)
    (bp e B j pStart pEnd algo : Nat)
    (hblk : e * B < 2 ^ 31) (hj : 10 + 10 * j < 2 ^ 31)
    (hidx1 : le64 idx ((10 + 10 * j : Nat) : Int) = pEnd)
    (hidx2 : le16 idx ((8 + 10 * j : Nat) : Int) = algo)
    (hmp : m.blockPEnd = pStart) (hmpos : m.rd.pos = bp + pStart)
    (hend : bp + pEnd < 2 ^ 64)
    (hraw : algo = 0 → pEnd = pStart + e * B) (hcmp : algo ≠ 0 → pStart ≤ pEnd) :
    (middleBlock codec f idx ((e * B : Nat) : Int) (j : Int) m).rd.log
      = m.rd.log ++ [IOEvent.read (bp + pStart) (pEnd - pStart)] := by
  have hj8 : 8 + 10 * j < 2 ^ 31 := by omega
  have hC : algo ≠ 0 → u64OfInt ((pEnd : Int) - (pStart : Int)) = pEnd - pStart :=
    fun ha => u64OfInt_sub_of_le (by omega) (hcmp ha)
  have i1 : i32 (10 + 10 * (j : Int)) = ((10 + 10 * j : Nat) : Int) := by
    have := @i32_index 10 j hj
    exact this
  have i2 : i32 (8 + 10 * (j : Int)) = ((8 + 10 * j : Nat) : Int) := by
    have := @i32_index 8 j hj8
    exact this
  by_cases ha : algo = 0
  · have h1 := hraw ha
    have hc : pEnd - pStart = e * B := by omega
    simp only [middleBlock, i2, hidx2, if_pos ha, Int.toNat_ofNat, readOut_log, hmpos, hc]
  · have h2 := hC ha
    simp only [middleBlock, i1, i2, hidx1, hidx2, if_neg ha, hmp, h2, readBuf_log, hmpos]

/-- Stream calls of the middle-block loop over `n` full, laid-out blocks: one
read per block, each at the start of the payload and of its length. -/
theorem middleBlocks_log_exact (codec : Codec) (f : File) (bp size e B sb w : Nat)
    (hw : 10 * (w + 2) < 2 ^ 31) (hblk : e * B < 2 ^ 31) :
    ∀ (n j : Nat) (m : MidState),
      1 ≤ j → j + n ≤ w + 1 →
      (∀ k, sb + j ≤ k → k < sb + j + n → (k + 1) * B ≤ size ∧ BlockLaid f bp size e B k) →
      m.blockPEnd = entryOffset f bp (sb + j) →
      m.rd.pos = bp + entryOffset f bp (sb + j) →
      (middleBlocks codec f (readBytes f (bp + 8 + 10 * sb) (10 * (w + 2)))
          ((e * B : Nat) : Int) n (j : Int) m).rd.log
        = m.rd.log ++ blockReads f bp (payloadLen f bp) (sb + j) n := by
  intro n
  induction n with
  | zero =>
    intro j m _ _ _ _ _
    simp only [middleBlocks, blockReads, List.range_zero, List.map_nil, List.append_nil]
  | succ n ih =>
    intro j m hj hjn hblocks h1 h2
    obtain ⟨hfull, hend, hraw, hcmp⟩ := hblocks (sb + j) (Nat.le_refl _) (by omega)
    rw [blockElems_full hfull] at hraw
    have hi := blockIndex_entry f bp sb (w + 2) j (by omega)
    have hi' := blockIndex_entry f bp sb (w + 2) (j + 1) (by omega)
    have hc1 : ((10 + 10 * j : Nat) : Int) = ((10 * (j + 1) : Nat) : Int) := by
      congr 1
      omega
    have hc2 : ((8 + 10 * j : Nat) : Int) = ((10 * j + 8 : Nat) : Int) := by
      congr 1
      omega
    obtain ⟨-, s1, s2⟩ := middleBlock_same codec f f
      (readBytes f (bp + 8 + 10 * sb) (10 * (w + 2))) m bp e B j
      (entryOffset f bp (sb + j)) (entryOffset f bp (sb + j + 1))
      (entryAlgo f bp (sb + j)) hblk (by omega)
      (by rw [hc1]; exact hi'.1) (by rw [hc2]; exact hi.2) h1 h2 hend hraw hcmp
      (SameBytes.refl f _ _)
    have hlog := middleBlock_log_exact codec f
      (readBytes f (bp + 8 + 10 * sb) (10 * (w + 2))) m bp e B j
      (entryOffset f bp (sb + j)) (entryOffset f bp (sb + j + 1))
      (entryAlgo f bp (sb + j)) hblk (by omega)
      (by rw [hc1]; exact hi'.1) (by rw [hc2]; exact hi.2) h1 h2 hend hraw hcmp
    have hcast : ((j : Int) + 1) = ((j + 1 : Nat) : Int) := by push_cast; rfl
    have hnext := ih (j + 1)
      (middleBlock codec f (readBytes f (bp + 8 + 10 * sb) (10 * (w + 2)))
        ((e * B : Nat) : Int) (j : Int) m)
      (by omega) (by omega)
      (by
        intro k hk1 hk2
        exact hblocks k (by omega) (by omega))
      s1 s2
    rw [middleBlocks, hcast, hnext, hlog, blockReads_succ, List.append_assoc]
    rfl

/-- Stream call of the last block of a multi-block read. -/
theorem readLastBlock_log_exact (codec : Codec) (f : File) (idx : List UInt8) (m : MidState)
    (bp size e B w rem pStart pEnd algo : Nat) (nb eb : Int)
    (hrem : e * rem < 2 ^ 31) (hw : 10 + 10 * w < 2 ^ 31)
    (hidx1 : le64 idx ((10 + 10 * w : Nat) : Int) = pEnd)
    (hidx2 : le16 idx ((8 + 10 * w : Nat) : Int) = algo)
    (hmp : m.blockPEnd = pStart) (hmpos : m.rd.pos = bp + pStart)
    (hend : bp + pEnd < 2 ^ 64) (hcmp : algo ≠ 0 → pStart ≤ pEnd) :
    (readLastBlock codec f idx size e B nb eb (w : Int) (rem : Int) m).log
      = m.rd.log ++ [IOEvent.read (bp + pStart) (if algo = 0 then e * rem else pEnd - pStart)] := by
  have hw8 : 8 + 10 * w < 2 ^ 31 := by omega
  have hC : algo ≠ 0 → u64OfInt ((pEnd : Int) - (pStart : Int)) = pEnd - pStart :=
    fun ha => u64OfInt_sub_of_le (by omega) (hcmp ha)
  have i1 : i32 (10 + 10 * (w : Int)) = ((10 + 10 * w : Nat) : Int) := by
    have := @i32_index 10 w hw
    exact this
  have i2 : i32 (8 + 10 * (w : Int)) = ((8 + 10 * w : Nat) : Int) := by
    have := @i32_index 8 w hw8
    exact this
  have x1 : i32 ((e : Int) * (rem : Int)) = ((e * rem : Nat) : Int) := i32_mul_cast hrem
  by_cases ha : algo = 0
  · simp only [readLastBlock, i2, hidx2, if_pos ha, x1, Int.toNat_ofNat, readOut_log, hmpos]
  · have h2 := hC ha
    simp only [readLastBlock, i1, i2, hidx1, hidx2, if_neg ha, hmp, h2]
    split_ifs <;> simp only [readBuf_log, hmpos]

/-- Stream calls of the blocks after the first one, in a window over the
laid-out blocks `sb .. sb + w`: one read per block `sb + 1 .. sb + w`, each at
the start of the payload of its block, and no seek. -/
theorem readRest_log_exact (codec : Codec) (f : File) (r1 : Reader)
    (bp sr len size e B sb w so : Nat) (nb : Int)
    (he : 1 ≤ e) (hsz : size < 2 ^ 32) (hB : 1 ≤ B)
    (hblk : e * B < 2 ^ 31) (hN : sr + len ≤ size)
    (hidx : 10 * (sb + w + 2) < 2 ^ 31)
    (hw : 1 ≤ w) (hsr : sr = sb * B + so)
    (hr0 : (sr + len) % B ≠ 0 → sr + len = (sb + w) * B + (sr + len) % B)
    (hr1 : (sr + len) % B = 0 → sr + len = (sb + w + 1) * B)
    (hblocks : ∀ k, sb ≤ k → k ≤ sb + w → BlockLaid f bp size e B k)
    (hpos : r1.pos = bp + entryOffset f bp (sb + 1)) :
    (readRest codec f r1 (readBytes f (bp + 8 + 10 * sb) (10 * (w + 2)))
        sr len size e B nb (sb : Int) ((sb + w : Nat) : Int) ((e * B : Nat) : Int)
        ((B - so : Nat) : Int) (entryOffset f bp (sb + 1))).log
      = r1.log ++ blockReads f bp (tailCount f bp e (sb + w) ((sr + len) % B)) (sb + 1) w ∧
    ((sr + len) % B = 0 →
      (readRest codec f r1 (readBytes f (bp + 8 + 10 * sb) (10 * (w + 2)))
        sr len size e B nb (sb : Int) ((sb + w : Nat) : Int) ((e * B : Nat) : Int)
        ((B - so : Nat) : Int) (entryOffset f bp (sb + 1))).pos
        = bp + entryOffset f bp (sb + w + 1)) := by
  have hremlt : (sr + len) % B < B := Nat.mod_lt _ (by omega)
  have hB31 : B ≤ e * B := Nat.le_mul_of_pos_left B he
  have hsl32 : sr + len < 2 ^ 32 := by omega
  have hsw31 : sb + w + 1 < 2 ^ 31 := by omega
  have hsw31' : sb + w < 2 ^ 31 := by omega
  have hsw31'' : sb + (w + 1) < 2 ^ 31 := by omega
  have hw10 : 10 + 10 * w < 2 ^ 31 := by omega
  have hw2 : 10 * (w + 2) < 2 ^ 31 := by omega
  have hfull : ∀ k t, k + 1 ≤ t → t * B ≤ size → (k + 1) * B ≤ size := by
    intro k t hk ht
    have hmul : (k + 1) * B ≤ t * B := Nat.mul_le_mul_right B hk
    omega
  generalize hrem : (sr + len) % B = rem at *
  have hrem31 : rem < 2 ^ 31 := by omega
  have hremB : e * rem ≤ e * B := Nat.mul_le_mul_left e (Nat.le_of_lt hremlt)
  by_cases hz : rem = 0
  · have hsl := hr1 hz
    have hloopS := middleBlocks_same codec f f bp size e B sb w hw2 hblk w 1
      { blockPEnd := entryOffset f bp (sb + 1),
        outOffset := i32 (((B - so : Nat) : Int) * (e : Int)), rd := r1 }
      (Nat.le_refl 1) (by omega)
      (by
        intro k hk1 hk2
        exact ⟨hfull k (sb + w + 1) (by omega) (by omega), hblocks k (by omega) (by omega),
          SameBytes.refl f _ _⟩)
      rfl hpos
    have hloopL := middleBlocks_log_exact codec f bp size e B sb w hw2 hblk w 1
      { blockPEnd := entryOffset f bp (sb + 1),
        outOffset := i32 (((B - so : Nat) : Int) * (e : Int)), rd := r1 }
      (Nat.le_refl 1) (by omega)
      (by
        intro k hk1 hk2
        exact ⟨hfull k (sb + w + 1) (by omega) (by omega), hblocks k (by omega) (by omega)⟩)
      rfl hpos
    have hp := hloopS.2.2
    rw [Nat.cast_one] at hp hloopL
    clear hloopS
    have hcnt : blockReads f bp (payloadLen f bp) (sb + 1) w
        = blockReads f bp (tailCount f bp e (sb + w) rem) (sb + 1) w := by
      apply blockReads_congr
      intro k _ _
      unfold tailCount
      rw [if_neg (fun h => h.2.1 hz)]
    have hu : u32 (sr + len) = sr + len := u32_of_lt hsl32
    have x2 : i32 (rem : Int) = (rem : Int) := i32_natCast hrem31
    have hz' : (rem : Int) = 0 := by rw [hz]; rfl
    have x3 : i32 (((sb + w : Nat) : Int) + 1) = ((sb + (w + 1) : Nat) : Int) := by
      have := @i32_succ_cast (sb + w) hsw31
      rw [this, Nat.add_assoc]
    have x4 : i32 (((sb + (w + 1) : Nat) : Int) - (sb : Int)) = ((w + 1 : Nat) : Int) :=
      i32_span hsw31''
    have x5 : ((((w + 1 : Nat) : Int)) - 1).toNat = w := by
      rw [toNat_pred_cast, Nat.add_sub_cancel]
    simp only [readRest, hu, hrem, x2, if_pos hz', x3, x4, x5]
    rw [← hcnt]
    refine ⟨hloopL, fun _ => ?_⟩
    rw [hp]
    congr 2
    omega
  · have hsl := hr0 hz
    have hkB : (sb + w) * B < size := by omega
    have hloopS := middleBlocks_same codec f f bp size e B sb w hw2 hblk (w - 1) 1
      { blockPEnd := entryOffset f bp (sb + 1),
        outOffset := i32 (((B - so : Nat) : Int) * (e : Int)), rd := r1 }
      (Nat.le_refl 1) (by omega)
      (by
        intro k hk1 hk2
        exact ⟨hfull k (sb + w) (by omega) (by omega), hblocks k (by omega) (by omega),
          SameBytes.refl f _ _⟩)
      rfl hpos
    have hloopL := middleBlocks_log_exact codec f bp size e B sb w hw2 hblk (w - 1) 1
      { blockPEnd := entryOffset f bp (sb + 1),
        outOffset := i32 (((B - so : Nat) : Int) * (e : Int)), rd := r1 }
      (Nat.le_refl 1) (by omega)
      (by
        intro k hk1 hk2
        exact ⟨hfull k (sb + w) (by omega) (by omega), hblocks k (by omega) (by omega)⟩)
      rfl hpos
    obtain ⟨-, l1, l2⟩ := hloopS
    have hk1 : sb + 1 + (w - 1) = sb + w := by omega
    rw [hk1] at l1 l2
    rw [Nat.cast_one] at l1 l2 hloopL
    have hi := blockIndex_entry f bp sb (w + 2) w (by omega)
    have hi' := blockIndex_entry f bp sb (w + 2) (w + 1) (by omega)
    have hc1 : ((10 + 10 * w : Nat) : Int) = ((10 * (w + 1) : Nat) : Int) := by
      congr 1
      omega
    have hc2 : ((8 + 10 * w : Nat) : Int) = ((10 * w + 8 : Nat) : Int) := by
      congr 1
      omega
    obtain ⟨hend, -, hcmp⟩ := hblocks (sb + w) (by omega) (Nat.le_refl _)
    have hlast := readLastBlock_log_exact codec f
      (readBytes f (bp + 8 + 10 * sb) (10 * (w + 2)))
      (middleBlocks codec f (readBytes f (bp + 8 + 10 * sb) (10 * (w + 2)))
        ((e * B : Nat) : Int) (w - 1) 1
        { blockPEnd := entryOffset f bp (sb + 1),
          outOffset := i32 (((B - so : Nat) : Int) * (e : Int)), rd := r1 })
      bp size e B w rem (entryOffset f bp (sb + w)) (entryOffset f bp (sb + w + 1))
      (entryAlgo f bp (sb + w)) nb ((sb + w : Nat) : Int) (by omega) hw10
      (by rw [hc1]; exact hi'.1) (by rw [hc2]; exact hi.2) l1 l2 hend hcmp
    have hcnt : blockReads f bp (payloadLen f bp) (sb + 1) (w - 1)
        = blockReads f bp (tailCount f bp e (sb + w) rem) (sb + 1) (w - 1) := by
      apply blockReads_congr
      intro k _ hk
      unfold tailCount
      rw [if_neg (fun h => by omega)]
    have hlastc : (if entryAlgo f bp (sb + w) = 0 then e * rem
        else entryOffset f bp (sb + w + 1) - entryOffset f bp (sb + w))
        = tailCount f bp e (sb + w) rem (sb + w) := by
      unfold tailCount payloadLen
      by_cases ha : entryAlgo f bp (sb + w) = 0
      · rw [if_pos ha, if_pos ⟨rfl, hz, ha⟩]
      · rw [if_neg ha, if_neg (fun h => ha h.2.2)]
    have hsplit : blockReads f bp (tailCount f bp e (sb + w) rem) (sb + 1) w
        = blockReads f bp (tailCount f bp e (sb + w) rem) (sb + 1) (w - 1)
          ++ [IOEvent.read (bp + entryOffset f bp (sb + w))
              (tailCount f bp e (sb + w) rem (sb + w))] := by
      have h := blockReads_snoc f bp (tailCount f bp e (sb + w) rem) (sb + 1) (w - 1)
      have hw1 : w - 1 + 1 = w := by omega
      rw [hw1, hk1] at h
      exact h
    have hz' : ¬ ((rem : Int) = 0) := by omega
    have hu : u32 (sr + len) = sr + len := u32_of_lt hsl32
    have x2 : i32 (rem : Int) = (rem : Int) := i32_natCast hrem31
    have x4 : i32 (((sb + w : Nat) : Int) - (sb : Int)) = (w : Int) := i32_span hsw31'
    have x5 : ((w : Int) - 1).toNat = w - 1 := toNat_pred_cast w
    simp only [readRest, hu, hrem, x2, if_neg hz', x4, x5]
    refine ⟨?_, fun h => absurd h hz⟩
    rw [hlast, hloopL, hcnt, hlastc, hsplit, List.append_assoc]

/-- Stream calls of the payload phase of a window over the laid-out blocks
`sb .. sb + w`, `w ≥ 1`: the seek and read of the first block, then one read
per later block at the start of its payload. -/
theorem readBlocks_log_exact (codec : Codec) (f : File) (s : Reader)
    (bp sr len size e B sb w so : Nat) (nb : Int)
    (he : 1 ≤ e) (hsz : size < 2 ^ 32) (hB : 1 ≤ B)
    (hblk : e * B < 2 ^ 31) (hN : sr + len ≤ size)
    (hidx : 10 * (sb + w + 2) < 2 ^ 31)
    (hw : 1 ≤ w) (hso : so < B) (hsr : sr = sb * B + so)
    (hfullw : (sb + 1) * B ≤ sr + len - 1)
    (hr0 : (sr + len) % B ≠ 0 → sr + len = (sb + w) * B + (sr + len) % B)
    (hr1 : (sr + len) % B = 0 → sr + len = (sb + w + 1) * B)
    (hblocks : ∀ k, sb ≤ k → k ≤ sb + w → BlockLaid f bp size e B k) :
    ∃ n0,
      (readBlocks codec f s (readBytes f (bp + 8 + 10 * sb) (10 * (w + 2)))
        bp sr len size e B nb (sb : Int) ((sb + w : Nat) : Int) (i32 (so : Int))).log
        = s.log ++ [IOEvent.seekg (firstSeek bp e (so : Int) (entryOffset f bp sb)
              (entryAlgo f bp sb)),
            IOEvent.read (firstSeek bp e (so : Int) (entryOffset f bp sb)
              (entryAlgo f bp sb)) n0]
          ++ blockReads f bp (tailCount f bp e (sb + w) ((sr + len) % B)) (sb + 1) w ∧
      ((sr + len) % B = 0 →
        (readBlocks codec f s (readBytes f (bp + 8 + 10 * sb) (10 * (w + 2)))
          bp sr len size e B nb (sb : Int) ((sb + w : Nat) : Int) (i32 (so : Int))).pos
          = bp + entryOffset f bp (sb + w + 1)) := by
  have hm : (sb + 1) * B = sb * B + B := Nat.succ_mul sb B
  have hfull1 : (sb + 1) * B ≤ size := by omega
  obtain ⟨b1, b2, b3⟩ := hblocks sb (Nat.le_refl _) (by omega)
  rw [blockElems_full hfull1] at b2
  obtain ⟨e0, e8, e10⟩ := blockIndex_head f bp sb w
  have hf := readFirstBlock_same codec f f s bp e B so (entryOffset f bp sb)
    (entryOffset f bp (sb + 1)) (entryAlgo f bp sb) he hso hblk b1 b2 b3 (SameBytes.refl f _ _)
  have hB31 : B < 2 ^ 31 := by
    have := Nat.le_mul_of_pos_left B he
    omega
  have hso31 : so < 2 ^ 31 := by omega
  have hne : ¬ ((sb : Int) = ((sb + w : Nat) : Int)) := by omega
  have x1 : i32 (so : Int) = (so : Int) := i32_natCast hso31
  have x2 : i32 ((B : Int) - (so : Int)) = ((B - so : Nat) : Int) :=
    i32_sub_cast (Nat.le_of_lt hso) hB31
  have x3 : i32 ((e : Int) * (B : Int)) = ((e * B : Nat) : Int) := i32_mul_cast hblk
  simp only [x1, x2, x3] at hf
  obtain ⟨hrl, hrp⟩ := readRest_log_exact codec f _ bp sr len size e B sb w so nb he hsz hB
    hblk hN hidx hw hsr hr0 hr1 hblocks hf.2
  rw [readFirstBlock_log] at hrl
  refine ⟨if entryAlgo f bp sb = 0 then (i32 ((e : Int) * ((B - so : Nat) : Int))).toNat
    else u64OfInt ((entryOffset f bp (sb + 1) : Int) - (entryOffset f bp sb : Int)), ?_, ?_⟩
  · simp only [readBlocks, if_neg hne, e0, e8, e10, x1, x2, x3]
    exact hrl
  · simp only [readBlocks, if_neg hne, e0, e8, e10, x1, x2, x3]
    exact hrp

/-- C18 (amended): in a variable-ratio read (`header[1] = B ≥ 1`,
`elementSize ≥ 1`, `length ≥ 1`, `startRow + length ≤ size < 2^32`) that spans
at least two blocks, whose blocks `startBlock .. endBlock` are laid out as the
index says (contiguous payloads below `2^64`, a block with algorithm id 0
occupying `blockElemCount * elementSize` bytes) and, when compressed, fit the
scratch arrays (payload of at most `MAX_COMPRESSBOUND` bytes,
`elementSize * B ≤ MAX_SIZE_COMPRESS_BLOCK`), with a decompressor that never
writes more than the capacity it is given, `elementSize * B < 2^31`,
`10 * (endBlock + 2) < 2^31` and the index position below `2^64`: the read
returns without an access outside a scratch array, after the seek and read of
the first block the reader issues no seek and exactly one read per block
`startBlock + 1 .. endBlock`, and the stream position of the read of block `k`
is `blockPos + index[k].offset`. -/
theorem sequential_reads (codec : Codec) (srcRep tgtRep : Nat → Nat) (f : File)
    (s : Reader) (blockPos startRow length size e B : Nat)
    (h0 : header0 f blockPos ≠ 0) (h1 : header1 f blockPos = B) (hB : 1 ≤ B) (he : 1 ≤ e)
    (hcap : RespectsCapacity codec)
    (hlen : 1 ≤ length) (hN : startRow + length ≤ size) (hsz : size < 2 ^ 32)
    (hmulti : startRow / B < (startRow + length - 1) / B)
    (hblocks : ∀ k, startRow / B ≤ k → k ≤ (startRow + length - 1) / B →
      BlockLaid f blockPos size e B k)
    (hfit : ∀ k, startRow / B ≤ k → k ≤ (startRow + length - 1) / B →
      ScratchFits codec f blockPos e B k)
    (hblk : e * B < 2 ^ 31)
    (hidx : 10 * ((startRow + length - 1) / B + 2) < 2 ^ 31)
    (hpos : blockPos + 8 + 10 * (startRow / B) < 2 ^ 64) :
    ∃ (r : Reader) (n0 : Nat),
      fdsReadColumn_v1 codec srcRep tgtRep f s blockPos startRow length size e = Except.ok r ∧
      r.ub = s.ub ∧
      r.log = (afterIndex (afterHeader f s blockPos) blockPos (startRow / B)
            ((startRow + length - 1) / B)).log
          ++ [IOEvent.seekg (firstSeek blockPos e ((startRow % B : Nat) : Int)
                (entryOffset f blockPos (startRow / B)) (entryAlgo f blockPos (startRow / B))),
              IOEvent.read (firstSeek blockPos e ((startRow % B : Nat) : Int)
                (entryOffset f blockPos (startRow / B)) (entryAlgo f blockPos (startRow / B)))
                n0]
          ++ blockReads f blockPos
              (tailCount f blockPos e ((startRow + length - 1) / B) ((startRow + length) % B))
              (startRow / B + 1) ((startRow + length - 1) / B - startRow / B) := by
  have hstart := variable_read_start codec srcRep tgtRep f s blockPos startRow length size e B
    h0 h1 hB hlen hN hsz hidx hpos
  have hub := readBlocks_fits codec f
    (afterIndex (afterHeader f s blockPos) blockPos (startRow / B)
      ((startRow + length - 1) / B))
    blockPos startRow length size e B (i32 ((1 + (size - 1) / B : Nat) : Int))
    hcap he hsz hB hblk hN hlen hidx hfit
  rw [afterIndex_ub, afterHeader_ub] at hub
  clear hfit
  obtain ⟨g1, g2, g3, g4, g5, g6, g7⟩ := window_geom startRow length B hB hlen
  have hfullw := g5 hmulti
  generalize startRow / B = sb at *
  generalize (startRow + length - 1) / B = eb at *
  generalize startRow % B = so at *
  obtain ⟨w, rfl⟩ := Nat.exists_eq_add_of_le (Nat.le_of_lt hmulti)
  have hw : 1 ≤ w := by omega
  have hcancel : sb + w - sb = w := by omega
  rw [hcancel] at hstart hub ⊢
  obtain ⟨n0, hlog, -⟩ := readBlocks_log_exact codec f
    (afterIndex (afterHeader f s blockPos) blockPos sb (sb + w)) blockPos startRow length size e
    B sb w so (i32 ((1 + (size - 1) / B : Nat) : Int)) he hsz hB hblk hN hidx hw g2 g3 hfullw
    (fun h => (g6 h).1) g7 hblocks
  exact ⟨_, n0, hstart, hub, hlog⟩

theorem demoColumn_laid : ∀ k, 1 / 4 ≤ k → k ≤ (1 + 9 - 1) / 4 →
    BlockLaid demoColumn 3 10 4 4 k := by
  intro k _ hk
  have h2 : (1 + 9 - 1) / 4 = 2 := by decide
  rw [h2] at hk
  have hcases : k = 0 ∨ k = 1 ∨ k = 2 := by omega
  unfold BlockLaid
  rcases hcases with rfl | rfl | rfl
  · decide
  · decide
  · decide

/-- C18 on the demo column, read `(1, 9)` over the blocks 0, 1, 2: after the
first block the blocks 1 and 2 are read at `3 + index[1].offset = 67` and
`3 + index[2].offset = 83`, and no scratch array is overrun. -/
theorem sequential_reads_witness :
    blockReads demoColumn 3 (tailCount demoColumn 3 4 ((1 + 9 - 1) / 4) ((1 + 9) % 4))
        (1 / 4 + 1) ((1 + 9 - 1) / 4 - 1 / 4) = [IOEvent.read 67 16, IOEvent.read 83 8] ∧
    ∃ (r : Reader) (n0 : Nat),
      fdsReadColumn_v1 xorCodec noTable noTable demoColumn reader0 3 1 9 10 4 = Except.ok r ∧
      r.ub = false ∧
      r.log = (afterIndex (afterHeader demoColumn reader0 3) 3 (1 / 4) ((1 + 9 - 1) / 4)).log
          ++ [IOEvent.seekg (firstSeek 3 4 ((1 % 4 : Nat) : Int)
                (entryOffset demoColumn 3 (1 / 4)) (entryAlgo demoColumn 3 (1 / 4))),
              IOEvent.read (firstSeek 3 4 ((1 % 4 : Nat) : Int)
                (entryOffset demoColumn 3 (1 / 4)) (entryAlgo demoColumn 3 (1 / 4))) n0]
          ++ blockReads demoColumn 3
              (tailCount demoColumn 3 4 ((1 + 9 - 1) / 4) ((1 + 9) % 4))
              (1 / 4 + 1) ((1 + 9 - 1) / 4 - 1 / 4) :=
  ⟨by decide,
    sequential_reads xorCodec noTable noTable demoColumn reader0 3 1 9 10 4 4 (by decide)
      (by decide) (by decide) (by decide) xorCodec_respects (by decide) (by decide) (by decide)
      (by decide) demoColumn_laid
      (fun k _ hk => demoColumn_fits k (Nat.lt_of_le_of_lt hk (by decide)))
      (by decide) (by decide) (by decide)⟩

/-- C18 as stated fails. (1) `longColumn`: `2^31 + 2` raw blocks of one
four-byte element, laid out contiguously; the read `(2^31, 2)` spans the blocks
`2^31` and `2^31 + 1`. `startBlock` is `-2^31` as the `int` it is stored in, the
seek to the index window is skipped, the entries 0, 1, 2 are read instead, and
the read that follows the first block, for block `2^31 + 1`, is at
`longBase + 4`, not at `blockPos + index[2^31 + 1].offset`. (2) Three raw
blocks of `B = 2^29` four-byte elements (`2^31` bytes each, laid out
contiguously at the offsets 48, `48 + 2^31`, `48 + 2^32`), read
`(2^29 - 1, 2^29 + 2)` over the blocks 0, 1, 2; no product of two `int` values
overflows. `blockSize = elementSize * blockSizeElements` is `2^31` as an
`unsigned int` and `-2^31` as the `int` it is stored in: the read of the
middle block is called with a negative count and transfers nothing, and the
read of block 2 is at `48 + 2^31`, not at `blockPos + index[2].offset`.
(3) `fatColumn`: the blocks are laid out contiguously, the payload of the
compressed block 1 has 20000 bytes, more than `compBuf` holds; the read
`(1, 9)` over the blocks 0, 1, 2 writes outside `compBuf`. -/
theorem sequential_reads_counterexample :
    (header0 longColumn 0 ≠ 0 ∧ header1 longColumn 0 = 1 ∧
      (∀ k, 2 ^ 31 ≤ k → k < 2 ^ 31 + 2 → BlockLaid longColumn 0 (2 ^ 31 + 2) 4 1 k
        ∧ entryAlgo longColumn 0 k = 0) ∧
      1 ≤ 2 ∧ 2 ^ 31 + 2 ≤ 2 ^ 31 + 2 ∧ 2 ^ 31 / 1 < (2 ^ 31 + 2 - 1) / 1 ∧
      logOf (fdsReadColumn_v1 rawCodec noTable noTable longColumn reader0 0 (2 ^ 31) 2
        (2 ^ 31 + 2) 4)
        = [IOEvent.seekg 0, IOEvent.read 0 8, IOEvent.read 8 30, IOEvent.seekg longBase,
           IOEvent.read longBase 4, IOEvent.read (longBase + 4) 4] ∧
      0 + entryOffset longColumn 0 (2 ^ 31 + 1) = longBase + 4 * (2 ^ 31 + 1)) ∧
    (header0 (rawColumn (2 ^ 29) (2 ^ 31)) 0 ≠ 0 ∧
      header1 (rawColumn (2 ^ 29) (2 ^ 31)) 0 = 2 ^ 29 ∧
      (∀ k, k < 3 → BlockLaid (rawColumn (2 ^ 29) (2 ^ 31)) 0 (3 * 2 ^ 29) 4 (2 ^ 29) k
        ∧ entryAlgo (rawColumn (2 ^ 29) (2 ^ 31)) 0 k = 0) ∧
      1 ≤ 2 ^ 29 + 2 ∧ 2 ^ 29 - 1 + (2 ^ 29 + 2) ≤ 3 * 2 ^ 29 ∧
      (2 ^ 29 - 1) / 2 ^ 29 < (2 ^ 29 - 1 + (2 ^ 29 + 2) - 1) / 2 ^ 29 ∧
      logOf (fdsReadColumn_v1 rawCodec noTable noTable (rawColumn (2 ^ 29) (2 ^ 31)) reader0 0
        (2 ^ 29 - 1) (2 ^ 29 + 2) (3 * 2 ^ 29) 4)
        = [IOEvent.seekg 0, IOEvent.read 0 8, IOEvent.read 8 40,
           IOEvent.seekg (44 + 2 ^ 31), IOEvent.read (44 + 2 ^ 31) 4,
           IOEvent.read (48 + 2 ^ 31) 0, IOEvent.read (48 + 2 ^ 31) 4] ∧
      0 + entryOffset (rawColumn (2 ^ 29) (2 ^ 31)) 0 2 = 48 + 2 ^ 32) ∧
    (header0 fatColumn 0 ≠ 0 ∧ header1 fatColumn 0 = 4 ∧
      (∀ k, k < 3 → BlockLaid fatColumn 0 12 4 4 k) ∧
      1 ≤ 9 ∧ 1 + 9 ≤ 12 ∧ 1 / 4 < (1 + 9 - 1) / 4 ∧
      ubOf (fdsReadColumn_v1 runCodec noTable noTable fatColumn reader0 0 1 9 12 4) = true) := by
  refine ⟨⟨by decide!, by decide!, ?_, by decide, by decide, by decide, by decide!, by decide!⟩,
    ⟨by decide!, by decide!, by unfold BlockLaid; decide!, by decide, by decide, by decide,
      by decide!, by decide!⟩,
    by decide!, by decide!, by unfold BlockLaid; decide!, by decide, by decide, by decide,
      by decide!⟩
  intro k h1 h2
  have hcases : k = 2 ^ 31 ∨ k = 2 ^ 31 + 1 := by omega
  unfold BlockLaid
  rcases hcases with rfl | rfl
  · decide!
  · decide!

/-! ## C11: a window that ends on a block boundary -/

theorem blockLaid_of_stored {codec : Codec} {f : File} {col : Nat → UInt8}
    {bp size e B k : Nat} (h : BlockStored codec f col bp size e B k) :
    BlockLaid f bp size e B k :=
  ⟨h.1, fun ha => (h.2.1 ha).1, fun ha => (h.2.2 ha).1⟩

theorem aligned_quotient {sr len B eb : Nat} (hB : 1 ≤ B) (h : sr + len = (eb + 1) * B) :
    (sr + len) / B = eb + 1 := by
  rw [h]
  exact Nat.mul_div_cancel _ (by omega)

/-- C11 (amended): for a stored column (as in C1: `header[1] = B ≥ 1`, contiguous
payloads, every payload decoding to its block), a decompressor that never
writes more than the capacity it is given and a window over at least two blocks
with `(startRow + length) mod B = 0` whose compressed blocks fit the scratch
arrays (payload of at most `MAX_COMPRESSBOUND` bytes,
`elementSize * B ≤ MAX_SIZE_COMPRESS_BLOCK`), under the bounds of C1
(`elementSize ≥ 1`, `size + B ≤ 2^32`, `elementSize * B < 2^31`,
`length * elementSize < 2^31`, `10 * (endBlock + 2) < 2^31`, index position
below `2^64`): the read returns without an access outside a scratch array;
after the seek and read of the first block the reader issues exactly one read
per block `startBlock + 1 .. (startRow + length) / B - 1`, each of the whole
payload of a full block of `B` elements, and returns; the stream stops at the
start of the payload of block `(startRow + length) / B`, none of whose bytes is
read, and the output holds the `length * elementSize` bytes of the requested
slice. -/
theorem aligned_window_read (codec : Codec) (srcRep tgtRep : Nat → Nat) (f : File)
    (s : Reader) (col : Nat → UInt8) (blockPos startRow length size e B : Nat)
    (h0 : header0 f blockPos ≠ 0) (h1 : header1 f blockPos = B) (hB : 1 ≤ B) (he : 1 ≤ e)
    (hcap : RespectsCapacity codec)
    (hst : StoredColumn codec f col blockPos size e B)
    (hfit : ∀ k, startRow / B ≤ k → k ≤ (startRow + length - 1) / B →
      ScratchFits codec f blockPos e B k)
    (hlen : 1 ≤ length) (hN : startRow + length ≤ size)
    (hmulti : startRow / B < (startRow + length - 1) / B)
    (halign : (startRow + length) % B = 0)
    (hout : length * e < 2 ^ 31) (hNB : size + B ≤ 2 ^ 32) (hblk : e * B < 2 ^ 31)
    (hidx : 10 * ((startRow + length - 1) / B + 2) < 2 ^ 31)
    (hpos : blockPos + 8 + 10 * (startRow / B) < 2 ^ 64) :
    ∃ (r : Reader) (n0 : Nat),
      fdsReadColumn_v1 codec srcRep tgtRep f s blockPos startRow length size e = Except.ok r ∧
      r.ub = s.ub ∧
      r.log = (afterIndex (afterHeader f s blockPos) blockPos (startRow / B)
            ((startRow + length - 1) / B)).log
          ++ [IOEvent.seekg (firstSeek blockPos e ((startRow % B : Nat) : Int)
                (entryOffset f blockPos (startRow / B)) (entryAlgo f blockPos (startRow / B))),
              IOEvent.read (firstSeek blockPos e ((startRow % B : Nat) : Int)
                (entryOffset f blockPos (startRow / B)) (entryAlgo f blockPos (startRow / B)))
                n0]
          ++ blockReads f blockPos (payloadLen f blockPos) (startRow / B + 1)
              ((startRow + length) / B - 1 - startRow / B) ∧
      (∀ k, startRow / B < k → k < (startRow + length) / B → blockElems size B k = B) ∧
      r.pos = blockPos + entryOffset f blockPos ((startRow + length) / B) ∧
      Holds r.out col (e * startRow) (e * length) := by
  have hsz : size < 2 ^ 32 := by omega
  have hout' : e * length < 2 ^ 31 := by rw [Nat.mul_comm]; exact hout
  have hstart := variable_read_start codec srcRep tgtRep f s blockPos startRow length size e B
    h0 h1 hB hlen hN hsz hidx hpos
  have hub := readBlocks_fits codec f
    (afterIndex (afterHeader f s blockPos) blockPos (startRow / B)
      ((startRow + length - 1) / B))
    blockPos startRow length size e B (i32 ((1 + (size - 1) / B : Nat) : Int))
    hcap he hsz hB hblk hN hlen hidx hfit
  rw [afterIndex_ub, afterHeader_ub] at hub
  clear hfit
  have hholds := readBlocks_holds codec f
    (afterIndex (afterHeader f s blockPos) blockPos (startRow / B)
      ((startRow + length - 1) / B)) col blockPos startRow length size e B he hsz hB hNB hblk
    hN hlen hout' hidx hst
  obtain ⟨g1, g2, g3, g4, g5, g6, g7⟩ := window_geom startRow length B hB hlen
  have hfullw := g5 hmulti
  have hq := aligned_quotient hB (g7 halign)
  have hal := g7 halign
  rw [hq]
  generalize startRow / B = sb at *
  generalize (startRow + length - 1) / B = eb at *
  generalize startRow % B = so at *
  obtain ⟨w, rfl⟩ := Nat.exists_eq_add_of_le (Nat.le_of_lt hmulti)
  have hw : 1 ≤ w := by omega
  have hcancel : sb + w - sb = w := by omega
  have hcancel2 : sb + w + 1 - 1 - sb = w := by omega
  rw [hcancel] at hstart hholds hub
  rw [hcancel2]
  have hlaid : ∀ k, sb ≤ k → k ≤ sb + w → BlockLaid f blockPos size e B k := by
    intro k _ hk
    have hmul : (k + 1) * B ≤ (sb + w + 1) * B := Nat.mul_le_mul_right B (by omega)
    have hs : (k + 1) * B = k * B + B := Nat.succ_mul k B
    exact blockLaid_of_stored (blockStored_of_lt hB hst (by omega))
  obtain ⟨n0, hlog, hp⟩ := readBlocks_log_exact codec f
    (afterIndex (afterHeader f s blockPos) blockPos sb (sb + w)) blockPos startRow length size e
    B sb w so (i32 ((1 + (size - 1) / B : Nat) : Int)) he hsz hB hblk hN hidx hw g2 g3 hfullw
    (fun h => (g6 h).1) g7 hlaid
  have hcnt : blockReads f blockPos (tailCount f blockPos e (sb + w) ((startRow + length) % B))
      (sb + 1) w = blockReads f blockPos (payloadLen f blockPos) (sb + 1) w := by
    apply blockReads_congr
    intro k _ _
    unfold tailCount
    rw [if_neg (fun h => h.2.1 halign)]
  rw [hcnt] at hlog
  refine ⟨_, n0, hstart, hub, hlog, ?_, hp halign, hholds⟩
  intro k _ hk
  have hmul : (k + 1) * B ≤ (sb + w + 1) * B := Nat.mul_le_mul_right B (by omega)
  exact blockElems_full (by omega)

/-- C11 on the demo column: the read `(1, 7)` ends on the boundary of block 1;
after the first block one read, of the 16 payload bytes of block 1 at offset
67, follows, the stream stops at offset 83, where block 2 starts, and no
scratch array is overrun. -/
theorem aligned_window_read_witness :
    blockReads demoColumn 3 (payloadLen demoColumn 3) (1 / 4 + 1) ((1 + 7) / 4 - 1 - 1 / 4)
      = [IOEvent.read 67 16] ∧
    3 + entryOffset demoColumn 3 ((1 + 7) / 4) = 83 ∧
    ∃ (r : Reader) (n0 : Nat),
      fdsReadColumn_v1 xorCodec noTable noTable demoColumn reader0 3 1 7 10 4 = Except.ok r ∧
      r.ub = false ∧
      r.log = (afterIndex (afterHeader demoColumn reader0 3) 3 (1 / 4) ((1 + 7 - 1) / 4)).log
          ++ [IOEvent.seekg (firstSeek 3 4 ((1 % 4 : Nat) : Int)
                (entryOffset demoColumn 3 (1 / 4)) (entryAlgo demoColumn 3 (1 / 4))),
              IOEvent.read (firstSeek 3 4 ((1 % 4 : Nat) : Int)
                (entryOffset demoColumn 3 (1 / 4)) (entryAlgo demoColumn 3 (1 / 4))) n0]
          ++ blockReads demoColumn 3 (payloadLen demoColumn 3) (1 / 4 + 1)
              ((1 + 7) / 4 - 1 - 1 / 4) ∧
      (∀ k, 1 / 4 < k → k < (1 + 7) / 4 → blockElems 10 4 k = 4) ∧
      r.pos = 3 + entryOffset demoColumn 3 ((1 + 7) / 4) ∧
      Holds r.out indexColumn (4 * 1) (4 * 7) :=
  ⟨by decide, by decide,
    aligned_window_read xorCodec noTable noTable demoColumn reader0 indexColumn 3 1 7 10 4 4
      (by decide) (by decide) (by decide) (by decide) xorCodec_respects demoColumn_stored
      (fun k _ hk => demoColumn_fits k (Nat.lt_of_le_of_lt hk (by decide)))
      (by decide) (by decide)
      (by decide) (by decide) (by decide) (by decide) (by decide) (by decide) (by decide)⟩

theorem leFile_digits (f : File) : ∀ (n p v : Nat),
    (∀ j, j < n → (f (p + j)).toNat = v / 256 ^ j % 256) → leFile f p n = v % 256 ^ n := by
  intro n
  induction n with
  | zero => intro p v _; rw [leFile, pow_zero, Nat.mod_one]
  | succ n ih =>
    intro p v h
    have h0 := h 0 (Nat.succ_pos n)
    rw [Nat.add_zero, pow_zero, Nat.div_one] at h0
    have h1 := ih (p + 1) (v / 256) (fun j hj => by
      have := h (j + 1) (Nat.succ_lt_succ hj)
      rw [Nat.add_assoc, Nat.add_comm 1 j, this, pow_succ, Nat.mul_comm, Nat.div_div_eq_div_mul])
    rw [leFile, h0, h1, pow_succ', Nat.mod_mul]

theorem longColumn_index (k j : Nat) (hk : k < 2 ^ 31 + 3) (hj : j < 10) :
    (longColumn (8 + 10 * k + j)).toNat =
      if j < 8 then (longBase + 4 * k) / 256 ^ j % 256 else 0 := by
  have h1 : ¬ (8 + 10 * k + j < 8) := by omega
  have h2 : 8 + 10 * k + j < longBase := by unfold longBase; omega
  have h3 : (8 + 10 * k + j - 8) % 10 = j := by omega
  have h4 : (8 + 10 * k + j - 8) / 10 = k := by omega
  unfold longColumn
  rw [if_neg h1, if_pos h2, h3, h4]
  split
  · exact UInt8.toNat_ofNat_of_lt (Nat.mod_lt _ (by decide))
  · rfl

theorem longColumn_offset (k : Nat) (hk : k < 2 ^ 31 + 3) :
    entryOffset longColumn 0 k = longBase + 4 * k := by
  have h := leFile_digits longColumn 8 (0 + 8 + 10 * k) (longBase + 4 * k) (fun j hj => by
    rw [Nat.zero_add, longColumn_index k j hk (by omega), if_pos hj])
  unfold entryOffset
  rw [h]
  apply Nat.mod_eq_of_lt
  unfold longBase
  omega

theorem longColumn_algo (k : Nat) (hk : k < 2 ^ 31 + 3) : entryAlgo longColumn 0 k = 0 := by
  have h8 := longColumn_index k 8 hk (by decide)
  have h9 := longColumn_index k 9 hk (by decide)
  rw [if_neg (by decide)] at h8 h9
  unfold entryAlgo
  rw [Nat.zero_add, leFile, leFile, leFile, h8, Nat.add_assoc, h9]

theorem longColumn_stored :
    StoredColumn rawCodec longColumn wideIndexColumn 0 (2 ^ 31 + 2) 4 1 := by
  intro k hk
  have h3 : 1 + (2 ^ 31 + 2 - 1) / 1 = 2 ^ 31 + 2 := by decide
  rw [h3] at hk
  have ho := longColumn_offset k (by omega)
  have ho1 := longColumn_offset (k + 1) (by omega)
  have ha := longColumn_algo k (by omega)
  have hel : blockElems (2 ^ 31 + 2) 1 k = 1 := blockElems_full (by omega)
  refine ⟨?_, fun _ => ⟨?_, fun i hi => ?_⟩, fun h => absurd ha h⟩
  · rw [ho1]
    unfold longBase
    omega
  · rw [ho, ho1, hel]
    omega
  · rw [hel] at hi
    rw [ho]
    have hp1 : ¬ (0 + (longBase + 4 * k) + i < 8) := by unfold longBase; omega
    have hp2 : ¬ (0 + (longBase + 4 * k) + i < longBase) := by omega
    have hp3 : (0 + (longBase + 4 * k) + i - longBase) / 4 = (4 * (k * 1) + i) / 4 := by omega
    have hp4 : (0 + (longBase + 4 * k) + i - longBase) % 4 = (4 * (k * 1) + i) % 4 := by omega
    unfold longColumn wideIndexColumn
    rw [if_neg hp1, if_neg hp2, hp3, hp4]

theorem rawColumn_payload (B step p : Nat) (h : 48 ≤ p) : rawColumn B step p = 7 := by
  unfold rawColumn
  rw [if_neg (by omega), if_neg (by omega), if_neg (by omega)]

theorem rawColumn29_stored :
    StoredColumn rawCodec (rawColumn (2 ^ 29) (2 ^ 31)) sevens 0 (3 * 2 ^ 29) 4 (2 ^ 29) := by
  intro k hk
  have h3 : 1 + (3 * 2 ^ 29 - 1) / 2 ^ 29 = 3 := by decide
  rw [h3] at hk
  have hcases : k = 0 ∨ k = 1 ∨ k = 2 := by omega
  rcases hcases with rfl | rfl | rfl
  · refine ⟨by decide, fun _ => ⟨by decide, fun i _ => ?_⟩, fun h => absurd (by decide) h⟩
    rw [rawColumn_payload _ _ _ (by
      have : entryOffset (rawColumn (2 ^ 29) (2 ^ 31)) 0 0 = 48 := by decide
      omega)]
    rfl
  · refine ⟨by decide, fun _ => ⟨by decide, fun i _ => ?_⟩, fun h => absurd (by decide) h⟩
    rw [rawColumn_payload _ _ _ (by
      have : entryOffset (rawColumn (2 ^ 29) (2 ^ 31)) 0 1 = 48 + 2 ^ 31 := by decide
      omega)]
    rfl
  · refine ⟨by decide, fun _ => ⟨by decide, fun i _ => ?_⟩, fun h => absurd (by decide) h⟩
    rw [rawColumn_payload _ _ _ (by
      have : entryOffset (rawColumn (2 ^ 29) (2 ^ 31)) 0 2 = 48 + 2 ^ 32 := by decide
      omega)]
    rfl

theorem fatColumn_stored : StoredColumn runCodec fatColumn sevens 0 12 4 4 := by
  unfold StoredColumn BlockStored
  decide!

/-- C11 as stated fails. (1) `longColumn`: `2^31 + 2` raw blocks of one
four-byte element holding the values `0 .. 2^31 + 1`; the read `(2^31, 2)`
spans the blocks `2^31` and `2^31 + 1` and ends on a block boundary.
`startBlock` is `-2^31` as the `int` it is stored in, the seek to the index
window is skipped, and the payloads of the blocks 0 and 1 are read: the read
after the first block is at `longBase + 4`, not at the payload of block
`2^31 + 1`, and output byte 3 is 0, not byte 3 of the value `2^31`. (2) Three
raw blocks of `B = 2^29` four-byte elements (`2^31` bytes each), all bytes 7,
read `(2^29 - 1, 2^29 + 1)` over the blocks 0 and 1, ending on the boundary of
block 1; no product of two `int` values overflows.
`blockSize = elementSize * blockSizeElements` is `2^31` as an `unsigned int`
and `-2^31` as the `int` it is stored in: the read of block 1 is called with a
negative count and transfers nothing, and output byte 4 is not the column's.
(3) `fatColumn`: the payload of the compressed block 1 has 20000 bytes, more
than `compBuf` holds; the read `(1, 7)`, which ends on the boundary of block 1,
writes outside `compBuf`. -/
theorem aligned_window_read_counterexample :
    (header0 longColumn 0 ≠ 0 ∧ header1 longColumn 0 = 1 ∧
      StoredColumn rawCodec longColumn wideIndexColumn 0 (2 ^ 31 + 2) 4 1 ∧
      1 ≤ 2 ∧ 2 ^ 31 + 2 ≤ 2 ^ 31 + 2 ∧
      2 ^ 31 / 1 < (2 ^ 31 + 2 - 1) / 1 ∧ (2 ^ 31 + 2) % 1 = 0 ∧
      logOf (fdsReadColumn_v1 rawCodec noTable noTable longColumn reader0 0 (2 ^ 31) 2
        (2 ^ 31 + 2) 4)
        = [IOEvent.seekg 0, IOEvent.read 0 8, IOEvent.read 8 30, IOEvent.seekg longBase,
           IOEvent.read longBase 4, IOEvent.read (longBase + 4) 4] ∧
      0 + entryOffset longColumn 0 (2 ^ 31 + 1) = longBase + 4 * (2 ^ 31 + 1) ∧
      ¬ Holds (outputOf reader0 (fdsReadColumn_v1 rawCodec noTable noTable longColumn reader0 0
        (2 ^ 31) 2 (2 ^ 31 + 2) 4)) wideIndexColumn (4 * 2 ^ 31) (4 * 2)) ∧
    (header0 (rawColumn (2 ^ 29) (2 ^ 31)) 0 ≠ 0 ∧
      header1 (rawColumn (2 ^ 29) (2 ^ 31)) 0 = 2 ^ 29 ∧
      StoredColumn rawCodec (rawColumn (2 ^ 29) (2 ^ 31)) sevens 0 (3 * 2 ^ 29) 4 (2 ^ 29) ∧
      1 ≤ 2 ^ 29 + 1 ∧ 2 ^ 29 - 1 + (2 ^ 29 + 1) ≤ 3 * 2 ^ 29 ∧
      (2 ^ 29 - 1) / 2 ^ 29 < (2 ^ 29 - 1 + (2 ^ 29 + 1) - 1) / 2 ^ 29 ∧
      (2 ^ 29 - 1 + (2 ^ 29 + 1)) % 2 ^ 29 = 0 ∧
      logOf (fdsReadColumn_v1 rawCodec noTable noTable (rawColumn (2 ^ 29) (2 ^ 31)) reader0 0
        (2 ^ 29 - 1) (2 ^ 29 + 1) (3 * 2 ^ 29) 4)
        = [IOEvent.seekg 0, IOEvent.read 0 8, IOEvent.read 8 30,
           IOEvent.seekg (44 + 2 ^ 31), IOEvent.read (44 + 2 ^ 31) 4,
           IOEvent.read (48 + 2 ^ 31) 0] ∧
      ¬ Holds (outputOf reader0 (fdsReadColumn_v1 rawCodec noTable noTable
        (rawColumn (2 ^ 29) (2 ^ 31)) reader0 0 (2 ^ 29 - 1) (2 ^ 29 + 1) (3 * 2 ^ 29) 4))
        sevens (4 * (2 ^ 29 - 1)) (4 * (2 ^ 29 + 1))) ∧
    (header0 fatColumn 0 ≠ 0 ∧ header1 fatColumn 0 = 4 ∧
      StoredColumn runCodec fatColumn sevens 0 12 4 4 ∧
      1 ≤ 7 ∧ 1 + 7 ≤ 12 ∧ 1 / 4 < (1 + 7 - 1) / 4 ∧ (1 + 7) % 4 = 0 ∧
      ubOf (fdsReadColumn_v1 runCodec noTable noTable fatColumn reader0 0 1 7 12 4) = true) := by
  refine ⟨⟨by decide!, by decide!, longColumn_stored, by decide, by decide, by decide, by decide,
      by decide!, by decide!, ?_⟩,
    ⟨by decide!, by decide!, rawColumn29_stored, by decide, by decide, by decide, by decide,
      by decide!, ?_⟩,
    by decide!, by decide!, fatColumn_stored, by decide, by decide, by decide, by decide,
      by decide!⟩
  · intro h
    have h1 := h 3 (by decide)
    have hv : outputOf reader0 (fdsReadColumn_v1 rawCodec noTable noTable longColumn reader0 0
        (2 ^ 31) 2 (2 ^ 31 + 2) 4) ((3 : Nat) : Int) = 0 := by decide!
    have hc : wideIndexColumn (4 * 2 ^ 31 + 3) = 128 := by decide!
    rw [hv, hc] at h1
    exact absurd h1 (by decide)
  · intro h
    have h1 := h 4 (by decide)
    have hv : outputOf reader0 (fdsReadColumn_v1 rawCodec noTable noTable
        (rawColumn (2 ^ 29) (2 ^ 31)) reader0 0 (2 ^ 29 - 1) (2 ^ 29 + 1) (3 * 2 ^ 29) 4)
        ((4 : Nat) : Int) = 0 := by decide!
    rw [hv] at h1
    exact absurd h1 (by decide)

/-! ## C13: the output stays within the declared length -/

theorem frame_refl (out : Mem) (n : Nat) : Frame out out n := fun _ _ => rfl

theorem frame_fill {out0 out : Mem} {n : Nat} (h : Frame out0 out n) (off : Int) (file : File)
    (p m : Nat) (h0 : 0 ≤ off) (hm : off + (m : Int) ≤ (n : Int)) :
    Frame out0 (fill out off file p m) n := by
  intro a ha
  rw [fill_outside _ _ _ _ _ _ (by omega)]
  exact h a ha

theorem frame_store {out0 out : Mem} {n : Nat} (h : Frame out0 out n) (off : Int)
    (bs : List UInt8) (m : Nat) (hb : bs.length ≤ m) (h0 : 0 ≤ off)
    (hm : off + (m : Int) ≤ (n : Int)) :
    Frame out0 (store out off bs) n := by
  intro a ha
  rw [store_outside _ _ _ _ (by omega)]
  exact h a ha

theorem frame_copy {out0 out : Mem} {n : Nat} (h : Frame out0 out n) (off : Int)
    (src : Mem) (sOff : Int) (m : Nat) (h0 : 0 ≤ off) (hm : off + (m : Int) ≤ (n : Int)) :
    Frame out0 (copy out off src sOff m) n := by
  intro a ha
  rw [copy_outside _ _ _ _ _ _ (by omega)]
  exact h a ha

theorem zero_add_le {m n : Nat} (h : m ≤ n) : (0 : Int) + (m : Int) ≤ (n : Int) := by omega

/-- The single-block branch writes inside `[0, length * elementSize)`. -/
theorem readSingleBlock_frame (codec : Codec) (f : File) (s : Reader) (out0 : Mem)
    (bp len size e B : Nat) (nb sb so : Int) (pStart compSize algo : Nat)
    (hcap : RespectsCapacity codec) (hlen : e * len < 2 ^ 32)
    (h : Frame out0 s.out (e * len)) :
    Frame out0 (readSingleBlock codec f s bp len size e B nb sb so pStart compSize algo).out
      (e * len) := by
  have x1 : u32 (len * e) = e * len := by rw [Nat.mul_comm]; exact u32_of_lt hlen
  have x2 : u32 (e * len) = e * len := u32_of_lt hlen
  have hin := zero_add_le (Nat.le_refl (e * len))
  by_cases ha : algo = 0
  · simp only [readSingleBlock, if_pos ha, x1, readOut_out, seekg_out]
    exact frame_fill h 0 f _ (e * len) (Int.le_refl 0) hin
  · simp only [readSingleBlock, if_neg ha, x2]
    generalize (if sb = i32 (nb - 1) then lastBlockCount size B else B) = cur
    by_cases hlc : len = cur
    · simp only [if_pos hlc, readBuf_out, seekg_out, readBuf_fst]
      exact frame_store h 0 _ (e * len) (hcap _ _ _) (Int.le_refl 0) hin
    · simp only [if_neg hlc, readBuf_out, seekg_out, readBuf_tmp, seekg_tmp, readBuf_fst]
      exact frame_copy h 0 _ _ (e * len) (Int.le_refl 0) hin

/-- The first block of a multi-block read writes inside
`[0, elementSize * (B - startOffset))`. -/
theorem readFirstBlock_frame (codec : Codec) (f : File) (s : Reader) (out0 : Mem)
    (bp e B so n pStart compSize algo : Nat)
    (hcap : RespectsCapacity codec) (he : 1 ≤ e) (hso : so < B) (hblk : e * B < 2 ^ 31)
    (hn : e * (B - so) ≤ n) (h : Frame out0 s.out n) :
    Frame out0 (readFirstBlock codec f s bp e (i32 ((e : Int) * (B : Int))) (i32 (so : Int))
        (i32 ((B : Int) - i32 (so : Int))) pStart compSize algo).out n := by
  obtain ⟨hB31, hso31, hsub31, hsum⟩ := block_exact he (Nat.le_of_lt hso) hblk
  have hso31' : so < 2 ^ 31 := by omega
  have hblk32 : e * B < 2 ^ 32 := by omega
  have hsub64 : e * (B - so) < 2 ^ 64 := by omega
  have e1 : i32 (so : Int) = (so : Int) := i32_natCast hso31'
  have e2 : i32 ((B : Int) - (so : Int)) = ((B - so : Nat) : Int) :=
    i32_sub_cast (Nat.le_of_lt hso) hB31
  have e3 : i32 ((e : Int) * ((B - so : Nat) : Int)) = ((e * (B - so) : Nat) : Int) :=
    i32_mul_cast hsub31
  have e4 : i32 ((e : Int) * (so : Int)) = ((e * so : Nat) : Int) := i32_mul_cast hso31
  have e5 : i32 ((e : Int) * (B : Int)) = ((e * B : Nat) : Int) := i32_mul_cast hblk
  have e6 : u32OfInt ((e * B : Nat) : Int) = e * B := u32OfInt_natCast hblk32
  have hu : u64OfInt ((e * (B - so) : Nat) : Int) = e * (B - so) := u64OfInt_natCast hsub64
  have hin := zero_add_le hn
  rw [e1, e2, e5]
  by_cases ha : algo = 0
  · have ht : (((e * (B - so) : Nat) : Int)).toNat = e * (B - so) := Int.toNat_ofNat _
    simp only [readFirstBlock, if_pos ha, e3, e4, ht, readOut_out, seekg_out]
    exact frame_fill h 0 f _ (e * (B - so)) (Int.le_refl 0) hin
  · by_cases hs0 : (so : Int) = 0
    · have hso0 : so = 0 := by
        clear e1 e2 e3 e4 e5 e6 hu
        omega
      rw [hso0, Nat.sub_zero] at hin
      simp only [readFirstBlock, if_neg ha, if_pos hs0, e6, readBuf_out, seekg_out,
        readBuf_fst]
      exact frame_store h 0 _ (e * B) (hcap _ _ _) (Int.le_refl 0) hin
    · simp only [readFirstBlock, if_neg ha, if_neg hs0, e3, e4, hu, readBuf_out, seekg_out]
      exact frame_copy h 0 _ _ (e * (B - so)) (Int.le_refl 0) hin

/-- One middle-block iteration writes `elementSize * B` bytes at `outOffset`. -/
theorem middleBlock_frame (codec : Codec) (f : File) (idx : List UInt8) (m : MidState)
    (out0 : Mem) (e B o n : Nat) (j : Int)
    (hcap : RespectsCapacity codec) (hblk : e * B < 2 ^ 31)
    (hmo : m.outOffset = (o : Int)) (ho : o + e * B ≤ n) (ho31 : o + e * B < 2 ^ 31)
    (h : Frame out0 m.rd.out n) :
    Frame out0 (middleBlock codec f idx ((e * B : Nat) : Int) j m).rd.out n ∧
    (middleBlock codec f idx ((e * B : Nat) : Int) j m).outOffset = ((o + e * B : Nat) : Int) := by
  have hblk32 : e * B < 2 ^ 32 := by omega
  have h0 : (0 : Int) ≤ (o : Int) := Int.ofNat_nonneg o
  have hin : (o : Int) + ((e * B : Nat) : Int) ≤ (n : Int) := by omega
  have i3 : i32 ((o : Int) + ((e * B : Nat) : Int)) = ((o + e * B : Nat) : Int) := i32_add_cast ho31
  have i4 : u32OfInt ((e * B : Nat) : Int) = e * B := u32OfInt_natCast hblk32
  have ht : (((e * B : Nat) : Int)).toNat = e * B := Int.toNat_ofNat _
  constructor
  · by_cases ha : le16 idx (i32 (8 + 10 * j)) = 0
    · simp only [middleBlock, if_pos ha, hmo, ht, readOut_out]
      exact frame_fill h _ f _ (e * B) h0 hin
    · simp only [middleBlock, if_neg ha, hmo, i4, readBuf_out, readBuf_fst]
      exact frame_store h _ _ (e * B) (hcap _ _ _) h0 hin
  · simp only [middleBlock, hmo, i3]

/-- The middle-block loop writes `n'` times `elementSize * B` bytes, one after
the other from `outOffset` on. -/
theorem middleBlocks_frame (codec : Codec) (f : File) (idx : List UInt8) (out0 : Mem)
    (e B n : Nat) (hcap : RespectsCapacity codec) (hblk : e * B < 2 ^ 31) (hn31 : n < 2 ^ 31) :
    ∀ (n' : Nat) (j : Int) (m : MidState) (o : Nat),
      m.outOffset = (o : Int) → o + n' * (e * B) ≤ n → Frame out0 m.rd.out n →
      Frame out0 (middleBlocks codec f idx ((e * B : Nat) : Int) n' j m).rd.out n ∧
      (middleBlocks codec f idx ((e * B : Nat) : Int) n' j m).outOffset
        = ((o + n' * (e * B) : Nat) : Int) := by
  intro n'
  induction n' with
  | zero =>
    intro j m o hmo _ h
    simp only [middleBlocks, Nat.zero_mul, Nat.add_zero]
    exact ⟨h, hmo⟩
  | succ n' ih =>
    intro j m o hmo ho h
    have hs : (n' + 1) * (e * B) = n' * (e * B) + e * B := Nat.succ_mul n' (e * B)
    obtain ⟨s1, s2⟩ := middleBlock_frame codec f idx m out0 e B o n j hcap hblk hmo (by omega)
      (by omega) h
    have hnext := ih (j + 1) (middleBlock codec f idx ((e * B : Nat) : Int) j m) (o + e * B) s2
      (by omega) s1
    have ha2 : o + e * B + n' * (e * B) = o + (n' + 1) * (e * B) := by omega
    rw [ha2] at hnext
    rw [middleBlocks]
    exact hnext

/-- The last block of a multi-block read writes `elementSize * remain` bytes at
`outOffset`. -/
theorem readLastBlock_frame (codec : Codec) (f : File) (idx : List UInt8) (m : MidState)
    (out0 : Mem) (size e B rem o n : Nat) (nb eb mb : Int)
    (hcap : RespectsCapacity codec) (hrem : e * rem < 2 ^ 31)
    (hmo : m.outOffset = (o : Int)) (ho : o + e * rem ≤ n) (h : Frame out0 m.rd.out n) :
    Frame out0 (readLastBlock codec f idx size e B nb eb mb (rem : Int) m).out n := by
  have hrem32 : e * rem < 2 ^ 32 := by omega
  have hrem64 : e * rem < 2 ^ 64 := by omega
  have h0 : (0 : Int) ≤ (o : Int) := Int.ofNat_nonneg o
  have hin : (o : Int) + ((e * rem : Nat) : Int) ≤ (n : Int) := by omega
  have x1 : i32 ((e : Int) * (rem : Int)) = ((e * rem : Nat) : Int) := i32_mul_cast hrem
  have x2 : u64OfInt ((e * rem : Nat) : Int) = e * rem := u64OfInt_natCast hrem64
  have x3 : u32OfInt ((rem : Int) * (e : Int)) = e * rem := by
    rw [← Int.natCast_mul, Nat.mul_comm rem e]
    exact u32OfInt_natCast hrem32
  have ht : (((e * rem : Nat) : Int)).toNat = e * rem := Int.toNat_ofNat _
  by_cases ha : le16 idx (i32 (8 + 10 * mb)) = 0
  · simp only [readLastBlock, if_pos ha, hmo, x1, ht, readOut_out]
    exact frame_fill h _ f _ (e * rem) h0 hin
  · simp only [readLastBlock, if_neg ha, hmo, x1, x2]
    generalize (if eb = i32 (nb - 1) then i32 ((lastBlockCount size B : Nat) : Int)
      else i32 (B : Int)) = cur
    by_cases hc : (rem : Int) = cur
    · rw [← hc]
      simp only [if_true, x3, readBuf_out, readBuf_fst]
      exact frame_store h _ _ (e * rem) (hcap _ _ _) h0 hin
    · simp only [if_neg hc, readBuf_out]
      exact frame_copy h _ _ _ (e * rem) h0 hin

/-- The blocks after the first one are written inside
`[0, length * elementSize)`. -/
theorem readRest_frame (codec : Codec) (f : File) (r1 : Reader) (idx : List UInt8)
    (out0 : Mem) (sr len size e B sb w so pEnd : Nat) (nb : Int)
    (hcap : RespectsCapacity codec) (he : 1 ≤ e) (hsz : size < 2 ^ 32) (hB : 1 ≤ B)
    (hblk : e * B < 2 ^ 31) (hN : sr + len ≤ size) (hout : e * len < 2 ^ 31)
    (hidx : sb + w + 1 < 2 ^ 31) (hw : 1 ≤ w) (hso : so < B) (hsr : sr = sb * B + so)
    (hr0 : (sr + len) % B ≠ 0 → sr + len = (sb + w) * B + (sr + len) % B)
    (hr1 : (sr + len) % B = 0 → sr + len = (sb + w + 1) * B)
    (h : Frame out0 r1.out (e * len)) :
    Frame out0 (readRest codec f r1 idx sr len size e B nb (sb : Int) ((sb + w : Nat) : Int)
      ((e * B : Nat) : Int) ((B - so : Nat) : Int) pEnd).out (e * len) := by
  have hremlt : (sr + len) % B < B := Nat.mod_lt _ (by omega)
  have hB31 : B ≤ e * B := Nat.le_mul_of_pos_left B he
  have hsub : e * (B - so) ≤ e * B := Nat.mul_le_mul_left e (Nat.sub_le B so)
  have hsub31 : e * (B - so) < 2 ^ 31 := by omega
  have hsl32 : sr + len < 2 ^ 32 := by omega
  have hsw31' : sb + w < 2 ^ 31 := by omega
  have hsw31'' : sb + (w + 1) < 2 ^ 31 := by omega
  generalize hrem : (sr + len) % B = rem at *
  have hrem31 : rem < 2 ^ 31 := by omega
  have hremB : e * rem ≤ e * B := Nat.mul_le_mul_left e (Nat.le_of_lt hremlt)
  by_cases hz : rem = 0
  · have hsl := hr1 hz
    have hsl' : sr + len = (sb + w) * B + B := by rw [hsl, Nat.succ_mul]
    obtain ⟨g1, g2, g3, g4⟩ := window_bytes (e := e) hso hsr hsl' hw
    have hwsucc : (w - 1) * (e * B) + e * B = w * (e * B) := by
      obtain ⟨v, rfl⟩ : ∃ v, w = v + 1 := ⟨w - 1, by omega⟩
      rw [Nat.add_sub_cancel, Nat.succ_mul]
    have hloop := middleBlocks_frame codec f idx out0 e B (e * len) hcap hblk hout w 1
      { blockPEnd := pEnd, outOffset := ((e * (B - so) : Nat) : Int), rd := r1 }
      (e * (B - so)) rfl (by omega) h
    have hfin := hloop.1
    clear hloop
    have hu : u32 (sr + len) = sr + len := u32_of_lt hsl32
    have x1 : i32 (((B - so : Nat) : Int) * (e : Int)) = ((e * (B - so) : Nat) : Int) :=
      i32_mul_cast_comm hsub31
    have x2 : i32 (rem : Int) = (rem : Int) := i32_natCast hrem31
    have hz' : (rem : Int) = 0 := by rw [hz]; rfl
    have x3 : i32 (((sb + w : Nat) : Int) + 1) = ((sb + (w + 1) : Nat) : Int) := by
      have := @i32_succ_cast (sb + w) hidx
      rw [this, Nat.add_assoc]
    have x4 : i32 (((sb + (w + 1) : Nat) : Int) - (sb : Int)) = ((w + 1 : Nat) : Int) :=
      i32_span hsw31''
    have x5 : ((((w + 1 : Nat) : Int)) - 1).toNat = w := by
      rw [toNat_pred_cast, Nat.add_sub_cancel]
    simp only [readRest, hu, hrem, x2, if_pos hz', x3, x4, x5, x1]
    exact hfin
  · have hsl := hr0 hz
    obtain ⟨g1, g2, g3, g4⟩ := window_bytes (e := e) hso hsr hsl hw
    obtain ⟨l1, l2⟩ := middleBlocks_frame codec f idx out0 e B (e * len) hcap hblk hout (w - 1) 1
      { blockPEnd := pEnd, outOffset := ((e * (B - so) : Nat) : Int), rd := r1 }
      (e * (B - so)) rfl (by omega) h
    have hlast := readLastBlock_frame codec f idx
      (middleBlocks codec f idx ((e * B : Nat) : Int) (w - 1) 1
        { blockPEnd := pEnd, outOffset := ((e * (B - so) : Nat) : Int), rd := r1 })
      out0 size e B rem (e * (B - so) + (w - 1) * (e * B)) (e * len) nb ((sb + w : Nat) : Int)
      (w : Int) hcap (by omega) l2 (by omega) l1
    clear l1 l2
    have hz' : ¬ ((rem : Int) = 0) := by omega
    have hu : u32 (sr + len) = sr + len := u32_of_lt hsl32
    have x1 : i32 (((B - so : Nat) : Int) * (e : Int)) = ((e * (B - so) : Nat) : Int) :=
      i32_mul_cast_comm hsub31
    have x2 : i32 (rem : Int) = (rem : Int) := i32_natCast hrem31
    have x4 : i32 (((sb + w : Nat) : Int) - (sb : Int)) = (w : Int) := i32_span hsw31'
    have x5 : ((w : Int) - 1).toNat = w - 1 := toNat_pred_cast w
    simp only [readRest, hu, hrem, x2, if_neg hz', x4, x5, x1]
    exact hlast

/-- The block reads of a variable-ratio read write inside
`[0, length * elementSize)`, whatever the index and the payloads hold. -/
theorem readBlocks_frame (codec : Codec) (f : File) (s : Reader) (idx : List UInt8)
    (bp sr len size e B : Nat) (nb : Int)
    (hcap : RespectsCapacity codec) (he : 1 ≤ e) (hsz : size < 2 ^ 32) (hB : 1 ≤ B)
    (hblk : e * B < 2 ^ 31) (hN : sr + len ≤ size) (hlen : 1 ≤ len)
    (hout : e * len < 2 ^ 31) (hidx : (sr + len - 1) / B + 1 < 2 ^ 31) :
    Frame s.out (readBlocks codec f s idx bp sr len size e B nb ((sr / B : Nat) : Int)
      (((sr + len - 1) / B : Nat) : Int) (i32 ((sr % B : Nat) : Int))).out (e * len) := by
  obtain ⟨g1, g2, g3, g4, g5, g6, g7⟩ := window_geom sr len B hB hlen
  generalize sr / B = sb at *
  generalize (sr + len - 1) / B = eb at *
  generalize sr % B = so at *
  rcases Nat.eq_or_lt_of_le g1 with heq | hlt
  · subst heq
    simp only [readBlocks, if_true]
    exact readSingleBlock_frame codec f s s.out bp len size e B nb _ _ _ _ _ hcap (by omega)
      (frame_refl _ _)
  · obtain ⟨w, rfl⟩ := Nat.exists_eq_add_of_le (Nat.le_of_lt hlt)
    have hw : 1 ≤ w := by omega
    have hfullw := g5 hlt
    have hm : (sb + 1) * B = sb * B + B := Nat.succ_mul sb B
    have hwin : B - so ≤ len := by omega
    have hwin' : e * (B - so) ≤ e * len := Nat.mul_le_mul_left e hwin
    have hB31 : B < 2 ^ 31 := by
      have := Nat.le_mul_of_pos_left B he
      omega
    have hso31 : so < 2 ^ 31 := by omega
    have hne : ¬ ((sb : Int) = ((sb + w : Nat) : Int)) := by omega
    have hf := readFirstBlock_frame codec f s s.out bp e B so (e * len) (le64 idx 0)
      (u64OfInt ((le64 idx 10 : Int) - (le64 idx 0 : Int))) (le16 idx 8) hcap he g2 hblk hwin'
      (frame_refl _ _)
    have x1 : i32 (so : Int) = (so : Int) := i32_natCast hso31
    have x2 : i32 ((B : Int) - (so : Int)) = ((B - so : Nat) : Int) :=
      i32_sub_cast (Nat.le_of_lt g2) hB31
    have x3 : i32 ((e : Int) * (B : Int)) = ((e * B : Nat) : Int) := i32_mul_cast hblk
    simp only [x1, x2, x3] at hf
    have hrest := readRest_frame codec f _ idx s.out sr len size e B sb w so (le64 idx 10) nb
      hcap he hsz hB hblk hN hout hidx hw g2 g3 (fun h => (g6 h).1) g7 hf
    simp only [readBlocks, if_neg hne, x1, x2, x3]
    exact hrest

/-- Element counts of a multi-block window sum to its length. -/
theorem window_counts (sr len B : Nat) (hB : 1 ≤ B) (hlen : 1 ≤ len)
    (hlt : sr / B < (sr + len - 1) / B) :
    (B - sr % B) + ((sr + len - 1) / B - sr / B - 1) * B
      + (sr + len - (sr + len - 1) / B * B) = len := by
  obtain ⟨g1, g2, g3, g4, g5, g6, g7⟩ := window_geom sr len B hB hlen
  generalize sr / B = sb at *
  generalize (sr + len - 1) / B = eb at *
  generalize sr % B = so at *
  obtain ⟨w, rfl⟩ := Nat.exists_eq_add_of_le (Nat.le_of_lt hlt)
  have hw : 1 ≤ w := by omega
  have hle : (sb + w) * B ≤ sr + len := by
    by_cases hz : (sr + len) % B = 0
    · have := g7 hz
      rw [Nat.succ_mul] at this
      omega
    · have := (g6 hz).1
      omega
  have hsl : sr + len = (sb + w) * B + (sr + len - (sb + w) * B) := by omega
  obtain ⟨_, k2, _, _⟩ := window_bytes (e := 1) g2 g3 hsl hw
  simp only [Nat.one_mul] at k2
  have hw' : sb + w - sb - 1 = w - 1 := by omega
  rw [hw']
  exact k2.symm

/-! ## C13: the writes to the output buffer -/

/-- The single-block branch writes `length * elementSize` bytes at index 0. -/
theorem readSingleBlock_writes (codec : Codec) (f : File) (s : Reader)
    (bp len size e B : Nat) (nb sb so : Int) (pStart compSize algo : Nat)
    (hlen : e * len < 2 ^ 32) :
    (readSingleBlock codec f s bp len size e B nb sb so pStart compSize algo).writes
      = s.writes ++ [((0 : Int), e * len)] := by
  rw [readSingleBlock_writes_eq, Nat.mul_comm len e, ite_self, u32_of_lt hlen]

/-- The first block of a multi-block read writes
`elementSize * (B - startOffset)` bytes at index 0. -/
theorem readFirstBlock_writes (codec : Codec) (f : File) (s : Reader)
    (bp e B so pStart compSize algo : Nat)
    (he : 1 ≤ e) (hso : so < B) (hblk : e * B < 2 ^ 31) :
    (readFirstBlock codec f s bp e (i32 ((e : Int) * (B : Int))) (i32 (so : Int))
        (i32 ((B : Int) - i32 (so : Int))) pStart compSize algo).writes
      = s.writes ++ [((0 : Int), e * (B - so))] := by
  obtain ⟨hB31, hso31, hsub31, hsum⟩ := block_exact he (Nat.le_of_lt hso) hblk
  have hso31' : so < 2 ^ 31 := by omega
  have hblk32 : e * B < 2 ^ 32 := by omega
  have hsub64 : e * (B - so) < 2 ^ 64 := by omega
  have ht : (((e * (B - so) : Nat) : Int)).toNat = e * (B - so) := Int.toNat_ofNat _
  rw [readFirstBlock_writes_eq, i32_natCast hso31', i32_sub_cast (Nat.le_of_lt hso) hB31,
    i32_mul_cast hsub31, i32_mul_cast hblk, u32OfInt_natCast hblk32, u64OfInt_natCast hsub64, ht]
  by_cases ha : algo = 0
  · rw [if_pos ha]
  · rw [if_neg ha]
    by_cases hs0 : (so : Int) = 0
    · have hso0 : so = 0 := Int.ofNat_eq_zero.mp hs0
      rw [if_pos hs0, hso0, Nat.sub_zero]
    · rw [if_neg hs0]

/-- One middle-block iteration writes `elementSize * B` bytes at `outOffset`. -/
theorem middleBlock_writes (codec : Codec) (f : File) (idx : List UInt8) (m : MidState)
    (e B o : Nat) (j : Int) (hblk : e * B < 2 ^ 31)
    (hmo : m.outOffset = (o : Int)) (ho31 : o + e * B < 2 ^ 31) :
    (middleBlock codec f idx ((e * B : Nat) : Int) j m).rd.writes
      = m.rd.writes ++ [((o : Int), e * B)] ∧
    (middleBlock codec f idx ((e * B : Nat) : Int) j m).outOffset = ((o + e * B : Nat) : Int) := by
  have hblk32 : e * B < 2 ^ 32 := by omega
  have ht : (((e * B : Nat) : Int)).toNat = e * B := Int.toNat_ofNat _
  obtain ⟨-, q2, -, q4⟩ := middleBlock_eq codec f idx ((e * B : Nat) : Int) j m
  rw [q2, q4, hmo, ht, u32OfInt_natCast hblk32, ite_self, i32_add_cast ho31]
  exact ⟨rfl, rfl⟩

/-- The middle-block loop writes `n` times `elementSize * B` bytes, one after
the other from `outOffset` on. -/
theorem middleBlocks_writes (codec : Codec) (f : File) (idx : List UInt8)
    (e B : Nat) (hblk : e * B < 2 ^ 31) :
    ∀ (n : Nat) (j : Int) (m : MidState) (o : Nat),
      m.outOffset = (o : Int) → o + n * (e * B) < 2 ^ 31 →
      (middleBlocks codec f idx ((e * B : Nat) : Int) n j m).rd.writes
        = m.rd.writes ++ (List.range n).map
            (fun (i : Nat) => (((o + i * (e * B) : Nat) : Int), e * B)) ∧
      (middleBlocks codec f idx ((e * B : Nat) : Int) n j m).outOffset
        = ((o + n * (e * B) : Nat) : Int) := by
  intro n
  induction n with
  | zero =>
    intro j m o hmo _
    rw [middleBlocks, Nat.zero_mul, Nat.add_zero, List.range_zero, List.map_nil,
      List.append_nil]
    exact ⟨rfl, hmo⟩
  | succ n ih =>
    intro j m o hmo ho
    have hs : (n + 1) * (e * B) = n * (e * B) + e * B := Nat.succ_mul n (e * B)
    obtain ⟨s1, s2⟩ := middleBlock_writes codec f idx m e B o j hblk hmo (by omega)
    obtain ⟨t1, t2⟩ := ih (j + 1) (middleBlock codec f idx ((e * B : Nat) : Int) j m)
      (o + e * B) s2 (by omega)
    have ha2 : o + e * B + n * (e * B) = o + (n + 1) * (e * B) := by omega
    rw [ha2] at t2
    rw [middleBlocks]
    refine ⟨?_, t2⟩
    rw [t1, s1, List.append_assoc, List.range_succ_eq_map, List.map_cons, List.map_map]
    refine congrArg (fun l => m.rd.writes ++ l) ?_
    have h0 : ((o + 0 * (e * B) : Nat) : Int) = (o : Int) := by
      rw [Nat.zero_mul, Nat.add_zero]
    rw [h0]
    refine congrArg (fun l => ((o : Int), e * B) :: l) (List.map_congr_left ?_)
    intro i _
    show (((o + e * B + i * (e * B) : Nat) : Int), e * B)
      = (((o + (i + 1) * (e * B) : Nat) : Int), e * B)
    rw [Nat.succ_mul, Nat.add_assoc, Nat.add_comm (e * B) (i * (e * B))]

/-- The last block of a multi-block read writes `elementSize * remain` bytes at
`outOffset`. -/
theorem readLastBlock_writes (codec : Codec) (f : File) (idx : List UInt8) (m : MidState)
    (size e B rem o : Nat) (nb eb mb : Int)
    (hrem : e * rem < 2 ^ 31) (hmo : m.outOffset = (o : Int)) :
    (readLastBlock codec f idx size e B nb eb mb (rem : Int) m).writes
      = m.rd.writes ++ [((o : Int), e * rem)] := by
  have hrem32 : e * rem < 2 ^ 32 := by omega
  have hrem64 : e * rem < 2 ^ 64 := by omega
  have x3 : u32OfInt ((rem : Int) * (e : Int)) = e * rem := by
    rw [← Int.natCast_mul, Nat.mul_comm rem e]
    exact u32OfInt_natCast hrem32
  have ht : (((e * rem : Nat) : Int)).toNat = e * rem := Int.toNat_ofNat _
  rw [readLastBlock_writes_eq, hmo, i32_mul_cast hrem, ht, u64OfInt_natCast hrem64]
  generalize (if eb = i32 (nb - 1) then i32 ((lastBlockCount size B : Nat) : Int)
    else i32 (B : Int)) = cur
  by_cases ha : le16 idx (i32 (8 + 10 * mb)) = 0
  · rw [if_pos ha]
  · rw [if_neg ha]
    by_cases hc : (rem : Int) = cur
    · rw [if_pos hc, ← hc, x3]
    · rw [if_neg hc]

/-- The blocks after the first one write the full blocks between the first and
the last block and then the elements of the last block, one slice after the
other. -/
theorem readRest_writes (codec : Codec) (f : File) (r1 : Reader) (idx : List UInt8)
    (sr len size e B sb w so pEnd : Nat) (nb : Int)
    (he : 1 ≤ e) (hsz : size < 2 ^ 32) (hB : 1 ≤ B)
    (hblk : e * B < 2 ^ 31) (hN : sr + len ≤ size) (hout : e * len < 2 ^ 31)
    (hidx : sb + w + 1 < 2 ^ 31) (hw : 1 ≤ w) (hso : so < B) (hsr : sr = sb * B + so)
    (hr0 : (sr + len) % B ≠ 0 → sr + len = (sb + w) * B + (sr + len) % B)
    (hr1 : (sr + len) % B = 0 → sr + len = (sb + w + 1) * B) :
    (readRest codec f r1 idx sr len size e B nb (sb : Int) ((sb + w : Nat) : Int)
      ((e * B : Nat) : Int) ((B - so : Nat) : Int) pEnd).writes
      = r1.writes
        ++ ((List.range (w - 1)).map
            (fun (i : Nat) => (((e * (B - so) + i * (e * B) : Nat) : Int), e * B))
          ++ [(((e * (B - so) + (w - 1) * (e * B) : Nat) : Int),
                e * (sr + len - (sb + w) * B))]) := by
  have hremlt : (sr + len) % B < B := Nat.mod_lt _ (by omega)
  have hB31 : B ≤ e * B := Nat.le_mul_of_pos_left B he
  have hsub : e * (B - so) ≤ e * B := Nat.mul_le_mul_left e (Nat.sub_le B so)
  have hsub31 : e * (B - so) < 2 ^ 31 := by omega
  have hsl32 : sr + len < 2 ^ 32 := by omega
  have hsw31' : sb + w < 2 ^ 31 := by omega
  have hsw31'' : sb + (w + 1) < 2 ^ 31 := by omega
  have hwsucc : (w - 1) * (e * B) + e * B = w * (e * B) := by
    obtain ⟨v, rfl⟩ : ∃ v, w = v + 1 := ⟨w - 1, by omega⟩
    rw [Nat.add_sub_cancel, Nat.succ_mul]
  have hw1 : w - 1 + 1 = w := by omega
  generalize hrem : (sr + len) % B = rem at *
  have hrem31 : rem < 2 ^ 31 := by omega
  have hremB : e * rem ≤ e * B := Nat.mul_le_mul_left e (Nat.le_of_lt hremlt)
  by_cases hz : rem = 0
  · have hsl := hr1 hz
    have hsl' : sr + len = (sb + w) * B + B := by rw [hsl, Nat.succ_mul]
    have htail : sr + len - (sb + w) * B = B := by omega
    obtain ⟨g1, g2, g3, g4⟩ := window_bytes (e := e) hso hsr hsl' hw
    obtain ⟨l1, -⟩ := middleBlocks_writes codec f idx e B hblk w 1
      { blockPEnd := pEnd, outOffset := ((e * (B - so) : Nat) : Int), rd := r1 }
      (e * (B - so)) rfl (by omega)
    have hu : u32 (sr + len) = sr + len := u32_of_lt hsl32
    have x1 : i32 (((B - so : Nat) : Int) * (e : Int)) = ((e * (B - so) : Nat) : Int) :=
      i32_mul_cast_comm hsub31
    have x2 : i32 (rem : Int) = (rem : Int) := i32_natCast hrem31
    have hz' : (rem : Int) = 0 := by rw [hz]; rfl
    have x3 : i32 (((sb + w : Nat) : Int) + 1) = ((sb + (w + 1) : Nat) : Int) := by
      have := @i32_succ_cast (sb + w) hidx
      rw [this, Nat.add_assoc]
    have x4 : i32 (((sb + (w + 1) : Nat) : Int) - (sb : Int)) = ((w + 1 : Nat) : Int) :=
      i32_span hsw31''
    have x5 : ((((w + 1 : Nat) : Int)) - 1).toNat = w := by
      rw [toNat_pred_cast, Nat.add_sub_cancel]
    simp only [readRest, hu, hrem, x2, if_pos hz', x3, x4, x5, x1]
    rw [htail]
    refine l1.trans ?_
    refine congrArg (fun l => r1.writes ++ l) ?_
    nth_rewrite 1 [← hw1]
    rw [List.range_succ, List.map_append, List.map_cons, List.map_nil]
  · have hsl := hr0 hz
    have htail : sr + len - (sb + w) * B = rem := by omega
    obtain ⟨g1, g2, g3, g4⟩ := window_bytes (e := e) hso hsr hsl hw
    obtain ⟨l1, l2⟩ := middleBlocks_writes codec f idx e B hblk (w - 1) 1
      { blockPEnd := pEnd, outOffset := ((e * (B - so) : Nat) : Int), rd := r1 }
      (e * (B - so)) rfl (by omega)
    have hlast := readLastBlock_writes codec f idx
      (middleBlocks codec f idx ((e * B : Nat) : Int) (w - 1) 1
        { blockPEnd := pEnd, outOffset := ((e * (B - so) : Nat) : Int), rd := r1 })
      size e B rem (e * (B - so) + (w - 1) * (e * B)) nb ((sb + w : Nat) : Int)
      (w : Int) (by omega) l2
    rw [l1] at hlast
    clear l1 l2
    have hz' : ¬ ((rem : Int) = 0) := by omega
    have hu : u32 (sr + len) = sr + len := u32_of_lt hsl32
    have x1 : i32 (((B - so : Nat) : Int) * (e : Int)) = ((e * (B - so) : Nat) : Int) :=
      i32_mul_cast_comm hsub31
    have x2 : i32 (rem : Int) = (rem : Int) := i32_natCast hrem31
    have x4 : i32 (((sb + w : Nat) : Int) - (sb : Int)) = (w : Int) := i32_span hsw31'
    have x5 : ((w : Int) - 1).toNat = w - 1 := toNat_pred_cast w
    simp only [readRest, hu, hrem, x2, if_neg hz', x4, x5, x1]
    rw [htail]
    refine hlast.trans ?_
    rw [List.append_assoc]

/-- The block reads of a variable-ratio read write the slices of the window,
in order. -/
theorem readBlocks_writes (codec : Codec) (f : File) (s : Reader) (idx : List UInt8)
    (bp sr len size e B : Nat) (nb : Int)
    (he : 1 ≤ e) (hsz : size < 2 ^ 32) (hB : 1 ≤ B)
    (hblk : e * B < 2 ^ 31) (hN : sr + len ≤ size) (hlen : 1 ≤ len)
    (hout : e * len < 2 ^ 31) (hidx : (sr + len - 1) / B + 1 < 2 ^ 31) :
    (readBlocks codec f s idx bp sr len size e B nb ((sr / B : Nat) : Int)
      (((sr + len - 1) / B : Nat) : Int) (i32 ((sr % B : Nat) : Int))).writes
      = s.writes ++ windowSlices e B sr len := by
  obtain ⟨g1, g2, g3, g4, g5, g6, g7⟩ := window_geom sr len B hB hlen
  simp only [windowSlices]
  generalize sr / B = sb at *
  generalize (sr + len - 1) / B = eb at *
  generalize sr % B = so at *
  rcases Nat.eq_or_lt_of_le g1 with heq | hlt
  · subst heq
    simp only [readBlocks, if_true]
    exact readSingleBlock_writes codec f s bp len size e B nb _ _ _ _ _ (by omega)
  · obtain ⟨w, rfl⟩ := Nat.exists_eq_add_of_le (Nat.le_of_lt hlt)
    have hw : 1 ≤ w := by omega
    have hB31 : B < 2 ^ 31 := by
      have := Nat.le_mul_of_pos_left B he
      omega
    have hso31 : so < 2 ^ 31 := by omega
    have hne : ¬ ((sb : Int) = ((sb + w : Nat) : Int)) := by omega
    have hne' : ¬ (sb = sb + w) := by omega
    have hcancel : sb + w - sb - 1 = w - 1 := by omega
    have hf := readFirstBlock_writes codec f s bp e B so (le64 idx 0)
      (u64OfInt ((le64 idx 10 : Int) - (le64 idx 0 : Int))) (le16 idx 8) he g2 hblk
    have x1 : i32 (so : Int) = (so : Int) := i32_natCast hso31
    have x2 : i32 ((B : Int) - (so : Int)) = ((B - so : Nat) : Int) :=
      i32_sub_cast (Nat.le_of_lt g2) hB31
    have x3 : i32 ((e : Int) * (B : Int)) = ((e * B : Nat) : Int) := i32_mul_cast hblk
    simp only [x1, x2, x3] at hf
    have hrest := readRest_writes codec f
      (readFirstBlock codec f s bp e ((e * B : Nat) : Int) (so : Int) ((B - so : Nat) : Int)
        (le64 idx 0) (u64OfInt ((le64 idx 10 : Int) - (le64 idx 0 : Int))) (le16 idx 8))
      idx sr len size e B sb w so (le64 idx 10) nb
      he hsz hB hblk hN hout hidx hw g2 g3 (fun h => (g6 h).1) g7
    simp only [readBlocks, if_neg hne, if_neg hne', hcancel, x1, x2, x3]
    rw [hrest, hf]
    simp only [List.append_assoc]

theorem packedFrom_range (b : Nat) (rest : List (Int × Nat)) : ∀ (n o : Nat),
    packedFrom ((o + n * b : Nat) : Int) rest = true →
    packedFrom (o : Int)
      ((List.range n).map (fun (i : Nat) => (((o + i * b : Nat) : Int), b)) ++ rest) = true := by
  intro n
  induction n with
  | zero =>
    intro o h
    rw [Nat.zero_mul, Nat.add_zero] at h
    rw [List.range_zero, List.map_nil, List.nil_append]
    exact h
  | succ n ih =>
    intro o h
    have ha : o + b + n * b = o + (n + 1) * b := by rw [Nat.succ_mul]; omega
    have h' := ih (o + b) (by rw [ha]; exact h)
    rw [List.range_succ_eq_map, List.map_cons, List.map_map, List.cons_append]
    have hfun : (fun (i : Nat) => (((o + i * b : Nat) : Int), b)) ∘ Nat.succ
        = fun (i : Nat) => (((o + b + i * b : Nat) : Int), b) := by
      funext i
      show (((o + (i + 1) * b : Nat) : Int), b) = (((o + b + i * b : Nat) : Int), b)
      rw [Nat.succ_mul, Nat.add_assoc, Nat.add_comm b (i * b)]
    have hcast : ((o : Int) + ((b : Nat) : Int)) = ((o + b : Nat) : Int) := by push_cast; rfl
    rw [hfun]
    unfold packedFrom
    rw [Nat.zero_mul, Nat.add_zero, hcast, h']
    simp

/-- Each slice of a window starts where the one before it ended, the first one
at index 0. -/
theorem windowSlices_packed (e B sr len : Nat) :
    packedFrom 0 (windowSlices e B sr len) = true := by
  simp only [windowSlices]
  split
  · simp [packedFrom]
  · have h := packedFrom_range (e * B)
      [(((e * (B - sr % B) + ((sr + len - 1) / B - sr / B - 1) * (e * B) : Nat) : Int),
        e * (sr + len - (sr + len - 1) / B * B))]
      ((sr + len - 1) / B - sr / B - 1) (e * (B - sr % B)) (by simp [packedFrom])
    rw [List.append_assoc, List.singleton_append]
    unfold packedFrom
    have hcast : ((0 : Int) + ((e * (B - sr % B) : Nat) : Int)) = ((e * (B - sr % B) : Nat) : Int) :=
      Int.zero_add _
    rw [hcast, h]
    simp

/-- The byte counts of the slices are the element counts of the window times the
element size. -/
theorem windowSlices_counts (e B sr len : Nat) :
    (windowSlices e B sr len).map Prod.snd = (windowCounts B sr len).map (fun c => e * c) := by
  simp only [windowSlices, windowCounts]
  split
  · rfl
  · simp only [List.map_append, List.map_map, List.map_cons, List.map_nil, List.map_replicate]
    have hc : (Prod.snd ∘ fun (i : Nat) =>
        (((e * (B - sr % B) + i * (e * B) : Nat) : Int), e * B)) = fun _ => e * B := rfl
    rw [hc, List.map_const', List.length_range]

/-- The element counts of a window sum to its length. -/
theorem windowCounts_sum (B sr len : Nat) (hB : 1 ≤ B) (hlen : 1 ≤ len) :
    (windowCounts B sr len).sum = len := by
  simp only [windowCounts]
  split
  · simp
  · rename_i hne
    have hlt : sr / B < (sr + len - 1) / B :=
      Nat.lt_of_le_of_ne (window_geom sr len B hB hlen).1 hne
    have h := window_counts sr len B hB hlen hlt
    simp only [List.sum_append, List.sum_cons, List.sum_nil, List.sum_replicate, smul_eq_mul,
      Nat.add_zero]
    exact h

/-- C13 (amended): on a variable-ratio column with `B ≥ 1` elements per block
whose compressed blocks in the window fit the scratch arrays (payload of at
most `MAX_COMPRESSBOUND` bytes, `elementSize * B ≤ MAX_SIZE_COMPRESS_BLOCK`),
with a decompressor that never writes more than the capacity it is given, a
read with `elementSize ≥ 1`, `length ≥ 1`, `startRow + length ≤ size < 2^32`
whose byte counts stay inside the `int` range (`length * elementSize < 2^31`,
`elementSize * B < 2^31`, `10 * (endBlock + 2) < 2^31`) returns without an
access outside a scratch array, and the writes it makes to the output buffer
are the slices of the window, in order: their byte counts are `elementSize`
times the element counts `length` (window inside one block) or
`B - startOffset`, `B` for each block between the first and the last and
`(startRow + length) - endBlock * B` (otherwise), which sum to `length`; each is
written at the index where the one before it ended, the first one at 0; and
every output byte below index 0 or at or beyond `length * elementSize` is left
as it was, whatever the index and the payloads hold. -/
theorem output_frame (codec : Codec) (srcRep tgtRep : Nat → Nat) (file : File) (s : Reader)
    (blockPos startRow length size e B : Nat)
    (h0 : header0 file blockPos ≠ 0) (h1 : header1 file blockPos = B) (hB : 1 ≤ B)
    (he : 1 ≤ e) (hcap : RespectsCapacity codec)
    (hfit : ∀ k, startRow / B ≤ k → k ≤ (startRow + length - 1) / B →
      ScratchFits codec file blockPos e B k)
    (hlen : 1 ≤ length) (hN : startRow + length ≤ size) (hsz : size < 2 ^ 32)
    (hout : length * e < 2 ^ 31) (hblk : e * B < 2 ^ 31)
    (hidx : 10 * ((startRow + length - 1) / B + 2) < 2 ^ 31)
    (hpos : blockPos + 8 + 10 * (startRow / B) < 2 ^ 64) :
    ∃ r, fdsReadColumn_v1 codec srcRep tgtRep file s blockPos startRow length size e
        = Except.ok r ∧
      r.ub = s.ub ∧
      r.writes = s.writes ++ windowSlices e B startRow length ∧
      (windowSlices e B startRow length).map Prod.snd
        = (windowCounts B startRow length).map (fun c => e * c) ∧
      (windowCounts B startRow length).sum = length ∧
      packedFrom 0 (windowSlices e B startRow length) = true ∧
      Frame s.out r.out (length * e) := by
  have hout' : e * length < 2 ^ 31 := by rw [Nat.mul_comm]; exact hout
  have hidx' : (startRow + length - 1) / B + 1 < 2 ^ 31 := by omega
  have hub := readBlocks_fits codec file
    (afterIndex (afterHeader file s blockPos) blockPos (startRow / B)
      ((startRow + length - 1) / B))
    blockPos startRow length size e B (i32 ((1 + (size - 1) / B : Nat) : Int))
    hcap he hsz hB hblk hN hlen hidx hfit
  rw [afterIndex_ub, afterHeader_ub] at hub
  have hw := readBlocks_writes codec file
    (afterIndex (afterHeader file s blockPos) blockPos (startRow / B)
      ((startRow + length - 1) / B))
    (readBytes file (blockPos + 8 + 10 * (startRow / B))
      (10 * ((startRow + length - 1) / B - startRow / B + 2)))
    blockPos startRow length size e B (i32 ((1 + (size - 1) / B : Nat) : Int))
    he hsz hB hblk hN hlen hout' hidx'
  rw [afterIndex_writes, afterHeader_writes] at hw
  have hf := readBlocks_frame codec file
    (afterIndex (afterHeader file s blockPos) blockPos (startRow / B)
      ((startRow + length - 1) / B))
    (readBytes file (blockPos + 8 + 10 * (startRow / B))
      (10 * ((startRow + length - 1) / B - startRow / B + 2)))
    blockPos startRow length size e B (i32 ((1 + (size - 1) / B : Nat) : Int))
    hcap he hsz hB hblk hN hlen hout' hidx'
  rw [afterIndex_out, afterHeader_out, Nat.mul_comm e length] at hf
  exact ⟨_, variable_read_start codec srcRep tgtRep file s blockPos startRow length size e B
    h0 h1 hB hlen hN hsz hidx hpos, hub, hw, windowSlices_counts e B startRow length,
    windowCounts_sum B startRow length hB hlen, windowSlices_packed e B startRow length, hf⟩

/-- C13 (amended) on the demo column (ten `int32` values at offset 3, four
elements per block): the read `(1, 9)` spans the blocks 0, 1 and 2, returns
without an access outside a scratch array, writes 12, 16 and 8 bytes at the
indices 0, 12 and 28 (the element counts 3, 4 and 2), and leaves every output
byte outside `[0, 36)` as it was. -/
theorem output_frame_witness :
    windowSlices 4 4 1 9 = [((0 : Int), 12), (12, 16), (28, 8)] ∧
    windowCounts 4 1 9 = [3, 4, 2] ∧
    ∃ r, fdsReadColumn_v1 xorCodec noTable noTable demoColumn reader0 3 1 9 10 4
        = Except.ok r ∧
      r.ub = false ∧
      r.writes = [] ++ windowSlices 4 4 1 9 ∧
      (windowSlices 4 4 1 9).map Prod.snd = (windowCounts 4 1 9).map (fun c => 4 * c) ∧
      (windowCounts 4 1 9).sum = 9 ∧
      packedFrom 0 (windowSlices 4 4 1 9) = true ∧
      Frame reader0.out r.out (9 * 4) :=
  ⟨by decide, by decide,
    output_frame xorCodec noTable noTable demoColumn reader0 3 1 9 10 4 4
      (by decide) (by decide) (by decide) (by decide) xorCodec_respects
      (fun k _ hk => demoColumn_fits k (Nat.lt_of_le_of_lt hk (by decide)))
      (by decide) (by decide) (by decide) (by decide) (by decide) (by decide) (by decide)⟩

/-- C13 as stated fails. (1) `mixedColumn`: three blocks of `B = 2^29` four-byte
elements (`2^31` bytes each), block 0 and 2 raw, block 1 a run-length payload
of 5 bytes; the read `(2^29 - 1, 2^29 + 2)` takes one element of block 0, the
whole of block 1 and one element of block 2, and no product of two `int`
values overflows. `blockSize = elementSize * blockSizeElements` is `2^31` as an
`unsigned int` and `-2^31` as the `int` it is stored in, so `outOffset` is
`4 - 2^31` after the middle block: the third slice follows `4 + 2^31` emitted
bytes but is written at the index `4 - 2^31`, outside
`[0, length * elementSize)`. (2) `fatColumn`: the payload of the compressed
block 1 has 20000 bytes, more than `compBuf` holds; the read `(1, 9)` over the
blocks 0, 1, 2 writes outside `compBuf`. -/
theorem output_frame_counterexample :
    (header0 mixedColumn 0 ≠ 0 ∧ header1 mixedColumn 0 = 2 ^ 29 ∧
      1 ≤ 2 ^ 29 + 2 ∧ 2 ^ 29 - 1 + (2 ^ 29 + 2) ≤ 3 * 2 ^ 29 ∧
      ubOf (fdsReadColumn_v1 runCodec noTable noTable mixedColumn reader0 0 (2 ^ 29 - 1)
        (2 ^ 29 + 2) (3 * 2 ^ 29) 4) = false ∧
      writesOf (fdsReadColumn_v1 runCodec noTable noTable mixedColumn reader0 0 (2 ^ 29 - 1)
        (2 ^ 29 + 2) (3 * 2 ^ 29) 4) = [((0 : Int), 4), (4, 2 ^ 31), (4 - 2 ^ 31, 4)] ∧
      windowSlices 4 (2 ^ 29) (2 ^ 29 - 1) (2 ^ 29 + 2)
        = [((0 : Int), 4), (4, 2 ^ 31), (4 + 2 ^ 31, 4)] ∧
      reader0.out (4 - 2 ^ 31) = 0 ∧
      outputOf reader0 (fdsReadColumn_v1 runCodec noTable noTable mixedColumn reader0 0
        (2 ^ 29 - 1) (2 ^ 29 + 2) (3 * 2 ^ 29) 4) (4 - 2 ^ 31) = 7) ∧
    (header0 fatColumn 0 ≠ 0 ∧ header1 fatColumn 0 = 4 ∧ 1 ≤ 9 ∧ 1 + 9 ≤ 12 ∧
      ubOf (fdsReadColumn_v1 runCodec noTable noTable fatColumn reader0 0 1 9 12 4) = true) := by
  refine ⟨⟨by decide!, by decide!, by decide, by decide, by decide!, by decide!, by decide!,
    rfl, by decide!⟩, by decide!, by decide!, by decide, by decide, by decide!⟩
end Fst
